import Mathlib

/-! # A verification development for the `fuzz` property-based test runner

Shallow embedding of the parts of `src/introduction-1/fuzz.c` (bit pool, PRNG,
Bloom filter, shrink engine, trial scheduler) and `src/introduction-2/utf8.c`
(UTF-8 validation) that the checked properties talk about.

Conventions of the embedding:

* `uint8_t`, `uint32_t`, `uint64_t` and `size_t` values are natural numbers; a
  reduction `% 2 ^ w` is written wherever the C arithmetic can wrap.
* A C byte buffer is a `List Nat` of byte values.  A read outside the list
  yields `0` and a write outside the list is dropped; theorems that depend on
  the accesses being inside the allocation carry that as a hypothesis.
* `size_t` is 64 bits wide and a `uint64_t` load from a byte buffer is
  little-endian (the hosts the program is built for).
* Memory allocation succeeds and `fork` is off.  A function that can fail an
  `assert`, or whose loops need not end, returns an `Option`: loops take a
  bound on their iterations, and `none` stands for every run that does not
  return normally.
* The user's callbacks (property, hooks, `hash`, `shrink`) are functions of
  their arguments and of the user environment `hooks.env`; a generator obtains
  its random bits from the engine, and no other callback calls back into it.
-/

namespace Fuzz

/-! ## The autoshrink bit pool (`struct autoshrink_bit_pool`) -/

/-- The bit pool.  `requests` holds the `request_count` entries in use of the
C array `requests`; `index` is `none` for the C `NULL`. -/
structure autoshrink_bit_pool where
  bits : List Nat
  shrinking : Bool
  bits_filled : Nat
  bits_ceil : Nat
  limit : Nat
  consumed : Nat
  request_ceil : Nat
  requests : List Nat
  generation : Nat
  index : Option (List Nat)
deriving DecidableEq, Repr

/-- The field `request_count`: the number of requests recorded so far. -/
def autoshrink_bit_pool.request_count (pool : autoshrink_bit_pool) : Nat :=
  pool.requests.length

/-- `convert_bit_offset`: byte offset and bit number of a bit offset. -/
def convert_bit_offset (bit_offset : Nat) : Nat × Nat :=
  (bit_offset / 8, bit_offset % 8)

/-- The `for` loop of `read_bits_at_offset`; the first argument counts the
iterations that remain (`size - i`).  `bit_i` is a `uint8_t`, so the shift
wraps to `0` after bit 7. -/
def read_bits_at_offset_loop (bits : List Nat) : Nat → Nat → Nat → Nat → Nat → Nat
  | 0, _, _, _, acc => acc
  | n + 1, i, byte, bit_i, acc =>
    let acc1 := if bits.getD byte 0 &&& bit_i ≠ 0 then acc ||| (1 <<< i) % 2 ^ 64 else acc
    let bit_i1 := (bit_i <<< 1) % 256
    let byte2 := if bit_i1 = 0 then byte + 1 else byte
    let bit_i2 := if bit_i1 = 0 then 1 else bit_i1
    read_bits_at_offset_loop bits n (i + 1) byte2 bit_i2 acc1

/-- `read_bits_at_offset(pool, bit_offset, size)`. -/
def read_bits_at_offset (pool : autoshrink_bit_pool) (bit_offset size : Nat) : Nat :=
  let byte := (convert_bit_offset bit_offset).1
  let bit := (convert_bit_offset bit_offset).2
  read_bits_at_offset_loop pool.bits size 0 byte ((1 <<< bit) % 256) 0

/-- The `for` loop of `write_bits_at_offset` on the byte buffer.
`bits[byte] &= ~bit_i` on a `uint8_t` keeps the low eight bits, which is the
conjunction with `0xFF ^ bit_i`. -/
def write_bits_at_offset_loop (v : Nat) : Nat → Nat → Nat → Nat → List Nat → List Nat
  | 0, _, _, _, bits => bits
  | n + 1, i, byte, bit_i, bits =>
    let bits1 :=
      if v &&& (1 <<< i) % 2 ^ 64 ≠ 0 then bits.set byte (bits.getD byte 0 ||| bit_i)
      else bits.set byte (bits.getD byte 0 &&& (255 ^^^ bit_i))
    let bit_i1 := (bit_i <<< 1) % 256
    let byte2 := if bit_i1 = 0 then byte + 1 else byte
    let bit_i2 := if bit_i1 = 0 then 1 else bit_i1
    write_bits_at_offset_loop v n (i + 1) byte2 bit_i2 bits1

/-- `write_bits_at_offset(pool, bit_offset, size, bits)`. -/
def write_bits_at_offset (pool : autoshrink_bit_pool) (bit_offset size v : Nat) :
    autoshrink_bit_pool :=
  let byte := (convert_bit_offset bit_offset).1
  let bit := (convert_bit_offset bit_offset).2
  { pool with bits := write_bits_at_offset_loop v size 0 byte ((1 <<< bit) % 256) pool.bits }

/-- Bit `k` of a byte buffer in the little-endian layout (bit 0 is the least
significant bit of byte 0). -/
def bit_at (bits : List Nat) (k : Nat) : Bool :=
  (bits.getD (k / 8) 0).testBit (k % 8)

/-! ## Truncation of trailing zero bytes -/


/-- The `do … while` scan of `truncate_trailing_zero_bytes`, started with
`i = byte_size`: the result is `nsize` (one past the last non-zero byte among
the first `i`, or `0`). -/
def truncate_scan (bits : List Nat) : Nat → Nat
  | 0 => 0
  | i + 1 => if bits.getD i 0 ≠ 0 then i + 1 else truncate_scan bits i

/-- `truncate_trailing_zero_bytes(pool)`. -/
def truncate_trailing_zero_bytes (pool : autoshrink_bit_pool) : autoshrink_bit_pool :=
  let byte_size := pool.bits_filled / 8 + (if pool.bits_filled % 8 = 0 then 0 else 1)
  let nsize := truncate_scan pool.bits byte_size * 8
  { pool with
    bits_filled := nsize
    limit := if pool.limit > nsize then nsize else pool.limit }

/-! ## Allocation of a pool, request log -/

/-- `get_aligned_size(size, alignment)`. -/
def get_aligned_size (size alignment : Nat) : Nat :=
  if size % alignment ≠ 0 then size + (alignment - size % alignment) else size

/-- `alloc_bit_pool(size, limit, request_ceil)`, for allocations that succeed:
a zeroed buffer of `alloc_size / 64` 64-bit words. -/
def alloc_bit_pool (size limit request_ceil : Nat) : autoshrink_bit_pool :=
  let alloc_size := get_aligned_size size 64
  { bits := List.replicate (alloc_size / 64 * 8) 0
    shrinking := false
    bits_filled := 0
    bits_ceil := alloc_size
    limit := limit
    consumed := 0
    request_ceil := request_ceil
    requests := []
    generation := 0
    index := none }

/-- `append_request(pool, bit_count)` when the reallocation succeeds (the C
function then returns `true`). -/
def append_request (pool : autoshrink_bit_pool) (bit_count : Nat) : autoshrink_bit_pool :=
  { pool with
    request_ceil :=
      if pool.request_count = pool.request_ceil then pool.request_ceil * 2 else pool.request_ceil
    requests := pool.requests ++ [bit_count] }

/-! ## 64-bit words in a byte buffer -/

/-- Load of the `uint64_t` number `w` of a byte buffer (`((uint64_t*)bits)[w]`),
little-endian. -/
def load_u64 (bits : List Nat) (w : Nat) : Nat :=
  ((List.range 8).map (fun j => (bits.getD (8 * w + j) 0 % 256) <<< (8 * j))).foldl (· ||| ·) 0

/-- Store of a `uint64_t` at word number `w` of a byte buffer, little-endian. -/
def store_u64 (bits : List Nat) (w v : Nat) : List Nat :=
  (List.range 8).foldl (fun b j => b.set (8 * w + j) ((v >>> (8 * j)) % 256)) bits

/-- `memset(buf, 0, n)` on a buffer of `uint64_t` words: the first `n` bytes
are cleared. -/
def memset_zero (buf : List Nat) (n : Nat) : List Nat :=
  (List.range buf.length).map (fun j =>
    let w := buf.getD j 0
    if 8 * (j + 1) ≤ n then 0
    else if 8 * j < n then (w >>> (8 * (n - 8 * j))) <<< (8 * (n - 8 * j))
    else w)

/-! ## Mersenne twister (`struct fuzz_rng`) -/

def NN : Nat := 312
def MM : Nat := 156
def MATRIX_A : Nat := 0xB5026F5AA96619E9
def UM : Nat := 0xFFFFFFFF80000000
def LM : Nat := 0x7FFFFFFF

/-- The generator state: the state vector `mt[NN]` and the cursor `mti`. -/
structure fuzz_rng where
  mt : List Nat
  mti : Nat
deriving DecidableEq, Repr

/-- The `for` loop of `fuzz_rng_reset`; the first argument counts the
iterations that remain. -/
def fuzz_rng_reset_loop : Nat → Nat → List Nat → List Nat
  | 0, _, mt => mt
  | n + 1, mti, mt =>
    let tmp := mt.getD (mti - 1) 0 ^^^ (mt.getD (mti - 1) 0 >>> 62)
    fuzz_rng_reset_loop n (mti + 1) (mt.set mti ((6364136223846793005 * tmp + mti) % 2 ^ 64))

/-- `fuzz_rng_reset(mt, seed)`. -/
def fuzz_rng_reset (r : fuzz_rng) (seed : Nat) : fuzz_rng :=
  { mt := fuzz_rng_reset_loop (NN - 1) 1 (r.mt.set 0 seed), mti := NN }

/-- The table `mag01`. -/
def mag01 (b : Nat) : Nat := if b = 0 then 0 else MATRIX_A

/-- First regeneration loop of `genrand64_int64` (`i < NN - MM`). -/
def genrand64_loop1 : Nat → Nat → List Nat → List Nat
  | 0, _, mt => mt
  | n + 1, i, mt =>
    let x := (mt.getD i 0 &&& UM) ||| (mt.getD (i + 1) 0 &&& LM)
    genrand64_loop1 n (i + 1) (mt.set i (mt.getD (i + MM) 0 ^^^ (x >>> 1) ^^^ mag01 (x &&& 1)))

/-- Second regeneration loop of `genrand64_int64` (`NN - MM ≤ i < NN - 1`). -/
def genrand64_loop2 : Nat → Nat → List Nat → List Nat
  | 0, _, mt => mt
  | n + 1, i, mt =>
    let x := (mt.getD i 0 &&& UM) ||| (mt.getD (i + 1) 0 &&& LM)
    genrand64_loop2 n (i + 1)
      (mt.set i (mt.getD (i + MM - NN) 0 ^^^ (x >>> 1) ^^^ mag01 (x &&& 1)))

/-- `genrand64_int64(r)`: the next 64-bit output and the new state. -/
def genrand64_int64 (r : fuzz_rng) : Nat × fuzz_rng :=
  let r1 : fuzz_rng :=
    if r.mti ≥ NN then
      let r0 := if r.mti = NN + 1 then fuzz_rng_reset r 5489 else r
      let mt1 := genrand64_loop1 (NN - MM) 0 r0.mt
      let mt2 := genrand64_loop2 (MM - 1) (NN - MM) mt1
      let x := (mt2.getD (NN - 1) 0 &&& UM) ||| (mt2.getD 0 0 &&& LM)
      let mt3 := mt2.set (NN - 1) (mt2.getD (MM - 1) 0 ^^^ (x >>> 1) ^^^ mag01 (x &&& 1))
      { mt := mt3, mti := 0 }
    else r
  let x0 := r1.mt.getD r1.mti 0
  let x1 := x0 ^^^ ((x0 >>> 29) &&& 0x5555555555555555)
  let x2 := x1 ^^^ (((x1 <<< 17) % 2 ^ 64) &&& 0x71D67FFFEDA60000)
  let x3 := x2 ^^^ (((x2 <<< 37) % 2 ^ 64) &&& 0xFFF7EEE000000000)
  let x4 := x3 ^^^ (x3 >>> 43)
  (x4, { r1 with mti := r1.mti + 1 })

/-- `fuzz_rng_random(mt)`. -/
def fuzz_rng_random (r : fuzz_rng) : Nat × fuzz_rng := genrand64_int64 r
/-! ## Serving bit requests from a pool -/

/-- `get_autoshrink_mask(bits)`. -/
def get_autoshrink_mask (bits : Nat) : Nat :=
  if bits = 64 then 2 ^ 64 - 1 else (1 <<< bits) % 2 ^ 64 - 1

/-- First loop of `lazily_fill_bit_pool`: double `bits_ceil` (and reallocate)
until `consumed + bit_count` fits.  The first argument bounds the number of
iterations; `none` stands for a loop that never ends, which is what the C loop
does when `bits_ceil` is `0`.  The bytes added by `realloc` are modelled as
zero. -/
def lazily_fill_grow : Nat → autoshrink_bit_pool → Nat → Option autoshrink_bit_pool
  | 0, pool, bit_count =>
    if pool.consumed + bit_count > pool.bits_ceil then none else some pool
  | fuel + 1, pool, bit_count =>
    if pool.consumed + bit_count > pool.bits_ceil then
      let nceil := 2 * pool.bits_ceil
      lazily_fill_grow fuel
        { pool with
          bits := pool.bits ++ List.replicate (nceil / 8 - pool.bits.length) 0
          bits_ceil := nceil } bit_count
    else some pool

/-- Second loop of `lazily_fill_bit_pool`: materialise 64-bit words from the
generator until `consumed + bit_count` bits are filled.  Each iteration adds 64
to `bits_filled`, so `consumed + bit_count` iterations are always enough. -/
def lazily_fill_words : Nat → fuzz_rng → autoshrink_bit_pool → Nat →
    fuzz_rng × autoshrink_bit_pool
  | 0, rng, pool, _ => (rng, pool)
  | fuel + 1, rng, pool, bit_count =>
    if pool.consumed + bit_count > pool.bits_filled then
      let offset := pool.bits_filled / 64
      let (w, rng1) := fuzz_rng_random rng
      lazily_fill_words fuel rng1
        { pool with bits := store_u64 pool.bits offset w, bits_filled := pool.bits_filled + 64 }
        bit_count
    else (rng, pool)

/-- `lazily_fill_bit_pool(t, pool, bit_count)`; `none` when the growing loop
does not end. -/
def lazily_fill_bit_pool (rng : fuzz_rng) (pool : autoshrink_bit_pool) (bit_count : Nat) :
    Option (fuzz_rng × autoshrink_bit_pool) :=
  match lazily_fill_grow (pool.consumed + bit_count) pool bit_count with
  | none => none
  | some pool1 => some (lazily_fill_words (pool1.consumed + bit_count) rng pool1 bit_count)

/-- The `while` loop of `fill_buf`.  State: `i`, `src_offset`, `src_bit`,
`dst_offset` and the destination words.  Every iteration copies at least one
bit, so `bit_count` iterations are always enough. -/
def fill_buf_loop (bits : List Nat) (bit_count : Nat) :
    Nat → Nat → Nat → Nat → Nat → List Nat → List Nat
  | 0, _, _, _, _, dst => dst
  | fuel + 1, i, src_offset, src_bit, dst_offset, dst =>
    if i < bit_count then
      let dst_bit := i % 64
      let src_rem := 64 - src_bit
      let dst_req := if bit_count - i < 64 - dst_bit then bit_count - i else 64 - dst_bit
      let to_copy := if dst_req < src_rem then dst_req else src_rem
      let mask := get_autoshrink_mask to_copy
      let b := (load_u64 bits src_offset >>> src_bit) &&& mask
      let dst1 := dst.set dst_offset ((dst.getD dst_offset 0 ||| (b <<< dst_bit)) % 2 ^ 64)
      let src_bit1 := src_bit + to_copy
      let src_bit2 := if src_bit1 = 64 then 0 else src_bit1
      let src_offset2 := if src_bit1 = 64 then src_offset + 1 else src_offset
      let i1 := i + to_copy
      let dst_offset2 := if dst_bit + to_copy = 64 then dst_offset + 1 else dst_offset
      let dst2 :=
        if dst_bit + to_copy = 64 ∧ i1 < bit_count then dst1.set dst_offset2 0 else dst1
      fill_buf_loop bits bit_count fuel i1 src_offset2 src_bit2 dst_offset2 dst2
    else dst

/-- `fill_buf(pool, bit_count, dst)`: the pool after the call and the
destination words. -/
def fill_buf (pool : autoshrink_bit_pool) (bit_count : Nat) (dst : List Nat) :
    autoshrink_bit_pool × List Nat :=
  let src_offset := pool.consumed / 64
  let src_bit := pool.consumed % 64
  let dst1 := fill_buf_loop pool.bits bit_count bit_count 0 src_offset src_bit 0 (dst.set 0 0)
  ({ pool with consumed := pool.consumed + bit_count }, dst1)

/-- `fuzz_autoshrink_bit_pool_random(t, pool, bit_count, save_request, buf)`:
the generator state, the pool and the caller's buffer after the call.  The
difference `limit - consumed` is a `size_t` cast to `uint32_t`; the source
asserts that it fits (`assert(pool->limit - pool->consumed <= UINT32_MAX)`),
here the cast is taken also when it does not. -/
def fuzz_autoshrink_bit_pool_random (rng : fuzz_rng) (pool : autoshrink_bit_pool)
    (bit_count : Nat) (save_request : Bool) (buf : List Nat) :
    Option (fuzz_rng × autoshrink_bit_pool × List Nat) :=
  if bit_count = 0 then some (rng, pool, buf)
  else
    match (if pool.shrinking then some (rng, pool) else lazily_fill_bit_pool rng pool bit_count) with
    | none => none
    | some (rng1, pool1) =>
      if pool1.consumed = pool1.limit then
        some (rng1, pool1,
          memset_zero buf (bit_count / 64 + (if bit_count % 64 = 0 then 0 else 1)))
      else
        let bit_count1 :=
          if pool1.consumed + bit_count ≥ pool1.limit then
            (pool1.limit + 2 ^ 64 - pool1.consumed) % 2 ^ 64 % 2 ^ 32
          else bit_count
        let pool2 := if save_request then append_request pool1 bit_count1 else pool1
        let r := fill_buf pool2 bit_count1 buf
        some (rng1, r.1, r.2)

/-! ## The engine's random bit source (`struct prng_info`) -/

/-- The field `prng` of `struct fuzz`.  `bit_pool` is `none` for `NULL`; while a
pool is injected the record holds the pool the C pointer refers to. -/
structure prng_info where
  rng : fuzz_rng
  buf : Nat
  bits_available : Nat
  bit_pool : Option autoshrink_bit_pool
deriving DecidableEq, Repr

/-- `get_random_mask(bits)`. -/
def get_random_mask (bits : Nat) : Nat :=
  if bits = 64 then 2 ^ 64 - 1 else (1 <<< bits) % 2 ^ 64 - 1

/-- `fuzz_random_stop_using_bit_pool(t)`. -/
def fuzz_random_stop_using_bit_pool (p : prng_info) : prng_info :=
  { p with bit_pool := none }

/-- `fuzz_random_inject_autoshrink_bit_pool(t, bit_pool)`. -/
def fuzz_random_inject_autoshrink_bit_pool (p : prng_info) (pool : autoshrink_bit_pool) :
    prng_info :=
  { p with bit_pool := some pool }

/-- `fuzz_random_set_seed(t, seed)`. -/
def fuzz_random_set_seed (p : prng_info) (seed : Nat) : prng_info :=
  let p1 := fuzz_random_stop_using_bit_pool p
  { p1 with buf := 0, bits_available := 0, rng := fuzz_rng_reset p1.rng seed }

/-- The `while (rem > 0)` loop of `fuzz_random_bits_bulk`.  Every iteration
takes at least one bit, so `bit_count` iterations are always enough. -/
def fuzz_random_bits_bulk_loop : Nat → Nat → Nat → Nat → prng_info → List Nat →
    prng_info × List Nat
  | 0, _, _, _, p, buf => (p, buf)
  | fuel + 1, rem, shift, offset, p, buf =>
    if rem > 0 then
      let p1 : prng_info :=
        if p.bits_available = 0 then
          { p with buf := (fuzz_rng_random p.rng).1, rng := (fuzz_rng_random p.rng).2,
                   bits_available := 64 }
        else p
      let take0 := 64 - shift
      let take1 := if take0 > rem then rem else take0
      let take := if take1 > p1.bits_available then p1.bits_available else take1
      let mask := get_random_mask take
      let buf1 := buf.set offset ((buf.getD offset 0 ||| ((p1.buf &&& mask) <<< shift)) % 2 ^ 64)
      let p2 : prng_info :=
        { p1 with bits_available := p1.bits_available - take,
                  buf := if take = 64 then 0 else p1.buf >>> take }
      let shift1 := shift + take
      let offset2 := if shift1 = 64 then offset + 1 else offset
      let shift2 := if shift1 = 64 then 0 else shift1
      fuzz_random_bits_bulk_loop fuel (rem - take) shift2 offset2 p2 buf1
    else (p, buf)

/-- `fuzz_random_bits_bulk(t, bit_count, buf)`; `none` when the bit pool's
growing loop does not end. -/
def fuzz_random_bits_bulk (p : prng_info) (bit_count : Nat) (buf : List Nat) :
    Option (prng_info × List Nat) :=
  match p.bit_pool with
  | some pool =>
    match fuzz_autoshrink_bit_pool_random p.rng pool bit_count true buf with
    | none => none
    | some (rng1, pool1, buf1) => some ({ p with rng := rng1, bit_pool := some pool1 }, buf1)
  | none => some (fuzz_random_bits_bulk_loop bit_count bit_count 0 0 p buf)

/-- `fuzz_random_bits(t, bit_count)`: the value returned and the new state.
The source asserts `bit_count <= 64`; the statements about this function ask
for that bound wherever they speak of the call returning. -/
def fuzz_random_bits (p : prng_info) (bit_count : Nat) : Option (Nat × prng_info) :=
  match fuzz_random_bits_bulk p bit_count [0] with
  | none => none
  | some (p1, buf) => some (buf.getD 0 0, p1)

/-- A generation pass seen from the pool: one call
`fuzz_autoshrink_bit_pool_random(t, pool, n, true, buf)` for each pair
`(n, buf)` of the list, in order. -/
def bit_pool_random_calls (rng : fuzz_rng) (pool : autoshrink_bit_pool) :
    List (Nat × List Nat) → Option (fuzz_rng × autoshrink_bit_pool)
  | [] => some (rng, pool)
  | c :: cs =>
    match fuzz_autoshrink_bit_pool_random rng pool c.1 true c.2 with
    | none => none
    | some r => bit_pool_random_calls r.1 r.2.1 cs

/-- The parts of a pool that filling the buffer leaves alone. -/
def same_cursor (a b : autoshrink_bit_pool) : Prop :=
  b.consumed = a.consumed ∧ b.requests = a.requests ∧ b.limit = a.limit ∧
    b.shrinking = a.shrinking


/-- Bit `p` of a buffer of 64-bit words in little-endian order. -/
def word_bit (dst : List Nat) (p : Nat) : Bool :=
  (dst.getD (p / 64) 0).testBit (p % 64)

/-- End of the destination word that `fill_buf` is working on after `i` of
`n` bits. -/
def fill_hi (n i : Nat) : Nat :=
  if i < n then 64 * (i / 64 + 1) else 64 * ((i + 63) / 64)

/-- Loop invariant of `fill_buf` after `i` bits: the destination holds the
pool bits `c .. c + i`, the rest of the current word is clear, and the words
written are 64-bit values. -/
def fill_inv (bits : List Nat) (c n i : Nat) (dst : List Nat) : Prop :=
  (∀ p, p < i → word_bit dst p = bit_at bits (c + p)) ∧
  (∀ p, i ≤ p → p < fill_hi n i → word_bit dst p = false) ∧
  (∀ w, 64 * w < fill_hi n i → dst.getD w 0 < 2 ^ 64)

/-- The values returned by a sequence of `fuzz_random_bits` calls, one for each
requested width, from a given state. -/
def fuzz_random_bits_seq (p : prng_info) : List Nat → Option (List Nat)
  | [] => some []
  | n :: ns =>
    match fuzz_random_bits p n with
    | none => none
    | some r =>
      match fuzz_random_bits_seq r.2 ns with
      | none => none
      | some vs => some (r.1 :: vs)

/-! ## UTF-8 validation (`src/introduction-2/utf8.c`) -/

/-- `is_continuation(b)`. -/
def is_continuation (b : Nat) : Bool := b ≥ 0x80 && b ≤ 0xbf

/-- `UINT32_MAX`. -/
def UINT32_MAX : Nat := 4294967295

/-- The `for` loop of `utf8_valid` from index `i`.  `str` is the byte buffer the
pointer refers to; a read outside it is undefined behaviour and yields `none`.
The conditions are evaluated left to right as in C, so a byte is read only when
the tests before it let the evaluation get there.  Every iteration advances
`i`, so `str_len` iterations are always enough; the first argument counts
them. -/
def utf8_valid_loop (str : List Nat) (str_len : Nat) : Nat → Nat → Option Bool
  | 0, i => if i < str_len then none else some true
  | fuel + 1, i =>
    if i < str_len then do
      let b ← str[i]?
      if b = 0xc0 ∨ b = 0xc1 ∨ b ≥ 0xf5 then some false
      else if b ≤ 0x7f then utf8_valid_loop str str_len fuel (i + 1)
      else if b ≥ 0xc2 ∧ b ≤ 0xdf then
        if i + 1 ≥ str_len then some false
        else do
          let b1 ← str[i + 1]?
          if !is_continuation b1 then some false
          else utf8_valid_loop str str_len fuel (i + 1 + 1)
      else if b = 0xe0 then
        if i + 2 ≥ str_len then some false
        else do
          let b1 ← str[i + 1]?
          if !(b1 ≥ 0xa0 ∧ b1 ≤ 0xbf) then some false
          else do
            let b2 ← str[i + 2]?
            if !is_continuation b2 then some false
            else utf8_valid_loop str str_len fuel (i + 2 + 1)
      else if b ≥ 0xe1 ∧ b ≤ 0xec then
        if i + 2 ≥ str_len then some false
        else do
          let b1 ← str[i + 1]?
          if !is_continuation b1 then some false
          else do
            let b2 ← str[i + 2]?
            if !is_continuation b2 then some false
            else utf8_valid_loop str str_len fuel (i + 2 + 1)
      else if b = 0xed then
        if i + 2 ≥ str_len then some false
        else do
          let b1 ← str[i + 1]?
          if !(b1 ≥ 0x80 ∧ b1 ≤ 0x9e) then some false
          else do
            let b2 ← str[i + 2]?
            if !is_continuation b2 then some false
            else utf8_valid_loop str str_len fuel (i + 2 + 1)
      else if b ≥ 0xee ∧ b ≤ 0xef then
        if i + 2 ≥ str_len then some false
        else do
          let b1 ← str[i + 1]?
          if !is_continuation b1 then some false
          else do
            let b2 ← str[i + 2]?
            if !is_continuation b2 then some false
            else utf8_valid_loop str str_len fuel (i + 2 + 1)
      else if b = 0xf0 then
        if i + 3 ≥ str_len then some false
        else do
          let b1 ← str[i + 1]?
          if !(b1 ≥ 0x90 ∧ b1 ≤ 0xbf) then some false
          else do
            let b2 ← str[i + 2]?
            if !is_continuation b2 then some false
            else do
              let b3 ← str[i + 3]?
              if !is_continuation b3 then some false
              else utf8_valid_loop str str_len fuel (i + 3 + 1)
      else if b ≥ 0xf1 ∧ b ≤ 0xf3 then
        if i + 3 ≥ str_len then some false
        else do
          let b1 ← str[i + 1]?
          if !is_continuation b1 then some false
          else do
            let b2 ← str[i + 2]?
            if !is_continuation b2 then some false
            else do
              let b3 ← str[i + 3]?
              if !is_continuation b3 then some false
              else utf8_valid_loop str str_len fuel (i + 3 + 1)
      else if b = 0xf4 then
        if i + 3 ≥ str_len then some false
        else do
          let b1 ← str[i + 1]?
          if !(b1 ≥ 0x80 ∧ b1 ≤ 0x8f) then some false
          else do
            let b2 ← str[i + 2]?
            if !is_continuation b2 then some false
            else do
              let b3 ← str[(i + UINT32_MAX) % 2 ^ 64]?
              if !is_continuation b3 then some false
              else utf8_valid_loop str str_len fuel (i + 3 + 1)
      else some false
    else some true

/-- `utf8_valid(str_len, str)`; `str = none` is the `NULL` pointer.  The result
is `none` when the run reads outside the buffer. -/
def utf8_valid (str_len : Nat) (str : Option (List Nat)) : Option Bool :=
  match str with
  | none => some false
  | some s => utf8_valid_loop s str_len str_len 0

/-- One well-formed UTF-8 byte sequence: a row of Table 3-7 of the Unicode
Standard, as quoted in `utf8.c` and `main.c`. -/
def table_3_7 : List Nat → Bool
  | [b0] => b0 ≤ 0x7f
  | [b0, b1] => 0xc2 ≤ b0 && b0 ≤ 0xdf && (0x80 ≤ b1 && b1 ≤ 0xbf)
  | [b0, b1, b2] =>
    ((b0 = 0xe0 && (0xa0 ≤ b1 && b1 ≤ 0xbf)) ||
     (0xe1 ≤ b0 && b0 ≤ 0xec && (0x80 ≤ b1 && b1 ≤ 0xbf)) ||
     (b0 = 0xed && (0x80 ≤ b1 && b1 ≤ 0x9f)) ||
     (0xee ≤ b0 && b0 ≤ 0xef && (0x80 ≤ b1 && b1 ≤ 0xbf))) &&
    (0x80 ≤ b2 && b2 ≤ 0xbf)
  | [b0, b1, b2, b3] =>
    ((b0 = 0xf0 && (0x90 ≤ b1 && b1 ≤ 0xbf)) ||
     (0xf1 ≤ b0 && b0 ≤ 0xf3 && (0x80 ≤ b1 && b1 ≤ 0xbf)) ||
     (b0 = 0xf4 && (0x80 ≤ b1 && b1 ≤ 0x8f))) &&
    (0x80 ≤ b2 && b2 ≤ 0xbf) && (0x80 ≤ b3 && b3 ≤ 0xbf)
  | _ => false

/-- A byte string that is a concatenation of well-formed UTF-8 byte
sequences. -/
inductive well_formed_utf8 : List Nat → Prop
  | nil : well_formed_utf8 []
  | seq (s rest : List Nat) : table_3_7 s = true → well_formed_utf8 rest →
      well_formed_utf8 (s ++ rest)

/-- A 4 GiB buffer: the bytes `F4 80 80 C0`, then zero bytes, then `C2 80` as
its last two bytes. -/
def utf8_long_input : List Nat :=
  [0xf4, 0x80, 0x80, 0xc0] ++ (List.replicate (2 ^ 32 - 6) 0 ++ [0xc2, 0x80])

/-! ## Hashing (64-bit FNV-1a) -/

def fnv64_prime : Nat := 1099511628211
def fnv64_offset_basis : Nat := 14695981039346656037

/-- `fuzz_hash_init(&h)`: the value stored in `h`. -/
def fuzz_hash_init : Nat := fnv64_offset_basis

/-- `fuzz_hash_sink(&h, data, bytes)`: the new value of `h`; `data` lists the
`bytes` bytes that are sunk. -/
def fuzz_hash_sink (h : Nat) (data : List Nat) : Nat :=
  data.foldl (fun a d => ((a ^^^ d) * fnv64_prime) % 2 ^ 64) h

/-- `fuzz_hash_finish(&h)`: the result and the value `h` is reset to. -/
def fuzz_hash_finish (h : Nat) : Nat × Nat := (h, fuzz_hash_init)

/-- `fuzz_hash_onepass(data, bytes)`. -/
def fuzz_hash_onepass (data : List Nat) : Nat :=
  (fuzz_hash_finish (fuzz_hash_sink fuzz_hash_init data)).1

/-! ## The duplicate filter (`struct fuzz_bloom`) -/

/-- `HASH_COUNT`. -/
def HASH_COUNT : Nat := 4
def DEF_TOP_BLOCK_BITS : Nat := 9
def DEF_MIN_FILTER_BITS : Nat := 9

/-- One `struct bloom_filter`; the `next` pointer is the rest of the list the
filter sits in. -/
structure bloom_filter where
  size2 : Nat
  bits : List Nat
deriving DecidableEq, Repr

/-- `struct fuzz_bloom`: each block is the linked list of its filters, front
first; the empty list is the `NULL` block. -/
structure fuzz_bloom where
  top_block2 : Nat
  min_filter2 : Nat
  blocks : List (List bloom_filter)
deriving DecidableEq, Repr

/-- `fuzz_bloom_init(config)` for an allocation that succeeds; a `0` field of
the configuration selects the default. -/
def fuzz_bloom_init (top_block_bits min_filter_bits : Nat) : fuzz_bloom :=
  let top_block2 := if top_block_bits ≠ 0 then top_block_bits else DEF_TOP_BLOCK_BITS
  let min_filter2 := if min_filter_bits ≠ 0 then min_filter_bits else DEF_MIN_FILTER_BITS
  { top_block2 := top_block2
    min_filter2 := min_filter2
    blocks := List.replicate ((1 <<< top_block2) % 2 ^ 64) [] }

/-- `alloc_filter(bits)` for an allocation that succeeds. -/
def alloc_filter (bits : Nat) : bloom_filter :=
  { size2 := bits, bits := List.replicate ((1 <<< bits) % 2 ^ 64 / 8) 0 }

/-- The marking loop of `fuzz_bloom_mark` on the front filter's bytes: the
bytes afterwards and `any_set`.  The first argument counts the iterations that
remain. -/
def bloom_mark_loop (hash block_size2 : Nat) : Nat → Nat → List Nat → Bool → List Nat × Bool
  | 0, _, bits, any_set => (bits, any_set)
  | n + 1, i, bits, any_set =>
    let block_mask := (1 <<< block_size2) % 2 ^ 64 - 1
    let v := (hash >>> (i * block_size2)) &&& block_mask
    let offset := v / 8
    let bit := (1 <<< (v &&& 0x07)) % 256
    let any_set1 := if bits.getD offset 0 &&& bit = 0 then true else any_set
    bloom_mark_loop hash block_size2 n (i + 1) (bits.set offset (bits.getD offset 0 ||| bit))
      any_set1

/-- `fuzz_bloom_mark(b, data, data_size)`.  `mem` tells whether the `malloc` the
call may perform succeeds.  The result is `none` when the assertion on the hash
width fails, else the returned flag and the filter afterwards. -/
def fuzz_bloom_mark (b : fuzz_bloom) (data : List Nat) (mem : Bool) : Option (Bool × fuzz_bloom) :=
  let hash := fuzz_hash_onepass data
  let top_block_count := (1 <<< b.top_block2) % 2 ^ 64
  let top_block_mask := (top_block_count + 2 ^ 64 - 1) % 2 ^ 64
  let block_id := hash &&& top_block_mask
  match (match b.blocks.getD block_id [] with
         | [] => if mem then some (alloc_filter b.min_filter2, ([] : List bloom_filter)) else none
         | bf :: rest => some (bf, rest)) with
  | none => some (false, b)
  | some (bf, rest) =>
    if b.top_block2 + HASH_COUNT * bf.size2 < 64 then
      let hash1 := hash >>> b.top_block2
      let r := bloom_mark_loop hash1 bf.size2 HASH_COUNT 0 bf.bits false
      let bf1 : bloom_filter := { bf with bits := r.1 }
      if !r.2 then
        if b.top_block2 + HASH_COUNT * (bf.size2 + 1) > 64 then
          some (true, { b with blocks := b.blocks.set block_id (bf1 :: rest) })
        else if mem then
          let nbf := alloc_filter (bf.size2 + 1)
          some (true, { b with blocks := b.blocks.set block_id (nbf :: bf1 :: rest) })
        else some (false, { b with blocks := b.blocks.set block_id (bf1 :: rest) })
      else some (true, { b with blocks := b.blocks.set block_id (bf1 :: rest) })
    else none

/-- The inner loop of `fuzz_bloom_check` on one filter: `hit_all_in_block`. -/
def bloom_check_loop (hash block_size2 : Nat) (bits : List Nat) : Nat → Nat → Bool
  | 0, _ => true
  | n + 1, i =>
    let block_mask := (1 <<< block_size2) % 2 ^ 64 - 1
    let v := (hash >>> (i * block_size2)) &&& block_mask
    let offset := v / 8
    let bit := (1 <<< (v &&& 0x07)) % 256
    if bits.getD offset 0 &&& bit = 0 then false
    else bloom_check_loop hash block_size2 bits n (i + 1)

/-- The `while (bf != NULL)` loop of `fuzz_bloom_check` along a block's list. -/
def bloom_check_chain (hash : Nat) : List bloom_filter → Bool
  | [] => false
  | bf :: rest =>
    if bloom_check_loop hash bf.size2 bf.bits HASH_COUNT 0 then true
    else bloom_check_chain hash rest

/-- `fuzz_bloom_check(b, data, data_size)`. -/
def fuzz_bloom_check (b : fuzz_bloom) (data : List Nat) : Bool :=
  let hash := fuzz_hash_onepass data
  let top_block_count := (1 <<< b.top_block2) % 2 ^ 64
  let top_block_mask := (top_block_count + 2 ^ 64 - 1) % 2 ^ 64
  let block_id := hash &&& top_block_mask
  match b.blocks.getD block_id [] with
  | [] => false
  | bf :: rest => bloom_check_chain (hash >>> b.top_block2) (bf :: rest)

/-- A sequence of `fuzz_bloom_mark` calls, one for each pair of a data buffer
and an allocation outcome; `none` when an assertion fails on the way. -/
def fuzz_bloom_marks (b : fuzz_bloom) : List (List Nat × Bool) → Option fuzz_bloom
  | [] => some b
  | c :: cs =>
    match fuzz_bloom_mark b c.1 c.2 with
    | none => none
    | some r => fuzz_bloom_marks r.2 cs

/-- A filter state as the code builds it: `2 ^ top_block2` blocks, and every
filter has `2 ^ size2 / 8` bytes with `3 ≤ size2 < 64`. -/
def bloom_wf (b : fuzz_bloom) : Prop :=
  b.top_block2 < 64 ∧ 3 ≤ b.min_filter2 ∧ b.min_filter2 < 64 ∧
  b.blocks.length = 2 ^ b.top_block2 ∧
  ∀ chain ∈ b.blocks, ∀ f ∈ chain, 3 ≤ f.size2 ∧ f.size2 < 64 ∧ f.bits.length = 2 ^ f.size2 / 8

/-! ## Result codes and constants -/

def FUZZ_RESULT_OK : Int := 0
def FUZZ_RESULT_FAIL : Int := 1
def FUZZ_RESULT_SKIP : Int := 2
def FUZZ_RESULT_DUPLICATE : Int := 3
def FUZZ_RESULT_ERROR_MEMORY : Int := -1
def FUZZ_RESULT_ERROR : Int := -2

def FUZZ_SHRINK_OK : Int := 0
def FUZZ_SHRINK_DEAD_END : Int := 1
def FUZZ_SHRINK_NO_MORE_TACTICS : Int := 2
def FUZZ_SHRINK_ERROR : Int := 3

def FUZZ_HOOK_RUN_ERROR : Int := 0
def FUZZ_HOOK_RUN_CONTINUE : Int := 1
def FUZZ_HOOK_RUN_HALT : Int := 2
def FUZZ_HOOK_RUN_REPEAT : Int := 2
def FUZZ_HOOK_RUN_REPEAT_ONCE : Int := 3

def FUZZ_MAX_ARITY : Nat := 7
def FUZZ_MAX_TACTICS : Nat := 2 ^ 32 - 1
def DEFAULT_uint64_t : Nat := 0xa600d64b175eed
def FUZZ_DEF_TRIALS : Nat := 100

def DEF_POOL_SIZE : Nat := 64 * 8 * 8
def DEF_REQUESTS_CEIL : Nat := 16
def DEF_MAX_FAILED_SHRINKS : Nat := 100
def DEF_DROP_THRESHOLD : Nat := 0
def DEF_DROP_BITS : Nat := 5
def DEF_POOL_LIMIT : Nat := 2 ^ 64 - 1
def DO_NOT_DROP : Nat := 0xFFFFFFFF

def TWO_EVENLY : Nat := 0x80
def FOUR_EVENLY : Nat := 0x40
def MODEL_MIN : Nat := 0x08
def MODEL_MAX : Nat := 0x80
def DROPS_MIN : Nat := 0x10
def DROPS_MAX : Nat := 0xA0

def ASA_DROP : Nat := 0x01
def ASA_SHIFT : Nat := 0x02
def ASA_MASK : Nat := 0x04
def ASA_SWAP : Nat := 0x08
def ASA_SUB : Nat := 0x10

def WEIGHT_DROP : Nat := 0
def WEIGHT_SHIFT : Nat := 1
def WEIGHT_MASK : Nat := 2
def WEIGHT_SWAP : Nat := 3
def WEIGHT_SUB : Nat := 4

/-- `enum mutation`. -/
inductive mutation where
  | MUT_SHIFT
  | MUT_MASK
  | MUT_SWAP
  | MUT_SUB
deriving DecidableEq, Repr

/-! ## The autoshrink model and environment -/

/-- `struct autoshrink_model`; `weights` has the five entries of the C array. -/
structure autoshrink_model where
  cur_tried : Nat
  cur_set : Nat
  next_action : Nat
  weights : List Nat
deriving DecidableEq, Repr

/-- `struct autoshrink_env`.  The test-only fields `prng` and `udata` are left
out: they are `NULL` in an environment made by `fuzz_autoshrink_alloc_env`, so
`get_prng` always yields `def_autoshrink_prng`, which is `fuzz_random_bits`. -/
structure autoshrink_env where
  arg_i : Nat
  pool_size : Nat
  pool_limit : Nat
  print_mode : Nat
  max_failed_shrinks : Nat
  drop_threshold : Nat
  drop_bits : Nat
  model : autoshrink_model
  bit_pool : Option autoshrink_bit_pool
  leave_trailing_zeroes : Bool
deriving DecidableEq, Repr

/-- `init_model(env)`. -/
def init_model (env : autoshrink_env) : autoshrink_env :=
  if env.model.next_action ≠ 0x00 then env
  else
    { env with
      model :=
        { cur_tried := 0, cur_set := 0, next_action := 0,
          weights := [TWO_EVENLY, FOUR_EVENLY, FOUR_EVENLY, FOUR_EVENLY - 0x10, FOUR_EVENLY] } }

/-- `popcount(value)`. -/
def popcount (value : Nat) : Nat :=
  ((List.range 64).filter (fun i => value &&& (1 <<< i) ≠ 0)).length

/-- The loop of `log2ceil`; the first argument bounds `res` by 64, the width
of the shifted constant. -/
def log2ceil_loop : Nat → Nat → Nat → Nat
  | 0, res, _ => res
  | fuel + 1, res, value =>
    if (1 <<< res) % 2 ^ 64 < value then log2ceil_loop fuel (res + 1) value else res

/-- `log2ceil(value)`. -/
def log2ceil (value : Nat) : Nat := log2ceil_loop 64 0 value

/-- `build_index(pool)` for an allocation that succeeds: the prefix sums of the
request widths, computed once. -/
def build_index (pool : autoshrink_bit_pool) : autoshrink_bit_pool :=
  match pool.index with
  | some _ => pool
  | none =>
    { pool with
      index := some ((pool.requests.foldl (fun (acc : List Nat × Nat) r => (acc.1 ++ [acc.2], acc.2 + r))
        ([], 0)).1) }

/-- `offset_of_pos(orig, pos)`.  The source asserts that the request index has
been built (`assert(orig->index)`); for a pool without one the value here
is 0. -/
def offset_of_pos (orig : autoshrink_bit_pool) (pos : Nat) : Nat :=
  match orig.index with
  | some index => index.getD pos 0
  | none => 0

/-- `should_drop(t, env, request_count)`: the decision and the random source
afterwards (a value is drawn only when no action is forced). -/
def should_drop (p : prng_info) (env : autoshrink_env) (request_count : Nat) :
    Option (Bool × prng_info) :=
  let rc_mul := 8
  let weight0 := env.model.weights.getD WEIGHT_DROP 0
  let weight := if weight0 > rc_mul * request_count then rc_mul * request_count else weight0
  if env.model.next_action = 0x00 then
    match fuzz_random_bits p 8 with
    | none => none
    | some (v, p1) => some (decide (v < weight), p1)
  else some (decide (env.model.next_action = ASA_DROP), p)

/-- The loop of `get_weighted_mutation` that finds the number of bits to
draw. -/
def weighted_bit_count : Nat → Nat → Nat → Nat
  | 0, bit_count, _ => bit_count
  | fuel + 1, bit_count, sub =>
    if (1 <<< bit_count) % 2 ^ 64 < sub then weighted_bit_count fuel (bit_count + 1) sub
    else bit_count

/-- The drawing loop of `get_weighted_mutation`; it draws again while the value
is not below the sum of the weights, so the first argument bounds the number of
draws and `none` stands for a loop that does not end within it. -/
def weighted_draw (shift mask swap sub bit_count : Nat) : Nat → prng_info →
    Option (mutation × prng_info)
  | 0, _ => none
  | fuel + 1, p =>
    match fuzz_random_bits p bit_count with
    | none => none
    | some (v, p1) =>
      let bits := v % 2 ^ 16
      if bits < shift then some (mutation.MUT_SHIFT, p1)
      else if bits < mask then some (mutation.MUT_MASK, p1)
      else if bits < swap then some (mutation.MUT_SWAP, p1)
      else if bits < sub then some (mutation.MUT_SUB, p1)
      else weighted_draw shift mask swap sub bit_count fuel p1

/-- `get_weighted_mutation(t, env)`.  A forced action other than shift, mask,
swap or sub fails the assertion (`none`). -/
def get_weighted_mutation (fuel : Nat) (p : prng_info) (env : autoshrink_env) :
    Option (mutation × prng_info) :=
  if env.model.next_action ≠ 0x00 then
    if env.model.next_action = ASA_SHIFT then some (mutation.MUT_SHIFT, p)
    else if env.model.next_action = ASA_MASK then some (mutation.MUT_MASK, p)
    else if env.model.next_action = ASA_SWAP then some (mutation.MUT_SWAP, p)
    else if env.model.next_action = ASA_SUB then some (mutation.MUT_SUB, p)
    else none
  else
    let shift := env.model.weights.getD WEIGHT_SHIFT 0 % 2 ^ 16
    let mask := (shift + env.model.weights.getD WEIGHT_MASK 0) % 2 ^ 16
    let swap := (mask + env.model.weights.getD WEIGHT_SWAP 0) % 2 ^ 16
    let sub := (swap + env.model.weights.getD WEIGHT_SUB 0) % 2 ^ 16
    let bit_count := weighted_bit_count 16 7 sub
    if bit_count ≤ 16 then weighted_draw shift mask swap sub bit_count fuel p else none
/-- The search loop of the small-request case of `MUT_SWAP`: the first later
request of the same size whose value is smaller is exchanged with the chosen
one.  Result: whether a swap was made, and the pool. -/
def swap_search (orig : autoshrink_bit_pool) (bit_offset size bits : Nat) :
    Nat → Nat → autoshrink_bit_pool → Bool × autoshrink_bit_pool
  | 0, _, pool => (false, pool)
  | fuel + 1, i, pool =>
    if i < orig.request_count then
      if orig.requests.getD i 0 = size then
        let other_offset := offset_of_pos orig i
        let other := read_bits_at_offset pool other_offset (size % 256)
        if other < bits then
          let pool1 := write_bits_at_offset pool bit_offset (size % 256) other
          let pool2 := write_bits_at_offset pool1 other_offset (size % 256) bits
          (true, pool2)
        else swap_search orig bit_offset size bits fuel (i + 1) pool
      else swap_search orig bit_offset size bits fuel (i + 1) pool
    else (false, pool)

/-- The halving loop `while (2U * to_swap >= size) to_swap /= 2` of the bulk
case of `MUT_SWAP`. -/
def swap_halve : Nat → Nat → Nat → Nat
  | 0, to_swap, _ => to_swap
  | fuel + 1, to_swap, size =>
    if 2 * to_swap ≥ size then swap_halve fuel (to_swap / 2) size else to_swap

/-- `choose_and_mutate_request(t, env, orig, pool)`: whether the pool changed,
the model, the pool copy and the random source afterwards.  The `uint8_t`
casts of the sizes are written `% 256`; `none` also when `assert(size > 0)`
of the swap case fails. -/
def choose_and_mutate_request (fuel : Nat) (p : prng_info) (env : autoshrink_env)
    (orig pool : autoshrink_bit_pool) :
    Option (Bool × autoshrink_env × autoshrink_bit_pool × prng_info) := do
  let (mtype, p0) ← get_weighted_mutation fuel p env
  let request_bits := log2ceil orig.request_count
  if orig.request_count = 0 then
    some (false, env, pool, p0)
  else
    let (r, p1) ← fuzz_random_bits p0 request_bits
    let pos := r % orig.request_count
    let bit_offset := offset_of_pos orig pos
    let size := orig.requests.getD pos 0
    match mtype with
    | mutation.MUT_SHIFT =>
      let env1 := { env with model := { env.model with cur_tried := env.model.cur_tried ||| ASA_SHIFT } }
      let (s, p2) ← fuzz_random_bits p1 2
      let shift := (s + 1) % 256
      let ((new_pos, to_change), p3) ←
        (if size > 64 then do
          let (a, q1) ← fuzz_random_bits p2 32
          let (c, q2) ← fuzz_random_bits q1 6
          let np := a % size
          let tc := c % 2 ^ 32
          some ((np, if tc > size - np then (size - np) % 2 ^ 32 else tc), q2)
        else some ((0, size), p2))
      let bits := read_bits_at_offset pool (bit_offset + new_pos) (to_change % 256)
      let nbits := bits >>> shift
      let pool1 := write_bits_at_offset pool (bit_offset + new_pos) (to_change % 256) nbits
      if bits ≠ nbits then
        some (true, { env1 with model := { env1.model with cur_set := env1.model.cur_set ||| ASA_SHIFT } },
          pool1, p3)
      else some (false, env1, pool1, p3)
    | mutation.MUT_MASK =>
      let env1 := { env with model := { env.model with cur_tried := env.model.cur_tried ||| ASA_MASK } }
      let mask_size := if size ≤ 64 then size else 64
      let (m1, p2) ← fuzz_random_bits p1 mask_size
      let (m2, p3) ← fuzz_random_bits p2 mask_size
      let mask0 := m1 ||| m2
      let (mask, p4) ←
        (if mask0 = 2 ^ 64 - 1 then do
          let (o, q1) ← fuzz_random_bits p3 8
          let one_bit := (o % mask_size) % 256
          some (mask0 &&& ((2 ^ 64 - 1 - (1 <<< one_bit) % 2 ^ 64) + 1) % 2 ^ 64, q1)
        else some (mask0, p3))
      let ((new_pos, to_change), p5) ←
        (if size > 64 then do
          let (a, q1) ← fuzz_random_bits p4 32
          let (c, q2) ← fuzz_random_bits q1 6
          let np := a % size
          let tc := c % 2 ^ 32
          some ((np, if tc > size - np then (size - np) % 2 ^ 32 else tc), q2)
        else some ((0, size), p4))
      let bits := read_bits_at_offset pool (bit_offset + new_pos) (to_change % 256)
      let nbits := bits &&& mask
      let pool1 := write_bits_at_offset pool (bit_offset + new_pos) (to_change % 256) nbits
      if bits ≠ nbits then
        some (true, { env1 with model := { env1.model with cur_set := env1.model.cur_set ||| ASA_MASK } },
          pool1, p5)
      else some (false, env1, pool1, p5)
    | mutation.MUT_SWAP =>
      let env1 := { env with model := { env.model with cur_tried := env.model.cur_tried ||| ASA_SWAP } }
      if size = 0 then none
      else if size > 64 then do
        let (w, p2) ← fuzz_random_bits p1 6
        let to_swap := swap_halve 8 (w % 256) size
        if to_swap = 0 then some (false, env1, pool, p2)
        else
          let (a, p3) ← fuzz_random_bits p2 32
          let pos_a := a % (size - to_swap)
          let (b, p4) ← fuzz_random_bits p3 32
          let pos_b := b % (size - 2 * to_swap)
          if (pos_a < pos_b ∧ pos_a + to_swap > pos_b) ∨ (pos_b < pos_a ∧ pos_b + to_swap > pos_a) then
            some (false, env1, pool, p4)
          else
            let va := read_bits_at_offset pool (bit_offset + pos_a) to_swap
            let vb := read_bits_at_offset pool (bit_offset + pos_b) to_swap
            if vb < va then
              let pool1 := write_bits_at_offset pool (bit_offset + pos_a) to_swap vb
              let pool2 := write_bits_at_offset pool1 (bit_offset + pos_b) to_swap va
              some (true,
                { env1 with model := { env1.model with cur_set := env1.model.cur_set ||| ASA_SWAP } },
                pool2, p4)
            else some (false, env1, pool, p4)
      else
        let bits := read_bits_at_offset pool bit_offset (size % 256)
        let r := swap_search orig bit_offset size bits orig.request_count (pos + 1) pool
        if r.1 then
          some (true,
            { env1 with model := { env1.model with cur_set := env1.model.cur_set ||| ASA_SWAP } },
            r.2, p1)
        else some (false, env1, r.2, p1)
    | mutation.MUT_SUB =>
      let env1 := { env with model := { env.model with cur_tried := env.model.cur_tried ||| ASA_SUB } }
      let sub_size := if size ≤ 64 then size else 64
      let (sub, p2) ← fuzz_random_bits p1 sub_size
      let ((new_pos, to_change), p3) ←
        (if size > 64 then do
          let (a, q1) ← fuzz_random_bits p2 32
          let (c, q2) ← fuzz_random_bits q1 6
          let np := a % size
          let tc := c % 2 ^ 32
          some ((np, if tc > size - np then (size - np) % 2 ^ 32 else tc), q2)
        else some ((0, size), p2))
      let bits := read_bits_at_offset pool (bit_offset + new_pos) (to_change % 256)
      if bits > 0 then
        let nbits0 := bits - sub % bits
        let nbits := if nbits0 = bits then (nbits0 + 2 ^ 64 - 1) % 2 ^ 64 else nbits0
        let pool1 := write_bits_at_offset pool (bit_offset + new_pos) (to_change % 256) nbits
        some (true, { env1 with model := { env1.model with cur_set := env1.model.cur_set ||| ASA_SUB } },
          pool1, p3)
      else some (false, env1, pool, p3)
/-- Cursor of the bit-by-bit copy in `drop_from_bit_pool`: byte index and bit
mask on the source and on the destination side, the two bit offsets, and the
destination bytes. -/
structure drop_state where
  src_offset : Nat
  dst_offset : Nat
  src_byte : Nat
  dst_byte : Nat
  src_bit : Nat
  dst_bit : Nat
  bits : List Nat
deriving DecidableEq, Repr

/-- Advance the source cursor by one bit. -/
def drop_skip_bit (s : drop_state) : drop_state :=
  let src_bit1 := (s.src_bit <<< 1) % 256
  { s with
    src_bit := if src_bit1 = 0x00 then 0x01 else src_bit1
    src_byte := if src_bit1 = 0x00 then s.src_byte + 1 else s.src_byte
    src_offset := s.src_offset + 1 }

/-- Copy the current source bit to the destination and advance the
destination cursor. -/
def drop_put_bit (orig_bits : List Nat) (s : drop_state) : drop_state :=
  let bits1 :=
    if orig_bits.getD s.src_byte 0 &&& s.src_bit ≠ 0 then
      s.bits.set s.dst_byte (s.bits.getD s.dst_byte 0 ||| s.dst_bit)
    else s.bits
  let dst_bit1 := (s.dst_bit <<< 1) % 256
  { s with
    bits := bits1
    dst_bit := if dst_bit1 = 0x00 then 0x01 else dst_bit1
    dst_byte := if dst_bit1 = 0x00 then s.dst_byte + 1 else s.dst_byte
    dst_offset := s.dst_offset + 1 }

/-- The loop over the bits of one request in `drop_from_bit_pool`; `keep bi`
tells whether bit `bi` of the request is copied. -/
def drop_request_bits (orig_bits : List Nat) (keep : Nat → Bool) : Nat → Nat → drop_state →
    drop_state
  | 0, _, s => s
  | n + 1, bi, s =>
    let s1 := if keep bi then drop_put_bit orig_bits s else s
    drop_request_bits orig_bits keep n (bi + 1) (drop_skip_bit s1)

/-- The loop over the requests in `drop_from_bit_pool`. -/
def drop_requests (orig : autoshrink_bit_pool) (to_drop drop_threshold drop_bits : Nat) :
    List Nat → Nat → drop_state → prng_info → Option (drop_state × prng_info)
  | [], _, s, p => some (s, p)
  | req_size :: rest, ri, s, p => do
    let (dropping, p1) ←
      (if ri = to_drop then some (true, p)
       else do
         let (v, q) ← fuzz_random_bits p drop_bits
         some (decide (v ≤ drop_threshold), q))
    if dropping then
      if req_size > 64 then do
        let (a, p2) ← fuzz_random_bits p1 32
        let drop_offset := (a % req_size) % 2 ^ 32
        let (b, p3) ← fuzz_random_bits p2 32
        let drop_size := (b % req_size) % 2 ^ 32
        let s1 := drop_request_bits orig.bits
          (fun bi => decide (bi < drop_offset ∨ bi > (drop_offset + drop_size) % 2 ^ 32))
          req_size 0 s
        drop_requests orig to_drop drop_threshold drop_bits rest (ri + 1) s1 p3
      else
        let s1 := drop_request_bits orig.bits (fun _ => false) req_size 0 s
        drop_requests orig to_drop drop_threshold drop_bits rest (ri + 1) s1 p1
    else
      let s1 := drop_request_bits orig.bits (fun _ => true) req_size 0 s
      drop_requests orig to_drop drop_threshold drop_bits rest (ri + 1) s1 p1

/-- `drop_from_bit_pool(t, env, orig, copy)`: the copy and the random source
afterwards. -/
def drop_from_bit_pool (p : prng_info) (env : autoshrink_env) (orig copy : autoshrink_bit_pool) :
    Option (autoshrink_bit_pool × prng_info) := do
  let drop_threshold := if env.drop_threshold ≠ 0 then env.drop_threshold else DEF_DROP_THRESHOLD
  let drop_bits := if env.drop_bits ≠ 0 then env.drop_bits else DEF_DROP_BITS
  let (d, p1) ← fuzz_random_bits p 32
  let to_drop := if d ≠ DO_NOT_DROP ∧ orig.request_count > 0 then d % orig.request_count else d
  let s0 : drop_state :=
    { src_offset := 0, dst_offset := 0, src_byte := 0, dst_byte := 0, src_bit := 0x01,
      dst_bit := 0x01, bits := copy.bits }
  let (s, p2) ← drop_requests orig to_drop drop_threshold drop_bits orig.requests 0 s0 p1
  some ({ copy with bits := s.bits, bits_filled := s.dst_offset }, p2)

/-- The loop `while ((1LLU << max_changes) < orig->request_count)` of
`mutate_bit_pool`. -/
def max_changes_loop : Nat → Nat → Nat → Nat
  | 0, max_changes, _ => max_changes
  | fuel + 1, max_changes, request_count =>
    if (1 <<< max_changes) % 2 ^ 64 < request_count then
      max_changes_loop fuel (max_changes + 1) request_count
    else max_changes

/-- The retry loop of `mutate_bit_pool` (`i < 10U * change_count`). -/
def mutate_loop (fuel : Nat) (orig : autoshrink_bit_pool) (change_count : Nat) :
    Nat → Nat → Nat → prng_info → autoshrink_env → autoshrink_bit_pool →
    Option (autoshrink_env × autoshrink_bit_pool × prng_info)
  | 0, _, _, p, env, pool => some (env, pool, p)
  | n + 1, i, changed, p, env, pool =>
    if i < 10 * change_count then
      match choose_and_mutate_request fuel p env orig pool with
      | none => none
      | some (true, env1, pool1, p1) =>
        let changed1 := (changed + 1) % 256
        if changed1 = change_count then some (env1, pool1, p1)
        else mutate_loop fuel orig change_count n (i + 1) changed1 p1 env1 pool1
      | some (false, env1, pool1, p1) =>
        mutate_loop fuel orig change_count n (i + 1) changed p1 env1 pool1
    else some (env, pool, p)

/-- `mutate_bit_pool(t, env, orig, pool)`; `none` also when
`assert(t->prng.bit_pool == NULL)` fails. -/
def mutate_bit_pool (fuel : Nat) (p : prng_info) (env : autoshrink_env)
    (orig pool : autoshrink_bit_pool) :
    Option (autoshrink_env × autoshrink_bit_pool × prng_info) := do
  let orig_bytes := orig.bits_filled / 8 + (if orig.bits_filled % 8 = 0 then 0 else 1)
  let pool1 : autoshrink_bit_pool :=
    { pool with
      bits := orig.bits.take orig_bytes ++ pool.bits.drop orig_bytes
      bits_filled := orig.bits_filled }
  if p.bit_pool.isSome then none
  let max_changes := max_changes_loop 64 5 orig.request_count
  let (c, p1) ← fuzz_random_bits p max_changes
  let change_count0 := (popcount c + 1) % 256
  let change_count :=
    if change_count0 > orig.request_count then
      if orig.requests.all (fun r => decide (r ≤ 64)) then orig.request_count % 256
      else change_count0
    else change_count0
  let (env2, pool2, p2) ←
    mutate_loop fuel orig change_count (10 * change_count) 0 0 p1 env pool1
  let nsize := (orig.consumed + (orig.bits_filled + 2 ^ 64 - orig.consumed) % 2 ^ 64 / 2) % 2 ^ 64
  some (env2, { pool2 with limit := if nsize < pool2.limit then nsize else pool2.limit }, p2)
/-! ## Generators, type information and the engine state -/

/-- An instance made by a generator (the C `void*`). -/
abbrev instance_t := List Nat

/-- An `alloc` callback, as the protocol it follows: it asks
`fuzz_random_bits(t, n)` for bits and goes on with the value it gets, until it
returns a result code and an instance.  The callback is deterministic given
the bits it observes. -/
inductive gen where
  | ret (res : Int) (inst : instance_t)
  | bits (n : Nat) (k : Nat → gen)

/-- Run an `alloc` callback against the engine's random source. -/
def gen.run : gen → prng_info → Option (Int × instance_t × prng_info)
  | gen.ret res inst, p => some (res, inst, p)
  | gen.bits n k, p =>
    match fuzz_random_bits p n with
    | none => none
    | some (v, p1) => (k v).run p1

/-- `struct fuzz_autoshrink_config`. -/
structure fuzz_autoshrink_config where
  enable : Bool
  pool_size : Nat
  print_mode : Nat
  max_failed_shrinks : Nat
deriving DecidableEq, Repr

/-- `struct fuzz_type_info`: `hash` and `shrink` are `none` for `NULL`; a
`shrink` callback maps the instance and the tactic to its result code and the
candidate. -/
structure fuzz_type_info where
  alloc : gen
  has_free : Bool
  hash : Option (instance_t → Nat)
  shrink : Option (instance_t → Nat → Int × instance_t)
  autoshrink_config : fuzz_autoshrink_config

/-- `fuzz_autoshrink_alloc_env(t, arg_i, type_info)`. -/
def fuzz_autoshrink_alloc_env (arg_i : Nat) (ti : fuzz_type_info) : autoshrink_env :=
  { arg_i := arg_i
    pool_size := ti.autoshrink_config.pool_size
    pool_limit := 0
    print_mode := ti.autoshrink_config.print_mode
    max_failed_shrinks := ti.autoshrink_config.max_failed_shrinks
    drop_threshold := 0
    drop_bits := 0
    model := { cur_tried := 0, cur_set := 0, next_action := 0, weights := [0, 0, 0, 0, 0] }
    bit_pool := none
    leave_trailing_zeroes := false }

/-- `alloc_from_bit_pool(t, env, bit_pool, output, shrinking)`: the result code
of the generator, the instance, the pool as the generator's requests left it,
and the random source with the pool taken out again. -/
def alloc_from_bit_pool (p : prng_info) (ti : fuzz_type_info) (bit_pool : autoshrink_bit_pool)
    (shrinking : Bool) : Option (Int × instance_t × autoshrink_bit_pool × prng_info) :=
  let pool1 := { bit_pool with shrinking := shrinking }
  match ti.alloc.run (fuzz_random_inject_autoshrink_bit_pool p pool1) with
  | none => none
  | some (ares, inst, p1) =>
    some (ares, inst, p1.bit_pool.getD pool1, fuzz_random_stop_using_bit_pool p1)

/-- `fuzz_autoshrink_alloc(t, env, instance)`: result code, the instance
written to `*instance` (nothing is written unless the generator returns
`FUZZ_RESULT_OK`), environment (holding the new pool) and random source. -/
def fuzz_autoshrink_alloc (p : prng_info) (ti : fuzz_type_info) (env : autoshrink_env) :
    Option (Int × Option instance_t × autoshrink_env × prng_info) :=
  let pool_size := if env.pool_size ≠ 0 then env.pool_size else DEF_POOL_SIZE
  let pool_limit := if env.pool_limit ≠ 0 then env.pool_limit else DEF_POOL_LIMIT
  let pool := alloc_bit_pool pool_size pool_limit DEF_REQUESTS_CEIL
  match alloc_from_bit_pool p ti pool false with
  | none => none
  | some (ares, inst, pool1, p1) =>
    some (ares, if ares = FUZZ_RESULT_OK then some inst else none,
      { env with bit_pool := some pool1 }, p1)

/-- `fuzz_autoshrink_hash(t, instance, env, type_env)`.  The C code asserts that
the environment holds a pool, which is so once the argument has been generated;
without a pool the model yields `0`. -/
def fuzz_autoshrink_hash (ti : fuzz_type_info) (inst : instance_t) (env : autoshrink_env) : Nat :=
  match ti.hash with
  | some h => h inst % 2 ^ 64
  | none =>
    match env.bit_pool with
    | none => 0
    | some pool =>
      let h1 := fuzz_hash_sink fuzz_hash_init (pool.bits.take (pool.consumed / 8))
      let rem_bits := pool.consumed % 8
      let h2 :=
        if rem_bits > 0 then
          let last_byte := pool.bits.getD (pool.consumed / 8) 0
          let mask := ((1 <<< rem_bits) - 1) % 256
          fuzz_hash_sink h1 [last_byte &&& mask]
        else h1
      (fuzz_hash_finish h2).1

/-- `fuzz_autoshrink_shrink(t, env, tactic, output, output_bit_pool)` for
allocations that succeed: the result code, the candidate instance and pool
(when the code is `FUZZ_SHRINK_OK`), the environment and the random source.
`none` also when one of the function's assertions fails. -/
def fuzz_autoshrink_shrink (fuel : Nat) (p : prng_info) (ti : fuzz_type_info)
    (env : autoshrink_env) (tactic : Nat) :
    Option (Int × Option (instance_t × autoshrink_bit_pool) × autoshrink_env × prng_info) :=
  match env.bit_pool with
  | none => none
  | some orig0 =>
    if tactic ≥ (if env.max_failed_shrinks ≠ 0 then env.max_failed_shrinks
        else DEF_MAX_FAILED_SHRINKS) then
      some (FUZZ_SHRINK_NO_MORE_TACTICS, none, env, p)
    else do
      let orig := build_index orig0
      if orig.requests.sum ≠ orig.consumed then none
      let copy0 := alloc_bit_pool orig.bits_filled orig.limit orig.request_ceil
      let copy := { copy0 with generation := orig.generation + 1, limit := orig.limit }
      let env1 : autoshrink_env :=
        { env with bit_pool := some orig,
                   model := { env.model with cur_tried := 0x00, cur_set := 0x00 } }
      let env2 := if env1.model.weights.getD WEIGHT_DROP 0 = 0 then init_model env1 else env1
      let (drop, p1) ← should_drop p env2 orig.request_count
      let (env3, copy1, p2) ←
        (if drop then do
          let env2d : autoshrink_env :=
            { env2 with model := { env2.model with cur_set := env2.model.cur_set ||| ASA_DROP } }
          let (c, q) ← drop_from_bit_pool p1 env2d orig copy
          some (env2d, c, q)
        else mutate_bit_pool fuel p1 env2 orig copy)
      let copy2 := if !env3.leave_trailing_zeroes then truncate_trailing_zero_bytes copy1 else copy1
      let (ares, inst, copy3, p3) ← alloc_from_bit_pool p2 ti copy2 true
      if ares = FUZZ_RESULT_SKIP then some (FUZZ_SHRINK_DEAD_END, none, env3, p3)
      else if ares = FUZZ_RESULT_ERROR then some (FUZZ_SHRINK_ERROR, none, env3, p3)
      else if ares = FUZZ_RESULT_OK then some (FUZZ_SHRINK_OK, some (inst, copy3), env3, p3)
      else none

/-- `adjust(model, w, min, max, adjustment)`; `adjustment` is the `int8_t`
argument, `nv` a `uint8_t`. -/
def adjust (model : autoshrink_model) (w min max : Nat) (adjustment : Int) : autoshrink_model :=
  let flag := 1 <<< w
  let nv : Nat :=
    if model.cur_set &&& flag ≠ 0 then (((model.weights.getD w 0 : Int) + adjustment) % 256).toNat
    else if model.cur_tried &&& flag ≠ 0 ∧ adjustment > 0 then
      (((model.weights.getD w 0 : Int) - adjustment) % 256).toNat
    else 0
  if nv ≠ 0 then
    let nv1 := if nv > max then max else if nv < min then min else nv
    { model with weights := model.weights.set w nv1 }
  else model

/-- The conversion of a `uint8_t` to the `int8_t` parameter of `adjust`. -/
def to_int8 (x : Nat) : Int := if x % 256 ≥ 128 then (x % 256 : Int) - 256 else (x % 256 : Int)

/-- `fuzz_autoshrink_update_model(t, arg_id, res, adjustment)` on the
environment of an autoshrink argument. -/
def fuzz_autoshrink_update_model (env : autoshrink_env) (res : Int) (adjustment : Nat) :
    autoshrink_env :=
  if env.model.cur_set = 0x00 then env
  else
    let adj : Nat := if res = FUZZ_RESULT_FAIL then adjustment % 256 else (256 - adjustment % 256) % 256
    let a := to_int8 adj
    let m1 := adjust env.model WEIGHT_DROP DROPS_MIN DROPS_MAX a
    let m2 := adjust m1 WEIGHT_SHIFT MODEL_MIN MODEL_MAX a
    let m3 := adjust m2 WEIGHT_MASK MODEL_MIN MODEL_MAX a
    let m4 := adjust m3 WEIGHT_SWAP MODEL_MIN MODEL_MAX a
    let m5 := adjust m4 WEIGHT_SUB MODEL_MIN MODEL_MAX a
    { env with model := m5 }
/-- `enum arg_type`. -/
inductive arg_type where
  | ARG_BASIC
  | ARG_AUTOSHRINK
deriving DecidableEq, Repr

/-- `struct arg_info`: the instance (`none` for `NULL`) and, for an autoshrink
argument, its environment. -/
structure arg_info where
  inst : Option instance_t
  type : arg_type
  env : Option autoshrink_env
deriving DecidableEq, Repr

/-- `struct trial_info`. -/
structure trial_info where
  trial : Nat
  seed : Nat
  shrink_count : Nat
  successful_shrinks : Nat
  failed_shrinks : Nat
  args : List arg_info
deriving DecidableEq, Repr

/-- `struct counter_info`. -/
structure counter_info where
  pass : Nat
  fail : Nat
  skip : Nat
  dup : Nat
deriving DecidableEq, Repr

/-- The fields of the `struct fuzz_*_info` records handed to the hooks; a hook
reads the ones its record has. -/
structure hook_call where
  trial_id : Nat
  trial_seed : Nat
  run_seed : Nat
  failures : Nat
  arg_index : Nat
  tactic : Nat
  result : Int
  state : Int
  shrink_count : Nat
  successful_shrinks : Nat
  failed_shrinks : Nat
  repeated : Bool
  args : List (Option instance_t)
  report : counter_info
deriving DecidableEq, Repr

/-- The mutable part of `struct fuzz`.  `env` is the user's environment
(`hooks.env`), which the callbacks may read and change. -/
structure fuzz (σ : Type) where
  bloom : Option fuzz_bloom
  prng : prng_info
  counters : counter_info
  trial : trial_info
  env : σ

/-- The part of `struct fuzz` fixed by `fuzz_run_init`: property, generators,
seeds and hooks.  A hook maps the user's environment and the call record to its
return code and the environment afterwards; `none` is a hook that is `NULL` or
one of the default printing callbacks, which return `FUZZ_HOOK_RUN_CONTINUE`.
The arity is the length of `type_info`. -/
structure fuzz_setup (σ : Type) where
  prop : σ → List (Option instance_t) → Int × σ
  trial_count : Nat
  type_info : List fuzz_type_info
  run_seed : Nat
  always_seeds : List Nat
  pre_run : Option (σ → hook_call → Int × σ)
  post_run : Option (σ → hook_call → Int × σ)
  pre_gen_args : Option (σ → hook_call → Int × σ)
  trial_pre : Option (σ → hook_call → Int × σ)
  trial_post : Option (σ → hook_call → Int × σ)
  counterexample : Option (σ → hook_call → Int × σ)
  shrink_pre : Option (σ → hook_call → Int × σ)
  shrink_post : Option (σ → hook_call → Int × σ)
  shrink_trial_post : Option (σ → hook_call → Int × σ)

/-- A zeroed `struct trial_info` (`memset(&t->trial, 0x00, …)`). -/
def trial_info_zero : trial_info :=
  { trial := 0, seed := 0, shrink_count := 0, successful_shrinks := 0, failed_shrinks := 0,
    args := [] }

/-- A call record with the fields every hook gets. -/
def hook_call_of {σ : Type} (c : fuzz_setup σ) (t : fuzz σ) : hook_call :=
  { trial_id := t.trial.trial, trial_seed := t.trial.seed, run_seed := c.run_seed,
    failures := t.counters.fail, arg_index := 0, tactic := 0, result := 0, state := 0,
    shrink_count := t.trial.shrink_count, successful_shrinks := t.trial.successful_shrinks,
    failed_shrinks := t.trial.failed_shrinks, repeated := false, args := [],
    report := t.counters }

/-- Call a hook: its return code and the engine with the user's environment
updated. -/
def call_hook {σ : Type} (h : Option (σ → hook_call → Int × σ)) (t : fuzz σ) (info : hook_call) :
    Int × fuzz σ :=
  match h with
  | none => (FUZZ_HOOK_RUN_CONTINUE, t)
  | some f => ((f t.env info).1, { t with env := (f t.env info).2 })

/-- `fuzz_trial_get_args(t, args)`. -/
def fuzz_trial_get_args {σ : Type} (t : fuzz σ) : List (Option instance_t) :=
  t.trial.args.map (fun a => a.inst)

/-- `fuzz_call(t, args)` with `fork.enable` off, which is `fuzz_call_inner`:
the property is called when the arity is 1 to 7. -/
def fuzz_call {σ : Type} (c : fuzz_setup σ) (t : fuzz σ) (args : List (Option instance_t)) :
    Int × fuzz σ :=
  if 1 ≤ c.type_info.length ∧ c.type_info.length ≤ FUZZ_MAX_ARITY then
    ((c.prop t.env args).1, { t with env := (c.prop t.env args).2 })
  else (FUZZ_RESULT_ERROR, t)

/-- The bytes of a `uint64_t` in memory, little-endian. -/
def u64_bytes (v : Nat) : List Nat := (List.range 8).map (fun j => (v >>> (8 * j)) % 256)

/-- `get_arg_hash_buffer(buffer, t)`, as the bytes of the buffer.  The function
is called only while a duplicate filter exists, that is when every argument has
a `hash` callback or uses autoshrink, and after generation; for an argument
without either, without environment or without instance the model hashes
nothing (`0`, the empty instance), where the C code would dereference
`NULL`. -/
def get_arg_hash_buffer {σ : Type} (c : fuzz_setup σ) (t : fuzz σ) : List Nat :=
  ((c.type_info.zip t.trial.args).map (fun (x : fuzz_type_info × arg_info) =>
    let h : Nat :=
      if x.1.autoshrink_config.enable then
        match x.2.env with
        | some env => fuzz_autoshrink_hash x.1 (x.2.inst.getD []) env
        | none => 0
      else
        match x.1.hash with
        | some f => f (x.2.inst.getD []) % 2 ^ 64
        | none => 0
    u64_bytes h)).flatten

/-- `fuzz_call_check_called(t)`, with the filter given. -/
def fuzz_call_check_called {σ : Type} (c : fuzz_setup σ) (t : fuzz σ) (b : fuzz_bloom) : Bool :=
  fuzz_bloom_check b (get_arg_hash_buffer c t)

/-- `fuzz_call_mark_called(t)` for allocations that succeed; `none` when the
filter's assertion fails. -/
def fuzz_call_mark_called {σ : Type} (c : fuzz_setup σ) (t : fuzz σ) (b : fuzz_bloom) :
    Option (fuzz σ) :=
  match fuzz_bloom_mark b (get_arg_hash_buffer c t) true with
  | none => none
  | some r => some { t with bloom := some r.2 }
/-! ## The shrink engine -/

/-- `enum shrink_res`. -/
inductive shrink_res where
  | SHRINK_OK
  | SHRINK_DEAD_END
  | SHRINK_ERROR
  | SHRINK_HALT
deriving DecidableEq, Repr

/-- Replace entry `arg_i` of `t->trial.args`. -/
def set_arg {σ : Type} (t : fuzz σ) (arg_i : Nat) (a : arg_info) : fuzz σ :=
  { t with trial := { t.trial with args := t.trial.args.set arg_i a } }

/-- Entry `arg_i` of `t->trial.args`. -/
def get_arg {σ : Type} (t : fuzz σ) (arg_i : Nat) : arg_info :=
  t.trial.args.getD arg_i { inst := none, type := arg_type.ARG_BASIC, env := none }

/-- `fuzz_autoshrink_update_model(t, arg_id, res, adjustment)` on the engine:
nothing happens for an argument that does not use autoshrink. -/
def update_model_arg {σ : Type} (c : fuzz_setup σ) (t : fuzz σ) (arg_id : Nat) (res : Int)
    (adjustment : Nat) : fuzz σ :=
  match c.type_info[arg_id]? with
  | none => t
  | some ti =>
    if ti.autoshrink_config.enable = false then t
    else
      match (get_arg t arg_id).env with
      | none => t
      | some env =>
        set_arg t arg_id
          { get_arg t arg_id with env := some (fuzz_autoshrink_update_model env res adjustment) }

/-- `shrink_pre_hook(t, arg_index, arg, tactic)`. -/
def shrink_pre_hook {σ : Type} (c : fuzz_setup σ) (t : fuzz σ) (arg_index : Nat)
    (arg : Option instance_t) (tactic : Nat) : Int × fuzz σ :=
  call_hook c.shrink_pre t
    { hook_call_of c t with arg_index := arg_index, args := [arg], tactic := tactic }

/-- `shrink_post_hook(t, arg_index, arg, tactic, sres)`; `none` when the
function's `assert(false)` is reached (a hook is set and the result code is
not OK, NO_MORE_TACTICS or DEAD_END). -/
def shrink_post_hook {σ : Type} (c : fuzz_setup σ) (t : fuzz σ) (arg_index : Nat)
    (arg : Option instance_t) (tactic : Nat) (sres : Int) : Option (Int × fuzz σ) :=
  match c.shrink_post with
  | none => some (FUZZ_HOOK_RUN_CONTINUE, t)
  | some _ =>
    if sres = FUZZ_SHRINK_OK ∨ sres = FUZZ_SHRINK_NO_MORE_TACTICS ∨ sres = FUZZ_SHRINK_DEAD_END then
      some (call_hook c.shrink_post t
        { hook_call_of c t with arg_index := arg_index, args := [arg], tactic := tactic,
                                state := sres })
    else none

/-- `shrink_trial_post_hook(t, arg_index, args, last_tactic, result)`. -/
def shrink_trial_post_hook {σ : Type} (c : fuzz_setup σ) (t : fuzz σ) (arg_index : Nat)
    (args : List (Option instance_t)) (last_tactic : Nat) (result : Int) : Int × fuzz σ :=
  call_hook c.shrink_trial_post t
    { hook_call_of c t with arg_index := arg_index, args := args, tactic := last_tactic,
                            result := result }

/-- The `if (!repeated)` block of the call loop of `attempt_to_shrink_arg`: on
the first call the shrink counters are updated and, after a failure, the
autoshrink model. -/
def shrink_count_result {σ : Type} (c : fuzz_setup σ) (arg_i : Nat) (repeated : Bool) (res : Int)
    (t : fuzz σ) : fuzz σ :=
  if !repeated then
    if res = FUZZ_RESULT_FAIL then
      update_model_arg c
        { t with trial := { t.trial with
            successful_shrinks := t.trial.successful_shrinks + 1 } } arg_i res 3
    else { t with trial := { t.trial with failed_shrinks := t.trial.failed_shrinks + 1 } }
  else t

/-- The `for (;;)` loop of `attempt_to_shrink_arg`: the property is called on
the stored arguments and the post-shrink-trial hook decides whether to call it
again.  Result: the value of `res` when the loop is left by `break`
(`some res`), or `none` when the hook returns a code that makes the function
return `SHRINK_ERROR`.  The outer `none` stands for a hook that asks for a
repeat without end. -/
def shrink_call_loop {σ : Type} (c : fuzz_setup σ) (arg_i tactic : Nat) :
    Nat → Bool → fuzz σ → Option (Option Int × fuzz σ)
  | 0, _, _ => none
  | fuel + 1, repeated, t =>
    let args := fuzz_trial_get_args t
    let r := fuzz_call c t args
    let h := shrink_trial_post_hook c (shrink_count_result c arg_i repeated r.1 r.2) arg_i args
      tactic r.1
    if h.1 = FUZZ_HOOK_RUN_REPEAT ∨ (h.1 = FUZZ_HOOK_RUN_REPEAT_ONCE ∧ !repeated) then
      shrink_call_loop c arg_i tactic fuel true h.2
    else if h.1 = FUZZ_HOOK_RUN_REPEAT_ONCE ∧ repeated then some (some r.1, h.2)
    else if h.1 = FUZZ_HOOK_RUN_CONTINUE then some (some r.1, h.2)
    else some (none, h.2)

/-- Store an instance, and for an autoshrink argument a bit pool, in entry
`arg_i` of the trial: `t->trial.args[arg_i].instance = inst` and
`env->bit_pool = pool`. -/
def store_arg {σ : Type} (t : fuzz σ) (arg_i : Nat) (use_autoshrink : Bool)
    (inst : Option instance_t) (pool : Option autoshrink_bit_pool) : fuzz σ :=
  set_arg t arg_i
    { get_arg t arg_i with
      inst := inst
      env := if use_autoshrink then
               (get_arg t arg_i).env.map (fun e => { e with bit_pool := pool })
             else (get_arg t arg_i).env }

/-- The instance and the bit pool stored for argument `arg_i`. -/
def stored_arg {σ : Type} (t : fuzz σ) (arg_i : Nat) :
    Option instance_t × Option autoshrink_bit_pool :=
  ((get_arg t arg_i).inst, (get_arg t arg_i).env.bind (fun e => e.bit_pool))

/-- The part of one tactic of `attempt_to_shrink_arg` that follows the duplicate
check, entered with the candidate stored in the trial: the property is called,
the model is updated, and the candidate is committed or reverted to `current`
and `current_bit_pool`, the instance and pool held before the tactic.  Result:
`some r` when the function returns `r`, `none` when the loop goes on with the
next tactic. -/
def shrink_try_candidate {σ : Type} (c : fuzz_setup σ) (fuel arg_i tactic : Nat)
    (use_autoshrink : Bool) (current : Option instance_t)
    (current_bit_pool : Option autoshrink_bit_pool) (t : fuzz σ) :
    Option (Option shrink_res × fuzz σ) :=
  match shrink_call_loop c arg_i tactic fuel false t with
  | none => none
  | some (none, t1) => some (some shrink_res.SHRINK_ERROR, t1)
  | some (some res, t1) =>
    let t2 := update_model_arg c t1 arg_i res 8
    if res = FUZZ_RESULT_OK ∨ res = FUZZ_RESULT_SKIP then
      some (none, store_arg t2 arg_i use_autoshrink current current_bit_pool)
    else if res = FUZZ_RESULT_FAIL then some (some shrink_res.SHRINK_OK, t2)
    else some (some shrink_res.SHRINK_ERROR, t2)

/-- One pass of the body of the tactic loop of `attempt_to_shrink_arg`. -/
def attempt_tactic {σ : Type} (c : fuzz_setup σ) (fuel arg_i tactic : Nat) (t : fuzz σ) :
    Option (Option shrink_res × fuzz σ) :=
  match c.type_info[arg_i]? with
  | none => none
  | some ti =>
    let use_autoshrink := ti.autoshrink_config.enable
    let current := (get_arg t arg_i).inst
    let pre := shrink_pre_hook c t arg_i current tactic
    if pre.1 = FUZZ_HOOK_RUN_HALT then some (some shrink_res.SHRINK_HALT, pre.2)
    else if pre.1 ≠ FUZZ_HOOK_RUN_CONTINUE then some (some shrink_res.SHRINK_ERROR, pre.2)
    else
      let t1 := pre.2
      -- the shrink callback: result code, candidate, candidate pool, engine afterwards
      match (if use_autoshrink then
               match (get_arg t1 arg_i).env with
               | none => none
               | some as_env =>
                 match fuzz_autoshrink_shrink fuel t1.prng ti as_env tactic with
                 | none => none
                 | some (sres, cand, env1, p1) =>
                   some (sres, cand.map (fun x => x.1), cand.map (fun x => x.2),
                     set_arg { t1 with prng := p1 } arg_i
                       { get_arg t1 arg_i with env := some env1 })
             else
               match ti.shrink with
               | none => none
               | some f =>
                 some ((f (current.getD []) tactic).1, some (f (current.getD []) tactic).2, none,
                   t1)) with
      | none => none
      | some (sres, candidate, candidate_bit_pool, t2) =>
        let current_bit_pool := (stored_arg t2 arg_i).2
        let t3 := { t2 with trial := { t2.trial with shrink_count := t2.trial.shrink_count + 1 } }
        match shrink_post_hook c t3 arg_i
            (if sres = FUZZ_SHRINK_OK then candidate else current) tactic sres with
        | none => none
        | some post =>
          if post.1 ≠ FUZZ_HOOK_RUN_CONTINUE then some (some shrink_res.SHRINK_ERROR, post.2)
          else
            let t4 := post.2
            if sres = FUZZ_SHRINK_OK then
              let t5 := store_arg t4 arg_i use_autoshrink candidate candidate_bit_pool
              match t5.bloom with
              | some b =>
                if fuzz_call_check_called c t5 b then
                  some (none, store_arg t5 arg_i use_autoshrink current current_bit_pool)
                else
                  match fuzz_call_mark_called c t5 b with
                  | none => none
                  | some t6 =>
                    shrink_try_candidate c fuel arg_i tactic use_autoshrink current
                      current_bit_pool t6
              | none =>
                shrink_try_candidate c fuel arg_i tactic use_autoshrink current current_bit_pool t5
            else if sres = FUZZ_SHRINK_DEAD_END then some (none, t4)
            else if sres = FUZZ_SHRINK_NO_MORE_TACTICS then
              some (some shrink_res.SHRINK_DEAD_END, t4)
            else some (some shrink_res.SHRINK_ERROR, t4)

/-- The tactic loop of `attempt_to_shrink_arg`, from tactic number `tactic`;
the first argument bounds the number of tactics tried. -/
def attempt_to_shrink_arg_loop {σ : Type} (c : fuzz_setup σ) (fuel arg_i : Nat) :
    Nat → Nat → fuzz σ → Option (shrink_res × fuzz σ)
  | 0, _, _ => none
  | n + 1, tactic, t =>
    if tactic < FUZZ_MAX_TACTICS then
      match attempt_tactic c fuel arg_i tactic t with
      | none => none
      | some (some r, t1) => some (r, t1)
      | some (none, t1) => attempt_to_shrink_arg_loop c fuel arg_i n (tactic + 1) t1
    else some (shrink_res.SHRINK_DEAD_END, t)

/-- `attempt_to_shrink_arg(t, arg_i)`; `fuel` bounds every loop in it, and
`none` stands for a run that does not end within the bound (or stops on a
failed assertion). -/
def attempt_to_shrink_arg {σ : Type} (c : fuzz_setup σ) (fuel : Nat) (t : fuzz σ) (arg_i : Nat) :
    Option (shrink_res × fuzz σ) :=
  attempt_to_shrink_arg_loop c fuel arg_i fuel 0 t

/-- The loops of `fuzz_shrink`: `arg_i` is the argument being simplified and
`progress` the flag of the current pass.  A step is one call of
`attempt_to_shrink_arg` or one move to the next argument or pass. -/
def fuzz_shrink_loop {σ : Type} (c : fuzz_setup σ) (fuel : Nat) :
    Nat → Nat → Bool → fuzz σ → Option (Bool × fuzz σ)
  | 0, _, _, _ => none
  | n + 1, arg_i, progress, t =>
    if arg_i < c.type_info.length then
      match c.type_info[arg_i]? with
      | none => none
      | some ti =>
        if ti.shrink.isSome ∨ ti.autoshrink_config.enable then
          match attempt_to_shrink_arg c fuel t arg_i with
          | none => none
          | some (shrink_res.SHRINK_OK, t1) => fuzz_shrink_loop c fuel n arg_i true t1
          | some (shrink_res.SHRINK_HALT, t1) => some (true, t1)
          | some (shrink_res.SHRINK_DEAD_END, t1) => fuzz_shrink_loop c fuel n (arg_i + 1) progress t1
          | some (shrink_res.SHRINK_ERROR, t1) => some (false, t1)
        else fuzz_shrink_loop c fuel n (arg_i + 1) progress t
    else if progress then fuzz_shrink_loop c fuel n 0 false t
    else some (true, t)

/-- `fuzz_shrink(t)`; `none` also when `assert(t->prop.arity > 0)` fails. -/
def fuzz_shrink {σ : Type} (c : fuzz_setup σ) (fuel : Nat) (t : fuzz σ) : Option (Bool × fuzz σ) :=
  if c.type_info.length = 0 then none else fuzz_shrink_loop c fuel fuel 0 false t
/-! ## The trial scheduler -/

/-- `enum all_gen_res`. -/
inductive all_gen_res where
  | ALL_GEN_OK
  | ALL_GEN_SKIP
  | ALL_GEN_DUP
  | ALL_GEN_ERROR
deriving DecidableEq, Repr

/-- `enum run_step_res`. -/
inductive run_step_res where
  | RUN_STEP_OK
  | RUN_STEP_HALT
  | RUN_STEP_GEN_ERROR
  | RUN_STEP_TRIAL_ERROR
deriving DecidableEq, Repr

/-- `init_arg_info(t, trial_info)` for allocations that succeed: the argument
records of a new trial, which depend on the type information only. -/
def init_arg_info (type_info : List fuzz_type_info) : List arg_info :=
  (List.range type_info.length).map (fun i =>
    match type_info[i]? with
    | some ti =>
      if ti.autoshrink_config.enable then
        { inst := none, type := arg_type.ARG_AUTOSHRINK,
          env := some (fuzz_autoshrink_alloc_env i ti) }
      else { inst := none, type := arg_type.ARG_BASIC, env := none }
    | none => { inst := none, type := arg_type.ARG_BASIC, env := none })

/-- The `for` loop of `gen_all_args` from argument `i`, on the two parts of the
engine it reads and writes: the random source and `t->trial.args`.  The first
component of the result is `none` when every generator returned, else the code
the loop returns with. -/
def gen_all_args_loop (type_info : List fuzz_type_info) :
    Nat → Nat → prng_info → List arg_info → Option (Option all_gen_res × prng_info × List arg_info)
  | 0, _, p, args => some (none, p, args)
  | n + 1, i, p, args =>
    match type_info[i]? with
    | none => some (none, p, args)
    | some ti =>
      let a := args.getD i { inst := none, type := arg_type.ARG_BASIC, env := none }
      match (if ti.autoshrink_config.enable then
               match a.env with
               | none => none
               | some env =>
                 match fuzz_autoshrink_alloc p ti env with
                 | none => none
                 | some (res, inst, env1, p1) =>
                   some (res, inst, p1, args.set i { a with env := some env1 })
             else
               match ti.alloc.run p with
               | none => none
               | some (res, inst, p1) => some (res, some inst, p1, args)) with
      | none => none
      | some (res, inst, p1, args1) =>
        if res = FUZZ_RESULT_SKIP then some (some all_gen_res.ALL_GEN_SKIP, p1, args1)
        else if res = FUZZ_RESULT_ERROR then some (some all_gen_res.ALL_GEN_ERROR, p1, args1)
        else
          gen_all_args_loop type_info n (i + 1) p1
            (args1.set i
              { args1.getD i { inst := none, type := arg_type.ARG_BASIC, env := none } with
                inst := inst })

/-- `gen_all_args(t)`. -/
def gen_all_args {σ : Type} (c : fuzz_setup σ) (t : fuzz σ) : Option (all_gen_res × fuzz σ) :=
  match gen_all_args_loop c.type_info c.type_info.length 0 t.prng t.trial.args with
  | none => none
  | some (r, p, args) =>
    let t1 := { t with prng := p, trial := { t.trial with args := args } }
    match r with
    | some r => some (r, t1)
    | none =>
      match t1.bloom with
      | some b =>
        if fuzz_call_check_called c t1 b then some (all_gen_res.ALL_GEN_DUP, t1)
        else some (all_gen_res.ALL_GEN_OK, t1)
      | none => some (all_gen_res.ALL_GEN_OK, t1)

/-- The `while` loop of `report_on_failure`: the property is run again as long
as the post-trial hook asks for it. -/
def report_repeat_loop {σ : Type} (c : fuzz_setup σ) (info : hook_call) :
    Nat → Int → fuzz σ → Option (Int × fuzz σ)
  | 0, _, _ => none
  | fuel + 1, res, t =>
    if res = FUZZ_HOOK_RUN_REPEAT ∨ res = FUZZ_HOOK_RUN_REPEAT_ONCE then
      let r := fuzz_call c t info.args
      if r.1 = FUZZ_RESULT_FAIL then
        let h := call_hook c.trial_post r.2 { info with repeated := true }
        if h.1 = FUZZ_HOOK_RUN_REPEAT_ONCE then some (h.1, h.2)
        else report_repeat_loop c info fuel h.1 h.2
      else if r.1 = FUZZ_RESULT_OK then
        report_repeat_loop c info fuel FUZZ_HOOK_RUN_ERROR r.2
      else if r.1 = FUZZ_RESULT_ERROR then some (FUZZ_HOOK_RUN_ERROR, r.2)
      else some (FUZZ_HOOK_RUN_CONTINUE, r.2)
    else some (res, t)

/-- `report_on_failure(t, hook_info, trial_post, trial_post_env)`. -/
def report_on_failure {σ : Type} (c : fuzz_setup σ) (fuel : Nat) (t : fuzz σ) (info : hook_call) :
    Option (Int × fuzz σ) :=
  let ce := call_hook c.counterexample t info
  if ce.1 ≠ FUZZ_HOOK_RUN_CONTINUE then some (FUZZ_HOOK_RUN_ERROR, ce.2)
  else
    let h := call_hook c.trial_post ce.2 info
    report_repeat_loop c info fuel h.1 h.2

/-- `fuzz_trial_run(t, tpres)`: the returned flag, the value written to
`*tpres` and the engine afterwards.  `none` also when
`assert(t->prop.arity > 0)` fails, and when the property returns a value that
is none of the five result codes: `*tpres` is then left unwritten and read. -/
def fuzz_trial_run {σ : Type} (c : fuzz_setup σ) (fuel : Nat) (t : fuzz σ) :
    Option (Bool × Int × fuzz σ) :=
  if c.type_info.length = 0 then none
  else
    match (match t.bloom with
           | some b => fuzz_call_mark_called c t b
           | none => some t) with
    | none => none
    | some t0 =>
      let args := fuzz_trial_get_args t0
      let r := fuzz_call c t0 args
      let tres := r.1
      let t1 := r.2
      let info : hook_call :=
        { hook_call_of c t1 with failures := 0, args := args, result := tres }
      if tres = FUZZ_RESULT_OK then
        let t2 := { t1 with counters := { t1.counters with pass := t1.counters.pass + 1 } }
        let h := call_hook c.trial_post t2 info
        some (decide (h.1 ≠ FUZZ_HOOK_RUN_ERROR), h.1, h.2)
      else if tres = FUZZ_RESULT_FAIL then
        match fuzz_shrink c fuel t1 with
        | none => none
        | some (false, t2) =>
          let h := call_hook c.trial_post t2
            { info with result := FUZZ_RESULT_ERROR, args := args.map (fun _ => none) }
          some (false, h.1, h.2)
        | some (true, t2) =>
          let t3 := { t2 with counters := { t2.counters with fail := t2.counters.fail + 1 } }
          match report_on_failure c fuel t3 { info with args := fuzz_trial_get_args t3 } with
          | none => none
          | some (pres, t4) => some (decide (pres ≠ FUZZ_HOOK_RUN_ERROR), pres, t4)
      else if tres = FUZZ_RESULT_SKIP then
        let t2 := { t1 with counters := { t1.counters with skip := t1.counters.skip + 1 } }
        let h := call_hook c.trial_post t2 info
        some (decide (h.1 ≠ FUZZ_HOOK_RUN_ERROR), h.1, h.2)
      else if tres = FUZZ_RESULT_DUPLICATE ∨ tres = FUZZ_RESULT_ERROR then
        let h := call_hook c.trial_post t1 info
        some (false, h.1, h.2)
      else none

/-- The seed trial number `trial` runs with, as `run_step` chooses it: the
always-run seeds come first, then the run seed, then the value left in `*seed`
by the trial before. -/
def trial_seed {σ : Type} (c : fuzz_setup σ) (trial seed : Nat) : Nat :=
  if trial < c.always_seeds.length then c.always_seeds.getD trial 0
  else if c.always_seeds.length > 0 ∧ trial = c.always_seeds.length then c.run_seed
  else seed

/-- The `switch (gres)` of `run_step`, entered with the hook record `info`:
`some r` in the first component for a jump to `cleanup` with result `r`, then
the hook result `pres` and the engine. -/
def run_step_switch {σ : Type} (c : fuzz_setup σ) (fuel : Nat) (t3 : fuzz σ) (gres : all_gen_res)
    (info : hook_call) : Option (Option run_step_res × Int × fuzz σ) :=
  match gres with
  | all_gen_res.ALL_GEN_SKIP =>
    let t4 := { t3 with counters := { t3.counters with skip := t3.counters.skip + 1 } }
    let h := call_hook c.trial_post t4 { info with result := FUZZ_RESULT_SKIP }
    some (none, h.1, h.2)
  | all_gen_res.ALL_GEN_DUP =>
    let t4 := { t3 with counters := { t3.counters with dup := t3.counters.dup + 1 } }
    let h := call_hook c.trial_post t4 { info with result := FUZZ_RESULT_DUPLICATE }
    some (none, h.1, h.2)
  | all_gen_res.ALL_GEN_ERROR =>
    let h := call_hook c.trial_post t3 { info with result := FUZZ_RESULT_ERROR }
    some (some run_step_res.RUN_STEP_GEN_ERROR, h.1, h.2)
  | all_gen_res.ALL_GEN_OK =>
    let tp := call_hook c.trial_pre t3 (hook_call_of c t3)
    if c.trial_pre.isSome ∧ tp.1 = FUZZ_HOOK_RUN_HALT then
      some (some run_step_res.RUN_STEP_HALT, tp.1, tp.2)
    else if c.trial_pre.isSome ∧ tp.1 = FUZZ_HOOK_RUN_ERROR then
      some (some run_step_res.RUN_STEP_TRIAL_ERROR, tp.1, tp.2)
    else
      match fuzz_trial_run c fuel tp.2 with
      | none => none
      | some (false, pres, t5) => some (some run_step_res.RUN_STEP_TRIAL_ERROR, pres, t5)
      | some (true, pres, t5) => some (none, pres, t5)

/-- `run_step(t, trial, seed)`: the step result, the value of `*seed` after the
call, and the engine afterwards (the trial record is still in place).  `none`
also when `pre_gen_args` returns a code that reaches `assert(false)`. -/
def run_step {σ : Type} (c : fuzz_setup σ) (fuel : Nat) (t : fuzz σ) (trial seed : Nat) :
    Option (run_step_res × Nat × fuzz σ) :=
  let seed1 := trial_seed c trial seed
  let t1 : fuzz σ :=
    { t with trial := { trial_info_zero with trial := trial, seed := seed1,
                                             args := init_arg_info c.type_info } }
  let pre := call_hook c.pre_gen_args t1 (hook_call_of c t1)
  if pre.1 = FUZZ_HOOK_RUN_HALT then some (run_step_res.RUN_STEP_HALT, seed1, pre.2)
  else if pre.1 = FUZZ_HOOK_RUN_ERROR then some (run_step_res.RUN_STEP_GEN_ERROR, seed1, pre.2)
  else if pre.1 ≠ FUZZ_HOOK_RUN_CONTINUE then none
  else
    let t2 := { pre.2 with prng := fuzz_random_set_seed pre.2.prng seed1 }
    match gen_all_args c t2 with
    | none => none
    | some (gres, t3) =>
      let info : hook_call :=
        { hook_call_of c t3 with run_seed := seed1, trial_id := trial, trial_seed := seed1,
                                 args := fuzz_trial_get_args t3 }
      match run_step_switch c fuel t3 gres info with
      | none => none
      | some (some r, _, t6) => some (r, seed1, t6)
      | some (none, pres, t6) =>
        if pres = FUZZ_HOOK_RUN_ERROR then
          some (run_step_res.RUN_STEP_TRIAL_ERROR, seed1, t6)
        else
          match fuzz_random_bits t6.prng 64 with
          | none => none
          | some (v, p1) => some (run_step_res.RUN_STEP_OK, v, { t6 with prng := p1 })

/-- The trial loop of `fuzz_run_trials`; the first argument counts the trials
that remain.  Result: `true` when the loop ends normally or by a halt, `false`
when it jumps to `cleanup`; the seeds of the trials that were started, in
order; and the engine afterwards. -/
def fuzz_run_trials_loop {σ : Type} (c : fuzz_setup σ) (fuel : Nat) :
    Nat → Nat → Nat → fuzz σ → Option (Bool × List Nat × fuzz σ)
  | 0, _, _, t => some (true, [], t)
  | n + 1, trial, seed, t =>
    match run_step c fuel t trial seed with
    | none => none
    | some (res, seed1, t1) =>
      let t2 := { t1 with trial := trial_info_zero }
      match res with
      | run_step_res.RUN_STEP_OK =>
        match fuzz_run_trials_loop c fuel n (trial + 1) seed1 t2 with
        | none => none
        | some (ok, seeds, t3) => some (ok, trial_seed c trial seed :: seeds, t3)
      | run_step_res.RUN_STEP_HALT => some (true, [trial_seed c trial seed], t2)
      | _ => some (false, [trial_seed c trial seed], t2)

/-- `fuzz_run_trials(t)`: the result code, and with it the seeds of the trials
that were started. -/
def fuzz_run_trials {σ : Type} (c : fuzz_setup σ) (fuel : Nat) (t : fuzz σ) :
    Option (Int × List Nat × fuzz σ) :=
  let pre := call_hook c.pre_run t (hook_call_of c t)
  if pre.1 ≠ FUZZ_HOOK_RUN_CONTINUE then some (FUZZ_RESULT_ERROR, [], pre.2)
  else
    match fuzz_run_trials_loop c fuel c.trial_count 0 c.run_seed pre.2 with
    | none => none
    | some (false, seeds, t1) => some (FUZZ_RESULT_ERROR, seeds, t1)
    | some (true, seeds, t1) =>
      let post := call_hook c.post_run t1 (hook_call_of c t1)
      if post.1 ≠ FUZZ_HOOK_RUN_CONTINUE then some (FUZZ_RESULT_ERROR, seeds, post.2)
      else if post.2.counters.fail > 0 then some (FUZZ_RESULT_FAIL, seeds, post.2)
      else if post.2.counters.pass > 0 then some (FUZZ_RESULT_OK, seeds, post.2)
      else some (FUZZ_RESULT_SKIP, seeds, post.2)

/-- The engine `fuzz_run_init` builds for a configuration it accepts (one to
seven arguments, none with both autoshrink and a `shrink` callback): the
generator seeded with the run seed, a duplicate filter when every argument can
be hashed, zeroed counters.  `none` stands for `FUZZ_RUN_INIT_ERROR_BAD_ARGS`. -/
def fuzz_run_init {σ : Type} (c : fuzz_setup σ) (env : σ) : Option (fuzz σ) :=
  if c.type_info.length = 0 ∨ c.type_info.length > FUZZ_MAX_ARITY then none
  else if c.type_info.any (fun ti => ti.autoshrink_config.enable && ti.shrink.isSome) then none
  else
    let rng0 : fuzz_rng := fuzz_rng_reset { mt := List.replicate NN 0, mti := 0 } DEFAULT_uint64_t
    let p0 : prng_info := { rng := rng0, buf := 0, bits_available := 0, bit_pool := none }
    let all_hashable :=
      c.type_info.all (fun ti => ti.hash.isSome || ti.autoshrink_config.enable)
    some
      { bloom := if all_hashable then some (fuzz_bloom_init 0 0) else none
        prng := fuzz_random_set_seed p0 c.run_seed
        counters := { pass := 0, fail := 0, skip := 0, dup := 0 }
        trial := trial_info_zero
        env := env }
/-! ## Observations and example configurations -/

/-- The seeds of the trials of a whole run, in order: `fuzz_run_init` followed
by `fuzz_run_trials`. -/
def trial_seeds {σ : Type} (c : fuzz_setup σ) (fuel : Nat) (env : σ) : Option (List Nat) :=
  match fuzz_run_init c env with
  | none => none
  | some t => (fuzz_run_trials c fuel t).map (fun r => r.2.1)

/-- Type information of an argument that is one random byte: the generator asks
for eight bits.  With `autoshrink` set the argument is shrunk by the engine
(`max_failed_shrinks` is 1), else it is not shrunk at all. -/
def byte_type_info (autoshrink : Bool) : fuzz_type_info :=
  { alloc := gen.bits 8 (fun v => gen.ret FUZZ_RESULT_OK [v])
    has_free := true
    hash := none
    shrink := none
    autoshrink_config :=
      { enable := autoshrink, pool_size := 0, print_mode := 0, max_failed_shrinks := 1 } }

/-- A pre-gen-args hook that halts the run when trial number `k` is reached. -/
def halt_at_trial (k : Nat) : Unit → hook_call → Int × Unit :=
  fun s info => (if info.trial_id = k then FUZZ_HOOK_RUN_HALT else FUZZ_HOOK_RUN_CONTINUE, s)

/-- A run over one random byte with the default seed and no always-run seeds,
whose property returns `res` on every input.  The pre-gen-args hook halts the
run when trial 1 is reached, after its seed has been chosen; the other hooks
are the default ones. -/
def byte_setup (autoshrink : Bool) (res : Int) (trials : Nat) : fuzz_setup Unit :=
  { prop := fun s _ => (res, s)
    trial_count := trials
    type_info := [byte_type_info autoshrink]
    run_seed := DEFAULT_uint64_t
    always_seeds := []
    pre_run := none
    post_run := none
    pre_gen_args := some (halt_at_trial 1)
    trial_pre := none
    trial_post := none
    counterexample := none
    shrink_pre := none
    shrink_post := none
    shrink_trial_post := none }

/-- Type information of an argument with a `shrink` callback that proposes the
instance `[1]` for every tactic. -/
def shrink_demo_type_info : fuzz_type_info :=
  { alloc := gen.ret FUZZ_RESULT_OK [2]
    has_free := false
    hash := none
    shrink := some (fun _ _ => (FUZZ_SHRINK_OK, [1]))
    autoshrink_config := { enable := false, pool_size := 0, print_mode := 0, max_failed_shrinks := 0 } }

/-- A setup over `shrink_demo_type_info`: the property returns `res` on every
input and counts its calls in the user environment, and the post-shrink-trial
hook returns `hook`. -/
def shrink_demo_setup (res hook : Int) : fuzz_setup Nat :=
  { prop := fun s _ => (res, s + 1)
    trial_count := 1
    type_info := [shrink_demo_type_info]
    run_seed := DEFAULT_uint64_t
    always_seeds := []
    pre_run := none
    post_run := none
    pre_gen_args := none
    trial_pre := none
    trial_post := none
    counterexample := none
    shrink_pre := none
    shrink_post := none
    shrink_trial_post := some (fun s _ => (hook, s)) }

/-- An engine in the middle of a trial whose only argument is the instance
`[2]`; the property has not been called yet. -/
def shrink_demo_state : fuzz Nat :=
  { bloom := none
    prng := { rng := { mt := List.replicate NN 0, mti := NN + 1 }, buf := 0, bits_available := 0,
              bit_pool := none }
    counters := { pass := 0, fail := 0, skip := 0, dup := 0 }
    trial := { trial_info_zero with
               args := [{ inst := some [2], type := arg_type.ARG_BASIC, env := none }] }
    env := 0 }

/-! ## Well-formed pools of a generation pass -/

/-- The state of a pool during a generation pass (`shrinking` is `false`): the
cursor is inside the filled part, which is inside the buffer, both sizes are
whole 64-bit words, the buffer is not empty and the cursor has not passed the
limit. -/
def pool_inv (pool : autoshrink_bit_pool) : Prop :=
  pool.shrinking = false ∧ pool.consumed ≤ pool.limit ∧ pool.consumed ≤ pool.bits_filled ∧
    pool.bits_filled ≤ pool.bits_ceil ∧ pool.bits_filled % 64 = 0 ∧ pool.bits_ceil % 64 = 0 ∧
    0 < pool.bits_ceil

instance (pool : autoshrink_bit_pool) : Decidable (pool_inv pool) := by
  unfold pool_inv; infer_instance

/-! ## Bounds of the model weights -/

/-- The bounds `adjust` is called with: the drop weight lies between `DROPS_MIN`
and `DROPS_MAX`, the weights of shift, mask, swap and sub between `MODEL_MIN`
and `MODEL_MAX`. -/
def weights_in_bounds (m : autoshrink_model) : Prop :=
  (DROPS_MIN ≤ m.weights.getD WEIGHT_DROP 0 ∧ m.weights.getD WEIGHT_DROP 0 ≤ DROPS_MAX) ∧
  (MODEL_MIN ≤ m.weights.getD WEIGHT_SHIFT 0 ∧ m.weights.getD WEIGHT_SHIFT 0 ≤ MODEL_MAX) ∧
  (MODEL_MIN ≤ m.weights.getD WEIGHT_MASK 0 ∧ m.weights.getD WEIGHT_MASK 0 ≤ MODEL_MAX) ∧
  (MODEL_MIN ≤ m.weights.getD WEIGHT_SWAP 0 ∧ m.weights.getD WEIGHT_SWAP 0 ≤ MODEL_MAX) ∧
  (MODEL_MIN ≤ m.weights.getD WEIGHT_SUB 0 ∧ m.weights.getD WEIGHT_SUB 0 ≤ MODEL_MAX)

instance (m : autoshrink_model) : Decidable (weights_in_bounds m) := by
  unfold weights_in_bounds; infer_instance

/-! ## Further example configurations -/

/-- A run in the manner of `introduction-2/main.c`, which hands a corpus to
`always_seeds`: two always-run seeds, a run seed, and a pre-gen-args hook that
halts the run when trial 2 is reached. -/
def corpus_setup (res : Int) : fuzz_setup Unit :=
  { byte_setup false res 5 with
    run_seed := 13
    always_seeds := [11, 12]
    pre_gen_args := some (halt_at_trial 2) }

/-- An engine between trials, with zeroed counters and a generator that has not
been seeded yet. -/
def byte_state : fuzz Unit :=
  { bloom := none
    prng := { rng := { mt := List.replicate NN 0, mti := NN + 1 }, buf := 0, bits_available := 0,
              bit_pool := none }
    counters := { pass := 0, fail := 0, skip := 0, dup := 0 }
    trial := trial_info_zero
    env := () }

/-! ## Built-in generators (`fuzz_get_builtin_type_info`) -/

/-- `BITS_USE_SPECIAL`. -/
def BITS_USE_SPECIAL : Nat := 3

/-- `bool_alloc(t, env, instance)`: the result code, `*res` and the engine's
random source. -/
def bool_alloc (p : prng_info) : Option (Int × Bool × prng_info) :=
  match fuzz_random_bits p 1 with
  | none => none
  | some (v, p1) => some (FUZZ_RESULT_OK, decide (v ≠ 0), p1)

/-- The first statement of the scalar generators: with probability 1/8 one of
the special values, else `BITS` random bits. -/
def scalar_draw (bits : Nat) (count : Nat) (p : prng_info) : Option ((Nat ⊕ Nat) × prng_info) :=
  match fuzz_random_bits p BITS_USE_SPECIAL with
  | none => none
  | some (s, p1) =>
    if (1 <<< BITS_USE_SPECIAL) - 1 = s then
      match fuzz_random_bits p1 8 with
      | none => none
      | some (i, p2) => some (Sum.inl (i % count), p2)
    else
      match fuzz_random_bits p1 bits with
      | none => none
      | some (v, p2) => some (Sum.inr v, p2)

/-- The macro `ALLOC_USCALAR(NAME, TYPE, BITS, ...)`, with `BITS` the width of
`TYPE` and `special` the list of special values; `env` is the limit (`none` for
`NULL`).  `none` when `assert(limit != 0)` fails. -/
def ALLOC_USCALAR (bits : Nat) (special : List Nat) (env : Option Nat) (p : prng_info) :
    Option (Int × Nat × prng_info) :=
  match scalar_draw bits special.length p with
  | none => none
  | some (d, p1) =>
    let res : Nat :=
      match d with
      | Sum.inl idx => special.getD idx 0 % 2 ^ bits
      | Sum.inr v => v % 2 ^ bits
    match env with
    | none => some (FUZZ_RESULT_OK, res, p1)
    | some limit => if limit = 0 then none else some (FUZZ_RESULT_OK, res % limit, p1)

/-- Conversion of an unsigned value to the signed type of `bits` bits (two's
complement). -/
def to_signed (bits : Nat) (v : Nat) : Int :=
  if v % 2 ^ bits ≥ 2 ^ (bits - 1) then (v % 2 ^ bits : Int) - 2 ^ bits else (v % 2 ^ bits : Int)

/-- The macro `ALLOC_SSCALAR(NAME, TYPE, BITS, ...)`; `%` of C truncates
towards zero.  `none` when `assert(limit > 0)` fails.  For the least value of
the type and `limit = 1` the C expression `res % (-limit)` overflows; here it
is 0. -/
def ALLOC_SSCALAR (bits : Nat) (special : List Int) (env : Option Int) (p : prng_info) :
    Option (Int × Int × prng_info) :=
  match scalar_draw bits special.length p with
  | none => none
  | some (d, p1) =>
    let res : Int :=
      match d with
      | Sum.inl idx => special.getD idx 0
      | Sum.inr v => to_signed bits v
    match env with
    | none => some (FUZZ_RESULT_OK, res, p1)
    | some limit =>
      if ¬ limit > 0 then none
      else if res < -limit then some (FUZZ_RESULT_OK, Int.tmod res (-limit), p1)
      else if res ≥ limit then some (FUZZ_RESULT_OK, Int.tmod res limit, p1)
      else some (FUZZ_RESULT_OK, res, p1)

/-- The loop of `char_ARRAY_alloc`: `res` holds the `size` bytes written so
far; the first argument bounds the number of iterations, and `none` stands for
a loop that has not ended by then.  The reallocation that doubles `ceil`
succeeds and is not observable. -/
def char_ARRAY_alloc_loop (max_length : Option Nat) :
    Nat → List Nat → prng_info → Option (Int × List Nat × prng_info)
  | 0, _, _ => none
  | fuel + 1, res, p =>
    if max_length = some (res.length + 1) then some (FUZZ_RESULT_OK, res ++ [0], p)
    else
      match fuzz_random_bits p 8 with
      | none => none
      | some (v, p1) =>
        let byte := v % 256
        if byte = 0x00 then some (FUZZ_RESULT_OK, res ++ [byte], p1)
        else char_ARRAY_alloc_loop max_length fuel (res ++ [byte]) p1

/-- `char_ARRAY_alloc(t, env, instance)`: the instance is the byte string
with its terminator; `env` is the maximal length (`none` for `NULL`).  `none`
also when `assert(*max_length > 0)` fails. -/
def char_ARRAY_alloc (fuel : Nat) (env : Option Nat) (p : prng_info) :
    Option (Int × List Nat × prng_info) :=
  if env = some 0 then none else char_ARRAY_alloc_loop env fuel [] p

/-- Every request of 1 to 64 bits made from this state on returns `0`. -/
def zero_bits_forever (p : prng_info) : Prop :=
  ∀ ns : List Nat, (∀ n ∈ ns, 1 ≤ n ∧ n ≤ 64) →
    fuzz_random_bits_seq p ns = some (ns.map (fun _ => 0))

/-- The instances of `ALLOC_USCALAR` and `ALLOC_SSCALAR`, with the special
values as values of the type; `unsigned int` and `int` have 32 bits and
`size_t` has 64. -/
def uint_alloc : Option Nat → prng_info → Option (Int × Nat × prng_info) :=
  ALLOC_USCALAR 32 [0, 1, 2, 3, 4, 5, 6, 7, 63, 64, 127, 128, 129, 255, 2 ^ 32 - 2, 2 ^ 32 - 1]

def uint8_t_alloc : Option Nat → prng_info → Option (Int × Nat × prng_info) :=
  ALLOC_USCALAR 8 [0, 1, 2, 3, 4, 5, 6, 7, 63, 64, 65, 127, 128, 129, 254, 255]

def uint16_t_alloc : Option Nat → prng_info → Option (Int × Nat × prng_info) :=
  ALLOC_USCALAR 16
    [0, 1, 2, 3, 4, 5, 6, 255, 256, 1024, 4096, 16384, 32768, 32769, 65534, 65535]

def uint32_t_alloc : Option Nat → prng_info → Option (Int × Nat × prng_info) :=
  ALLOC_USCALAR 32
    [0, 1, 2, 3, 4, 5, 6, 255, 2 ^ 8, 2 ^ 8 + 1, 2 ^ 16 - 1, 2 ^ 16, 2 ^ 16 + 1, 2 ^ 19, 2 ^ 22,
      2 ^ 32 - 1]

def uint64_t_alloc : Option Nat → prng_info → Option (Int × Nat × prng_info) :=
  ALLOC_USCALAR 64
    [0, 1, 2, 3, 4, 5, 6, 255, 2 ^ 8, 2 ^ 16, 2 ^ 32, 2 ^ 32 + 1, 2 ^ 53, 2 ^ 53 + 1,
      2 ^ 64 - 2, 2 ^ 64 - 1]

def size_t_alloc : Option Nat → prng_info → Option (Int × Nat × prng_info) :=
  ALLOC_USCALAR 64 [0, 1, 2, 3, 4, 5, 6, 255, 256, 2 ^ 64 - 2, 2 ^ 64 - 1]

def int_alloc : Option Int → prng_info → Option (Int × Int × prng_info) :=
  ALLOC_SSCALAR 32 [0, 1, 2, 3, -1, -2, -3, -4, -2 ^ 31 + 1, -2 ^ 31, 2 ^ 31 - 2, 2 ^ 31 - 1]

def int8_t_alloc : Option Int → prng_info → Option (Int × Int × prng_info) :=
  ALLOC_SSCALAR 8 [0, 1, 2, 3, -1, -2, -3, -4, 63, 64, 65, 127, -128, -127, -2, -1]

def int16_t_alloc : Option Int → prng_info → Option (Int × Int × prng_info) :=
  ALLOC_SSCALAR 16
    [0, 1, 2, 3, 4, 5, 6, 255, 256, 1024, 4096, 16384, -32768, -32767, -2, -1]

def int32_t_alloc : Option Int → prng_info → Option (Int × Int × prng_info) :=
  ALLOC_SSCALAR 32
    [0, 1, 2, 3, 4, 5, 6, 255, 2 ^ 8, 2 ^ 8 + 1, 2 ^ 16 - 1, 2 ^ 16, 2 ^ 16 + 1, 2 ^ 19, 2 ^ 22,
      -1]

def int64_t_alloc : Option Int → prng_info → Option (Int × Int × prng_info) :=
  ALLOC_SSCALAR 64
    [0, 1, 2, 3, 4, 5, 6, 255, 2 ^ 8, 2 ^ 16, 2 ^ 32, 2 ^ 32 + 1, 2 ^ 53, 2 ^ 53 + 1, -2, -1]

/-- A random source whose injected pool is at its limit (`consumed = limit = 0`,
in a shrinking pass). -/
def exhausted_source : prng_info :=
  { rng := { mt := List.replicate NN 0, mti := NN + 1 }, buf := 0, bits_available := 0,
    bit_pool := some { alloc_bit_pool 64 0 16 with shrinking := true } }

/-! ## Comparing a shrink candidate with the original pool -/

/-- Lexicographic "not greater" on lists of numbers: the first position where
the lists differ decides, and a proper prefix is smaller. -/
def lex_le : List Nat → List Nat → Bool
  | [], _ => true
  | _ :: _, [] => false
  | a :: as, b :: bs => decide (a < b) || (decide (a = b) && lex_le as bs)

/-- The bits of `pool` at the positions of the requests of `orig`, one number
per request (`read_bits_at_offset` at `offset_of_pos`), in request order. -/
def request_values (orig pool : autoshrink_bit_pool) : List Nat :=
  (List.range orig.request_count).map
    (fun i => read_bits_at_offset pool (offset_of_pos orig i) (orig.requests.getD i 0))

/-- The requests of `orig` are at most 64 bits wide, `offset_of_pos` is the sum
of the widths before a request, and all requests lie inside a buffer of `len`
bytes. -/
def windows_ok (orig : autoshrink_bit_pool) (len : Nat) : Prop :=
  (∀ i, i < orig.request_count → offset_of_pos orig i = (orig.requests.take i).sum) ∧
    (∀ r ∈ orig.requests, r ≤ 64) ∧ orig.requests.sum ≤ 8 * len

/-- The protocol of `uint16_t_alloc` without a limit (`env` is `NULL`), as a
generator the engine can run: three bits choose between a special value and 16
random bits. -/
def uint16_t_gen : gen :=
  gen.bits BITS_USE_SPECIAL (fun s =>
    if (1 <<< BITS_USE_SPECIAL) - 1 = s then
      gen.bits 8 (fun i =>
        gen.ret FUZZ_RESULT_OK
          [([0, 1, 2, 3, 4, 5, 6, 255, 256, 1024, 4096, 16384, 32768, 32769, 65534, 65535] :
            List Nat).getD (i % 16) 0 % 2 ^ 16])
    else gen.bits 16 (fun v => gen.ret FUZZ_RESULT_OK [v % 2 ^ 16]))

/-- The row of `uint16_t` in the table of built-in type information: autoshrink
is enabled, and there is no `hash` or `shrink` callback. -/
def uint16_t_type_info : fuzz_type_info :=
  { alloc := uint16_t_gen
    has_free := true
    hash := none
    shrink := none
    autoshrink_config := { enable := true, pool_size := 0, print_mode := 0, max_failed_shrinks := 0 } }

/-- A pool as a generation pass of `uint16_t_alloc` leaves it when the first
64-bit word drawn is `0xFF010F`: three bits `7` (a special value is used) and
eight bits `33` (its index) are consumed. -/
def special_pool : autoshrink_bit_pool :=
  { alloc_bit_pool DEF_POOL_SIZE DEF_POOL_LIMIT DEF_REQUESTS_CEIL with
    bits := store_u64 (alloc_bit_pool DEF_POOL_SIZE DEF_POOL_LIMIT DEF_REQUESTS_CEIL).bits 0 0xFF010F
    bits_filled := 64
    consumed := 11
    requests := [3, 8] }

/-- The autoshrink environment of that argument. -/
def special_env : autoshrink_env :=
  { fuzz_autoshrink_alloc_env 0 uint16_t_type_info with bit_pool := some special_pool }

/-- A random source in the middle of a 64-bit word, whose next bits make
`fuzz_autoshrink_shrink` mutate (not drop) and shift both requests right by
one. -/
def two_shifts_source : prng_info :=
  { rng := { mt := List.replicate NN 0, mti := NN + 1 }, buf := 0x1000001FF, bits_available := 64,
    bit_pool := none }

/-- The candidate pool `fuzz_autoshrink_shrink` makes of `special_pool` with
`two_shifts_source`. -/
def special_candidate : autoshrink_bit_pool :=
  { bits := [0x83, 0x00, 0xFF, 0, 0, 0, 0, 0]
    shrinking := true
    bits_filled := 24
    bits_ceil := 64
    limit := 24
    consumed := 19
    request_ceil := DEF_REQUESTS_CEIL
    requests := [3, 16]
    generation := 1
    index := none }

/-! ## UTF-8 encoding and decoding (`src/introduction-2/utf8.c`) -/

/-- `ENCODING_CODEPOINT_ERROR`: the Unicode replacement character U+FFFD. -/
def ENCODING_CODEPOINT_ERROR : Nat := 0xfffd

def ENCODING_INVALID_ARGUMENT : Int := -2

def ENCODING_BUFFER_TOO_SMALL : Int := -3

/-- `utf8_replacement[]`. -/
def utf8_replacement : List Nat := [0xef, 0xbf, 0xbd]

/-- `encoded_size_table[]`, row by row as in the source. -/
def encoded_size_table : List Nat := [
  1, 1, 1, 1, 1, 1, 1, 1, 1, 1, 1, 1, 1, 1, 1, 1, 1, 1, 1, 1, 1,
  1, 1, 1, 1, 1, 1, 1, 1, 1, 1, 1, 1, 1, 1, 1, 1, 1, 1, 1, 1, 1,
  1, 1, 1, 1, 1, 1, 1, 1, 1, 1, 1, 1, 1, 1, 1, 1, 1, 1, 1, 1, 1,
  1, 1, 1, 1, 1, 1, 1, 1, 1, 1, 1, 1, 1, 1, 1, 1, 1, 1, 1, 1, 1,
  1, 1, 1, 1, 1, 1, 1, 1, 1, 1, 1, 1, 1, 1, 1, 1, 1, 1, 1, 1, 1,
  1, 1, 1, 1, 1, 1, 1, 1, 1, 1, 1, 1, 1, 1, 1, 1, 1, 1, 1, 1, 1,
  1, 1, 1, 1, 1, 1, 1, 1, 1, 1, 1, 1, 1, 1, 1, 1, 1, 1, 1, 1, 1,
  1, 1, 1, 1, 1, 1, 1, 1, 1, 1, 1, 1, 1, 1, 1, 1, 1, 1, 1, 1, 1,
  1, 1, 1, 1, 1, 1, 1, 1, 1, 1, 1, 1, 1, 1, 1, 1, 1, 1, 1, 1, 1,
  1, 1, 1, 1, 1, 2, 2, 2, 2, 2, 2, 2, 2, 2, 2, 2, 2, 2, 2, 2, 2,
  2, 2, 2, 2, 2, 2, 2, 2, 2, 2, 2, 2, 2, 2, 3, 3, 3, 3, 3, 3, 3,
  3, 3, 3, 3, 3, 3, 3, 3, 3, 4, 4, 4, 4, 4, 1, 1, 1, 1, 1, 1, 1,
  1, 1, 1, 1]

/-- `encoded_size_table[b]` for a byte `b` (a value below 256). -/
def encoded_size_at (b : Nat) : Nat := encoded_size_table.getD b 0

/-- `utf8_codepoint_size(cp)`. -/
def utf8_codepoint_size (cp : Nat) : Nat :=
  if cp ≤ 0x7F then 1
  else if cp ≤ 0x07FF then 2
  else if cp ≤ 0xFFFF then 3
  else if cp ≤ 0x10FFFF then 4
  else 0

/-- The conversion `(int)x` of a `size_t` value to the 32-bit `int`. -/
def to_int (x : Nat) : Int := to_signed 32 x

/-- The `for` loop of `utf8_encoded_length`; `result` is a `size_t`. -/
def utf8_encoded_length_loop : List Nat → Nat → Nat
  | [], result => result
  | cp :: rest, result =>
    let size := utf8_codepoint_size cp
    let size := if size = 0 then 3 else size
    utf8_encoded_length_loop rest ((result + size) % 2 ^ 64)

/-- `utf8_encoded_length(str_len, str)`; `str` lists the `str_len` code points
the pointer refers to. -/
def utf8_encoded_length (str : List Nat) : Nat :=
  if str.length = 0 then 0 else utf8_encoded_length_loop str 0

/-- `utf8_codepoint_encode(cp, out_len, out)`: the return value and the buffer
afterwards.  `bytes` is the caller's buffer and `off` the index in it that the
pointer `out` refers to, so `bytes[k]` of the source is index `off + k`. -/
def utf8_codepoint_encode (cp out_len : Nat) (bytes : List Nat) (off : Nat) : Int × List Nat :=
  let size := utf8_codepoint_size cp
  if out_len < size then (ENCODING_BUFFER_TOO_SMALL, bytes)
  else if size = 1 then (to_int size, bytes.set off (cp % 256))
  else if size = 2 then
    (to_int size,
      (bytes.set off ((((cp >>> 6) &&& 0x1f) ||| 0xc0) % 256)).set (off + 1)
        ((((cp >>> 0) &&& 0x3f) ||| 0x80) % 256))
  else if size = 3 then
    (to_int size,
      ((bytes.set off ((((cp >>> 12) &&& 0x0f) ||| 0xe0) % 256)).set (off + 1)
        ((((cp >>> 6) &&& 0x3f) ||| 0x80) % 256)).set (off + 2)
        ((((cp >>> 0) &&& 0x3f) ||| 0x80) % 256))
  else if size = 4 then
    (to_int size,
      (((bytes.set off ((((cp >>> 18) &&& 0x07) ||| 0xf0) % 256)).set (off + 1)
        ((((cp >>> 12) &&& 0x3f) ||| 0x80) % 256)).set (off + 2)
        ((((cp >>> 6) &&& 0x3f) ||| 0x80) % 256)).set (off + 3)
        ((((cp >>> 0) &&& 0x3f) ||| 0x80) % 256))
  else if out_len < 3 then (ENCODING_BUFFER_TOO_SMALL, bytes)
  else
    (3, ((bytes.set off (utf8_replacement.getD 0 0)).set (off + 1)
      (utf8_replacement.getD 1 0)).set (off + 2) (utf8_replacement.getD 2 0))

/-- The `for` loop of `utf8_encode` over the remaining code points.  `j` is a
`size_t`: the `int` an inner call returns is converted to `size_t` before it
is added, and `out_len - j` is a `size_t` difference.  The last component
collects the values the inner calls returned, in call order. -/
def utf8_encode_loop (out_len : Nat) : List Nat → Nat → List Nat → List Int →
    Nat × List Nat × List Int
  | [], j, out, rets => (j, out, rets)
  | cp :: rest, j, out, rets =>
    let r := utf8_codepoint_encode cp ((out_len + 2 ^ 64 - j) % 2 ^ 64) out j
    utf8_encode_loop out_len rest ((j + (r.1 % (2 ^ 64 : Int)).toNat) % 2 ^ 64) r.2
      (rets ++ [r.1])

/-- `utf8_encode(str_len, str, out_len, out)`: the return value and the output
buffer afterwards; `str` lists the `str_len` code points. -/
def utf8_encode (str : List Nat) (out_len : Nat) (out : List Nat) : Int × List Nat :=
  if str.length = 0 then (0, out)
  else
    let encoded_size := utf8_encoded_length str
    if encoded_size > out_len then (ENCODING_BUFFER_TOO_SMALL, out)
    else
      let r := utf8_encode_loop out_len str 0 out []
      (to_int r.1, r.2.1)

/-- The `while` loop of `utf8_decoded_length` from index `i`; the first argument
bounds the number of iterations. -/
def utf8_decoded_length_loop (str : List Nat) : Nat → Nat → Nat → Option Nat
  | 0, i, result => if i < str.length then none else some result
  | fuel + 1, i, result =>
    if i < str.length then
      utf8_decoded_length_loop str fuel (i + encoded_size_at (str.getD i 0)) (result + 1)
    else some result

/-- `utf8_decoded_length(str_len, str)`; `str` lists the `str_len` bytes. -/
def utf8_decoded_length (str : List Nat) : Option Nat :=
  if str.length = 0 then some 0 else utf8_decoded_length_loop str str.length 0 0

/-- `utf8_codepoint_decode(str_len, str, size)`: the return value and the value
stored in `*size`.  `str` lists the `str_len` bytes from the pointer on; the
test `str_len < len` keeps every read inside them. -/
def utf8_codepoint_decode (str : List Nat) : Nat × Nat :=
  if str.length = 0 then (ENCODING_CODEPOINT_ERROR, 3)
  else
    let len := encoded_size_at (str.getD 0 0)
    if str.length < len then (ENCODING_CODEPOINT_ERROR, 3)
    else if len = 2 then
      if !is_continuation (str.getD 1 0) then (ENCODING_CODEPOINT_ERROR, 3)
      else (((0x1f &&& str.getD 0 0) <<< 6) ||| (0x3f &&& str.getD 1 0), 2)
    else if len = 3 then
      let ranges := (str.getD 1 0 ≥ 0xa0 && str.getD 1 0 ≤ 0xbf) ||
        (str.getD 1 0 ≥ 0x80 && str.getD 1 0 ≤ 0x9f)
      if !is_continuation (str.getD 2 0) || !ranges then (ENCODING_CODEPOINT_ERROR, 3)
      else
        (((0x0f &&& str.getD 0 0) <<< 12) ||| ((0x3f &&& str.getD 1 0) <<< 6) |||
          (0x3f &&& str.getD 2 0), 3)
    else if len = 4 then
      let byte2checks := is_continuation (str.getD 1 0) ||
        (str.getD 1 0 ≥ 0x90 && str.getD 1 0 ≤ 0xbf) ||
        (str.getD 1 0 ≥ 0x80 && str.getD 1 0 ≤ 0x8f)
      if !is_continuation (str.getD 2 0) || !is_continuation (str.getD 3 0) || !byte2checks then
        (ENCODING_CODEPOINT_ERROR, 3)
      else
        (((0x07 &&& str.getD 0 0) <<< 18) ||| ((0x3f &&& str.getD 1 0) <<< 12) |||
          ((0x3f &&& str.getD 2 0) <<< 6) ||| (0x3f &&& str.getD 3 0), 4)
    else if str.getD 0 0 ≥ 0x7f then (ENCODING_CODEPOINT_ERROR, 3)
    else (str.getD 0 0, 1)

/-- The `while` loop of `utf8_decode` from the state `(i, j, out)`: the value
of `truncated` and the state when the loop is left.  Every iteration adds the
width the inner call stored in `len` to `i`; the first argument bounds the
number of iterations. -/
def utf8_decode_loop (str : List Nat) (out_len : Nat) :
    Nat → Nat → Nat → List Nat → Option (Bool × Nat × Nat × List Nat)
  | 0, i, j, out => if i < str.length ∧ j < out_len then none else some (false, i, j, out)
  | fuel + 1, i, j, out =>
    if i < str.length ∧ j < out_len then
      let len := encoded_size_at (str.getD i 0)
      if i + len > str.length then some (true, i, j, out)
      else
        let r := utf8_codepoint_decode (str.drop i)
        utf8_decode_loop str out_len fuel (i + r.2) (j + 1) (out.set j r.1)
    else some (false, i, j, out)

/-- `utf8_decode(str_len, str, out_len, out)`: the return value and the output
buffer afterwards; `str` lists the `str_len` bytes. -/
def utf8_decode (str : List Nat) (out_len : Nat) (out : List Nat) : Option (Int × List Nat) :=
  if str.length = 0 then some (0, out)
  else if out_len = 0 then some (ENCODING_BUFFER_TOO_SMALL, out)
  else
    match utf8_decode_loop str out_len str.length 0 0 out with
    | none => none
    | some (truncated, i, _, out1) =>
      if i < str.length then
        let out2 := (List.range out_len).foldl (fun o k => o.set k 0) out1
        if truncated then some (ENCODING_INVALID_ARGUMENT, out2)
        else some (ENCODING_BUFFER_TOO_SMALL, out2)
      else some (0, out1)

/-! ## The reference hash and example pools for the pool hash -/

/-- The published 64-bit FNV-1a algorithm from the hash value `h` on: for every
byte in order, exclusive-or the byte into the hash, then multiply by the FNV
prime 1099511628211 modulo 2^64. -/
def fnv1a_64_from (h : Nat) : List Nat → Nat
  | [] => h
  | d :: rest => fnv1a_64_from (((h ^^^ d) * 1099511628211) % 2 ^ 64) rest

/-- The published 64-bit FNV-1a hash of a byte sequence, starting from the
offset basis 14695981039346656037. -/
def fnv1a_64_reference (data : List Nat) : Nat := fnv1a_64_from 14695981039346656037 data

/-- The consumed bytes of a pool: the `consumed / 8` whole bytes, then
the low `consumed % 8` bits of the next byte when there are any. -/
def consumed_bytes (pool : autoshrink_bit_pool) : List Nat :=
  pool.bits.take (pool.consumed / 8) ++
    (if pool.consumed % 8 > 0 then
      [pool.bits.getD (pool.consumed / 8) 0 % 2 ^ (pool.consumed % 8)] else [])

/-- Two pools with 12 consumed bits that differ only beyond the cursor. -/
def hash_pool_a : autoshrink_bit_pool :=
  { alloc_bit_pool 4 32 16 with bits := [0xab, 0x0f, 0x00, 0x00], bits_filled := 32, consumed := 12,
                                requests := [12] }

def hash_pool_b : autoshrink_bit_pool :=
  { alloc_bit_pool 4 32 16 with bits := [0xab, 0xff, 0x12, 0x34], bits_filled := 32, consumed := 12,
                                requests := [5, 7] }

/-! ## The result byte of a forked trial (`fuzz_call`, `parent_handle_child_call`) -/

/-- The child branch of `fuzz_call`: the byte `(uint8_t)res` it writes to the
pipe for the result `res` of the property. -/
def fuzz_call_child_byte (res : Int) : Nat := (res % 256).toNat

/-- The branch of `parent_handle_child_call` after `poll` reported data: `rd` is
what `read(fd, &res_byte, 1)` returned (an interrupted read is retried, so
`-1` here is another error) and `res_byte` the byte it stored.  `none` when
`assert(rd == 1)` fails. -/
def parent_handle_child_call (rd : Int) (res_byte : Nat) : Option Int :=
  if rd = -1 then some FUZZ_RESULT_ERROR
  else if rd = 0 then some FUZZ_RESULT_FAIL
  else if rd = 1 then some (to_signed 32 res_byte)
  else none

/-! ## The run configuration (`struct fuzz_run_config`, `fuzz_run`) -/

/-- `struct fuzz_type_info` as a caller fills it in: `alloc` may be `NULL`
(`none`). -/
structure type_info_config where
  alloc : Option gen
  has_free : Bool
  hash : Option (instance_t → Nat)
  shrink : Option (instance_t → Nat → Int × instance_t)
  autoshrink_config : fuzz_autoshrink_config

/-- `struct fuzz_run_config`.  `props` lists the fields `prop1` to `prop7`
(entry `N - 1` is `propN`) and `type_info` the array of `FUZZ_MAX_ARITY`
pointers; `none` is `NULL`, and an entry the list does not have reads as
`NULL`.  The hooks are the fields of `cfg->hooks`, `env` is `cfg->hooks.env`
and `fork_enable` is `cfg->fork.enable`. -/
structure fuzz_run_config (σ : Type) where
  props : List (Option (σ → List (Option instance_t) → Int × σ))
  type_info : List (Option type_info_config)
  always_seed_count : Nat
  always_seeds : Option (List Nat)
  trials : Nat
  seed : Nat
  fork_enable : Bool
  pre_run : Option (σ → hook_call → Int × σ)
  post_run : Option (σ → hook_call → Int × σ)
  pre_gen_args : Option (σ → hook_call → Int × σ)
  pre_trial : Option (σ → hook_call → Int × σ)
  post_trial : Option (σ → hook_call → Int × σ)
  counterexample : Option (σ → hook_call → Int × σ)
  pre_shrink : Option (σ → hook_call → Int × σ)
  post_shrink : Option (σ → hook_call → Int × σ)
  post_shrink_trial : Option (σ → hook_call → Int × σ)
  env : σ

/-- The `for` loop of `infer_arity` from index `i`, with the number of
iterations that remain. -/
def infer_arity_loop {σ : Type} (cfg : fuzz_run_config σ) : Nat → Nat → Nat
  | 0, i => i
  | n + 1, i =>
    if (cfg.type_info.getD i none).isNone then i else infer_arity_loop cfg n (i + 1)

/-- `infer_arity(cfg)`: the index of the first `NULL` entry of `type_info`, or
`FUZZ_MAX_ARITY` when the first `FUZZ_MAX_ARITY` entries are set. -/
def infer_arity {σ : Type} (cfg : fuzz_run_config σ) : Nat :=
  infer_arity_loop cfg FUZZ_MAX_ARITY 0

/-- The `for` loop of `check_all_args` over the entries that remain, with the
value of `ah` so far.  The outer `none` is a read through a `NULL` entry, the
inner `none` the return value `false`, and `some (some ah)` the return value
`true` with `*all_hashable = ah`. -/
def check_all_args_from : List (Option type_info_config) → Bool → Option (Option Bool)
  | [], ah => some (some ah)
  | none :: _, _ => none
  | some ti :: rest, ah =>
    if ti.alloc.isNone then some none
    else if ti.autoshrink_config.enable && ti.shrink.isSome then some none
    else check_all_args_from rest (if ti.hash.isNone && !ti.autoshrink_config.enable then false else ah)

/-- `check_all_args(arity, cfg, &all_hashable)`. -/
def check_all_args {σ : Type} (arity : Nat) (cfg : fuzz_run_config σ) : Option (Option Bool) :=
  check_all_args_from ((List.range arity).map (fun i => cfg.type_info.getD i none)) true

/-- `copy_propfun_for_arity(cfg, prop)`: the outer `none` is `assert(false)`,
the inner `none` the return value `false`, else the property that was copied. -/
def copy_propfun_for_arity {σ : Type} (cfg : fuzz_run_config σ) (arity : Nat) :
    Option (Option (σ → List (Option instance_t) → Int × σ)) :=
  if 1 ≤ arity ∧ arity ≤ FUZZ_MAX_ARITY then some (cfg.props.getD (arity - 1) none) else none

/-- The callbacks of one argument as `struct fuzz` keeps them, once
`check_all_args` has seen that `alloc` is set. -/
def type_info_config.checked (ti : type_info_config) : Option fuzz_type_info :=
  ti.alloc.map (fun g =>
    { alloc := g, has_free := ti.has_free, hash := ti.hash, shrink := ti.shrink,
      autoshrink_config := ti.autoshrink_config })

/-- `fuzz_run_init(cfg, &t)` on a configuration as the caller passes it, for
allocations that succeed.  The outer `none` is a failed assertion, the inner
`none` is `FUZZ_RUN_INIT_ERROR_BAD_ARGS`; otherwise the fixed part and the
engine of the run.  A hook that is `NULL` stays `none`: the defaults put in
for `pre_run`, `post_run`, `post_trial` and `counterexample` print and return
`FUZZ_HOOK_RUN_CONTINUE`. -/
def fuzz_run_init_config {σ : Type} (cfg : fuzz_run_config σ) :
    Option (Option (fuzz_setup σ × fuzz σ)) :=
  let arity := infer_arity cfg
  if arity = 0 then some none
  else
    match check_all_args arity cfg with
    | none => none
    | some none => some none
    | some (some _) =>
      match copy_propfun_for_arity cfg arity with
      | none => none
      | some none => some none
      | some (some prop) =>
        let c : fuzz_setup σ :=
          { prop := prop
            trial_count := if cfg.trials = 0 then FUZZ_DEF_TRIALS else cfg.trials
            type_info := ((List.range arity).map (fun i => cfg.type_info.getD i none)).filterMap
              (fun o => o.bind type_info_config.checked)
            run_seed := if cfg.seed ≠ 0 then cfg.seed else DEFAULT_uint64_t
            always_seeds :=
              match cfg.always_seeds with
              | none => []
              | some l => l.take cfg.always_seed_count
            pre_run := cfg.pre_run
            post_run := cfg.post_run
            pre_gen_args := cfg.pre_gen_args
            trial_pre := cfg.pre_trial
            trial_post := cfg.post_trial
            counterexample := cfg.counterexample
            shrink_pre := cfg.pre_shrink
            shrink_post := cfg.post_shrink
            shrink_trial_post := cfg.post_shrink_trial }
        some ((fuzz_run_init c cfg.env).map (fun t => (c, t)))

/-- `fuzz_run(cfg)`: the result code and the seeds of the trials that were
started; `cfg = none` is the `NULL` pointer.  `have_fork` is the value of
`FUZZ_POLYFILL_HAVE_FORK`, which is `true` unless `_WIN32` is defined.  The
trials of an accepted configuration are those of `fuzz_run_trials`, which calls
the property in the engine's own process. -/
def fuzz_run {σ : Type} (have_fork : Bool) (fuel : Nat) (cfg : Option (fuzz_run_config σ)) :
    Option (Int × List Nat) :=
  match cfg with
  | none => some (FUZZ_RESULT_ERROR, [])
  | some cfg =>
    if cfg.fork_enable && !have_fork then some (FUZZ_RESULT_SKIP, [])
    else
      match fuzz_run_init_config cfg with
      | none => none
      | some none => some (FUZZ_RESULT_ERROR, [])
      | some (some (c, t)) => (fuzz_run_trials c fuel t).map (fun r => (r.1, r.2.1))

/-- A configuration without arguments (`type_info[0]` is `NULL`) that asks for
forked trials. -/
def forked_empty_config : fuzz_run_config Unit :=
  { props := [some (fun s _ => (FUZZ_RESULT_OK, s))]
    type_info := []
    always_seed_count := 0
    always_seeds := none
    trials := 1
    seed := 0
    fork_enable := true
    pre_run := none
    post_run := none
    pre_gen_args := none
    pre_trial := none
    post_trial := none
    counterexample := none
    pre_shrink := none
    post_shrink := none
    post_shrink_trial := none
    env := () }

/-- A configuration with two arguments and `prop2`, in which the second
argument has both autoshrink and a `shrink` callback. -/
def conflicting_shrink_config : fuzz_run_config Unit :=
  { forked_empty_config with
    props := [none, some (fun s _ => (FUZZ_RESULT_OK, s))]
    type_info :=
      [some { alloc := some (gen.ret FUZZ_RESULT_OK [0]), has_free := false, hash := none,
              shrink := none,
              autoshrink_config := { enable := false, pool_size := 0, print_mode := 0,
                                     max_failed_shrinks := 0 } },
       some { alloc := some (gen.ret FUZZ_RESULT_OK [0]), has_free := false, hash := none,
              shrink := some (fun i _ => (FUZZ_SHRINK_OK, i)),
              autoshrink_config := { enable := true, pool_size := 0, print_mode := 0,
                                     max_failed_shrinks := 0 } }]
    fork_enable := false }

/-! ## Example runs for the counters and the hooks -/

/-- A run of three trials over one argument whose generator returns `res_gen`
without drawing bits and is shrunk by a `shrink` callback that proposes `[1]`
once; the property returns `res` on every input.  The seeds of the trials are
fixed by `always_seeds` and the run seed; every hook is the default one. -/
def probe_setup (σ : Type) (res_gen res : Int) : fuzz_setup σ :=
  { prop := fun s _ => (res, s)
    trial_count := 3
    type_info :=
      [{ alloc := gen.ret res_gen [2]
         has_free := false
         hash := none
         shrink := some (fun i _ =>
           if i = [1] then (FUZZ_SHRINK_NO_MORE_TACTICS, i) else (FUZZ_SHRINK_OK, [1]))
         autoshrink_config :=
           { enable := false, pool_size := 0, print_mode := 0, max_failed_shrinks := 0 } }]
    run_seed := 13
    always_seeds := [11, 12]
    pre_run := none
    post_run := none
    pre_gen_args := none
    trial_pre := none
    trial_post := none
    counterexample := none
    shrink_pre := none
    shrink_post := none
    shrink_trial_post := none }

/-- An engine before the first trial, with the user's environment `env`: no
duplicate filter, zeroed counters, a generator that has not been seeded. -/
def probe_state {σ : Type} (env : σ) : fuzz σ :=
  { bloom := none
    prng := { rng := { mt := List.replicate NN 0, mti := NN + 1 }, buf := 0, bits_available := 0,
              bit_pool := none }
    counters := { pass := 0, fail := 0, skip := 0, dup := 0 }
    trial := trial_info_zero
    env := env }

/-- A mark `bad` on the user's environment that the callbacks of `c` set only
together with a return code after which their call site does not go on: the
property never sets it; the pre-run, post-run, counterexample and post-shrink
hooks do not set it when they return continue; the pre-gen-args and pre-shrink
hooks when they return continue or halt; the post-shrink-trial hook when it
returns continue, repeat or repeat-once; the pre-trial and post-trial hooks
when they return anything but error. -/
def marks_only_fatal {σ : Type} (c : fuzz_setup σ) (bad : σ → Prop) : Prop :=
  (∀ s a, ¬ bad s → ¬ bad (c.prop s a).2) ∧
  (∀ f, c.pre_run = some f → ∀ s i, ¬ bad s → (f s i).1 = FUZZ_HOOK_RUN_CONTINUE →
    ¬ bad (f s i).2) ∧
  (∀ f, c.post_run = some f → ∀ s i, ¬ bad s → (f s i).1 = FUZZ_HOOK_RUN_CONTINUE →
    ¬ bad (f s i).2) ∧
  (∀ f, c.pre_gen_args = some f → ∀ s i, ¬ bad s →
    ((f s i).1 = FUZZ_HOOK_RUN_CONTINUE ∨ (f s i).1 = FUZZ_HOOK_RUN_HALT) → ¬ bad (f s i).2) ∧
  (∀ f, c.trial_pre = some f → ∀ s i, ¬ bad s → (f s i).1 ≠ FUZZ_HOOK_RUN_ERROR →
    ¬ bad (f s i).2) ∧
  (∀ f, c.trial_post = some f → ∀ s i, ¬ bad s → (f s i).1 ≠ FUZZ_HOOK_RUN_ERROR →
    ¬ bad (f s i).2) ∧
  (∀ f, c.counterexample = some f → ∀ s i, ¬ bad s → (f s i).1 = FUZZ_HOOK_RUN_CONTINUE →
    ¬ bad (f s i).2) ∧
  (∀ f, c.shrink_pre = some f → ∀ s i, ¬ bad s →
    ((f s i).1 = FUZZ_HOOK_RUN_CONTINUE ∨ (f s i).1 = FUZZ_HOOK_RUN_HALT) → ¬ bad (f s i).2) ∧
  (∀ f, c.shrink_post = some f → ∀ s i, ¬ bad s → (f s i).1 = FUZZ_HOOK_RUN_CONTINUE →
    ¬ bad (f s i).2) ∧
  (∀ f, c.shrink_trial_post = some f → ∀ s i, ¬ bad s →
    ((f s i).1 = FUZZ_HOOK_RUN_CONTINUE ∨ (f s i).1 = FUZZ_HOOK_RUN_REPEAT ∨
      (f s i).1 = FUZZ_HOOK_RUN_REPEAT_ONCE) → ¬ bad (f s i).2)

/-- The state of the trial loop of `fuzz_run_trials` after `j` more trials that
each ended with `RUN_STEP_OK`: the value of `seed` and the engine.  `none` when
one of these trials ended otherwise. -/
def trial_loop_after {σ : Type} (c : fuzz_setup σ) (fuel : Nat) :
    Nat → Nat → Nat → fuzz σ → Option (Nat × fuzz σ)
  | 0, _, seed, t => some (seed, t)
  | j + 1, trial, seed, t =>
    match run_step c fuel t trial seed with
    | some (run_step_res.RUN_STEP_OK, seed1, t1) =>
      trial_loop_after c fuel j (trial + 1) seed1 { t1 with trial := trial_info_zero }
    | _ => none

/-- The probe run with a failing property and a pre-shrink hook that returns
the code 7 and sets the user's environment to `true`. -/
def unknown_pre_shrink_setup : fuzz_setup Bool :=
  { probe_setup Bool FUZZ_RESULT_OK FUZZ_RESULT_FAIL with
    shrink_pre := some (fun _ _ => (7, true)) }

/-- The probe run with a passing property and a pre-trial hook that returns the
code 7 and sets the user's environment to `true`. -/
def unknown_pre_trial_setup : fuzz_setup Bool :=
  { probe_setup Bool FUZZ_RESULT_OK FUZZ_RESULT_OK with
    trial_pre := some (fun _ _ => (7, true)) }

/-- The probe run with a passing property and a post-trial hook that returns
the code 7 and sets the user's environment to `true`. -/
def unknown_post_trial_setup : fuzz_setup Bool :=
  { probe_setup Bool FUZZ_RESULT_OK FUZZ_RESULT_OK with
    trial_post := some (fun _ _ => (7, true)) }

/-- The probe run with a passing property and a pre-gen-args hook that halts
the run when trial `k` is reached. -/
def halting_setup (k : Nat) : fuzz_setup Unit :=
  { probe_setup Unit FUZZ_RESULT_OK FUZZ_RESULT_OK with pre_gen_args := some (halt_at_trial k) }

/-- The probe run with a failing property and a pre-shrink hook that returns
`FUZZ_HOOK_RUN_HALT`. -/
def halting_pre_shrink_setup : fuzz_setup Unit :=
  { probe_setup Unit FUZZ_RESULT_OK FUZZ_RESULT_FAIL with
    shrink_pre := some (fun s _ => (FUZZ_HOOK_RUN_HALT, s)) }

/-- The probe run with a passing property and a post-trial hook that returns
`FUZZ_HOOK_RUN_HALT`. -/
def halting_post_trial_setup : fuzz_setup Unit :=
  { probe_setup Unit FUZZ_RESULT_OK FUZZ_RESULT_OK with
    trial_post := some (fun s _ => (FUZZ_HOOK_RUN_HALT, s)) }

/-! ## The bit stream of the generator -/

/-- The generator state after `k` calls of `fuzz_rng_random`. -/
def fuzz_rng_after : fuzz_rng → Nat → fuzz_rng
  | r, 0 => r
  | r, k + 1 => fuzz_rng_after (fuzz_rng_random r).2 k

/-- Bit `j` of the stream of 64-bit outputs of the generator from state `r` on,
the low bit of the first output first. -/
def rng_stream (r : fuzz_rng) (j : Nat) : Bool :=
  (fuzz_rng_random (fuzz_rng_after r (j / 64))).1.testBit (j % 64)

/-- Bit `j` of what a random source without a pool serves next: the bits left
in the accumulator `buf`, then the stream of the generator. -/
def source_stream (p : prng_info) (j : Nat) : Bool :=
  if j < p.bits_available then p.buf.testBit j else rng_stream p.rng (j - p.bits_available)

/-- The pool of a generation pass holds the stream of the generator `rng0` it
was started with: the state is a well-formed pool, the buffer covers
`bits_ceil`, the generator has made `bits_filled / 64` outputs, and the filled
bits are the first bits of its stream. -/
def pool_holds_stream (rng0 rng : fuzz_rng) (pool : autoshrink_bit_pool) : Prop :=
  pool_inv pool ∧ pool.bits_ceil ≤ 8 * pool.bits.length ∧
    rng = fuzz_rng_after rng0 (pool.bits_filled / 64) ∧
    ∀ q, q < pool.bits_filled → bit_at pool.bits q = rng_stream rng0 q

/-! ## Example pools and random sources for the tactics -/

/-- `fuzz_autoshrink_model_set_next(env, action)`, the hook for testing that
sets the action the model delivers next. -/
def fuzz_autoshrink_model_set_next (env : autoshrink_env) (action : Nat) : autoshrink_env :=
  { env with model := { env.model with next_action := action } }

/-- The environment of an autoshrink argument with the initial weights in which
a test has scheduled `action`. -/
def scheduled_env (action : Nat) : autoshrink_env :=
  fuzz_autoshrink_model_set_next (init_model (fuzz_autoshrink_alloc_env 0 (byte_type_info true)))
    action

/-- A pool after a generation pass with the requests `requests`, whose buffer
holds `bytes`; the index is built. -/
def recorded_pool (requests bytes : List Nat) : autoshrink_bit_pool :=
  build_index
    { bits := bytes
      shrinking := false
      bits_filled := 8 * bytes.length
      bits_ceil := 8 * bytes.length
      limit := DEF_POOL_LIMIT
      consumed := requests.sum
      request_ceil := DEF_REQUESTS_CEIL
      requests := requests
      generation := 0
      index := none }

/-- A random source without a pool that serves the low `n` bits of `buf`, low
bit first, and then the outputs of a generator whose state words are `words`
followed by zeros. -/
def draws_source (n buf : Nat) (words : List Nat) : prng_info :=
  { rng := { mt := words ++ List.replicate (NN - words.length) 0, mti := 0 }
    buf := buf
    bits_available := n
    bit_pool := none }

/-- A pool with two requests of 8 bits that hold 5 and 3. -/
def pair_pool : autoshrink_bit_pool := recorded_pool [8, 8] [5, 3]

/-- A pool with one request of 100 bits whose first two bytes are `01 02`. -/
def wide_request_pool : autoshrink_bit_pool :=
  recorded_pool [100] [1, 2, 0, 0, 0, 0, 0, 0, 0, 0, 0, 0, 0]

/-! ## What the drop tactic keeps -/

/-- The decisions of the loop over the requests in `drop_from_bit_pool`, for
requests of up to 64 bits: request `ri` is dropped when it is `to_drop`, and
otherwise when the draw of `drop_bits` bits is not above `drop_threshold`.  The
list holds `true` for a request that is kept. -/
def drop_kept (to_drop drop_threshold drop_bits : Nat) :
    List Nat → Nat → prng_info → Option (List Bool × prng_info)
  | [], _, p => some ([], p)
  | _ :: rest, ri, p =>
    if ri = to_drop then
      (drop_kept to_drop drop_threshold drop_bits rest (ri + 1) p).map
        (fun x => (false :: x.1, x.2))
    else
      match fuzz_random_bits p drop_bits with
      | none => none
      | some (v, q) =>
        (drop_kept to_drop drop_threshold drop_bits rest (ri + 1) q).map
          (fun x => ((!decide (v ≤ drop_threshold)) :: x.1, x.2))

/-- The `size` bits of a buffer from bit `off` on, the payload of a request. -/
def payload_bits (bits : List Nat) : Nat → Nat → List Bool
  | _, 0 => []
  | off, size + 1 => bit_at bits off :: payload_bits bits (off + 1) size

/-- The concatenation, in request order, of the payloads of the requests that
are kept; `off` is the offset of the first request of the list. -/
def kept_payloads (bits : List Nat) : List Nat → List Bool → Nat → List Bool
  | r :: rs, k :: ks, off =>
    (if k then payload_bits bits off r else []) ++ kept_payloads bits rs ks (off + r)
  | _, _, _ => []

/-- The sum of the widths of the requests that are kept. -/
def kept_width : List Nat → List Bool → Nat
  | r :: rs, k :: ks => (if k then r else 0) + kept_width rs ks
  | _, _ => 0

/-- The state of the bit-by-bit copy in `drop_from_bit_pool` after `src` source
bits, when the destination holds the bits `acc`: both cursors are at their bit
offsets, and the destination buffer of `n` bytes holds `acc` followed by zero
bits. -/
def drop_state_holds (n : Nat) (acc : List Bool) (src : Nat) (s : drop_state) : Prop :=
  s.src_offset = src ∧ s.src_byte = src / 8 ∧ s.src_bit = 2 ^ (src % 8) ∧
    s.dst_offset = acc.length ∧ s.dst_byte = acc.length / 8 ∧
    s.dst_bit = 2 ^ (acc.length % 8) ∧ s.bits.length = n ∧
    ∀ q, bit_at s.bits q = acc.getD q false

/-- The probe run with a passing property and a pre-gen-args hook that returns
the code 7 and sets the user's environment to `true`. -/
def unknown_pre_gen_args_setup : fuzz_setup Bool :=
  { probe_setup Bool FUZZ_RESULT_OK FUZZ_RESULT_OK with
    pre_gen_args := some (fun _ _ => (7, true)) }

/-! ## A run whose hook writes down the seeds it is given -/

/-- The probe run (always-run seeds 11 and 12, run seed 13, three passing
trials) with a pre-gen-args hook that appends the `trial_seed` of its record to
the user's environment and returns continue. -/
def seed_log_setup : fuzz_setup (List Nat) :=
  { probe_setup (List Nat) FUZZ_RESULT_OK FUZZ_RESULT_OK with
    pre_gen_args := some (fun s info => (FUZZ_HOOK_RUN_CONTINUE, s ++ [info.trial_seed])) }

/-! ## The passes of the shrink loops -/

/-- One pass of the `for (;;)` loop of `attempt_to_shrink_arg`: the property is
called on the stored arguments, the counting block runs, and the
post-shrink-trial hook is called.  Result: the result of the property, the code
of the hook and the engine afterwards. -/
def shrink_call_once {σ : Type} (c : fuzz_setup σ) (arg_i tactic : Nat) (repeated : Bool)
    (t : fuzz σ) : Int × Int × fuzz σ :=
  let args := fuzz_trial_get_args t
  let r := fuzz_call c t args
  let h := shrink_trial_post_hook c (shrink_count_result c arg_i repeated r.1 r.2) arg_i args
    tactic r.1
  (r.1, h.1, h.2)

/-- The value of `repeated` and the engine after `k` passes of the call loop
that were each followed by another pass (the hook returned repeat, or
repeat-once on a pass with `repeated` unset); `none` when one of these passes
left the loop. -/
def shrink_calls_repeated {σ : Type} (c : fuzz_setup σ) (arg_i tactic : Nat) :
    Nat → Bool → fuzz σ → Option (Bool × fuzz σ)
  | 0, repeated, t => some (repeated, t)
  | k + 1, repeated, t =>
    let s := shrink_call_once c arg_i tactic repeated t
    if s.2.1 = FUZZ_HOOK_RUN_REPEAT ∨ (s.2.1 = FUZZ_HOOK_RUN_REPEAT_ONCE ∧ !repeated) then
      shrink_calls_repeated c arg_i tactic k true s.2.2
    else none

/-- One pass of the body of the tactic loop of `attempt_to_shrink_arg` up to
the property call: the pre-shrink hook, the shrink callback, the shrink
counter, the post-shrink hook, the `switch (sres)`, the store of the candidate
and the duplicate check.  `Sum.inl` is the outcome of a pass that ends before
the property is called, as `attempt_tactic` returns it.  `Sum.inr` holds
`use_autoshrink`, `current`, `current_bit_pool`, `candidate`,
`candidate_bit_pool` and the engine with the candidate stored, on which the
call loop is entered. -/
def shrink_propose {σ : Type} (c : fuzz_setup σ) (fuel arg_i tactic : Nat) (t : fuzz σ) :
    Option ((Option shrink_res × fuzz σ) ⊕
      (Bool × Option instance_t × Option autoshrink_bit_pool × Option instance_t ×
        Option autoshrink_bit_pool × fuzz σ)) :=
  match c.type_info[arg_i]? with
  | none => none
  | some ti =>
    let use_autoshrink := ti.autoshrink_config.enable
    let current := (get_arg t arg_i).inst
    let pre := shrink_pre_hook c t arg_i current tactic
    if pre.1 = FUZZ_HOOK_RUN_HALT then some (Sum.inl (some shrink_res.SHRINK_HALT, pre.2))
    else if pre.1 ≠ FUZZ_HOOK_RUN_CONTINUE then
      some (Sum.inl (some shrink_res.SHRINK_ERROR, pre.2))
    else
      let t1 := pre.2
      match (if use_autoshrink then
               match (get_arg t1 arg_i).env with
               | none => none
               | some as_env =>
                 match fuzz_autoshrink_shrink fuel t1.prng ti as_env tactic with
                 | none => none
                 | some (sres, cand, env1, p1) =>
                   some (sres, cand.map (fun x => x.1), cand.map (fun x => x.2),
                     set_arg { t1 with prng := p1 } arg_i
                       { get_arg t1 arg_i with env := some env1 })
             else
               match ti.shrink with
               | none => none
               | some f =>
                 some ((f (current.getD []) tactic).1, some (f (current.getD []) tactic).2, none,
                   t1)) with
      | none => none
      | some (sres, candidate, candidate_bit_pool, t2) =>
        let current_bit_pool := (stored_arg t2 arg_i).2
        let t3 := { t2 with trial := { t2.trial with shrink_count := t2.trial.shrink_count + 1 } }
        match shrink_post_hook c t3 arg_i
            (if sres = FUZZ_SHRINK_OK then candidate else current) tactic sres with
        | none => none
        | some post =>
          if post.1 ≠ FUZZ_HOOK_RUN_CONTINUE then
            some (Sum.inl (some shrink_res.SHRINK_ERROR, post.2))
          else
            let t4 := post.2
            if sres = FUZZ_SHRINK_OK then
              let t5 := store_arg t4 arg_i use_autoshrink candidate candidate_bit_pool
              match t5.bloom with
              | some b =>
                if fuzz_call_check_called c t5 b then
                  some (Sum.inl
                    (none, store_arg t5 arg_i use_autoshrink current current_bit_pool))
                else
                  match fuzz_call_mark_called c t5 b with
                  | none => none
                  | some t6 =>
                    some (Sum.inr (use_autoshrink, current, current_bit_pool, candidate,
                      candidate_bit_pool, t6))
              | none =>
                some (Sum.inr (use_autoshrink, current, current_bit_pool, candidate,
                  candidate_bit_pool, t5))
            else if sres = FUZZ_SHRINK_DEAD_END then some (Sum.inl (none, t4))
            else if sres = FUZZ_SHRINK_NO_MORE_TACTICS then
              some (Sum.inl (some shrink_res.SHRINK_DEAD_END, t4))
            else some (Sum.inl (some shrink_res.SHRINK_ERROR, t4))

/-- The engine after the tactics `tactic, …, tactic + n - 1` of
`attempt_to_shrink_arg` when each of these passes went on to the next tactic;
`none` when one of them made the function return. -/
def shrink_tactics_tried {σ : Type} (c : fuzz_setup σ) (fuel arg_i : Nat) :
    Nat → Nat → fuzz σ → Option (fuzz σ)
  | 0, _, t => some t
  | n + 1, tactic, t =>
    match attempt_tactic c fuel arg_i tactic t with
    | some (none, t1) => shrink_tactics_tried c fuel arg_i n (tactic + 1) t1
    | _ => none

/-- The shrink demo with a property whose result depends on the call: it
passes on its first call and fails on every later one, counting its calls in
the user environment; the post-shrink-trial hook returns
`FUZZ_HOOK_RUN_REPEAT_ONCE`. -/
def flaky_demo_setup : fuzz_setup Nat :=
  { shrink_demo_setup FUZZ_RESULT_OK FUZZ_HOOK_RUN_REPEAT_ONCE with
    prop := fun s _ => (if s = 0 then FUZZ_RESULT_OK else FUZZ_RESULT_FAIL, s + 1) }

/-- The engine of the shrink demo when tactic 0 has stored its candidate `[1]`
and the property is about to be called on it. -/
def shrink_demo_candidate_state : fuzz Nat :=
  store_arg
    { shrink_demo_state with
      trial := { shrink_demo_state.trial with
                 shrink_count := shrink_demo_state.trial.shrink_count + 1 } }
    0 false (some [1]) none

/-! # Theorems -/

/-! ## Bit-level reads and writes -/

theorem advance_bit (k : Nat) :
    (if (2 ^ (k % 8) <<< 1) % 256 = 0 then k / 8 + 1 else k / 8) = (k + 1) / 8 ∧
    (if (2 ^ (k % 8) <<< 1) % 256 = 0 then 1 else (2 ^ (k % 8) <<< 1) % 256) = 2 ^ ((k + 1) % 8) := by
  have h8 : k % 8 < 8 := Nat.mod_lt k (by decide)
  have hk : k = 8 * (k / 8) + k % 8 := (Nat.div_add_mod k 8).symm
  generalize k % 8 = r at *
  generalize k / 8 = q at *
  subst hk
  have h1 : (8 * q + r + 1) / 8 = if r = 7 then q + 1 else q := by
    split <;> omega
  have h2 : (8 * q + r + 1) % 8 = if r = 7 then 0 else r + 1 := by
    split <;> omega
  rw [h1, h2]
  interval_cases r <;> simp [Nat.shiftLeft_eq]

theorem and_two_pow_ne_zero (b m : Nat) : (b &&& 2 ^ m ≠ 0) ↔ b.testBit m = true := by
  rw [Nat.and_two_pow]
  cases h : b.testBit m <;> simp [Nat.pos_iff_ne_zero]

theorem one_shiftLeft_mod (i : Nat) (h : i < 64) : (1 <<< i) % 2 ^ 64 = 2 ^ i := by
  rw [Nat.one_shiftLeft]
  exact Nat.mod_eq_of_lt (Nat.pow_lt_pow_right (by decide) h)

theorem read_step_testBit (bits : List Nat) (k i acc j : Nat) :
    (if bits.getD (k / 8) 0 &&& 2 ^ (k % 8) ≠ 0 then acc ||| 2 ^ i else acc).testBit j =
      (acc.testBit j || (decide (i = j) && bit_at bits k)) := by
  by_cases hb : bits.getD (k / 8) 0 &&& 2 ^ (k % 8) ≠ 0
  · rw [if_pos hb, Nat.testBit_or, Nat.testBit_two_pow]
    have := (and_two_pow_ne_zero _ _).1 hb
    rw [bit_at, this]; simp
  · rw [if_neg hb]
    have : (bits.getD (k / 8) 0).testBit (k % 8) = false := by
      cases h : (bits.getD (k / 8) 0).testBit (k % 8)
      · rfl
      · exact absurd ((and_two_pow_ne_zero _ _).2 h) hb
    rw [bit_at, this]; simp

theorem read_loop_testBit (bits : List Nat) :
    ∀ (n i k acc : Nat), (∀ j, i ≤ j → acc.testBit j = false) → i + n ≤ 64 →
      ∀ j, (read_bits_at_offset_loop bits n i (k / 8) (2 ^ (k % 8)) acc).testBit j =
        if i ≤ j ∧ j < i + n then bit_at bits (k + (j - i)) else acc.testBit j := by
  intro n
  induction n with
  | zero =>
    intro i k acc _ _ j
    have : ¬ (i ≤ j ∧ j < i + 0) := by omega
    simp only [read_bits_at_offset_loop]
    rw [if_neg this]
  | succ n ih =>
    intro i k acc hacc hin j
    simp only [read_bits_at_offset_loop]
    rw [(advance_bit k).1, (advance_bit k).2, one_shiftLeft_mod i (by omega),
      ih (i + 1) (k + 1) _ _ (by omega)]
    · simp only [read_step_testBit]
      rcases Nat.lt_trichotomy j i with h | h | h
      · rw [if_neg (by omega), if_neg (by omega)]
        have : ¬ i = j := by omega
        simp [this]
      · subst h
        rw [if_neg (by omega), if_pos (by omega), hacc j (le_refl _)]
        simp
      · have e : k + 1 + (j - (i + 1)) = k + (j - i) := by omega
        have : ¬ i = j := by omega
        by_cases hj : j < i + (n + 1)
        · rw [if_pos (by omega), if_pos (by omega), e]
        · rw [if_neg (by omega), if_neg (by omega)]
          simp [this]
    · intro j hj
      rw [read_step_testBit, hacc j (by omega)]
      have : ¬ i = j := by omega
      simp [this]

theorem read_bits_testBit (pool : autoshrink_bit_pool) (o s j : Nat) (hs : s ≤ 64) :
    (read_bits_at_offset pool o s).testBit j = (decide (j < s) && bit_at pool.bits (o + j)) := by
  unfold read_bits_at_offset convert_bit_offset
  have h1 : (1 <<< (o % 8)) % 256 = 2 ^ (o % 8) := by
    rw [Nat.one_shiftLeft]
    have h8 : o % 8 < 8 := Nat.mod_lt o (by decide)
    exact Nat.mod_eq_of_lt (lt_of_lt_of_le (Nat.pow_lt_pow_right (by decide) h8) (by decide))
  simp only [h1]
  rw [read_loop_testBit pool.bits s 0 o 0 (by simp) (by omega)]
  by_cases h : j < s <;> simp [h]

theorem testBit_255 (r : Nat) (h : r < 8) : (255 : Nat).testBit r = true := by
  have : (255 : Nat) = 2 ^ 8 - 1 := by norm_num
  rw [this, Nat.testBit_two_pow_sub_one]
  simp [h]

theorem bit_at_set (bits : List Nat) (b x q : Nat) (hb : b < bits.length) :
    bit_at (bits.set b x) q = if q / 8 = b then x.testBit (q % 8) else bit_at bits q := by
  unfold bit_at
  rw [List.getD_eq_getElem?_getD, List.getD_eq_getElem?_getD, List.getElem?_set]
  by_cases h : b = q / 8
  · subst h
    simp [hb]
  · have h2 : ¬ q / 8 = b := fun e => h e.symm
    simp [h, h2]

theorem write_step_bit_at (v : Nat) (bits : List Nat) (k i q : Nat) (hk : k / 8 < bits.length) :
    bit_at (if v &&& 2 ^ i ≠ 0 then bits.set (k / 8) (bits.getD (k / 8) 0 ||| 2 ^ (k % 8))
        else bits.set (k / 8) (bits.getD (k / 8) 0 &&& (255 ^^^ 2 ^ (k % 8)))) q =
      if q = k then v.testBit i else bit_at bits q := by
  have hq8 : q % 8 < 8 := Nat.mod_lt q (by decide)
  have hqk : q = k ↔ q / 8 = k / 8 ∧ k % 8 = q % 8 := by omega
  by_cases hv : v &&& 2 ^ i ≠ 0
  · rw [if_pos hv, bit_at_set _ _ _ _ hk, (and_two_pow_ne_zero _ _).1 hv]
    by_cases h1 : q / 8 = k / 8
    · rw [if_pos h1, Nat.testBit_or, Nat.testBit_two_pow]
      by_cases h2 : k % 8 = q % 8
      · rw [if_pos (hqk.2 ⟨h1, h2⟩)]; simp [h2]
      · rw [if_neg (fun e => h2 (hqk.1 e).2)]
        simp [h2, bit_at, h1]
    · rw [if_neg h1, if_neg (fun e => h1 (hqk.1 e).1)]
  · have hv2 : v.testBit i = false := by
      cases h : v.testBit i
      · rfl
      · exact absurd ((and_two_pow_ne_zero _ _).2 h) hv
    rw [if_neg hv, bit_at_set _ _ _ _ hk, hv2]
    by_cases h1 : q / 8 = k / 8
    · rw [if_pos h1, Nat.testBit_and, Nat.testBit_xor, Nat.testBit_two_pow, testBit_255 _ hq8]
      by_cases h2 : k % 8 = q % 8
      · rw [if_pos (hqk.2 ⟨h1, h2⟩)]; simp [h2]
      · rw [if_neg (fun e => h2 (hqk.1 e).2)]
        simp [h2, bit_at, h1]
    · rw [if_neg h1, if_neg (fun e => h1 (hqk.1 e).1)]

theorem write_step_length (v : Nat) (bits : List Nat) (b i x y : Nat) :
    (if v &&& 2 ^ i ≠ 0 then bits.set b x else bits.set b y).length = bits.length := by
  split <;> simp

theorem write_loop_spec (v : Nat) :
    ∀ (n i k : Nat) (bits : List Nat), k + n ≤ 8 * bits.length → i + n ≤ 64 →
      (write_bits_at_offset_loop v n i (k / 8) (2 ^ (k % 8)) bits).length = bits.length ∧
      ∀ q, bit_at (write_bits_at_offset_loop v n i (k / 8) (2 ^ (k % 8)) bits) q =
        if k ≤ q ∧ q < k + n then v.testBit (i + (q - k)) else bit_at bits q := by
  intro n
  induction n with
  | zero =>
    intro i k bits _ _
    refine ⟨rfl, fun q => ?_⟩
    have : ¬ (k ≤ q ∧ q < k + 0) := by omega
    simp only [write_bits_at_offset_loop]
    rw [if_neg this]
  | succ n ih =>
    intro i k bits hk hin
    have hk8 : k / 8 < bits.length := by omega
    simp only [write_bits_at_offset_loop]
    rw [(advance_bit k).1, (advance_bit k).2, one_shiftLeft_mod i (by omega)]
    have hlen := write_step_length v bits (k / 8) i (bits.getD (k / 8) 0 ||| 2 ^ (k % 8))
      (bits.getD (k / 8) 0 &&& (255 ^^^ 2 ^ (k % 8)))
    obtain ⟨h1, h2⟩ := ih (i + 1) (k + 1) _ (by rw [hlen]; omega) (by omega)
    refine ⟨by rw [h1, hlen], fun q => ?_⟩
    rw [h2 q, write_step_bit_at v bits k i q hk8]
    rcases Nat.lt_trichotomy q k with h | h | h
    · rw [if_neg (by omega), if_neg (by omega), if_neg (by omega)]
    · subst h
      rw [if_neg (by omega), if_pos rfl, if_pos (by omega)]
      simp
    · have e : i + 1 + (q - (k + 1)) = i + (q - k) := by omega
      by_cases hq : q < k + (n + 1)
      · rw [if_pos (by omega), if_pos (by omega), e]
      · rw [if_neg (by omega), if_neg (by omega), if_neg (by omega)]

theorem write_bits_bit_at (pool : autoshrink_bit_pool) (o s v q : Nat) (hs : s ≤ 64)
    (hb : o + s ≤ 8 * pool.bits.length) :
    bit_at (write_bits_at_offset pool o s v).bits q =
      if o ≤ q ∧ q < o + s then v.testBit (q - o) else bit_at pool.bits q := by
  unfold write_bits_at_offset convert_bit_offset
  have h1 : (1 <<< (o % 8)) % 256 = 2 ^ (o % 8) := by
    rw [Nat.one_shiftLeft]
    have h8 : o % 8 < 8 := Nat.mod_lt o (by decide)
    exact Nat.mod_eq_of_lt (lt_of_lt_of_le (Nat.pow_lt_pow_right (by decide) h8) (by decide))
  simp only [h1]
  rw [(write_loop_spec v s 0 o pool.bits hb (by omega)).2 q]
  simp

/-- C1: reading `s` bits at offset `o` after `write_bits_at_offset(pool, o, s, v)`
returns `v` masked to its low `s` bits, for every size up to 64 and every offset
whose `s` bits lie inside the pool buffer. -/
theorem read_bits_after_write_bits (pool : autoshrink_bit_pool) (o s v : Nat) (hs : s ≤ 64)
    (hb : o + s ≤ 8 * pool.bits.length) :
    read_bits_at_offset (write_bits_at_offset pool o s v) o s = v % 2 ^ s := by
  apply Nat.eq_of_testBit_eq
  intro j
  rw [read_bits_testBit _ _ _ _ hs, Nat.testBit_mod_two_pow, write_bits_bit_at _ _ _ _ _ hs hb]
  by_cases h : j < s
  · rw [if_pos (by omega)]
    simp [h]
  · simp [h]

theorem read_bits_after_write_bits_witness :
    read_bits_at_offset (write_bits_at_offset
      { bits := [0xff, 0x00, 0xa5], shrinking := false, bits_filled := 24, bits_ceil := 64,
        limit := 24, consumed := 0, request_ceil := 16, requests := [], generation := 0,
        index := none } 3 9 0x7ab) 3 9 = 0x7ab % 2 ^ 9 :=
  read_bits_after_write_bits _ 3 9 0x7ab (by decide) (by decide)

/-! ## Truncation of trailing zero bytes -/

theorem truncate_scan_idem (bits : List Nat) (n : Nat) :
    truncate_scan bits (truncate_scan bits n) = truncate_scan bits n := by
  induction n with
  | zero => rfl
  | succ n ih =>
    by_cases h : bits.getD n 0 ≠ 0
    · simp only [truncate_scan, if_pos h]
    · simp only [truncate_scan, if_neg h, ih]

/-- C4: applying `truncate_trailing_zero_bytes` twice yields the same pool as
applying it once. -/
theorem truncate_trailing_zero_bytes_idem (pool : autoshrink_bit_pool) :
    truncate_trailing_zero_bytes (truncate_trailing_zero_bytes pool) =
      truncate_trailing_zero_bytes pool := by
  have h8 : ∀ m : Nat, m * 8 / 8 + (if m * 8 % 8 = 0 then 0 else 1) = m := by
    intro m
    rw [if_pos (by omega)]
    omega
  simp only [truncate_trailing_zero_bytes, h8, truncate_scan_idem]
  generalize truncate_scan pool.bits
    (pool.bits_filled / 8 + (if pool.bits_filled % 8 = 0 then 0 else 1)) * 8 = m
  congr 1
  by_cases h : pool.limit > m
  · simp [h]
  · simp [h]

/-! ## Bit-pool conservation -/

theorem lazily_fill_grow_some (bit_count : Nat) :
    ∀ (fuel : Nat) (pool : autoshrink_bit_pool),
      pool.consumed + bit_count ≤ pool.bits_ceil * 2 ^ fuel →
      ∃ pool1, lazily_fill_grow fuel pool bit_count = some pool1 ∧ same_cursor pool pool1 ∧
        pool.bits_ceil ≤ pool1.bits_ceil ∧ pool1.consumed + bit_count ≤ pool1.bits_ceil := by
  intro fuel
  induction fuel with
  | zero =>
    intro pool h
    simp only [pow_zero, mul_one] at h
    refine ⟨pool, ?_, ⟨rfl, rfl, rfl, rfl⟩, le_refl _, h⟩
    simp only [lazily_fill_grow]
    rw [if_neg (by omega)]
  | succ fuel ih =>
    intro pool h
    by_cases hc : pool.consumed + bit_count > pool.bits_ceil
    · simp only [lazily_fill_grow, if_pos hc]
      obtain ⟨pool1, h1, h2, h3, h4⟩ := ih
        { pool with
          bits := pool.bits ++ List.replicate (2 * pool.bits_ceil / 8 - pool.bits.length) 0
          bits_ceil := 2 * pool.bits_ceil }
        (by simp only; rw [pow_succ] at h; nlinarith)
      refine ⟨pool1, h1, h2, ?_, h4⟩
      simp only at h3
      omega
    · refine ⟨pool, ?_, ⟨rfl, rfl, rfl, rfl⟩, le_refl _, by omega⟩
      simp only [lazily_fill_grow, if_neg hc]

theorem lazily_fill_words_same (bit_count : Nat) :
    ∀ (fuel : Nat) (rng : fuzz_rng) (pool : autoshrink_bit_pool),
      same_cursor pool (lazily_fill_words fuel rng pool bit_count).2 ∧
        (lazily_fill_words fuel rng pool bit_count).2.bits_ceil = pool.bits_ceil := by
  intro fuel
  induction fuel with
  | zero => intro rng pool; exact ⟨⟨rfl, rfl, rfl, rfl⟩, rfl⟩
  | succ fuel ih =>
    intro rng pool
    by_cases hc : pool.consumed + bit_count > pool.bits_filled
    · simp only [lazily_fill_words, if_pos hc]
      exact ih _ _
    · simp only [lazily_fill_words, if_neg hc]
      exact ⟨⟨rfl, rfl, rfl, rfl⟩, trivial⟩

theorem lazily_fill_bit_pool_some (rng : fuzz_rng) (pool : autoshrink_bit_pool) (bit_count : Nat)
    (hc : 0 < pool.bits_ceil) :
    ∃ r, lazily_fill_bit_pool rng pool bit_count = some r ∧ same_cursor pool r.2 ∧
      0 < r.2.bits_ceil := by
  have hpow : pool.consumed + bit_count ≤ pool.bits_ceil * 2 ^ (pool.consumed + bit_count) := by
    have h1 := (Nat.lt_two_pow (pool.consumed + bit_count)).le
    have h2 : 1 * 2 ^ (pool.consumed + bit_count) ≤
        pool.bits_ceil * 2 ^ (pool.consumed + bit_count) := Nat.mul_le_mul_right _ hc
    omega
  obtain ⟨pool1, h1, h2, h3, _⟩ := lazily_fill_grow_some bit_count _ pool hpow
  refine ⟨lazily_fill_words (pool1.consumed + bit_count) rng pool1 bit_count, ?_, ?_, ?_⟩
  · simp only [lazily_fill_bit_pool, h1]
  · obtain ⟨⟨a1, a2, a3, a4⟩, _⟩ :=
      lazily_fill_words_same bit_count (pool1.consumed + bit_count) rng pool1
    obtain ⟨b1, b2, b3, b4⟩ := h2
    exact ⟨a1.trans b1, a2.trans b2, a3.trans b3, a4.trans b4⟩
  · rw [(lazily_fill_words_same bit_count (pool1.consumed + bit_count) rng pool1).2]
    omega

/-- One call keeps `sum(requests) = consumed` and returns, on a pool that is
shrinking or has a non-empty buffer. -/
theorem bit_pool_random_conserves (rng : fuzz_rng) (pool : autoshrink_bit_pool)
    (n : Nat) (buf : List Nat) (hsum : pool.requests.sum = pool.consumed)
    (hc : pool.shrinking = true ∨ 0 < pool.bits_ceil) :
    ∃ r, fuzz_autoshrink_bit_pool_random rng pool n true buf = some r ∧
      r.2.1.requests.sum = r.2.1.consumed ∧
      (r.2.1.shrinking = true ∨ 0 < r.2.1.bits_ceil) := by
  unfold fuzz_autoshrink_bit_pool_random
  by_cases hn : n = 0
  · rw [if_pos hn]
    exact ⟨_, rfl, hsum, hc⟩
  · rw [if_neg hn]
    have hfill : ∃ r, (if pool.shrinking then some (rng, pool)
        else lazily_fill_bit_pool rng pool n) = some r ∧ same_cursor pool r.2 ∧
          (r.2.shrinking = true ∨ 0 < r.2.bits_ceil) := by
      by_cases hs : pool.shrinking = true
      · rw [if_pos hs]
        exact ⟨(rng, pool), rfl, ⟨rfl, rfl, rfl, rfl⟩, Or.inl hs⟩
      · rw [if_neg hs]
        have hc2 : 0 < pool.bits_ceil := hc.resolve_left hs
        obtain ⟨r, h1, h2, h3⟩ := lazily_fill_bit_pool_some rng pool n hc2
        exact ⟨r, h1, h2, Or.inr h3⟩
    obtain ⟨⟨rng1, pool1⟩, h1, ⟨e1, e2, _, _⟩, h3⟩ := hfill
    rw [h1]
    simp only at e1 e2 h3 ⊢
    by_cases hl : pool1.consumed = pool1.limit
    · rw [if_pos hl]
      exact ⟨_, rfl, by simp only; rw [e1, e2]; exact hsum, h3⟩
    · rw [if_neg hl]
      refine ⟨_, rfl, ?_, ?_⟩
      · simp only [fill_buf, append_request, if_true, List.sum_append, List.sum_cons,
          List.sum_nil, e1, e2, hsum]
        omega
      · simpa only [fill_buf, append_request, if_true] using h3

theorem bit_pool_random_calls_conserve :
    ∀ (calls : List (Nat × List Nat)) (rng : fuzz_rng) (pool : autoshrink_bit_pool),
      pool.requests.sum = pool.consumed → (pool.shrinking = true ∨ 0 < pool.bits_ceil) →
      ∃ r, bit_pool_random_calls rng pool calls = some r ∧ r.2.requests.sum = r.2.consumed := by
  intro calls
  induction calls with
  | nil => intro rng pool h _; exact ⟨(rng, pool), rfl, h⟩
  | cons c cs ih =>
    intro rng pool h hc
    obtain ⟨r, h1, h2, h3⟩ := bit_pool_random_conserves rng pool c.1 c.2 h hc
    simp only [bit_pool_random_calls, h1]
    exact ih r.1 r.2.1 h2 h3

/-- C2: starting from a fresh pool (`consumed = 0`, no requests; shrinking or
with a non-empty buffer, as `alloc_bit_pool` builds it), any sequence of
`fuzz_autoshrink_bit_pool_random` calls with `save_request = true` returns, and
afterwards the sum of the recorded request widths equals `consumed`. -/
theorem bit_pool_conservation (rng : fuzz_rng) (pool : autoshrink_bit_pool)
    (calls : List (Nat × List Nat)) (h0 : pool.consumed = 0) (hr : pool.requests = [])
    (hc : pool.shrinking = true ∨ 0 < pool.bits_ceil) :
    ∃ r, bit_pool_random_calls rng pool calls = some r ∧ r.2.requests.sum = r.2.consumed :=
  bit_pool_random_calls_conserve calls rng pool (by rw [hr, h0]; rfl) hc

theorem bit_pool_conservation_witness :
    ∃ r, bit_pool_random_calls { mt := List.replicate 312 0, mti := 313 }
        (alloc_bit_pool 64 100 16) [(8, [0]), (64, [0]), (0, [0]), (40, [0]), (3, [0])] = some r ∧
      r.2.requests.sum = r.2.consumed :=
  bit_pool_conservation _ _ _ rfl rfl (Or.inr (by decide))

/-! ## `fill_buf` against the byte-wise read -/

theorem byte_term (x j k : Nat) :
    (decide (j ≥ 8 * k) && (decide (j - 8 * k < 8) && x.testBit (j - 8 * k))) =
      (decide (j / 8 = k) && x.testBit (j % 8)) := by
  by_cases h : j / 8 = k
  · have e : j - 8 * k = j % 8 := by omega
    have h1 : j ≥ 8 * k := by omega
    have h2 : j % 8 < 8 := by omega
    simp [h, e, h1, h2]
  · by_cases h1 : j ≥ 8 * k
    · have h2 : ¬ j - 8 * k < 8 := by omega
      simp [h, h2]
    · simp [h, h1]

theorem load_u64_testBit (bits : List Nat) (w j : Nat) :
    (load_u64 bits w).testBit j = (decide (j < 64) && bit_at bits (64 * w + j)) := by
  have hr : List.range 8 = [0, 1, 2, 3, 4, 5, 6, 7] := by decide
  have h256 : (256 : Nat) = 2 ^ 8 := by norm_num
  simp only [load_u64, hr, List.map, List.foldl, Nat.testBit_or, Nat.testBit_shiftLeft, h256,
    Nat.testBit_mod_two_pow, Nat.zero_testBit, Bool.false_or, bit_at, byte_term]
  by_cases hj : j < 64
  · have e1 : (64 * w + j) / 8 = 8 * w + j / 8 := by omega
    have e2 : (64 * w + j) % 8 = j % 8 := by omega
    rw [e1, e2]
    have hj8 : j / 8 < 8 := by omega
    generalize j / 8 = a at *
    interval_cases a <;> simp [hj]
  · have hj8 : ∀ k, k < 8 → ¬ j / 8 = k := by intro k hk; omega
    simp [hj, hj8]

theorem get_autoshrink_mask_eq (t : Nat) (ht : t ≤ 64) : get_autoshrink_mask t = 2 ^ t - 1 := by
  unfold get_autoshrink_mask
  by_cases h : t = 64
  · rw [if_pos h, h]
  · rw [if_neg h, one_shiftLeft_mod t (by omega)]

theorem word_bit_set (dst : List Nat) (w x p : Nat) (hw : w < dst.length) :
    word_bit (dst.set w x) p = if p / 64 = w then x.testBit (p % 64) else word_bit dst p := by
  unfold word_bit
  rw [List.getD_eq_getElem?_getD, List.getD_eq_getElem?_getD, List.getElem?_set]
  by_cases h : w = p / 64
  · subst h
    simp [hw]
  · have h2 : ¬ p / 64 = w := fun e => h e.symm
    simp [h, h2]

theorem getD_set (dst : List Nat) (w x v : Nat) (hw : w < dst.length) :
    (dst.set w x).getD v 0 = if v = w then x else dst.getD v 0 := by
  rw [List.getD_eq_getElem?_getD, List.getD_eq_getElem?_getD, List.getElem?_set]
  by_cases h : w = v
  · subst h
    simp [hw]
  · have h2 : ¬ v = w := fun e => h e.symm
    simp [h, h2]

/-- The bits copied by one iteration of `fill_buf`. -/
theorem fill_chunk_testBit (bits : List Nat) (k t j : Nat) (ht : k % 64 + t ≤ 64) :
    ((load_u64 bits (k / 64) >>> (k % 64)) &&& (2 ^ t - 1)).testBit j =
      (decide (j < t) && bit_at bits (k + j)) := by
  rw [Nat.testBit_and, Nat.testBit_shiftRight, load_u64_testBit, Nat.testBit_two_pow_sub_one]
  by_cases h : j < t
  · have e : 64 * (k / 64) + (k % 64 + j) = k + j := by omega
    have h2 : k % 64 + j < 64 := by omega
    simp [h, e, h2]
  · simp [h]

theorem fill_buf_loop_spec (bits : List Nat) (c n : Nat) :
    ∀ (fuel i : Nat) (dst : List Nat), n - i ≤ fuel → i ≤ n → n ≤ 64 * dst.length →
      fill_inv bits c n i dst →
      (fill_buf_loop bits n fuel i ((c + i) / 64) ((c + i) % 64) (i / 64) dst).length = dst.length ∧
      fill_inv bits c n n
        (fill_buf_loop bits n fuel i ((c + i) / 64) ((c + i) % 64) (i / 64) dst) := by
  intro fuel
  induction fuel with
  | zero =>
    intro i dst hf hi _ hinv
    have : i = n := by omega
    subst this
    exact ⟨rfl, hinv⟩
  | succ fuel ih =>
    intro i dst hf hi hlen hinv
    by_cases hin : i < n
    · simp only [fill_buf_loop, if_pos hin]
      obtain ⟨t, ht⟩ : ∃ t, t = (if (if n - i < 64 - i % 64 then n - i else 64 - i % 64) <
          64 - (c + i) % 64 then (if n - i < 64 - i % 64 then n - i else 64 - i % 64)
          else 64 - (c + i) % 64) := ⟨_, rfl⟩
      rw [← ht]
      have ht1 : 1 ≤ t := by rw [ht]; split <;> split <;> omega
      have ht2 : t ≤ n - i := by rw [ht]; split <;> split <;> omega
      have ht3 : t ≤ 64 - i % 64 := by rw [ht]; split <;> split <;> omega
      have ht4 : t ≤ 64 - (c + i) % 64 := by rw [ht]; split <;> split <;> omega
      have hso : (if (c + i) % 64 + t = 64 then (c + i) / 64 + 1 else (c + i) / 64) =
          (c + (i + t)) / 64 := by split <;> omega
      have hsb : (if (c + i) % 64 + t = 64 then 0 else (c + i) % 64 + t) =
          (c + (i + t)) % 64 := by split <;> omega
      have hdo : (if i % 64 + t = 64 then i / 64 + 1 else i / 64) = (i + t) / 64 := by
        split <;> omega
      rw [hso, hsb, hdo, get_autoshrink_mask_eq t (by omega)]
      have hw : i / 64 < dst.length := by omega
      obtain ⟨ha, hb, hd⟩ := hinv
      have hhi : fill_hi n i = 64 * (i / 64 + 1) := by simp only [fill_hi, if_pos hin]
      rw [hhi] at hb hd
      -- the destination after the copy
      have hbit1 : ∀ p, word_bit (dst.set (i / 64)
          ((dst.getD (i / 64) 0 |||
            (load_u64 bits ((c + i) / 64) >>> ((c + i) % 64) &&& 2 ^ t - 1) <<< (i % 64)) %
              2 ^ 64)) p =
          if p < i + t then bit_at bits (c + p) else word_bit dst p := by
        intro p
        rw [word_bit_set _ _ _ _ hw]
        by_cases hp : p / 64 = i / 64
        · rw [if_pos hp, Nat.testBit_mod_two_pow, Nat.testBit_or, Nat.testBit_shiftLeft,
            fill_chunk_testBit bits (c + i) t _ (by omega)]
          have hp64 : p % 64 < 64 := by omega
          by_cases hpi : p < i
          · have h1 : ¬ p % 64 ≥ i % 64 := by omega
            rw [if_pos (by omega), ← ha p hpi]
            simp [hp64, h1, word_bit, hp]
          · have hz := hb p (by omega) (by omega)
            simp only [word_bit, hp] at hz
            have h1 : p % 64 ≥ i % 64 := by omega
            have e : c + i + (p % 64 - i % 64) = c + p := by omega
            by_cases hpt : p < i + t
            · have h2 : p % 64 - i % 64 < t := by omega
              rw [if_pos hpt, hz, e]
              simp [hp64, h1, h2]
            · have h2 : ¬ p % 64 - i % 64 < t := by omega
              rw [if_neg hpt]
              simp [hp64, h1, h2, word_bit, hp, hz]
        · rw [if_neg hp]
          by_cases hpi : p < i
          · rw [if_pos (by omega), ha p hpi]
          · rw [if_neg (by omega)]
      have hd1 : ∀ w, 64 * w < 64 * (i / 64 + 1) → (dst.set (i / 64)
          ((dst.getD (i / 64) 0 |||
            (load_u64 bits ((c + i) / 64) >>> ((c + i) % 64) &&& 2 ^ t - 1) <<< (i % 64)) %
              2 ^ 64)).getD w 0 < 2 ^ 64 := by
        intro w hw3
        rw [getD_set _ _ _ _ hw]
        by_cases e2 : w = i / 64
        · rw [if_pos e2]; exact Nat.mod_lt _ (Nat.two_pow_pos 64)
        · rw [if_neg e2]; exact hd w hw3
      have hlen1 : (dst.set (i / 64)
          ((dst.getD (i / 64) 0 |||
            (load_u64 bits ((c + i) / 64) >>> ((c + i) % 64) &&& 2 ^ t - 1) <<< (i % 64)) %
              2 ^ 64)).length = dst.length := List.length_set ..
      generalize dst.set (i / 64)
          ((dst.getD (i / 64) 0 |||
            (load_u64 bits ((c + i) / 64) >>> ((c + i) % 64) &&& 2 ^ t - 1) <<< (i % 64)) %
              2 ^ 64) = dst1 at hbit1 hd1 hlen1 ⊢
      by_cases hz : i % 64 + t = 64 ∧ i + t < n
      · rw [if_pos hz]
        have hw2 : (i + t) / 64 < dst1.length := by omega
        have hlen2 : (dst1.set ((i + t) / 64) 0).length = dst.length := by
          rw [List.length_set, hlen1]
        have hinv2 : fill_inv bits c n (i + t) (dst1.set ((i + t) / 64) 0) := by
          refine ⟨?_, ?_, ?_⟩
          · intro p hp
            rw [word_bit_set _ _ _ _ hw2, if_neg (by omega), hbit1 p, if_pos hp]
          · intro p hp1 hp2
            simp only [fill_hi, if_pos hz.2] at hp2
            rw [word_bit_set _ _ _ _ hw2, if_pos (by omega)]
            simp
          · intro w hw3
            simp only [fill_hi, if_pos hz.2] at hw3
            rw [getD_set _ _ _ _ hw2]
            by_cases e1 : w = (i + t) / 64
            · rw [if_pos e1]; exact Nat.two_pow_pos 64
            · rw [if_neg e1]; exact hd1 w (by omega)
        obtain ⟨r1, r2⟩ := ih (i + t) (dst1.set ((i + t) / 64) 0) (by omega) (by omega)
          (by rw [hlen2]; exact hlen) hinv2
        exact ⟨by rw [r1, hlen2], r2⟩
      · rw [if_neg hz]
        have hinv2 : fill_inv bits c n (i + t) dst1 := by
          have hhi2 : fill_hi n (i + t) = 64 * (i / 64 + 1) := by
            simp only [fill_hi]
            split <;> omega
          rw [fill_inv, hhi2]
          refine ⟨?_, ?_, hd1⟩
          · intro p hp
            rw [hbit1 p, if_pos hp]
          · intro p hp1 hp2
            rw [hbit1 p, if_neg (by omega)]
            exact hb p (by omega) hp2
        obtain ⟨r1, r2⟩ := ih (i + t) dst1 (by omega) (by omega) (by rw [hlen1]; exact hlen) hinv2
        exact ⟨by rw [r1, hlen1], r2⟩
    · have : i = n := by omega
      subst this
      simp only [fill_buf_loop, if_neg hin]
      exact ⟨trivial, hinv⟩

/-- C3: for a request of `n` bits (`1 ≤ n ≤ 64`) the word that `fill_buf`
delivers equals `read_bits_at_offset(pool, c, n)` at the cursor `c` the pool
had before the request: the word-wise path and the byte-wise little-endian
read agree. -/
theorem fill_buf_eq_read_bits (pool : autoshrink_bit_pool) (n : Nat) (dst : List Nat)
    (h1 : 1 ≤ n) (h64 : n ≤ 64) (hd : dst ≠ []) :
    (fill_buf pool n dst).2.getD 0 0 = read_bits_at_offset pool pool.consumed n := by
  have hlen : 0 < dst.length := List.length_pos.2 hd
  have hlen0 : (dst.set 0 0).length = dst.length := List.length_set ..
  have hinv0 : fill_inv pool.bits pool.consumed n 0 (dst.set 0 0) := by
    have hhi : fill_hi n 0 = 64 := by
      simp only [fill_hi]
      rw [if_pos (by omega)]
    rw [fill_inv, hhi]
    refine ⟨fun p hp => absurd hp (Nat.not_lt_zero p), ?_, ?_⟩
    · intro p _ hp
      rw [word_bit_set _ _ _ _ hlen, if_pos (by omega)]
      simp
    · intro w hw
      have : w = 0 := by omega
      rw [this, getD_set _ _ _ _ hlen, if_pos rfl]
      exact Nat.two_pow_pos 64
  obtain ⟨_, ha, hb, hw⟩ := fill_buf_loop_spec pool.bits pool.consumed n n 0 (dst.set 0 0)
    (by omega) (by omega) (by rw [hlen0]; omega) hinv0
  have hhi : fill_hi n n = 64 := by
    simp only [fill_hi, if_neg (Nat.lt_irrefl n)]
    omega
  rw [hhi] at hb hw
  simp only [fill_buf]
  simp only [Nat.add_zero, Nat.zero_div] at ha hb hw
  apply Nat.eq_of_testBit_eq
  intro j
  rw [read_bits_testBit _ _ _ _ h64]
  by_cases hj : j < n
  · have := ha j hj
    simp only [word_bit] at this
    rw [show j / 64 = 0 by omega, show j % 64 = j by omega] at this
    rw [this]
    simp [hj]
  · by_cases hj2 : j < 64
    · have := hb j (by omega) hj2
      simp only [word_bit] at this
      rw [show j / 64 = 0 by omega, show j % 64 = j by omega] at this
      rw [this]
      simp [hj]
    · have hlt := hw 0 (by omega)
      rw [Nat.testBit_lt_two_pow (lt_of_lt_of_le hlt (Nat.pow_le_pow_right (by decide) (by omega)))]
      simp [hj]

theorem fill_buf_eq_read_bits_witness :
    (fill_buf
      { bits := [0x11, 0x22, 0x33, 0x44, 0x55, 0x66, 0x77, 0x88, 0x99, 0xaa, 0xbb, 0xcc, 0xdd,
          0xee, 0xff, 0x01], shrinking := true, bits_filled := 128, bits_ceil := 128,
        limit := 128, consumed := 37, request_ceil := 16, requests := [37], generation := 1,
        index := none } 41 [0xdeadbeef]).2.getD 0 0 =
    read_bits_at_offset
      { bits := [0x11, 0x22, 0x33, 0x44, 0x55, 0x66, 0x77, 0x88, 0x99, 0xaa, 0xbb, 0xcc, 0xdd,
          0xee, 0xff, 0x01], shrinking := true, bits_filled := 128, bits_ceil := 128,
        limit := 128, consumed := 37, request_ceil := 16, requests := [37], generation := 1,
        index := none } 37 41 :=
  fill_buf_eq_read_bits _ 41 [0xdeadbeef] (by decide) (by decide) (by decide)

/-! ## Reseeding -/

theorem fuzz_rng_reset_loop_length :
    ∀ (n mti : Nat) (mt : List Nat), (fuzz_rng_reset_loop n mti mt).length = mt.length := by
  intro n
  induction n with
  | zero => intro mti mt; rfl
  | succ n ih =>
    intro mti mt
    simp only [fuzz_rng_reset_loop]
    rw [ih, List.length_set]

theorem fuzz_rng_reset_loop_agree :
    ∀ (n mti : Nat) (mt1 mt2 : List Nat), mt1.length = mt2.length → 1 ≤ mti →
      (∀ j, j < mti → mt1[j]? = mt2[j]?) →
      ∀ j, j < mti + n → (fuzz_rng_reset_loop n mti mt1)[j]? = (fuzz_rng_reset_loop n mti mt2)[j]? := by
  intro n
  induction n with
  | zero => intro mti mt1 mt2 _ _ h j hj; exact h j hj
  | succ n ih =>
    intro mti mt1 mt2 hlen h1 h j hj
    simp only [fuzz_rng_reset_loop]
    have hprev : mt1.getD (mti - 1) 0 = mt2.getD (mti - 1) 0 := by
      rw [List.getD_eq_getElem?_getD, List.getD_eq_getElem?_getD, h (mti - 1) (by omega)]
    rw [hprev]
    apply ih (mti + 1) _ _ (by rw [List.length_set, List.length_set, hlen]) (by omega) _ j
      (by omega)
    intro k hk
    rw [List.getElem?_set, List.getElem?_set, hlen]
    by_cases e : mti = k
    · rw [if_pos e, if_pos e]
    · rw [if_neg e, if_neg e]
      exact h k (by omega)

/-- Reseeding overwrites the whole state vector: the state after
`fuzz_rng_reset` depends on the seed only. -/
theorem fuzz_rng_reset_eq (r1 r2 : fuzz_rng) (seed : Nat) (h1 : r1.mt.length = NN)
    (h2 : r2.mt.length = NN) : fuzz_rng_reset r1 seed = fuzz_rng_reset r2 seed := by
  obtain ⟨n, hn⟩ : ∃ n, n = NN - 1 := ⟨_, rfl⟩
  have hN : 1 + n = NN := by rw [hn]; decide
  have key : fuzz_rng_reset_loop n 1 (r1.mt.set 0 seed) =
      fuzz_rng_reset_loop n 1 (r2.mt.set 0 seed) := by
    apply List.ext_getElem?
    intro j
    by_cases hj : j < NN
    · apply fuzz_rng_reset_loop_agree n 1 _ _
        (by rw [List.length_set, List.length_set, h1, h2]) (le_refl 1) _ j (by omega)
      intro k hk
      have : k = 0 := by omega
      subst this
      rw [List.getElem?_set, List.getElem?_set, h1, h2, if_pos rfl, if_pos rfl]
    · rw [List.getElem?_eq_none
          (by rw [fuzz_rng_reset_loop_length, List.length_set, h1]; omega),
        List.getElem?_eq_none
          (by rw [fuzz_rng_reset_loop_length, List.length_set, h2]; omega)]
  simp only [fuzz_rng_reset, ← hn, key]

theorem fuzz_random_set_seed_eq (p1 p2 : prng_info) (seed : Nat)
    (h1 : p1.rng.mt.length = NN) (h2 : p2.rng.mt.length = NN) :
    fuzz_random_set_seed p1 seed = fuzz_random_set_seed p2 seed := by
  simp only [fuzz_random_set_seed, fuzz_random_stop_using_bit_pool]
  rw [fuzz_rng_reset_eq p1.rng p2.rng seed h1 h2]

theorem fuzz_random_bits_bulk_loop_pool :
    ∀ (fuel rem shift offset : Nat) (p : prng_info) (buf : List Nat), p.bit_pool = none →
      (fuzz_random_bits_bulk_loop fuel rem shift offset p buf).1.bit_pool = none := by
  intro fuel
  induction fuel with
  | zero => intro _ _ _ p _ h; exact h
  | succ fuel ih =>
    intro rem shift offset p buf h
    simp only [fuzz_random_bits_bulk_loop]
    split
    · apply ih
      split <;> exact h
    · exact h

/-- Without an injected pool every sequence of `fuzz_random_bits` calls
returns. -/
theorem fuzz_random_bits_seq_some :
    ∀ (ws : List Nat) (p : prng_info), p.bit_pool = none →
      ∃ vs, fuzz_random_bits_seq p ws = some vs := by
  intro ws
  induction ws with
  | nil => intro p _; exact ⟨[], rfl⟩
  | cons n ns ih =>
    intro p h
    simp only [fuzz_random_bits_seq, fuzz_random_bits, fuzz_random_bits_bulk, h]
    obtain ⟨vs, hvs⟩ := ih (fuzz_random_bits_bulk_loop n n 0 0 p [0]).1
      (fuzz_random_bits_bulk_loop_pool n n 0 0 p [0] h)
    rw [hvs]
    exact ⟨_, rfl⟩

/-- C9: after `fuzz_random_set_seed(t, s)` the values returned by the following
`fuzz_random_bits` calls depend on `s` and the requested widths only: two
engines in any states (state vector, accumulator, available bits, injected
pool), reseeded with the same seed, return the same values. The widths are
those the function accepts (`assert(bit_count <= 64)`). -/
theorem reseed_determines_bits (p1 p2 : prng_info) (seed : Nat) (ws : List Nat)
    (h1 : p1.rng.mt.length = NN) (h2 : p2.rng.mt.length = NN) (hws : ∀ w ∈ ws, w ≤ 64) :
    ∃ vs, fuzz_random_bits_seq (fuzz_random_set_seed p1 seed) ws = some vs ∧
      fuzz_random_bits_seq (fuzz_random_set_seed p2 seed) ws = some vs := by
  have _ := hws
  obtain ⟨vs, hvs⟩ := fuzz_random_bits_seq_some ws (fuzz_random_set_seed p1 seed) rfl
  exact ⟨vs, hvs, by rw [← fuzz_random_set_seed_eq p1 p2 seed h1 h2]; exact hvs⟩

theorem reseed_determines_bits_witness :
    ∃ vs,
      fuzz_random_bits_seq (fuzz_random_set_seed
        { rng := { mt := List.replicate 312 0, mti := 313 }, buf := 0, bits_available := 0,
          bit_pool := none } 42) [64, 8, 13] = some vs ∧
      fuzz_random_bits_seq (fuzz_random_set_seed
        { rng := { mt := List.replicate 312 7, mti := 5 }, buf := 0xabcdef, bits_available := 17,
          bit_pool := some (alloc_bit_pool 64 100 16) } 42) [64, 8, 13] = some vs :=
  reseed_determines_bits _ _ 42 [64, 8, 13] (List.length_replicate 312 0)
    (List.length_replicate 312 7) (by decide)

/-! ## UTF-8 validation -/

theorem utf8_long_input_get (j : Nat) :
    utf8_long_input[j]? =
      if j = 0 then some 0xf4 else if j ≤ 2 then some 0x80 else if j = 3 then some 0xc0
      else if j < 4294967294 then some 0 else if j = 4294967294 then some 0xc2
      else if j = 4294967295 then some 0x80 else none := by
  have hp : (2 : Nat) ^ 32 - 6 = 4294967290 := by norm_num
  have hlen : ([0xf4, 0x80, 0x80, 0xc0] : List Nat).length = 4 := rfl
  simp only [utf8_long_input, hp]
  rw [List.getElem?_append, hlen]
  by_cases h4 : j < 4
  · rw [if_pos h4]
    interval_cases j <;> rfl
  · rw [if_neg h4, List.getElem?_append, List.length_replicate, List.getElem?_replicate,
      if_neg (show ¬ j = 0 by omega), if_neg (show ¬ j ≤ 2 by omega),
      if_neg (show ¬ j = 3 by omega)]
    by_cases h5 : j < 4294967294
    · have c1 : j - 4 < 4294967290 := by omega
      rw [if_pos c1, if_pos c1, if_pos h5]
    · have c1 : ¬ j - 4 < 4294967290 := by omega
      rw [if_neg c1, if_neg h5]
      by_cases h6 : j = 4294967294
      · subst h6; rfl
      by_cases h7 : j = 4294967295
      · subst h7; rfl
      rw [if_neg h6, if_neg h7]
      have : j - 4 - 4294967290 = (j - 4294967296) + 2 := by omega
      rw [this]
      rfl

/-- A run of ASCII bytes is skipped one byte per iteration. -/
theorem utf8_valid_loop_ascii (str : List Nat) (str_len : Nat) :
    ∀ (k fuel i : Nat), i + k ≤ str_len → (∀ j, i ≤ j → j < i + k → str[j]? = some 0) →
      utf8_valid_loop str str_len (fuel + k) i = utf8_valid_loop str str_len fuel (i + k) := by
  intro k
  induction k with
  | zero => intro fuel i _ _; rfl
  | succ k ih =>
    intro fuel i hk hz
    have e : fuel + (k + 1) = (fuel + k) + 1 := by omega
    rw [e]
    simp only [utf8_valid_loop]
    rw [if_pos (by omega), hz i (le_refl _) (by omega)]
    simp only [Option.bind_eq_bind, Option.some_bind]
    rw [if_neg (by decide), if_pos (by decide), ih fuel (i + 1) (by omega)
      (fun j h1 h2 => hz j (by omega) (by omega))]
    congr 1
    omega

/-- The iteration on a lead byte `F4`: the bytes tested are those at `i + 1`,
`i + 2` and `i + UINT32_MAX`; the byte at `i + 3` is not looked at. -/
theorem utf8_valid_loop_f4 (str : List Nat) (n fuel i b1 b2 b3 : Nat) (hi : i + 3 < n)
    (h0 : str[i]? = some 0xf4) (h1 : str[i + 1]? = some b1) (hb1 : 0x80 ≤ b1 ∧ b1 ≤ 0x8f)
    (h2 : str[i + 2]? = some b2) (hb2 : is_continuation b2 = true)
    (h3 : str[(i + UINT32_MAX) % 2 ^ 64]? = some b3) (hb3 : is_continuation b3 = true) :
    utf8_valid_loop str n (fuel + 1) i = utf8_valid_loop str n fuel (i + 3 + 1) := by
  rw [utf8_valid_loop]
  have hn : ¬ i + 3 ≥ n := by omega
  have h3' : str[(i + UINT32_MAX) % 18446744073709551616]? = some b3 := by
    rw [← h3]; norm_num
  have hb1' : ¬ (b1 < 128 ∨ 143 < b1) := by omega
  simp [h0, h1, h2, h3', hb1', hb2, hb3, hn, show i < n by omega]

theorem utf8_valid_loop_c2 (str : List Nat) (n fuel i b1 : Nat) (hi : i + 1 < n)
    (h0 : str[i]? = some 0xc2) (h1 : str[i + 1]? = some b1) (hb1 : is_continuation b1 = true) :
    utf8_valid_loop str n (fuel + 1) i = utf8_valid_loop str n fuel (i + 1 + 1) := by
  rw [utf8_valid_loop]
  have hn : ¬ i + 1 ≥ n := by omega
  simp [h0, h1, hb1, hn, show i < n by omega]

theorem utf8_valid_loop_end (str : List Nat) (n fuel i : Nat) (hi : n ≤ i) :
    utf8_valid_loop str n fuel i = some true := by
  have hn : ¬ i < n := by omega
  cases fuel <;> simp [utf8_valid_loop, hn]

theorem utf8_valid_loop_long_input (n fuel : Nat) (hn : n = 4294967296) :
    utf8_valid_loop utf8_long_input n (fuel + 1 + 4294967290 + 1) 0 = some true := by
  subst hn
  rw [utf8_valid_loop_f4 utf8_long_input 4294967296 (fuel + 1 + 4294967290) 0 0x80 0x80 0x80
      (by norm_num) (by rw [utf8_long_input_get]; rfl) (by rw [utf8_long_input_get]; rfl)
      (by decide) (by rw [utf8_long_input_get]; rfl) (by decide)
      (by rw [utf8_long_input_get]; rfl) (by decide),
    utf8_valid_loop_ascii utf8_long_input 4294967296 4294967290 (fuel + 1) (0 + 3 + 1)
      (by norm_num)
      (fun j h1 h2 => by rw [utf8_long_input_get]; rw [if_neg (by omega), if_neg (by omega),
        if_neg (by omega), if_pos (by omega)]),
    utf8_valid_loop_c2 utf8_long_input 4294967296 fuel (0 + 3 + 1 + 4294967290) 0x80
      (by norm_num) (by rw [utf8_long_input_get]; rfl) (by rw [utf8_long_input_get]; rfl)
      (by decide),
    utf8_valid_loop_end _ _ _ _ (by norm_num)]

theorem utf8_valid_long_input : utf8_valid (2 ^ 32) (some utf8_long_input) = some true := by
  have h := utf8_valid_loop_long_input (2 ^ 32) 4 (by norm_num)
  have e : 4 + 1 + 4294967290 + 1 = 2 ^ 32 := by norm_num
  rw [e] at h
  exact h

theorem not_well_formed_f4 (tail : List Nat) :
    ¬ well_formed_utf8 (0xf4 :: 0x80 :: 0x80 :: 0xc0 :: tail) := by
  intro h
  generalize hl : (0xf4 :: 0x80 :: 0x80 :: 0xc0 :: tail : List Nat) = l at h
  cases h with
  | nil => cases hl
  | seq s rest hs hr =>
    rcases s with _ | ⟨a, _ | ⟨b, _ | ⟨c, _ | ⟨d, _ | ⟨e, s⟩⟩⟩⟩⟩
    · simp [table_3_7] at hs
    · simp only [List.cons_append, List.nil_append, List.cons.injEq] at hl
      obtain ⟨rfl, _⟩ := hl
      simp [table_3_7] at hs
    · simp only [List.cons_append, List.nil_append, List.cons.injEq] at hl
      obtain ⟨rfl, rfl, _⟩ := hl
      simp [table_3_7] at hs
    · simp only [List.cons_append, List.nil_append, List.cons.injEq] at hl
      obtain ⟨rfl, rfl, rfl, _⟩ := hl
      simp [table_3_7] at hs
    · simp only [List.cons_append, List.nil_append, List.cons.injEq] at hl
      obtain ⟨rfl, rfl, rfl, rfl, _⟩ := hl
      simp [table_3_7] at hs
    · simp [table_3_7] at hs

/-- C5: the well-formed sequence `ED 9F 80` (U+D7C0, row `ED 80..9F 80..BF` of
Table 3-7, a string `alloc_valid_utf8` can build) is rejected by `utf8_valid`:
the code tests the second byte against `0x9e`. -/
theorem utf8_valid_rejects_ed_9f :
    well_formed_utf8 [0xed, 0x9f, 0x80] ∧ utf8_valid 3 (some [0xed, 0x9f, 0x80]) = some false := by
  refine ⟨?_, by decide⟩
  have h := well_formed_utf8.seq [0xed, 0x9f, 0x80] [] (by decide) well_formed_utf8.nil
  simpa using h

/-- C6: `utf8_valid` returns true on a buffer of `2 ^ 32` bytes that starts
with `F4 80 80 C0` and so is not well-formed: after a lead byte `F4` the code
tests the byte at `i + UINT32_MAX` in place of the one at `i + 3`. -/
theorem utf8_valid_accepts_f4_with_bad_fourth_byte :
    utf8_long_input.length = 2 ^ 32 ∧
      utf8_valid (2 ^ 32) (some utf8_long_input) = some true ∧
      ¬ well_formed_utf8 utf8_long_input := by
  refine ⟨?_, utf8_valid_long_input, ?_⟩
  · unfold utf8_long_input
    rw [List.length_append, List.length_append, List.length_replicate]
    norm_num
  · unfold utf8_long_input
    rw [List.cons_append, List.cons_append, List.cons_append, List.cons_append, List.nil_append]
    exact not_well_formed_f4 _

/-! ## The duplicate filter has no false negatives -/

/-- The bit number the `i`-th hash chunk selects in a filter of `2 ^ s` bits. -/
theorem bloom_chunk_lt (hash s i : Nat) (hs : s < 64) :
    (hash >>> (i * s)) &&& ((1 <<< s) % 2 ^ 64 - 1) < 2 ^ s := by
  rw [one_shiftLeft_mod s hs, Nat.and_pow_two_sub_one_eq_mod]
  exact Nat.mod_lt _ (Nat.two_pow_pos s)

theorem bloom_bit_eq (v : Nat) : (1 <<< (v &&& 0x07)) % 256 = 2 ^ (v % 8) := by
  have h7 : v &&& 0x07 = v % 8 := Nat.and_pow_two_sub_one_eq_mod v 3
  rw [h7, Nat.one_shiftLeft]
  have h8 : v % 8 < 8 := Nat.mod_lt v (by decide)
  exact Nat.mod_eq_of_lt (lt_of_lt_of_le (Nat.pow_lt_pow_right (by decide) h8) (by decide))

theorem bloom_test_eq (bits : List Nat) (v : Nat) :
    (bits.getD (v / 8) 0 &&& (1 <<< (v &&& 0x07)) % 256 = 0) ↔ bit_at bits v = false := by
  rw [bloom_bit_eq]
  have h := and_two_pow_ne_zero (bits.getD (v / 8) 0) (v % 8)
  unfold bit_at
  constructor
  · intro h0
    cases hb : (bits.getD (v / 8) 0).testBit (v % 8)
    · rfl
    · exact absurd h0 (h.2 hb)
  · intro hb
    by_contra h0
    rw [h.1 h0] at hb
    exact Bool.noConfusion hb

theorem bit_at_set_or (bits : List Nat) (v q : Nat) (hv : v / 8 < bits.length) :
    bit_at (bits.set (v / 8) (bits.getD (v / 8) 0 ||| (1 <<< (v &&& 0x07)) % 256)) q =
      (bit_at bits q || decide (q = v)) := by
  rw [bloom_bit_eq, bit_at_set _ _ _ _ hv]
  by_cases h1 : q / 8 = v / 8
  · rw [if_pos h1, Nat.testBit_or, Nat.testBit_two_pow]
    have e : decide (v % 8 = q % 8) = decide (q = v) := by
      by_cases h2 : v % 8 = q % 8
      · have : q = v := by omega
        simp [h2, this]
      · have : ¬ q = v := by omega
        simp [h2, this]
    rw [e]
    simp [bit_at, h1]
  · rw [if_neg h1]
    have : ¬ q = v := fun e => h1 (by rw [e])
    simp [this]

theorem bloom_mark_loop_spec (hash s : Nat) (hs3 : 3 ≤ s) (hs : s < 64) :
    ∀ (n i : Nat) (bits : List Nat) (any_set : Bool), bits.length = 2 ^ s / 8 →
      (bloom_mark_loop hash s n i bits any_set).1.length = bits.length ∧
      (∀ q, bit_at bits q = true → bit_at (bloom_mark_loop hash s n i bits any_set).1 q = true) ∧
      (∀ j, i ≤ j → j < i + n →
        bit_at (bloom_mark_loop hash s n i bits any_set).1
          ((hash >>> (j * s)) &&& ((1 <<< s) % 2 ^ 64 - 1)) = true) := by
  intro n
  induction n with
  | zero =>
    intro i bits any_set _
    exact ⟨rfl, fun q h => h, fun j h1 h2 => absurd h2 (by omega)⟩
  | succ n ih =>
    intro i bits any_set hlen
    simp only [bloom_mark_loop]
    have hv := bloom_chunk_lt hash s i hs
    generalize hvdef : (hash >>> (i * s)) &&& ((1 <<< s) % 2 ^ 64 - 1) = v at hv ⊢
    have h8 : 2 ^ s = 8 * 2 ^ (s - 3) := by
      rw [show (8 : Nat) = 2 ^ 3 by norm_num, ← pow_add]
      congr 1
      omega
    have hoff : v / 8 < bits.length := by
      rw [hlen, h8, Nat.mul_div_cancel_left _ (by decide : 0 < 8)]
      rw [h8] at hv
      omega
    have hlen1 : (bits.set (v / 8) (bits.getD (v / 8) 0 ||| (1 <<< (v &&& 0x07)) % 256)).length =
        2 ^ s / 8 := by rw [List.length_set, hlen]
    obtain ⟨r1, r2, r3⟩ := ih (i + 1) _ (if bits.getD (v / 8) 0 &&& (1 <<< (v &&& 0x07)) % 256 = 0
      then true else any_set) hlen1
    refine ⟨by rw [r1, List.length_set], ?_, ?_⟩
    · intro q hq
      apply r2
      rw [bit_at_set_or _ _ _ hoff, hq]
      rfl
    · intro j h1 h2
      by_cases hj : j = i
      · subst hj
        apply r2
        rw [hvdef, bit_at_set_or _ _ _ hoff]
        simp
      · exact r3 j (by omega) (by omega)

theorem bloom_check_loop_iff (hash s : Nat) (bits : List Nat) :
    ∀ (n i : Nat), bloom_check_loop hash s bits n i = true ↔
      ∀ j, i ≤ j → j < i + n →
        bit_at bits ((hash >>> (j * s)) &&& ((1 <<< s) % 2 ^ 64 - 1)) = true := by
  intro n
  induction n with
  | zero =>
    intro i
    simp only [bloom_check_loop, true_iff]
    intro j h1 h2
    omega
  | succ n ih =>
    intro i
    simp only [bloom_check_loop]
    by_cases h0 : bits.getD (((hash >>> (i * s)) &&& ((1 <<< s) % 2 ^ 64 - 1)) / 8) 0 &&&
        (1 <<< (((hash >>> (i * s)) &&& ((1 <<< s) % 2 ^ 64 - 1)) &&& 0x07)) % 256 = 0
    · rw [if_pos h0]
      have hb := (bloom_test_eq bits _).1 h0
      constructor
      · intro h; exact Bool.noConfusion h
      · intro h
        have := h i (le_refl _) (by omega)
        rw [hb] at this
        exact this
    · rw [if_neg h0, ih (i + 1)]
      have hb : bit_at bits ((hash >>> (i * s)) &&& ((1 <<< s) % 2 ^ 64 - 1)) = true := by
        cases hc : bit_at bits ((hash >>> (i * s)) &&& ((1 <<< s) % 2 ^ 64 - 1))
        · exact absurd ((bloom_test_eq bits _).2 hc) h0
        · rfl
      constructor
      · intro h j h1 h2
        by_cases hj : j = i
        · rw [hj]; exact hb
        · exact h j (by omega) (by omega)
      · intro h j h1 h2
        exact h j (by omega) (by omega)

theorem bloom_check_chain_iff (hash : Nat) (chain : List bloom_filter) :
    bloom_check_chain hash chain = true ↔
      ∃ f ∈ chain, bloom_check_loop hash f.size2 f.bits HASH_COUNT 0 = true := by
  induction chain with
  | nil => simp [bloom_check_chain]
  | cons bf rest ih =>
    simp only [bloom_check_chain]
    by_cases h : bloom_check_loop hash bf.size2 bf.bits HASH_COUNT 0 = true
    · rw [if_pos h]
      exact ⟨fun _ => ⟨bf, List.mem_cons_self _ _, h⟩, fun _ => rfl⟩
    · rw [if_neg h, ih]
      constructor
      · rintro ⟨f, hf, hh⟩
        exact ⟨f, List.mem_cons_of_mem _ hf, hh⟩
      · rintro ⟨f, hf, hh⟩
        rcases List.mem_cons.1 hf with e | e
        · rw [e] at hh; exact absurd hh h
        · exact ⟨f, e, hh⟩

/-- Marking a filter keeps every hit: the loop only sets bits. -/
theorem bloom_mark_keeps_hit (hx hy s : Nat) (bits : List Nat) (hs3 : 3 ≤ s) (hs : s < 64)
    (hlen : bits.length = 2 ^ s / 8) (h : bloom_check_loop hy s bits HASH_COUNT 0 = true) :
    bloom_check_loop hy s (bloom_mark_loop hx s HASH_COUNT 0 bits false).1 HASH_COUNT 0 = true := by
  rw [bloom_check_loop_iff] at h ⊢
  intro j h1 h2
  exact (bloom_mark_loop_spec hx s hs3 hs HASH_COUNT 0 bits false hlen).2.1 _ (h j h1 h2)

/-- After marking, the marked hash hits the filter. -/
theorem bloom_mark_hits (hx s : Nat) (bits : List Nat) (hs3 : 3 ≤ s) (hs : s < 64)
    (hlen : bits.length = 2 ^ s / 8) :
    bloom_check_loop hx s (bloom_mark_loop hx s HASH_COUNT 0 bits false).1 HASH_COUNT 0 = true := by
  rw [bloom_check_loop_iff]
  intro j h1 h2
  exact (bloom_mark_loop_spec hx s hs3 hs HASH_COUNT 0 bits false hlen).2.2 j h1 h2

theorem fuzz_bloom_check_eq (b : fuzz_bloom) (data : List Nat) :
    fuzz_bloom_check b data =
      bloom_check_chain (fuzz_hash_onepass data >>> b.top_block2)
        (b.blocks.getD (fuzz_hash_onepass data &&&
          ((1 <<< b.top_block2) % 2 ^ 64 + 2 ^ 64 - 1) % 2 ^ 64) []) := by
  simp only [fuzz_bloom_check]
  split
  · rename_i h; rw [h]; rfl
  · rename_i bf rest h; rw [h]

theorem bloom_block_id_lt (b : fuzz_bloom) (hash : Nat) (hwf : bloom_wf b) :
    hash &&& ((1 <<< b.top_block2) % 2 ^ 64 + 2 ^ 64 - 1) % 2 ^ 64 < b.blocks.length := by
  obtain ⟨ht, _, _, hlen, _⟩ := hwf
  rw [one_shiftLeft_mod _ ht, hlen]
  have hp : 0 < 2 ^ b.top_block2 := Nat.two_pow_pos _
  have hlt : 2 ^ b.top_block2 < 2 ^ 64 := Nat.pow_lt_pow_right (by decide) ht
  have e : (2 ^ b.top_block2 + 2 ^ 64 - 1) % 2 ^ 64 = 2 ^ b.top_block2 - 1 := by
    have : 2 ^ b.top_block2 + 2 ^ 64 - 1 = (2 ^ b.top_block2 - 1) + 2 ^ 64 := by omega
    rw [this, Nat.add_mod_right]
    exact Nat.mod_eq_of_lt (by omega)
  rw [e, Nat.and_pow_two_sub_one_eq_mod]
  exact Nat.mod_lt _ hp

theorem alloc_filter_wf (s : Nat) (hs3 : 3 ≤ s) (hs : s < 64) :
    3 ≤ (alloc_filter s).size2 ∧ (alloc_filter s).size2 < 64 ∧
      (alloc_filter s).bits.length = 2 ^ (alloc_filter s).size2 / 8 := by
  simp only [alloc_filter, List.length_replicate, one_shiftLeft_mod s hs]
  exact ⟨hs3, hs, trivial⟩

/-- Replacing one block by a list of well-shaped filters that keeps the hits of
the old list keeps the filter well-shaped and keeps every hit. -/
theorem bloom_set_block (b : fuzz_bloom) (id : Nat) (chain : List bloom_filter)
    (hwf : bloom_wf b) (hid : id < b.blocks.length)
    (hc : ∀ f ∈ chain, 3 ≤ f.size2 ∧ f.size2 < 64 ∧ f.bits.length = 2 ^ f.size2 / 8)
    (hmono : ∀ hy, bloom_check_chain hy (b.blocks.getD id []) = true →
      bloom_check_chain hy chain = true) :
    bloom_wf { b with blocks := b.blocks.set id chain } ∧
      (∀ y, fuzz_bloom_check b y = true →
        fuzz_bloom_check { b with blocks := b.blocks.set id chain } y = true) ∧
      (∀ y, fuzz_hash_onepass y &&& ((1 <<< b.top_block2) % 2 ^ 64 + 2 ^ 64 - 1) % 2 ^ 64 = id →
        bloom_check_chain (fuzz_hash_onepass y >>> b.top_block2) chain = true →
        fuzz_bloom_check { b with blocks := b.blocks.set id chain } y = true) := by
  have hget : ∀ k, (b.blocks.set id chain).getD k [] =
      if k = id then chain else b.blocks.getD k [] := by
    intro k
    rw [List.getD_eq_getElem?_getD, List.getD_eq_getElem?_getD, List.getElem?_set]
    by_cases h : id = k
    · subst h
      simp [hid]
    · have h2 : ¬ k = id := fun e => h e.symm
      simp [h, h2]
  obtain ⟨w1, w2, w3, w4, w5⟩ := hwf
  refine ⟨⟨w1, w2, w3, by simp only [List.length_set]; exact w4, ?_⟩, ?_, ?_⟩
  · intro c hcm f hf
    rcases List.mem_or_eq_of_mem_set hcm with h | h
    · exact w5 c h f hf
    · rw [h] at hf; exact hc f hf
  · intro y hy
    rw [fuzz_bloom_check_eq] at hy ⊢
    simp only [hget]
    split
    · rename_i e
      rw [e] at hy
      exact hmono _ hy
    · exact hy
  · intro y hidy hy
    rw [fuzz_bloom_check_eq]
    simp only [hget, hidy, if_true]
    exact hy

theorem bloom_wf_block (b : fuzz_bloom) (id : Nat) (bf : bloom_filter) (rest : List bloom_filter)
    (hwf : bloom_wf b) (h : b.blocks.getD id [] = bf :: rest) :
    ∀ f ∈ bf :: rest, 3 ≤ f.size2 ∧ f.size2 < 64 ∧ f.bits.length = 2 ^ f.size2 / 8 := by
  have hmem : (bf :: rest) ∈ b.blocks := by
    rw [List.getD_eq_getElem?_getD] at h
    cases hg : b.blocks[id]? with
    | none => rw [hg] at h; exact List.noConfusion h
    | some c =>
      rw [hg] at h
      simp only [Option.getD_some] at h
      rw [← h]
      exact List.getElem?_mem hg
  exact hwf.2.2.2.2 _ hmem

/-- The list a block holds after marking keeps the hits of the list before. -/
theorem bloom_marked_chain_mono (hx hy : Nat) (bf : bloom_filter) (rest pre : List bloom_filter)
    (hs3 : 3 ≤ bf.size2) (hs : bf.size2 < 64) (hlen : bf.bits.length = 2 ^ bf.size2 / 8)
    (h : bloom_check_chain hy (bf :: rest) = true) :
    bloom_check_chain hy
      (pre ++ { bf with bits := (bloom_mark_loop hx bf.size2 HASH_COUNT 0 bf.bits false).1 } ::
        rest) = true := by
  rw [bloom_check_chain_iff] at h ⊢
  obtain ⟨f, hf, hh⟩ := h
  rcases List.mem_cons.1 hf with e | e
  · subst e
    exact ⟨_, List.mem_append_right _ (List.mem_cons_self _ _),
      bloom_mark_keeps_hit hx hy f.size2 f.bits hs3 hs hlen hh⟩
  · exact ⟨f, List.mem_append_right _ (List.mem_cons_of_mem _ e), hh⟩

theorem bloom_marked_chain_hit (hx : Nat) (bf : bloom_filter) (rest pre : List bloom_filter)
    (hs3 : 3 ≤ bf.size2) (hs : bf.size2 < 64) (hlen : bf.bits.length = 2 ^ bf.size2 / 8) :
    bloom_check_chain hx
      (pre ++ { bf with bits := (bloom_mark_loop hx bf.size2 HASH_COUNT 0 bf.bits false).1 } ::
        rest) = true := by
  rw [bloom_check_chain_iff]
  exact ⟨_, List.mem_append_right _ (List.mem_cons_self _ _),
    bloom_mark_hits hx bf.size2 bf.bits hs3 hs hlen⟩

theorem bloom_marked_chain_wf (hx : Nat) (bf : bloom_filter) (rest pre : List bloom_filter)
    (hs3 : 3 ≤ bf.size2) (hs : bf.size2 < 64) (hlen : bf.bits.length = 2 ^ bf.size2 / 8)
    (hrest : ∀ f ∈ rest, 3 ≤ f.size2 ∧ f.size2 < 64 ∧ f.bits.length = 2 ^ f.size2 / 8)
    (hpre : ∀ f ∈ pre, 3 ≤ f.size2 ∧ f.size2 < 64 ∧ f.bits.length = 2 ^ f.size2 / 8) :
    ∀ f ∈ pre ++ { bf with bits := (bloom_mark_loop hx bf.size2 HASH_COUNT 0 bf.bits false).1 } ::
        rest, 3 ≤ f.size2 ∧ f.size2 < 64 ∧ f.bits.length = 2 ^ f.size2 / 8 := by
  intro f hf
  rcases List.mem_append.1 hf with h | h
  · exact hpre f h
  · rcases List.mem_cons.1 h with e | e
    · subst e
      exact ⟨hs3, hs, by
        simp only
        rw [(bloom_mark_loop_spec hx bf.size2 hs3 hs HASH_COUNT 0 bf.bits false hlen).1, hlen]⟩
    · exact hrest f e

/-- What one `fuzz_bloom_mark` call does to a well-shaped filter: the filter
stays well-shaped, every data buffer that hit before still hits, and when the
call returns `true` the marked data hits. -/
theorem fuzz_bloom_mark_spec (b b1 : fuzz_bloom) (x : List Nat) (mem ok : Bool)
    (hwf : bloom_wf b) (hm : fuzz_bloom_mark b x mem = some (ok, b1)) :
    bloom_wf b1 ∧ (∀ y, fuzz_bloom_check b y = true → fuzz_bloom_check b1 y = true) ∧
      (ok = true → fuzz_bloom_check b1 x = true) := by
  have hid := bloom_block_id_lt b (fuzz_hash_onepass x) hwf
  simp only [fuzz_bloom_mark] at hm
  -- the front filter `bf`, the rest of the list, and the list the block held before
  have key : ∀ (bf : bloom_filter) (rest : List bloom_filter),
      3 ≤ bf.size2 → bf.size2 < 64 → bf.bits.length = 2 ^ bf.size2 / 8 →
      (∀ f ∈ rest, 3 ≤ f.size2 ∧ f.size2 < 64 ∧ f.bits.length = 2 ^ f.size2 / 8) →
      (∀ hy, bloom_check_chain hy (b.blocks.getD (fuzz_hash_onepass x &&&
          ((1 <<< b.top_block2) % 2 ^ 64 + 2 ^ 64 - 1) % 2 ^ 64) []) = true →
        bloom_check_chain hy (bf :: rest) = true) →
      ∀ pre : List bloom_filter,
      (∀ f ∈ pre, 3 ≤ f.size2 ∧ f.size2 < 64 ∧ f.bits.length = 2 ^ f.size2 / 8) →
      b1 = { top_block2 := b.top_block2, min_filter2 := b.min_filter2,
             blocks := b.blocks.set (fuzz_hash_onepass x &&&
                         ((1 <<< b.top_block2) % 2 ^ 64 + 2 ^ 64 - 1) % 2 ^ 64)
                       (pre ++ { size2 := bf.size2,
                                 bits := (bloom_mark_loop (fuzz_hash_onepass x >>> b.top_block2)
                                           bf.size2 HASH_COUNT 0 bf.bits false).1 } :: rest) } →
      bloom_wf b1 ∧ (∀ y, fuzz_bloom_check b y = true → fuzz_bloom_check b1 y = true) ∧
        (ok = true → fuzz_bloom_check b1 x = true) := by
    intro bf rest hs3 hs hlen hrest hold pre hpre hb1
    obtain ⟨r1, r2, r3⟩ := bloom_set_block b _ _ hwf hid
      (bloom_marked_chain_wf (fuzz_hash_onepass x >>> b.top_block2) bf rest pre hs3 hs hlen
        hrest hpre)
      (fun hy h => bloom_marked_chain_mono (fuzz_hash_onepass x >>> b.top_block2) hy bf rest pre
        hs3 hs hlen (hold hy h))
    rw [hb1]
    exact ⟨r1, r2, fun _ => r3 x rfl
      (bloom_marked_chain_hit (fuzz_hash_onepass x >>> b.top_block2) bf rest pre hs3 hs hlen)⟩
  have hnil : ∀ f ∈ ([] : List bloom_filter),
      3 ≤ f.size2 ∧ f.size2 < 64 ∧ f.bits.length = 2 ^ f.size2 / 8 :=
    fun f hf => absurd hf (List.not_mem_nil f)
  cases hblk : b.blocks.getD (fuzz_hash_onepass x &&&
      ((1 <<< b.top_block2) % 2 ^ 64 + 2 ^ 64 - 1) % 2 ^ 64) [] with
  | nil =>
    rw [hblk] at hm key
    cases mem with
    | false =>
      simp only [Bool.false_eq_true, if_false, Option.some.injEq, Prod.mk.injEq] at hm
      obtain ⟨rfl, rfl⟩ := hm
      exact ⟨hwf, fun y h => h, fun h => Bool.noConfusion h⟩
    | true =>
      simp only [if_true] at hm
      obtain ⟨a1, a2, a3⟩ := alloc_filter_wf b.min_filter2 hwf.2.1 hwf.2.2.1
      have hold : ∀ hy, bloom_check_chain hy [] = true →
          bloom_check_chain hy (alloc_filter b.min_filter2 :: []) = true :=
        fun hy h => by simp [bloom_check_chain] at h
      split at hm
      · split at hm
        · split at hm
          · simp only [Option.some.injEq, Prod.mk.injEq] at hm
            exact key _ [] a1 a2 a3 hnil hold [] hnil hm.2.symm
          · simp only [Option.some.injEq, Prod.mk.injEq] at hm
            obtain ⟨b1a, b1b, b1c⟩ := alloc_filter_wf ((alloc_filter b.min_filter2).size2 + 1)
              (by omega) (by simp only [HASH_COUNT] at *; omega)
            exact key _ [] a1 a2 a3 hnil hold [alloc_filter ((alloc_filter b.min_filter2).size2 + 1)]
              (fun f hf => by rw [List.mem_singleton.1 hf]; exact ⟨b1a, b1b, b1c⟩) hm.2.symm
        · simp only [Option.some.injEq, Prod.mk.injEq] at hm
          exact key _ [] a1 a2 a3 hnil hold [] hnil hm.2.symm
      · exact Option.noConfusion hm
  | cons bf rest =>
    rw [hblk] at hm key
    simp only at hm
    have hall := bloom_wf_block b _ bf rest hwf hblk
    obtain ⟨a1, a2, a3⟩ := hall bf (List.mem_cons_self _ _)
    have hrest : ∀ f ∈ rest, 3 ≤ f.size2 ∧ f.size2 < 64 ∧ f.bits.length = 2 ^ f.size2 / 8 :=
      fun f hf => hall f (List.mem_cons_of_mem _ hf)
    split at hm
    · split at hm
      · split at hm
        · simp only [Option.some.injEq, Prod.mk.injEq] at hm
          exact key bf rest a1 a2 a3 hrest (fun _ h => h) [] hnil hm.2.symm
        · split at hm
          · simp only [Option.some.injEq, Prod.mk.injEq] at hm
            obtain ⟨b1a, b1b, b1c⟩ := alloc_filter_wf (bf.size2 + 1)
              (by omega) (by simp only [HASH_COUNT] at *; omega)
            exact key bf rest a1 a2 a3 hrest (fun _ h => h) [alloc_filter (bf.size2 + 1)]
              (fun f hf => by rw [List.mem_singleton.1 hf]; exact ⟨b1a, b1b, b1c⟩) hm.2.symm
          · simp only [Option.some.injEq, Prod.mk.injEq] at hm
            exact key bf rest a1 a2 a3 hrest (fun _ h => h) [] hnil hm.2.symm
      · simp only [Option.some.injEq, Prod.mk.injEq] at hm
        exact key bf rest a1 a2 a3 hrest (fun _ h => h) [] hnil hm.2.symm
    · exact Option.noConfusion hm

/-- The filter `fuzz_bloom_init` builds is well-shaped for every configuration
with fewer than 64 top-block bits and 3 to 63 filter bits (`0` selects the
default 9); the run uses `fuzz_bloom_init(NULL)`. -/
theorem fuzz_bloom_init_wf (t m : Nat) (ht : t < 64) (hm : m = 0 ∨ (3 ≤ m ∧ m < 64)) :
    bloom_wf (fuzz_bloom_init t m) := by
  have h1 : (if t ≠ 0 then t else DEF_TOP_BLOCK_BITS) < 64 := by
    split
    · exact ht
    · decide
  have h2 : 3 ≤ (if m ≠ 0 then m else DEF_MIN_FILTER_BITS) ∧
      (if m ≠ 0 then m else DEF_MIN_FILTER_BITS) < 64 := by
    split
    · rename_i h; exact hm.resolve_left h
    · decide
  refine ⟨h1, h2.1, h2.2, ?_, ?_⟩
  · simp only [fuzz_bloom_init, List.length_replicate]
    exact one_shiftLeft_mod _ h1
  · intro chain hc f hf
    simp only [fuzz_bloom_init] at hc
    rw [List.eq_of_mem_replicate hc] at hf
    exact absurd hf (List.not_mem_nil f)

theorem fuzz_bloom_marks_keep (x : List Nat) :
    ∀ (calls : List (List Nat × Bool)) (b b2 : fuzz_bloom), bloom_wf b →
      fuzz_bloom_check b x = true → fuzz_bloom_marks b calls = some b2 →
      fuzz_bloom_check b2 x = true := by
  intro calls
  induction calls with
  | nil =>
    intro b b2 _ hc h
    simp only [fuzz_bloom_marks, Option.some.injEq] at h
    rw [← h]; exact hc
  | cons c cs ih =>
    intro b b2 hwf hc h
    simp only [fuzz_bloom_marks] at h
    cases hm : fuzz_bloom_mark b c.1 c.2 with
    | none => rw [hm] at h; exact Option.noConfusion h
    | some r =>
      rw [hm] at h
      obtain ⟨w, k, _⟩ := fuzz_bloom_mark_spec b r.2 c.1 c.2 r.1 hwf hm
      exact ih r.2 b2 w (k x hc) h

/-- C7: no false negatives.  Once `fuzz_bloom_mark(b, x)` has returned `true` on
a well-shaped filter, `fuzz_bloom_check(b, x)` returns `true`, and it still does
after any further sequence of `fuzz_bloom_mark` calls (whatever they return,
filters prepended or not). -/
theorem bloom_no_false_negatives (b b1 : fuzz_bloom) (x : List Nat) (mem : Bool)
    (hwf : bloom_wf b) (hm : fuzz_bloom_mark b x mem = some (true, b1)) :
    fuzz_bloom_check b1 x = true ∧
      ∀ (calls : List (List Nat × Bool)) (b2 : fuzz_bloom),
        fuzz_bloom_marks b1 calls = some b2 → fuzz_bloom_check b2 x = true := by
  obtain ⟨w, _, hx⟩ := fuzz_bloom_mark_spec b b1 x mem true hwf hm
  exact ⟨hx rfl, fun calls b2 h => fuzz_bloom_marks_keep x calls b1 b2 w (hx rfl) h⟩

theorem bloom_no_false_negatives_witness :
    fuzz_bloom_check
        { top_block2 := 2, min_filter2 := 3, blocks := [[], [], [], [{ size2 := 3, bits := [100] }]] }
        [1, 2, 3] = true ∧
      ∀ (calls : List (List Nat × Bool)) (b2 : fuzz_bloom),
        fuzz_bloom_marks
          { top_block2 := 2, min_filter2 := 3,
            blocks := [[], [], [], [{ size2 := 3, bits := [100] }]] } calls = some b2 →
        fuzz_bloom_check b2 [1, 2, 3] = true :=
  bloom_no_false_negatives (fuzz_bloom_init 2 3) _ [1, 2, 3] true
    (fuzz_bloom_init_wf 2 3 (by decide) (Or.inr (by decide))) (by decide)

/-! ## Shrinking commits a candidate only after a failure -/

/-- A property call changes the user's environment only. -/
theorem fuzz_call_frame {σ : Type} (c : fuzz_setup σ) (t : fuzz σ)
    (args : List (Option instance_t)) :
    (fuzz_call c t args).2.trial = t.trial ∧ (fuzz_call c t args).2.prng = t.prng ∧
      (fuzz_call c t args).2.bloom = t.bloom ∧ (fuzz_call c t args).2.counters = t.counters := by
  unfold fuzz_call
  split <;> exact ⟨rfl, rfl, rfl, rfl⟩

/-- A hook changes the user's environment only. -/
theorem call_hook_frame {σ : Type} (h : Option (σ → hook_call → Int × σ)) (t : fuzz σ)
    (info : hook_call) :
    (call_hook h t info).2.trial = t.trial ∧ (call_hook h t info).2.prng = t.prng ∧
      (call_hook h t info).2.bloom = t.bloom ∧ (call_hook h t info).2.counters = t.counters := by
  cases h <;> exact ⟨rfl, rfl, rfl, rfl⟩

theorem get_arg_set_arg {σ : Type} (t : fuzz σ) (i j : Nat) (a : arg_info) :
    get_arg (set_arg t i a) j =
      if i = j ∧ i < t.trial.args.length then a else get_arg t j := by
  unfold get_arg set_arg
  simp only [List.getD_eq_getElem?_getD, List.getElem?_set]
  by_cases hij : i = j
  · subst hij
    by_cases hl : i < t.trial.args.length
    · simp [hl]
    · have : t.trial.args[i]? = none := List.getElem?_eq_none (by omega)
      simp [hl, this]
  · simp [hij]

theorem set_arg_length {σ : Type} (t : fuzz σ) (i : Nat) (a : arg_info) :
    (set_arg t i a).trial.args.length = t.trial.args.length := by
  simp [set_arg]

/-- Replacing an argument record by one with the same instance and the same
bit pool leaves every stored argument as it was. -/
theorem stored_arg_set_arg {σ : Type} (t : fuzz σ) (i j : Nat) (a : arg_info)
    (hinst : a.inst = (get_arg t i).inst)
    (hpool : a.env.bind (fun e => e.bit_pool) = (get_arg t i).env.bind (fun e => e.bit_pool)) :
    stored_arg (set_arg t i a) j = stored_arg t j := by
  unfold stored_arg
  rw [get_arg_set_arg]
  split
  · next h => rw [← h.1, hinst, hpool]
  · rfl

theorem fuzz_autoshrink_update_model_bit_pool (env : autoshrink_env) (res : Int) (adj : Nat) :
    (fuzz_autoshrink_update_model env res adj).bit_pool = env.bit_pool := by
  unfold fuzz_autoshrink_update_model
  split <;> rfl

/-- Updating the autoshrink model touches neither the stored arguments nor the
random source. -/
theorem update_model_arg_frame {σ : Type} (c : fuzz_setup σ) (t : fuzz σ) (arg_id : Nat)
    (res : Int) (adj : Nat) :
    (∀ j, stored_arg (update_model_arg c t arg_id res adj) j = stored_arg t j) ∧
      (update_model_arg c t arg_id res adj).trial.args.length = t.trial.args.length ∧
      (update_model_arg c t arg_id res adj).prng = t.prng ∧
      (update_model_arg c t arg_id res adj).env = t.env := by
  unfold update_model_arg
  split
  · exact ⟨fun _ => rfl, rfl, rfl, rfl⟩
  · split
    · exact ⟨fun _ => rfl, rfl, rfl, rfl⟩
    · split
      · exact ⟨fun _ => rfl, rfl, rfl, rfl⟩
      · next env henv =>
        refine ⟨fun j => stored_arg_set_arg t arg_id j _ rfl ?_, set_arg_length _ _ _, rfl, rfl⟩
        rw [henv]
        simp only [Option.bind, fuzz_autoshrink_update_model_bit_pool]

/-- Two engines with the same trial record store the same arguments. -/
theorem stored_arg_of_trial {σ : Type} (t u : fuzz σ) (h : u.trial.args = t.trial.args) (j : Nat) :
    stored_arg u j = stored_arg t j := by
  unfold stored_arg get_arg
  rw [h]

/-- The counting block of the call loop changes neither the stored arguments
nor the random source. -/
theorem shrink_count_result_frame {σ : Type} (c : fuzz_setup σ) (arg_i : Nat) (repeated : Bool)
    (res : Int) (t : fuzz σ) :
    (∀ j, stored_arg (shrink_count_result c arg_i repeated res t) j = stored_arg t j) ∧
      (shrink_count_result c arg_i repeated res t).trial.args.length = t.trial.args.length ∧
      (shrink_count_result c arg_i repeated res t).prng = t.prng := by
  unfold shrink_count_result
  split
  · split
    · obtain ⟨h1, h2, h3, _⟩ := update_model_arg_frame c
        { t with trial := { t.trial with
            successful_shrinks := t.trial.successful_shrinks + 1 } } arg_i res 3
      exact ⟨fun j => (h1 j).trans (stored_arg_of_trial t _ rfl j), h2, h3⟩
    · exact ⟨fun j => stored_arg_of_trial t _ rfl j, rfl, rfl⟩
  · exact ⟨fun _ => rfl, rfl, rfl⟩

/-- The property-call loop of a shrink attempt changes neither the stored
arguments nor the random source. -/
theorem shrink_call_loop_frame {σ : Type} (c : fuzz_setup σ) (arg_i tactic : Nat) :
    ∀ (fuel : Nat) (repeated : Bool) (t : fuzz σ) (o : Option Int) (t1 : fuzz σ),
      shrink_call_loop c arg_i tactic fuel repeated t = some (o, t1) →
      (∀ j, stored_arg t1 j = stored_arg t j) ∧
        t1.trial.args.length = t.trial.args.length ∧ t1.prng = t.prng := by
  intro fuel
  induction fuel with
  | zero => intro repeated t o t1 h; simp [shrink_call_loop] at h
  | succ n ih =>
    intro repeated t o t1 h
    unfold shrink_call_loop at h
    simp only at h
    obtain ⟨hr1, hr2, _, _⟩ := fuzz_call_frame c t (fuzz_trial_get_args t)
    generalize fuzz_call c t (fuzz_trial_get_args t) = r at h hr1 hr2
    obtain ⟨hc1, hc2, hc3⟩ := shrink_count_result_frame c arg_i repeated r.1 r.2
    generalize shrink_count_result c arg_i repeated r.1 r.2 = t2 at h hc1 hc2 hc3
    have hh := call_hook_frame c.shrink_trial_post t2
      { hook_call_of c t2 with arg_index := arg_i, args := fuzz_trial_get_args t,
                               tactic := tactic, result := r.1 }
    change (shrink_trial_post_hook c t2 arg_i (fuzz_trial_get_args t) tactic r.1).2.trial = _ ∧
      (shrink_trial_post_hook c t2 arg_i (fuzz_trial_get_args t) tactic r.1).2.prng = _ ∧ _ at hh
    obtain ⟨hh1, hh2, _⟩ := hh
    generalize shrink_trial_post_hook c t2 arg_i (fuzz_trial_get_args t) tactic r.1 = hk
      at h hh1 hh2
    have key : (∀ j, stored_arg hk.2 j = stored_arg t j) ∧
        hk.2.trial.args.length = t.trial.args.length ∧ hk.2.prng = t.prng := by
      refine ⟨fun j => ?_, ?_, ?_⟩
      · rw [stored_arg_of_trial t2 hk.2 (by rw [hh1]) j, hc1 j]
        exact stored_arg_of_trial t r.2 (by rw [hr1]) j
      · rw [hh1, hc2, hr1]
      · rw [hh2, hc3, hr2]
    split at h
    · obtain ⟨k1, k2, k3⟩ := ih true hk.2 o t1 h
      exact ⟨fun j => (k1 j).trans (key.1 j), k2.trans key.2.1, k3.trans key.2.2⟩
    · split at h
      · injection h with h; injection h with _ h; rw [← h]; exact key
      · split at h
        · injection h with h; injection h with _ h; rw [← h]; exact key
        · injection h with h; injection h with _ h; rw [← h]; exact key

theorem fuzz_trial_get_args_set_arg {σ : Type} (t : fuzz σ) (i : Nat) (a : arg_info)
    (h : a.inst = (get_arg t i).inst) :
    fuzz_trial_get_args (set_arg t i a) = fuzz_trial_get_args t := by
  unfold fuzz_trial_get_args set_arg
  simp only
  apply List.ext_getElem?
  intro j
  rw [List.getElem?_map, List.getElem?_map, List.getElem?_set]
  by_cases hij : i = j
  · subst hij
    by_cases hl : i < t.trial.args.length
    · have hg : t.trial.args[i]? = some (get_arg t i) := by
        unfold get_arg
        rw [List.getD_eq_getElem?_getD, List.getElem?_eq_getElem hl]
        rfl
      simp [hl, hg, h]
    · simp [hl, List.getElem?_eq_none (Nat.le_of_not_lt hl)]
  · simp [hij]

theorem update_model_arg_get_args {σ : Type} (c : fuzz_setup σ) (t : fuzz σ) (arg_id : Nat)
    (res : Int) (adj : Nat) :
    fuzz_trial_get_args (update_model_arg c t arg_id res adj) = fuzz_trial_get_args t := by
  unfold update_model_arg
  split
  · rfl
  · split
    · rfl
    · split
      · rfl
      · exact fuzz_trial_get_args_set_arg t arg_id _ rfl

theorem shrink_count_result_get_args {σ : Type} (c : fuzz_setup σ) (arg_i : Nat) (repeated : Bool)
    (res : Int) (t : fuzz σ) :
    fuzz_trial_get_args (shrink_count_result c arg_i repeated res t) = fuzz_trial_get_args t := by
  unfold shrink_count_result
  split
  · split
    · rw [update_model_arg_get_args]
      rfl
    · rfl
  · rfl

/-- The result the call loop ends with is the result of a property call on the
arguments the loop was entered with. -/
theorem shrink_call_loop_last_call {σ : Type} (c : fuzz_setup σ) (arg_i tactic : Nat) :
    ∀ (fuel : Nat) (repeated : Bool) (t : fuzz σ) (res : Int) (t1 : fuzz σ),
      shrink_call_loop c arg_i tactic fuel repeated t = some (some res, t1) →
      fuzz_trial_get_args t1 = fuzz_trial_get_args t ∧
        ∃ t0 : fuzz σ, res = (fuzz_call c t0 (fuzz_trial_get_args t)).1 := by
  intro fuel
  induction fuel with
  | zero => intro repeated t res t1 h; simp [shrink_call_loop] at h
  | succ n ih =>
    intro repeated t res t1 h
    unfold shrink_call_loop at h
    simp only at h
    have hr : fuzz_trial_get_args (fuzz_call c t (fuzz_trial_get_args t)).2 =
        fuzz_trial_get_args t := by
      unfold fuzz_trial_get_args
      rw [(fuzz_call_frame c t _).1]
    have hk : fuzz_trial_get_args (shrink_trial_post_hook c
        (shrink_count_result c arg_i repeated (fuzz_call c t (fuzz_trial_get_args t)).1
          (fuzz_call c t (fuzz_trial_get_args t)).2) arg_i (fuzz_trial_get_args t) tactic
        (fuzz_call c t (fuzz_trial_get_args t)).1).2 = fuzz_trial_get_args t := by
      have : ∀ (u : fuzz σ) (info : hook_call),
          fuzz_trial_get_args (call_hook c.shrink_trial_post u info).2 = fuzz_trial_get_args u := by
        intro u info
        unfold fuzz_trial_get_args
        rw [(call_hook_frame _ _ _).1]
      unfold shrink_trial_post_hook
      rw [this, shrink_count_result_get_args, hr]
    split at h
    · obtain ⟨k1, t0, k2⟩ := ih true _ res t1 h
      rw [hk] at k1 k2
      exact ⟨k1, t0, k2⟩
    · split at h
      · injection h with h
        injection h with h1 h2
        injection h1 with h1
        rw [← h2, ← h1]
        exact ⟨hk, t, rfl⟩
      · split at h
        · injection h with h
          injection h with h1 h2
          injection h1 with h1
          rw [← h2, ← h1]
          exact ⟨hk, t, rfl⟩
        · simp at h

/-- Storing an instance and a pool in an argument record that exists (and, for
an autoshrink argument, holds a pool) makes them the stored ones. -/
theorem stored_arg_store_arg {σ : Type} (t : fuzz σ) (arg_i : Nat) (use_autoshrink : Bool)
    (inst : Option instance_t) (pool : Option autoshrink_bit_pool)
    (harg : arg_i < t.trial.args.length)
    (henv : use_autoshrink = true → (stored_arg t arg_i).2.isSome = true)
    (hpool : use_autoshrink = false → (stored_arg t arg_i).2 = pool) :
    stored_arg (store_arg t arg_i use_autoshrink inst pool) arg_i = (inst, pool) := by
  unfold store_arg
  unfold stored_arg at henv hpool ⊢
  rw [get_arg_set_arg, if_pos ⟨rfl, harg⟩]
  cases use_autoshrink with
  | false =>
    have h : (get_arg t arg_i).env.bind (fun e => e.bit_pool) = pool := hpool rfl
    simp only [Bool.false_eq_true, if_false]
    rw [h]
  | true =>
    have h : ((get_arg t arg_i).env.bind (fun e => e.bit_pool)).isSome = true := henv rfl
    cases he : (get_arg t arg_i).env with
    | none => rw [he] at h; simp at h
    | some e => simp

/-- The block of a tactic that commits or reverts.  Once a tactic of
`attempt_to_shrink_arg` has stored its candidate (state `tc`) the property is
called on it; let `o` tell how the call
loop ended: `some res` when the post-shrink-trial hook let it end, `res` being
the result of the last property call, and `none` when the hook returned a code
that aborts the attempt.  Then the function returns `SHRINK_OK` exactly when
the loop ended with `FUZZ_RESULT_FAIL`, and the stored instance and bit pool
are then the candidate's; after `FUZZ_RESULT_OK` or `FUZZ_RESULT_SKIP` the
function does not return, and the stored instance and bit pool are `current`
and `current_bit_pool`, the ones held before the tactic; and when the hook
aborts, the function returns `SHRINK_ERROR` with the candidate still stored.
The hypotheses say that the argument exists, that the candidate of an
autoshrink argument comes with a pool, and that for an argument without
autoshrink there is no pool to restore. -/
theorem shrink_try_candidate_spec {σ : Type} (c : fuzz_setup σ) (fuel arg_i tactic : Nat)
    (use_autoshrink : Bool) (current : Option instance_t)
    (current_bit_pool : Option autoshrink_bit_pool) (tc : fuzz σ) (o : Option Int)
    (hloop : (shrink_call_loop c arg_i tactic fuel false tc).map Prod.fst = some o)
    (harg : arg_i < tc.trial.args.length)
    (henv : use_autoshrink = true → (stored_arg tc arg_i).2.isSome = true)
    (hpool : use_autoshrink = false → (stored_arg tc arg_i).2 = current_bit_pool) :
    ∃ r t', shrink_try_candidate c fuel arg_i tactic use_autoshrink current current_bit_pool tc =
        some (r, t') ∧
      (r = some shrink_res.SHRINK_OK ↔ o = some FUZZ_RESULT_FAIL) ∧
      (o = some FUZZ_RESULT_FAIL → stored_arg t' arg_i = stored_arg tc arg_i) ∧
      (o = some FUZZ_RESULT_OK ∨ o = some FUZZ_RESULT_SKIP →
        r = none ∧ stored_arg t' arg_i = (current, current_bit_pool)) ∧
      (o = none → r = some shrink_res.SHRINK_ERROR ∧ stored_arg t' arg_i = stored_arg tc arg_i) := by
  cases hl : shrink_call_loop c arg_i tactic fuel false tc with
  | none => rw [hl] at hloop; simp at hloop
  | some p =>
    obtain ⟨o1, t1⟩ := p
    rw [hl] at hloop
    have ho : o1 = o := by simpa using hloop
    subst ho
    obtain ⟨f1, f2, _⟩ := shrink_call_loop_frame c arg_i tactic fuel false tc o1 t1 hl
    unfold shrink_try_candidate
    rw [hl]
    cases o1 with
    | none =>
      refine ⟨_, _, rfl, ?_, ?_, ?_, ?_⟩
      · simp
      · intro h; simp at h
      · intro h; simp at h
      · intro _; exact ⟨rfl, f1 arg_i⟩
    | some res =>
      obtain ⟨u1, u2, _, _⟩ := update_model_arg_frame c t1 arg_i res 8
      have hfo : FUZZ_RESULT_FAIL ≠ FUZZ_RESULT_OK := by decide
      have hfs : FUZZ_RESULT_FAIL ≠ FUZZ_RESULT_SKIP := by decide
      simp only
      by_cases h1 : res = FUZZ_RESULT_OK ∨ res = FUZZ_RESULT_SKIP
      · rw [if_pos h1]
        have hne : res ≠ FUZZ_RESULT_FAIL := by
          rcases h1 with h | h <;> rw [h] <;> intro h2
          · exact hfo h2.symm
          · exact hfs h2.symm
        refine ⟨_, _, rfl, ?_, ?_, ?_, ?_⟩
        · constructor
          · intro h; simp at h
          · intro h; exact absurd (Option.some.inj h) hne
        · intro h; exact absurd (Option.some.inj h) hne
        · intro _
          refine ⟨rfl, stored_arg_store_arg _ arg_i use_autoshrink current current_bit_pool
            (by rw [u2, f2]; exact harg) ?_ ?_⟩
          · intro h; rw [u1 arg_i, f1 arg_i]; exact henv h
          · intro h; rw [u1 arg_i, f1 arg_i]; exact hpool h
        · intro h; simp at h
      · rw [if_neg h1]
        by_cases h2 : res = FUZZ_RESULT_FAIL
        · rw [if_pos h2]
          refine ⟨_, _, rfl, ?_, ?_, ?_, ?_⟩
          · simp [h2]
          · intro _; rw [u1 arg_i, f1 arg_i]
          · intro h
            exfalso
            apply h1
            rcases h with h | h
            · exact Or.inl (Option.some.inj h)
            · exact Or.inr (Option.some.inj h)
          · intro h; simp at h
        · rw [if_neg h2]
          refine ⟨_, _, rfl, ?_, ?_, ?_, ?_⟩
          · constructor
            · intro h; simp at h
            · intro h; exact absurd (Option.some.inj h) h2
          · intro h; exact absurd (Option.some.inj h) h2
          · intro h
            exfalso
            apply h1
            rcases h with h | h
            · exact Or.inl (Option.some.inj h)
            · exact Or.inr (Option.some.inj h)
          · intro h; simp at h

theorem shrink_try_candidate_spec_example :
    ∃ r t', shrink_try_candidate (shrink_demo_setup FUZZ_RESULT_FAIL FUZZ_HOOK_RUN_CONTINUE) 3 0 0
        false (some [2]) none (store_arg shrink_demo_state 0 false (some [1]) none) =
        some (r, t') ∧
      (r = some shrink_res.SHRINK_OK ↔ some FUZZ_RESULT_FAIL = some FUZZ_RESULT_FAIL) ∧
      (some FUZZ_RESULT_FAIL = some FUZZ_RESULT_FAIL →
        stored_arg t' 0 = stored_arg (store_arg shrink_demo_state 0 false (some [1]) none) 0) ∧
      (some FUZZ_RESULT_FAIL = some FUZZ_RESULT_OK ∨ some FUZZ_RESULT_FAIL = some FUZZ_RESULT_SKIP →
        r = none ∧ stored_arg t' 0 = (some [2], none)) ∧
      (some FUZZ_RESULT_FAIL = none →
        r = some shrink_res.SHRINK_ERROR ∧
          stored_arg t' 0 = stored_arg (store_arg shrink_demo_state 0 false (some [1]) none) 0) :=
  shrink_try_candidate_spec (shrink_demo_setup FUZZ_RESULT_FAIL FUZZ_HOOK_RUN_CONTINUE) 3 0 0
    false (some [2]) none (store_arg shrink_demo_state 0 false (some [1]) none)
    (some FUZZ_RESULT_FAIL) (by decide) (by decide) (fun h => Bool.noConfusion h) (fun _ => rfl)

/-- C8: counterexample.  The argument is the instance `[2]`, its `shrink`
callback proposes `[1]`, and the post-shrink-trial hook returns
`FUZZ_HOOK_RUN_ERROR`.  With a property that returns `FUZZ_RESULT_FAIL` the
property is called once on the candidate, and `attempt_to_shrink_arg` returns
`SHRINK_ERROR`, not `SHRINK_OK`.  With a property that returns
`FUZZ_RESULT_OK` the function returns with the candidate `[1]` stored, not the
instance `[2]` held before the attempt. -/
theorem attempt_to_shrink_arg_hook_error :
    (attempt_to_shrink_arg (shrink_demo_setup FUZZ_RESULT_FAIL FUZZ_HOOK_RUN_ERROR) 3
        shrink_demo_state 0).map (fun r => (r.1, r.2.env, stored_arg r.2 0)) =
      some (shrink_res.SHRINK_ERROR, 1, some [1], none) ∧
    (attempt_to_shrink_arg (shrink_demo_setup FUZZ_RESULT_OK FUZZ_HOOK_RUN_ERROR) 3
        shrink_demo_state 0).map (fun r => (r.1, r.2.env, stored_arg r.2 0)) =
      some (shrink_res.SHRINK_ERROR, 1, some [1], none) ∧
    stored_arg shrink_demo_state 0 = (some [2], none) :=
  ⟨rfl, rfl, rfl⟩



theorem attempt_tactic_ok {σ : Type} (c : fuzz_setup σ) (fuel arg_i tactic : Nat) (t t' : fuzz σ)
    (h : attempt_tactic c fuel arg_i tactic t = some (some shrink_res.SHRINK_OK, t')) :
    ∃ ua cur cbp tc, shrink_try_candidate c fuel arg_i tactic ua cur cbp tc =
      some (some shrink_res.SHRINK_OK, t') := by
  unfold attempt_tactic at h
  split at h
  · simp at h
  · simp only at h
    split at h
    · simp at h
    · split at h
      · simp at h
      · split at h
        · simp at h
        · split at h
          · simp at h
          · split at h
            · simp at h
            · split at h
              · split at h
                · split at h
                  · simp at h
                  · split at h
                    · simp at h
                    · exact ⟨_, _, _, _, h⟩
                · exact ⟨_, _, _, _, h⟩
              · split at h
                · simp at h
                · split at h
                  · simp at h
                  · simp at h

theorem shrink_try_candidate_ok {σ : Type} (c : fuzz_setup σ) (fuel arg_i tactic : Nat)
    (ua : Bool) (cur : Option instance_t) (cbp : Option autoshrink_bit_pool) (tc t' : fuzz σ)
    (h : shrink_try_candidate c fuel arg_i tactic ua cur cbp tc =
      some (some shrink_res.SHRINK_OK, t')) :
    ∃ tl, shrink_call_loop c arg_i tactic fuel false tc = some (some FUZZ_RESULT_FAIL, tl) ∧
      t' = update_model_arg c tl arg_i FUZZ_RESULT_FAIL 8 ∧
      stored_arg t' arg_i = stored_arg tc arg_i := by
  unfold shrink_try_candidate at h
  split at h
  · simp at h
  · simp at h
  · next res t1 hl =>
    simp only at h
    split at h
    · simp at h
    · split at h
      · next hf =>
        subst hf
        injection h with h
        injection h with _ h
        subst h
        refine ⟨t1, hl, rfl, ?_⟩
        rw [(update_model_arg_frame c t1 arg_i FUZZ_RESULT_FAIL 8).1 arg_i]
        exact (shrink_call_loop_frame c arg_i tactic fuel false tc _ t1 hl).1 arg_i
      · simp at h

theorem attempt_to_shrink_arg_loop_ok {σ : Type} (c : fuzz_setup σ) (fuel arg_i : Nat)
    (t' : fuzz σ) :
    ∀ (n tactic : Nat) (t : fuzz σ),
      attempt_to_shrink_arg_loop c fuel arg_i n tactic t = some (shrink_res.SHRINK_OK, t') →
      ∃ tactic1 t1, attempt_tactic c fuel arg_i tactic1 t1 =
        some (some shrink_res.SHRINK_OK, t') := by
  intro n
  induction n with
  | zero => intro tactic t h; simp [attempt_to_shrink_arg_loop] at h
  | succ n ih =>
    intro tactic t h
    unfold attempt_to_shrink_arg_loop at h
    split at h
    · split at h
      · simp at h
      · next r t1 ht =>
        injection h with h
        injection h with h1 h2
        subst h1 h2
        exact ⟨_, _, ht⟩
      · exact ih _ _ h
    · simp at h

/-- Whenever `attempt_to_shrink_arg` returns `SHRINK_OK`, the property was
called on the arguments then stored in the trial, its last call returned
`FUZZ_RESULT_FAIL`, and the stored instance and bit pool are still those. -/
theorem attempt_to_shrink_arg_ok_after_fail {σ : Type} (c : fuzz_setup σ) (fuel arg_i : Nat)
    (t t' : fuzz σ)
    (h : attempt_to_shrink_arg c fuel t arg_i = some (shrink_res.SHRINK_OK, t')) :
    ∃ tactic tc tl,
      shrink_call_loop c arg_i tactic fuel false tc = some (some FUZZ_RESULT_FAIL, tl) ∧
      t' = update_model_arg c tl arg_i FUZZ_RESULT_FAIL 8 ∧
      stored_arg t' arg_i = stored_arg tc arg_i := by
  obtain ⟨tactic, t1, h1⟩ := attempt_to_shrink_arg_loop_ok c fuel arg_i t' fuel 0 t h
  obtain ⟨ua, cur, cbp, tc, h2⟩ := attempt_tactic_ok c fuel arg_i tactic t1 t' h1
  obtain ⟨tl, h3⟩ := shrink_try_candidate_ok c fuel arg_i tactic ua cur cbp tc t' h2
  exact ⟨tactic, tc, tl, h3⟩


/-! ## Trial seeds -/

theorem fuzz_call_ne_fail {σ : Type} (c : fuzz_setup σ) (t : fuzz σ)
    (args : List (Option instance_t)) (hp : ∀ s a, (c.prop s a).1 ≠ FUZZ_RESULT_FAIL) :
    (fuzz_call c t args).1 ≠ FUZZ_RESULT_FAIL := by
  have he : FUZZ_RESULT_ERROR ≠ FUZZ_RESULT_FAIL := by decide
  unfold fuzz_call
  split
  · exact hp _ _
  · exact he

theorem fuzz_call_mark_called_prng {σ : Type} (c : fuzz_setup σ) (t t0 : fuzz σ) (b : fuzz_bloom)
    (h : fuzz_call_mark_called c t b = some t0) : t0.prng = t.prng := by
  unfold fuzz_call_mark_called at h
  split at h
  · simp at h
  · injection h with h; rw [← h]

theorem shrink_try_candidate_prng {σ : Type} (c : fuzz_setup σ) (fuel arg_i tactic : Nat)
    (ua : Bool) (cur : Option instance_t) (cbp : Option autoshrink_bit_pool) (tc : fuzz σ)
    (r : Option shrink_res) (t' : fuzz σ)
    (h : shrink_try_candidate c fuel arg_i tactic ua cur cbp tc = some (r, t')) :
    t'.prng = tc.prng := by
  unfold shrink_try_candidate at h
  split at h
  · simp at h
  · next t1 hl =>
    injection h with h
    injection h with _ h
    rw [← h]
    exact (shrink_call_loop_frame c arg_i tactic fuel false tc _ t1 hl).2.2
  · next res t1 hl =>
    have h1 := (shrink_call_loop_frame c arg_i tactic fuel false tc _ t1 hl).2.2
    have h2 := (update_model_arg_frame c t1 arg_i res 8).2.2.1
    simp only at h
    split at h
    · injection h with h
      injection h with _ h
      rw [← h]
      exact h2.trans h1
    · split at h
      · injection h with h
        injection h with _ h
        rw [← h]
        exact h2.trans h1
      · injection h with h
        injection h with _ h
        rw [← h]
        exact h2.trans h1

theorem shrink_post_hook_prng {σ : Type} (c : fuzz_setup σ) (t : fuzz σ) (arg_index : Nat)
    (arg : Option instance_t) (tactic : Nat) (sres : Int) (post : Int × fuzz σ)
    (h : shrink_post_hook c t arg_index arg tactic sres = some post) : post.2.prng = t.prng := by
  unfold shrink_post_hook at h
  split at h
  · injection h with h; rw [← h]
  · split at h
    · injection h with h; rw [← h]; exact (call_hook_frame _ _ _).2.1
    · simp at h

/-- One tactic on an argument that does not use autoshrink draws nothing from
the random source. -/
theorem attempt_tactic_prng {σ : Type} (c : fuzz_setup σ) (fuel arg_i tactic : Nat) (t : fuzz σ)
    (r : Option shrink_res) (t' : fuzz σ)
    (hna : ∀ ti ∈ c.type_info, ti.autoshrink_config.enable = false)
    (h : attempt_tactic c fuel arg_i tactic t = some (r, t')) : t'.prng = t.prng := by
  unfold attempt_tactic at h
  split at h
  · simp at h
  · next ti hti =>
    have hen : ti.autoshrink_config.enable = false := hna ti (List.getElem?_mem hti)
    have hpre : (shrink_pre_hook c t arg_i (get_arg t arg_i).inst tactic).2.prng = t.prng :=
      (call_hook_frame _ _ _).2.1
    simp only [hen, Bool.false_eq_true, if_false] at h
    generalize shrink_pre_hook c t arg_i (get_arg t arg_i).inst tactic = pre at h hpre
    split at h
    · injection h with h; injection h with _ h; rw [← h]; exact hpre
    · split at h
      · injection h with h; injection h with _ h; rw [← h]; exact hpre
      · split at h
        · simp at h
        · next sres candidate candidate_bit_pool t2 hsh =>
          have h2 : t2.prng = t.prng := by
            split at hsh
            · simp at hsh
            · injection hsh with hsh
              injection hsh with _ hsh
              injection hsh with _ hsh
              injection hsh with _ hsh
              rw [← hsh]
              exact hpre
          split at h
          · simp at h
          · next post hpost =>
            have h3 : post.2.prng = t.prng := (shrink_post_hook_prng c _ _ _ _ _ post hpost).trans h2
            split at h
            · injection h with h; injection h with _ h; rw [← h]; exact h3
            · split at h
              · split at h
                · split at h
                  · injection h with h; injection h with _ h; rw [← h]; exact h3
                  · split at h
                    · simp at h
                    · next t6 hm =>
                      rw [shrink_try_candidate_prng c fuel arg_i tactic _ _ _ t6 r t' h,
                        fuzz_call_mark_called_prng c _ t6 _ hm]
                      exact h3
                · rw [shrink_try_candidate_prng c fuel arg_i tactic _ _ _ _ r t' h]
                  exact h3
              · split at h
                · injection h with h; injection h with _ h; rw [← h]; exact h3
                · split at h
                  · injection h with h; injection h with _ h; rw [← h]; exact h3
                  · injection h with h; injection h with _ h; rw [← h]; exact h3

theorem attempt_to_shrink_arg_loop_prng {σ : Type} (c : fuzz_setup σ) (fuel arg_i : Nat)
    (hna : ∀ ti ∈ c.type_info, ti.autoshrink_config.enable = false) :
    ∀ (n tactic : Nat) (t : fuzz σ) (r : shrink_res) (t' : fuzz σ),
      attempt_to_shrink_arg_loop c fuel arg_i n tactic t = some (r, t') → t'.prng = t.prng := by
  intro n
  induction n with
  | zero => intro tactic t r t' h; simp [attempt_to_shrink_arg_loop] at h
  | succ n ih =>
    intro tactic t r t' h
    unfold attempt_to_shrink_arg_loop at h
    split at h
    · split at h
      · simp at h
      · next r1 t1 ht =>
        injection h with h
        injection h with _ h
        rw [← h]
        exact attempt_tactic_prng c fuel arg_i tactic t _ t1 hna ht
      · next t1 ht =>
        rw [ih _ _ _ _ h]
        exact attempt_tactic_prng c fuel arg_i tactic t _ t1 hna ht
    · injection h with h
      injection h with _ h
      rw [← h]

theorem fuzz_shrink_loop_prng {σ : Type} (c : fuzz_setup σ) (fuel : Nat)
    (hna : ∀ ti ∈ c.type_info, ti.autoshrink_config.enable = false) :
    ∀ (n arg_i : Nat) (progress : Bool) (t : fuzz σ) (b : Bool) (t' : fuzz σ),
      fuzz_shrink_loop c fuel n arg_i progress t = some (b, t') → t'.prng = t.prng := by
  intro n
  induction n with
  | zero => intro arg_i progress t b t' h; simp [fuzz_shrink_loop] at h
  | succ n ih =>
    intro arg_i progress t b t' h
    unfold fuzz_shrink_loop at h
    split at h
    · split at h
      · simp at h
      · split at h
        · split at h
          · simp at h
          · next t1 ha =>
            rw [ih _ _ _ _ _ h]
            exact attempt_to_shrink_arg_loop_prng c fuel arg_i hna _ _ _ _ _ ha
          · next t1 ha =>
            injection h with h
            injection h with _ h
            rw [← h]
            exact attempt_to_shrink_arg_loop_prng c fuel arg_i hna _ _ _ _ _ ha
          · next t1 ha =>
            rw [ih _ _ _ _ _ h]
            exact attempt_to_shrink_arg_loop_prng c fuel arg_i hna _ _ _ _ _ ha
          · next t1 ha =>
            injection h with h
            injection h with _ h
            rw [← h]
            exact attempt_to_shrink_arg_loop_prng c fuel arg_i hna _ _ _ _ _ ha
        · exact ih _ _ _ _ _ h
    · split at h
      · exact ih _ _ _ _ _ h
      · injection h with h
        injection h with _ h
        rw [← h]

theorem report_repeat_loop_prng {σ : Type} (c : fuzz_setup σ) (info : hook_call) :
    ∀ (fuel : Nat) (res : Int) (t : fuzz σ) (r : Int) (t' : fuzz σ),
      report_repeat_loop c info fuel res t = some (r, t') → t'.prng = t.prng := by
  intro fuel
  induction fuel with
  | zero => intro res t r t' h; simp [report_repeat_loop] at h
  | succ n ih =>
    intro res t r t' h
    unfold report_repeat_loop at h
    split at h
    · have hc := (fuzz_call_frame c t info.args).2.1
      simp only at h
      generalize fuzz_call c t info.args = q at h hc
      split at h
      · split at h
        · injection h with h
          injection h with _ h
          rw [← h, (call_hook_frame _ _ _).2.1]
          exact hc
        · rw [ih _ _ _ _ h, (call_hook_frame _ _ _).2.1]
          exact hc
      · split at h
        · rw [ih _ _ _ _ h]
          exact hc
        · split at h
          · injection h with h
            injection h with _ h
            rw [← h]
            exact hc
          · injection h with h
            injection h with _ h
            rw [← h]
            exact hc
    · injection h with h
      injection h with _ h
      rw [← h]

theorem report_on_failure_prng {σ : Type} (c : fuzz_setup σ) (fuel : Nat) (t : fuzz σ)
    (info : hook_call) (r : Int) (t' : fuzz σ)
    (h : report_on_failure c fuel t info = some (r, t')) : t'.prng = t.prng := by
  unfold report_on_failure at h
  simp only at h
  split at h
  · injection h with h
    injection h with _ h
    rw [← h]
    exact (call_hook_frame _ _ _).2.1
  · rw [report_repeat_loop_prng c info _ _ _ _ _ h, (call_hook_frame _ _ _).2.1,
      (call_hook_frame _ _ _).2.1]

/-- A trial leaves the random source as it was when its property does not
fail, or when no argument uses autoshrink: nothing is drawn between generation
and the next seed. -/
theorem fuzz_trial_run_prng {σ : Type} (c : fuzz_setup σ) (fuel : Nat) (t : fuzz σ) (b : Bool)
    (pres : Int) (t' : fuzz σ)
    (hp : (∀ s a, (c.prop s a).1 ≠ FUZZ_RESULT_FAIL) ∨
      ∀ ti ∈ c.type_info, ti.autoshrink_config.enable = false)
    (h : fuzz_trial_run c fuel t = some (b, pres, t')) : t'.prng = t.prng := by
  unfold fuzz_trial_run at h
  split at h
  · simp at h
  · split at h
    · simp at h
    · next t0 h0 =>
      have hp0 : t0.prng = t.prng := by
        split at h0
        · exact fuzz_call_mark_called_prng c t t0 _ h0
        · injection h0 with h0; rw [h0]
      have hne := fun hq => fuzz_call_ne_fail c t0 (fuzz_trial_get_args t0) hq
      obtain ⟨_, hc, _, _⟩ := fuzz_call_frame c t0 (fuzz_trial_get_args t0)
      simp only at h
      generalize fuzz_call c t0 (fuzz_trial_get_args t0) = r at h hne hc
      by_cases hok : r.1 = FUZZ_RESULT_OK
      · rw [if_pos hok] at h
        injection h with h
        injection h with _ h
        injection h with _ h
        rw [← h, (call_hook_frame _ _ _).2.1]
        exact hc.trans hp0
      · rw [if_neg hok] at h
        by_cases hf : r.1 = FUZZ_RESULT_FAIL
        · rw [if_pos hf] at h
          rcases hp with hp | hna
          · exact absurd hf (hne hp)
          · split at h
            · simp at h
            · next t2 hs =>
              have h2 : t2.prng = r.2.prng := by
                unfold fuzz_shrink at hs
                split at hs
                · simp at hs
                · exact fuzz_shrink_loop_prng c fuel hna _ _ _ _ _ _ hs
              injection h with h
              injection h with _ h
              injection h with _ h
              rw [← h, (call_hook_frame _ _ _).2.1, h2]
              exact hc.trans hp0
            · next t2 hs =>
              have h2 : t2.prng = r.2.prng := by
                unfold fuzz_shrink at hs
                split at hs
                · simp at hs
                · exact fuzz_shrink_loop_prng c fuel hna _ _ _ _ _ _ hs
              split at h
              · simp at h
              · next pres1 t4 hr =>
                injection h with h
                injection h with _ h
                injection h with _ h
                rw [← h, report_on_failure_prng c fuel _ _ _ _ hr]
                exact h2.trans (hc.trans hp0)
        · rw [if_neg hf] at h
          split at h
          · injection h with h
            injection h with _ h
            injection h with _ h
            rw [← h, (call_hook_frame _ _ _).2.1]
            exact hc.trans hp0
          · split at h
            · injection h with h
              injection h with _ h
              injection h with _ h
              rw [← h, (call_hook_frame _ _ _).2.1]
              exact hc.trans hp0
            · simp at h

/-- After `gen_all_args` the random source is the one the generation loop
left. -/
theorem gen_all_args_prng {σ : Type} (c : fuzz_setup σ) (t : fuzz σ) (g : all_gen_res)
    (t3 : fuzz σ) (h : gen_all_args c t = some (g, t3)) :
    ∃ r args, gen_all_args_loop c.type_info c.type_info.length 0 t.prng t.trial.args =
      some (r, t3.prng, args) := by
  unfold gen_all_args at h
  split at h
  · simp at h
  · next r p args hl =>
    refine ⟨r, args, ?_⟩
    rw [hl]
    simp only at h
    split at h
    · injection h with h; injection h with _ h; rw [← h]
    · split at h
      · split at h
        · injection h with h; injection h with _ h; rw [← h]
        · injection h with h; injection h with _ h; rw [← h]
      · injection h with h; injection h with _ h; rw [← h]

/-- The `switch (gres)` of `run_step` jumps to `cleanup` with a result other
than `RUN_STEP_OK`, and when it falls through, the random source is the one
generation left (for a property that does not fail). -/
theorem run_step_switch_prng {σ : Type} (c : fuzz_setup σ) (fuel : Nat) (t3 : fuzz σ)
    (gres : all_gen_res) (info : hook_call) (o : Option run_step_res) (pres : Int) (t6 : fuzz σ)
    (hp : (∀ s a, (c.prop s a).1 ≠ FUZZ_RESULT_FAIL) ∨
      ∀ ti ∈ c.type_info, ti.autoshrink_config.enable = false)
    (h : run_step_switch c fuel t3 gres info = some (o, pres, t6)) :
    o ≠ some run_step_res.RUN_STEP_OK ∧ (o = none → t6.prng = t3.prng) := by
  unfold run_step_switch at h
  split at h
  · injection h with h
    injection h with h1 h
    injection h with _ h
    subst h1
    refine ⟨by simp, fun _ => ?_⟩
    rw [← h, (call_hook_frame _ _ _).2.1]
  · injection h with h
    injection h with h1 h
    injection h with _ h
    subst h1
    refine ⟨by simp, fun _ => ?_⟩
    rw [← h, (call_hook_frame _ _ _).2.1]
  · injection h with h
    injection h with h1 h
    subst h1
    exact ⟨by simp, fun h => by simp at h⟩
  · simp only at h
    split at h
    · injection h with h
      injection h with h1 h
      subst h1
      exact ⟨by simp, fun h => by simp at h⟩
    · split at h
      · injection h with h
        injection h with h1 h
        subst h1
        exact ⟨by simp, fun h => by simp at h⟩
      · split at h
        · simp at h
        · injection h with h
          injection h with h1 h
          subst h1
          exact ⟨by simp, fun h => by simp at h⟩
        · next pres1 t5 htr =>
          injection h with h
          injection h with h1 h
          injection h with _ h
          subst h1
          refine ⟨by simp, fun _ => ?_⟩
          rw [← h, fuzz_trial_run_prng c fuel _ _ _ _ hp htr, (call_hook_frame _ _ _).2.1]

/-- A step that ends with `RUN_STEP_OK` hands on the 64 bits drawn right after
generation: generation starts from the source reseeded with the seed of the
trial and from the fresh argument records, and between generation and the draw
nothing touches the source when the property does not fail. -/
theorem run_step_next_seed {σ : Type} (c : fuzz_setup σ) (fuel : Nat) (t : fuzz σ)
    (trial seed v : Nat) (t' : fuzz σ) (hp : (∀ s a, (c.prop s a).1 ≠ FUZZ_RESULT_FAIL) ∨
      ∀ ti ∈ c.type_info, ti.autoshrink_config.enable = false)
    (h : run_step c fuel t trial seed = some (run_step_res.RUN_STEP_OK, v, t')) :
    ∃ r p args,
      gen_all_args_loop c.type_info c.type_info.length 0
          (fuzz_random_set_seed t.prng (trial_seed c trial seed)) (init_arg_info c.type_info) =
        some (r, p, args) ∧
      fuzz_random_bits p 64 = some (v, t'.prng) := by
  unfold run_step at h
  simp only at h
  split at h
  · simp at h
  · split at h
    · simp at h
    · split at h
      · simp at h
      · split at h
        · simp at h
        · next gres t3 hg =>
          obtain ⟨r, args, hl⟩ := gen_all_args_prng c _ gres t3 hg
          simp only [(call_hook_frame _ _ _).2.1, (call_hook_frame _ _ _).1] at hl
          refine ⟨r, t3.prng, args, hl, ?_⟩
          split at h
          · simp at h
          · next r1 x t6 hsw =>
            have hne := (run_step_switch_prng c fuel t3 gres _ _ _ _ hp hsw).1
            injection h with h
            injection h with h1 h
            subst h1
            exact absurd rfl hne
          · next pres t6 hsw =>
            have h6 := (run_step_switch_prng c fuel t3 gres _ _ _ _ hp hsw).2 rfl
            split at h
            · simp at h
            · split at h
              · simp at h
              · next v1 p1 hb =>
                injection h with h
                injection h with _ h
                injection h with hv ht
                rw [← h6, hb, ← ht, hv]

/-- One round of the trial loop: the seed of the trial is recorded, and the loop
goes on exactly after `RUN_STEP_OK`, with the seed the step handed on. -/
theorem fuzz_run_trials_loop_succ {σ : Type} (c : fuzz_setup σ) (fuel n trial seed : Nat)
    (t : fuzz σ) (ok : Bool) (l : List Nat) (t' : fuzz σ)
    (h : fuzz_run_trials_loop c fuel (n + 1) trial seed t = some (ok, l, t')) :
    ∃ res s1 t1, run_step c fuel t trial seed = some (res, s1, t1) ∧
      ((res = run_step_res.RUN_STEP_OK ∧ ∃ ok1 rest t3,
          fuzz_run_trials_loop c fuel n (trial + 1) s1 { t1 with trial := trial_info_zero } =
            some (ok1, rest, t3) ∧ l = trial_seed c trial seed :: rest) ∨
        l = [trial_seed c trial seed]) := by
  unfold fuzz_run_trials_loop at h
  split at h
  · simp at h
  · next res s1 t1 hs =>
    refine ⟨res, s1, t1, hs, ?_⟩
    simp only at h
    split at h
    · left
      refine ⟨rfl, ?_⟩
      split at h
      · simp at h
      · next ok1 rest t3 hr =>
        injection h with h
        injection h with _ h
        injection h with h _
        exact ⟨ok1, rest, t3, hr, h.symm⟩
    · right
      injection h with h
      injection h with _ h
      injection h with h _
      exact h.symm
    · right
      injection h with h
      injection h with _ h
      injection h with h _
      exact h.symm

theorem trial_seed_congr {σ τ : Type} (c1 : fuzz_setup σ) (c2 : fuzz_setup τ)
    (hseed : c1.run_seed = c2.run_seed) (halways : c1.always_seeds = c2.always_seeds)
    (trial seed : Nat) : trial_seed c1 trial seed = trial_seed c2 trial seed := by
  unfold trial_seed
  rw [hseed, halways]

/-- Two trial loops over the same generators and seeds, started from the same
random source at the same trial, record seed lists of which one is a prefix of
the other, whatever the properties and hooks do, as long as no property call
fails. -/
theorem fuzz_run_trials_loop_agree {σ τ : Type} (c1 : fuzz_setup σ) (c2 : fuzz_setup τ)
    (fuel1 fuel2 : Nat) (hseed : c1.run_seed = c2.run_seed)
    (halways : c1.always_seeds = c2.always_seeds) (hgen : c1.type_info = c2.type_info)
    (hp1 : (∀ s a, (c1.prop s a).1 ≠ FUZZ_RESULT_FAIL) ∨
      ∀ ti ∈ c1.type_info, ti.autoshrink_config.enable = false)
    (hp2 : (∀ s a, (c2.prop s a).1 ≠ FUZZ_RESULT_FAIL) ∨
      ∀ ti ∈ c2.type_info, ti.autoshrink_config.enable = false) :
    ∀ (n1 n2 trial seed : Nat) (t : fuzz σ) (u : fuzz τ) (ok1 ok2 : Bool) (l1 l2 : List Nat)
      (t' : fuzz σ) (u' : fuzz τ), t.prng = u.prng →
      fuzz_run_trials_loop c1 fuel1 n1 trial seed t = some (ok1, l1, t') →
      fuzz_run_trials_loop c2 fuel2 n2 trial seed u = some (ok2, l2, u') →
      l1 <+: l2 ∨ l2 <+: l1 := by
  intro n1
  induction n1 with
  | zero =>
    intro n2 trial seed t u ok1 ok2 l1 l2 t' u' _ h1 _
    simp only [fuzz_run_trials_loop] at h1
    injection h1 with h1
    injection h1 with _ h1
    injection h1 with h1 _
    rw [← h1]
    exact Or.inl List.nil_prefix
  | succ n ih =>
    intro n2 trial seed t u ok1 ok2 l1 l2 t' u' hpr h1 h2
    cases n2 with
    | zero =>
      simp only [fuzz_run_trials_loop] at h2
      injection h2 with h2
      injection h2 with _ h2
      injection h2 with h2 _
      rw [← h2]
      exact Or.inr List.nil_prefix
    | succ m =>
      have hts := trial_seed_congr c1 c2 hseed halways trial seed
      obtain ⟨r1, s1, t1, hs1, hc1⟩ := fuzz_run_trials_loop_succ c1 fuel1 n trial seed t ok1 l1 t' h1
      obtain ⟨r2, s2, u1, hs2, hc2⟩ := fuzz_run_trials_loop_succ c2 fuel2 m trial seed u ok2 l2 u' h2
      rcases hc1 with ⟨hr1, ok1a, rest1, t3, hl1, he1⟩ | he1
      · rcases hc2 with ⟨hr2, ok2a, rest2, u3, hl2, he2⟩ | he2
        · subst hr1 hr2
          obtain ⟨g1, p1, a1, hg1, hb1⟩ := run_step_next_seed c1 fuel1 t trial seed s1 t1 hp1 hs1
          obtain ⟨g2, p2, a2, hg2, hb2⟩ := run_step_next_seed c2 fuel2 u trial seed s2 u1 hp2 hs2
          rw [hgen, hpr, hts, hg2] at hg1
          injection hg1 with hg1
          injection hg1 with _ hg1
          injection hg1 with hg1 _
          rw [← hg1, hb2] at hb1
          injection hb1 with hb1
          injection hb1 with hv hq
          subst hv
          have := ih m (trial + 1) s2 { t1 with trial := trial_info_zero }
            { u1 with trial := trial_info_zero } ok1a ok2a rest1 rest2 t3 u3 hq.symm hl1 hl2
          rw [he1, he2, hts]
          rcases this with h | h
          · exact Or.inl ((List.prefix_cons_inj _).2 h)
          · exact Or.inr ((List.prefix_cons_inj _).2 h)
        · rw [he1, he2, hts]
          exact Or.inr ((List.prefix_cons_inj _).2 List.nil_prefix)
      · rw [he1]
        rcases hc2 with ⟨_, _, rest2, _, _, he2⟩ | he2
        · rw [he2, hts]
          exact Or.inl ((List.prefix_cons_inj _).2 List.nil_prefix)
        · rw [he2, hts]
          exact Or.inl (List.prefix_refl _)

theorem fuzz_run_init_prng {σ : Type} (c : fuzz_setup σ) (env : σ) (t : fuzz σ)
    (h : fuzz_run_init c env = some t) :
    t.prng = fuzz_random_set_seed
      { rng := fuzz_rng_reset { mt := List.replicate NN 0, mti := 0 } DEFAULT_uint64_t, buf := 0,
        bits_available := 0, bit_pool := none } c.run_seed := by
  unfold fuzz_run_init at h
  split at h
  · simp at h
  · split at h
    · simp at h
    · injection h with h
      rw [← h]

/-- The seed list of a run is that of its trial loop, started from the engine
as the pre-run hook left it, or empty when that hook stops the run. -/
theorem fuzz_run_trials_seeds {σ : Type} (c : fuzz_setup σ) (fuel : Nat) (t : fuzz σ) (r : Int)
    (l : List Nat) (t' : fuzz σ) (h : fuzz_run_trials c fuel t = some (r, l, t')) :
    l = [] ∨ ∃ t0 ok t1, t0.prng = t.prng ∧
      fuzz_run_trials_loop c fuel c.trial_count 0 c.run_seed t0 = some (ok, l, t1) := by
  unfold fuzz_run_trials at h
  simp only at h
  split at h
  · left
    injection h with h
    injection h with _ h
    injection h with h _
    exact h.symm
  · right
    split at h
    · simp at h
    · next seeds t1 hl =>
      refine ⟨(call_hook c.pre_run t (hook_call_of c t)).2, false, t1,
        (call_hook_frame _ _ _).2.1, ?_⟩
      injection h with h
      injection h with _ h
      injection h with h _
      rw [← h]
      exact hl
    · next seeds t1 hl =>
      refine ⟨(call_hook c.pre_run t (hook_call_of c t)).2, true, t1,
        (call_hook_frame _ _ _).2.1, ?_⟩
      have : l = seeds := by
        split at h
        · injection h with h
          injection h with _ h
          injection h with h _
          exact h.symm
        · split at h
          · injection h with h
            injection h with _ h
            injection h with h _
            exact h.symm
          · split at h
            · injection h with h
              injection h with _ h
              injection h with h _
              exact h.symm
            · injection h with h
              injection h with _ h
              injection h with h _
              exact h.symm
      rw [this]
      exact hl

/-- The seeds of the run over one autoshrunk random byte whose property passes:
the run seed, and the 64 bits drawn after the first trial. -/
theorem byte_setup_pass_seeds :
    trial_seeds (byte_setup true FUZZ_RESULT_OK 2) 20 () =
      some [46725766516793069, 9481922952771960899] := by
  decide!

/-- The seeds of the run over one autoshrunk random byte whose property asks to
skip every input and which may run three trials: the run seed, and the same 64
bits drawn after the first trial. -/
theorem byte_setup_skip_seeds :
    trial_seeds (byte_setup true FUZZ_RESULT_SKIP 3) 20 () =
      some [46725766516793069, 9481922952771960899] := by
  decide!

/-- C10 (amended): for runs in which no property call returns
`FUZZ_RESULT_FAIL`, the seeds of the trials are a function of the run seed, the
always-run seeds and the generators alone: two runs that agree on these three,
whatever their properties, hooks, user environments and trial counts, use the
same seed in every trial both of them start (one seed list is a prefix of the
other, and the lists are equal when they have the same length). -/
theorem trial_seeds_independent_of_property {σ τ : Type} (c1 : fuzz_setup σ) (c2 : fuzz_setup τ)
    (fuel1 fuel2 : Nat) (e1 : σ) (e2 : τ) (l1 l2 : List Nat)
    (hseed : c1.run_seed = c2.run_seed) (halways : c1.always_seeds = c2.always_seeds)
    (hgen : c1.type_info = c2.type_info)
    (hp1 : (∀ s a, (c1.prop s a).1 ≠ FUZZ_RESULT_FAIL) ∨
      ∀ ti ∈ c1.type_info, ti.autoshrink_config.enable = false)
    (hp2 : (∀ s a, (c2.prop s a).1 ≠ FUZZ_RESULT_FAIL) ∨
      ∀ ti ∈ c2.type_info, ti.autoshrink_config.enable = false)
    (h1 : trial_seeds c1 fuel1 e1 = some l1) (h2 : trial_seeds c2 fuel2 e2 = some l2) :
    (l1 <+: l2 ∨ l2 <+: l1) ∧ (l1.length = l2.length → l1 = l2) := by
  have key : l1 <+: l2 ∨ l2 <+: l1 := by
    unfold trial_seeds at h1 h2
    split at h1
    · simp at h1
    · next t hi1 =>
      split at h2
      · simp at h2
      · next u hi2 =>
        cases hr1 : fuzz_run_trials c1 fuel1 t with
        | none => rw [hr1] at h1; simp at h1
        | some x1 =>
          cases hr2 : fuzz_run_trials c2 fuel2 u with
          | none => rw [hr2] at h2; simp at h2
          | some x2 =>
            obtain ⟨r1, m1, t'⟩ := x1
            obtain ⟨r2, m2, u'⟩ := x2
            rw [hr1] at h1
            rw [hr2] at h2
            simp only [Option.map_some', Option.some.injEq] at h1 h2
            subst h1 h2
            rcases fuzz_run_trials_seeds c1 fuel1 t r1 m1 t' hr1 with hn | ⟨t0, ok1, t1, hq1, hl1⟩
            · rw [hn]; exact Or.inl List.nil_prefix
            · rcases fuzz_run_trials_seeds c2 fuel2 u r2 m2 u' hr2 with
                hn | ⟨u0, ok2, u1, hq2, hl2⟩
              · rw [hn]; exact Or.inr List.nil_prefix
              · rw [← hseed] at hl2
                refine fuzz_run_trials_loop_agree c1 c2 fuel1 fuel2 hseed halways hgen hp1 hp2
                  c1.trial_count c2.trial_count 0 c1.run_seed t0 u0 ok1 ok2 m1 m2 t1 u1 ?_ hl1 hl2
                rw [hq1, hq2, fuzz_run_init_prng c1 e1 t hi1, fuzz_run_init_prng c2 e2 u hi2, hseed]
  refine ⟨key, fun hlen => ?_⟩
  rcases key with h | h
  · exact h.eq_of_length hlen
  · exact (h.eq_of_length hlen.symm).symm

theorem trial_seeds_independent_of_property_witness :
    trial_seeds (byte_setup true FUZZ_RESULT_OK 2) 20 () =
      some [46725766516793069, 9481922952771960899] ∧
    trial_seeds (byte_setup true FUZZ_RESULT_SKIP 3) 20 () =
      some [46725766516793069, 9481922952771960899] ∧
    (([46725766516793069, 9481922952771960899] <+: [46725766516793069, 9481922952771960899] ∨
        [46725766516793069, 9481922952771960899] <+:
          [46725766516793069, 9481922952771960899]) ∧
      (([46725766516793069, 9481922952771960899] : List Nat).length =
          ([46725766516793069, 9481922952771960899] : List Nat).length →
        ([46725766516793069, 9481922952771960899] : List Nat) =
          [46725766516793069, 9481922952771960899])) :=
  ⟨byte_setup_pass_seeds, byte_setup_skip_seeds,
    trial_seeds_independent_of_property (byte_setup true FUZZ_RESULT_OK 2)
      (byte_setup true FUZZ_RESULT_SKIP 3) 20 20 () ()
      [46725766516793069, 9481922952771960899] [46725766516793069, 9481922952771960899]
      rfl rfl rfl
      (Or.inl (fun _ _ => (by decide : FUZZ_RESULT_OK ≠ FUZZ_RESULT_FAIL)))
      (Or.inl (fun _ _ => (by decide : FUZZ_RESULT_SKIP ≠ FUZZ_RESULT_FAIL)))
      byte_setup_pass_seeds byte_setup_skip_seeds⟩

/-- C10: counterexample.  Two runs with the same run seed, no always-run seeds
and the same generator (one random byte, shrunk by autoshrink), stopped by the
same hook once the seed of trial 1 has been chosen.  The property of the first
run returns `FUZZ_RESULT_OK`, that of the second `FUZZ_RESULT_FAIL`; the
second run then shrinks, autoshrink draws its mutations from the engine's
random source, and trial 1 gets another seed. -/
theorem trial_seeds_depend_on_property :
    (byte_setup true FUZZ_RESULT_OK 2).run_seed = (byte_setup true FUZZ_RESULT_FAIL 2).run_seed ∧
    (byte_setup true FUZZ_RESULT_OK 2).always_seeds =
      (byte_setup true FUZZ_RESULT_FAIL 2).always_seeds ∧
    (byte_setup true FUZZ_RESULT_OK 2).type_info = (byte_setup true FUZZ_RESULT_FAIL 2).type_info ∧
    trial_seeds (byte_setup true FUZZ_RESULT_OK 2) 20 () =
      some [46725766516793069, 9481922952771960899] ∧
    trial_seeds (byte_setup true FUZZ_RESULT_FAIL 2) 20 () =
      some [46725766516793069, 5005613230497656553] :=
  ⟨rfl, rfl, rfl, byte_setup_pass_seeds, by decide!⟩

/-! ## Requests at and below the limit -/

theorem pool_fill_some (rng : fuzz_rng) (pool : autoshrink_bit_pool) (n : Nat)
    (hc : pool.shrinking = true ∨ 0 < pool.bits_ceil) :
    ∃ r, (if pool.shrinking then some (rng, pool)
        else lazily_fill_bit_pool rng pool n) = some r ∧ same_cursor pool r.2 ∧
          (r.2.shrinking = true ∨ 0 < r.2.bits_ceil) := by
  by_cases hs : pool.shrinking = true
  · rw [if_pos hs]
    exact ⟨(rng, pool), rfl, ⟨rfl, rfl, rfl, rfl⟩, Or.inl hs⟩
  · rw [if_neg hs]
    have hc2 : 0 < pool.bits_ceil := hc.resolve_left hs
    obtain ⟨r, h1, h2, h3⟩ := lazily_fill_bit_pool_some rng pool n hc2
    exact ⟨r, h1, h2, Or.inr h3⟩

theorem memset_zero_one (k : Nat) : memset_zero [0] k = [0] := by
  simp [memset_zero]

theorem bit_pool_random_at_limit (rng : fuzz_rng) (pool : autoshrink_bit_pool) (n : Nat)
    (sr : Bool) (buf : List Nat) (hn : n ≠ 0) (hl : pool.consumed = pool.limit)
    (hc : pool.shrinking = true ∨ 0 < pool.bits_ceil) :
    ∃ rng1 pool1, fuzz_autoshrink_bit_pool_random rng pool n sr buf =
        some (rng1, pool1, memset_zero buf (n / 64 + (if n % 64 = 0 then 0 else 1))) ∧
      same_cursor pool pool1 ∧ (pool1.shrinking = true ∨ 0 < pool1.bits_ceil) := by
  unfold fuzz_autoshrink_bit_pool_random
  rw [if_neg hn]
  obtain ⟨⟨rng1, pool1⟩, h1, hsc, h3⟩ := pool_fill_some rng pool n hc
  rw [h1]
  obtain ⟨e1, _, e3, _⟩ := id hsc
  simp only at e1 e3 h3 hsc ⊢
  rw [if_pos (by rw [e1, e3]; exact hl)]
  exact ⟨rng1, pool1, rfl, hsc, h3⟩

/-- C11: on a pool whose `consumed` cursor equals its `limit` (shrinking, or with
a non-empty buffer so that the lazy fill ends), `fuzz_random_bits` with a width
`1 ≤ n ≤ 64` returns `0` and leaves `consumed`, `request_count` and the recorded
requests as they were. -/
theorem fuzz_random_bits_at_limit (p : prng_info) (pool : autoshrink_bit_pool) (n : Nat)
    (hp : p.bit_pool = some pool) (hl : pool.consumed = pool.limit) (h1 : 1 ≤ n) (h64 : n ≤ 64)
    (hc : pool.shrinking = true ∨ 0 < pool.bits_ceil) :
    ∃ p1 pool1, fuzz_random_bits p n = some (0, p1) ∧ p1.bit_pool = some pool1 ∧
      pool1.consumed = pool.consumed ∧ pool1.request_count = pool.request_count ∧
      pool1.requests = pool.requests := by
  obtain ⟨rng1, pool1, hr, ⟨e1, e2, _, _⟩, _⟩ :=
    bit_pool_random_at_limit p.rng pool n true [0] (by omega) hl hc
  refine ⟨{ p with rng := rng1, bit_pool := some pool1 }, pool1, ?_, rfl, e1, ?_, e2⟩
  · simp only [fuzz_random_bits, fuzz_random_bits_bulk, hp, hr, memset_zero_one]
    rfl
  · simp only [autoshrink_bit_pool.request_count, e2]

theorem fuzz_random_bits_at_limit_witness :
    ∃ p1 pool1,
      fuzz_random_bits
        { rng := { mt := List.replicate 312 0, mti := 313 }, buf := 0, bits_available := 0,
          bit_pool := some { alloc_bit_pool 64 8 16 with consumed := 8, requests := [3, 5] } }
        64 = some (0, p1) ∧ p1.bit_pool = some pool1 ∧
      pool1.consumed = 8 ∧ pool1.request_count = 2 ∧ pool1.requests = [3, 5] :=
  fuzz_random_bits_at_limit _
    { alloc_bit_pool 64 8 16 with consumed := 8, requests := [3, 5] } 64 rfl rfl (by decide)
    (by decide) (Or.inr (by decide))

/-- C12: on a pool with `consumed < limit`, a request of `n ≥ 1` bits (`n` is a
`uint32_t`) with `save_request = true` returns, moves `consumed` to
`min (consumed + n) limit` and appends exactly one request, whose recorded
width is that advance; `limit` is unchanged, so `consumed ≤ limit` afterwards. -/
theorem bit_pool_random_advances (rng : fuzz_rng) (pool : autoshrink_bit_pool) (n : Nat)
    (buf : List Nat) (hlt : pool.consumed < pool.limit) (h1 : 1 ≤ n) (h32 : n < 2 ^ 32)
    (hc : pool.shrinking = true ∨ 0 < pool.bits_ceil) :
    ∃ r, fuzz_autoshrink_bit_pool_random rng pool n true buf = some r ∧
      r.2.1.consumed = min (pool.consumed + n) pool.limit ∧
      r.2.1.requests = pool.requests ++ [r.2.1.consumed - pool.consumed] ∧
      r.2.1.limit = pool.limit ∧ r.2.1.consumed ≤ r.2.1.limit := by
  unfold fuzz_autoshrink_bit_pool_random
  rw [if_neg (by omega)]
  obtain ⟨⟨rng1, pool1⟩, hf, ⟨e1, e2, e3, _⟩, _⟩ := pool_fill_some rng pool n hc
  rw [hf]
  simp only at e1 e2 e3 ⊢
  rw [if_neg (by omega)]
  have hb : (if pool1.consumed + n ≥ pool1.limit then
      (pool1.limit + 2 ^ 64 - pool1.consumed) % 2 ^ 64 % 2 ^ 32 else n) =
      min (pool.consumed + n) pool.limit - pool.consumed := by
    rw [e1, e3]
    by_cases hge : pool.consumed + n ≥ pool.limit
    · rw [if_pos hge, Nat.min_eq_right hge]
      have h3 : pool.limit + 2 ^ 64 - pool.consumed = (pool.limit - pool.consumed) + 2 ^ 64 := by
        omega
      have h4 : pool.limit - pool.consumed < 2 ^ 32 := by omega
      have h5 : pool.limit - pool.consumed < 2 ^ 64 := by omega
      rw [h3, Nat.add_mod_right, Nat.mod_eq_of_lt h5, Nat.mod_eq_of_lt h4]
    · rw [if_neg hge, Nat.min_eq_left (by omega)]
      omega
  rw [hb]
  have hm : pool.consumed ≤ min (pool.consumed + n) pool.limit := by
    rw [Nat.le_min]; omega
  have hm2 : min (pool.consumed + n) pool.limit ≤ pool.limit := Nat.min_le_right _ _
  refine ⟨_, rfl, ?_, ?_, ?_, ?_⟩
  · simp only [fill_buf, append_request, if_true, e1]
    omega
  · simp only [fill_buf, append_request, if_true, e1, e2]
    congr 2
    omega
  · simp only [fill_buf, append_request, if_true, e3]
  · simp only [fill_buf, append_request, if_true, e1, e3]
    omega

theorem bit_pool_random_advances_witness :
    ∃ r, fuzz_autoshrink_bit_pool_random { mt := List.replicate 312 0, mti := 313 }
        { alloc_bit_pool 64 10 16 with consumed := 8, requests := [8] } 5 true [0] = some r ∧
      r.2.1.consumed = min (8 + 5) 10 ∧
      r.2.1.requests = [8] ++ [r.2.1.consumed - 8] ∧
      r.2.1.limit = 10 ∧ r.2.1.consumed ≤ r.2.1.limit :=
  bit_pool_random_advances _ { alloc_bit_pool 64 10 16 with consumed := 8, requests := [8] } 5 [0]
    (by decide) (by decide) (by decide) (Or.inr (by decide))

/-! ## The pool invariant of a generation pass -/

theorem lazily_fill_grow_inv (n : Nat) :
    ∀ (fuel : Nat) (pool pool1 : autoshrink_bit_pool),
      lazily_fill_grow fuel pool n = some pool1 →
      pool1.bits_filled = pool.bits_filled ∧ same_cursor pool pool1 ∧
        (pool.bits_ceil % 64 = 0 → pool1.bits_ceil % 64 = 0) ∧
        pool.bits_ceil ≤ pool1.bits_ceil ∧ pool1.consumed + n ≤ pool1.bits_ceil := by
  intro fuel
  induction fuel with
  | zero =>
    intro pool pool1 h
    simp only [lazily_fill_grow] at h
    split at h
    · exact absurd h (by simp)
    · injection h with h
      subst h
      exact ⟨rfl, ⟨rfl, rfl, rfl, rfl⟩, id, le_refl _, by omega⟩
  | succ fuel ih =>
    intro pool pool1 h
    simp only [lazily_fill_grow] at h
    split at h
    · obtain ⟨a1, ⟨b1, b2, b3, b4⟩, a3, a4, a5⟩ := ih _ _ h
      simp only at a1 b1 b2 b3 b4 a3 a4
      exact ⟨a1, ⟨b1, b2, b3, b4⟩, fun h64 => a3 (by omega), by omega, a5⟩
    · injection h with h
      subst h
      exact ⟨rfl, ⟨rfl, rfl, rfl, rfl⟩, id, le_refl _, by omega⟩

theorem lazily_fill_words_inv (n : Nat) :
    ∀ (fuel : Nat) (rng : fuzz_rng) (pool : autoshrink_bit_pool),
      pool.bits_filled % 64 = 0 → pool.bits_ceil % 64 = 0 → pool.bits_filled ≤ pool.bits_ceil →
      pool.consumed + n ≤ pool.bits_ceil → pool.consumed + n ≤ pool.bits_filled + 64 * fuel →
      (lazily_fill_words fuel rng pool n).2.bits_filled % 64 = 0 ∧
        (lazily_fill_words fuel rng pool n).2.bits_filled ≤ pool.bits_ceil ∧
        pool.consumed + n ≤ (lazily_fill_words fuel rng pool n).2.bits_filled := by
  intro fuel
  induction fuel with
  | zero =>
    intro rng pool h1 _ h3 _ h5
    exact ⟨h1, h3, by simpa using h5⟩
  | succ fuel ih =>
    intro rng pool h1 h2 h3 h4 h5
    by_cases hc : pool.consumed + n > pool.bits_filled
    · simp only [lazily_fill_words, if_pos hc]
      exact ih _ _ (by simp only; omega) h2 (by simp only; omega) h4 (by simp only; omega)
    · simp only [lazily_fill_words, if_neg hc]
      exact ⟨h1, h3, by omega⟩

theorem lazily_fill_bit_pool_inv (rng : fuzz_rng) (pool : autoshrink_bit_pool) (n : Nat)
    (h : pool_inv pool) :
    ∃ r, lazily_fill_bit_pool rng pool n = some r ∧ same_cursor pool r.2 ∧ pool_inv r.2 ∧
      r.2.consumed + n ≤ r.2.bits_filled := by
  obtain ⟨i1, i2, i3, i4, i5, i6, i7⟩ := h
  have hpow : pool.consumed + n ≤ pool.bits_ceil * 2 ^ (pool.consumed + n) := by
    have h1 := (Nat.lt_two_pow (pool.consumed + n)).le
    have h2 : 1 * 2 ^ (pool.consumed + n) ≤ pool.bits_ceil * 2 ^ (pool.consumed + n) :=
      Nat.mul_le_mul_right _ i7
    omega
  obtain ⟨pool1, hg, _⟩ := lazily_fill_grow_some n _ pool hpow
  obtain ⟨g1, ⟨c1, c2, c3, c4⟩, g3, g4, g5⟩ := lazily_fill_grow_inv n _ pool pool1 hg
  obtain ⟨⟨d1, d2, d3, d4⟩, d5⟩ := lazily_fill_words_same n (pool1.consumed + n) rng pool1
  obtain ⟨w1, w2, w3⟩ := lazily_fill_words_inv n (pool1.consumed + n) rng pool1
    (by omega) (g3 i6) (by omega) g5 (by omega)
  refine ⟨lazily_fill_words (pool1.consumed + n) rng pool1 n, ?_, ?_, ?_, ?_⟩
  · simp only [lazily_fill_bit_pool, hg]
  · exact ⟨d1.trans c1, d2.trans c2, d3.trans c3, d4.trans c4⟩
  · refine ⟨d4.trans (c4.trans i1), ?_, ?_, ?_, w1, ?_, ?_⟩
    · rw [d1, d3, c1, c3]; exact i2
    · rw [d1]; omega
    · rw [d5]; exact w2
    · rw [d5]; exact g3 i6
    · rw [d5]; omega
  · rw [d1]; exact w3

/-- C13: a pool made by `alloc_bit_pool` (of a positive size) satisfies
`pool_inv`, and every `fuzz_autoshrink_bit_pool_random` call on a pool that
satisfies it returns a pool that satisfies it again —so
`consumed ≤ bits_filled ≤ bits_ceil` with both sizes multiples of 64— and does
not decrease `consumed`. -/
theorem bit_pool_random_keeps_pool_inv (size limit request_ceil : Nat) (hsize : 0 < size) :
    pool_inv (alloc_bit_pool size limit request_ceil) ∧
    ∀ (pool : autoshrink_bit_pool), pool_inv pool →
      ∀ (rng : fuzz_rng) (n : Nat) (save_request : Bool) (buf : List Nat),
        ∃ r, fuzz_autoshrink_bit_pool_random rng pool n save_request buf = some r ∧
          pool_inv r.2.1 ∧ pool.consumed ≤ r.2.1.consumed := by
  constructor
  · unfold pool_inv alloc_bit_pool get_aligned_size
    refine ⟨rfl, Nat.zero_le _, Nat.le_refl _, Nat.zero_le _, rfl, ?_, ?_⟩
    · show (if size % 64 ≠ 0 then size + (64 - size % 64) else size) % 64 = 0
      split <;> omega
    · show 0 < (if size % 64 ≠ 0 then size + (64 - size % 64) else size)
      split <;> omega
  · intro pool hinv rng n sr buf
    unfold fuzz_autoshrink_bit_pool_random
    by_cases hn : n = 0
    · rw [if_pos hn]
      exact ⟨_, rfl, hinv, le_refl _⟩
    · rw [if_neg hn]
      have hs : pool.shrinking = false := hinv.1
      obtain ⟨⟨rng1, pool1⟩, hf, ⟨e1, e2, e3, e4⟩, ⟨j1, j2, j3, j4, j5, j6, j7⟩, hfill⟩ :=
        lazily_fill_bit_pool_inv rng pool n hinv
      simp only [hs, Bool.false_eq_true, if_false, hf]
      simp only at e1 e2 e3 e4 j1 j2 j3 j4 j5 j6 j7 hfill ⊢
      by_cases hl : pool1.consumed = pool1.limit
      · rw [if_pos hl]
        exact ⟨_, rfl, ⟨j1, j2, j3, j4, j5, j6, j7⟩, by simp only; omega⟩
      · rw [if_neg hl]
        have hb : (if pool1.consumed + n ≥ pool1.limit then
            (pool1.limit + 2 ^ 64 - pool1.consumed) % 2 ^ 64 % 2 ^ 32 else n) ≤ n ∧
            pool1.consumed + (if pool1.consumed + n ≥ pool1.limit then
            (pool1.limit + 2 ^ 64 - pool1.consumed) % 2 ^ 64 % 2 ^ 32 else n) ≤ pool1.limit := by
          by_cases hge : pool1.consumed + n ≥ pool1.limit
          · rw [if_pos hge]
            have h3 : pool1.limit + 2 ^ 64 - pool1.consumed =
                (pool1.limit - pool1.consumed) + 2 ^ 64 := by omega
            rw [h3, Nat.add_mod_right]
            have h4 : (pool1.limit - pool1.consumed) % 2 ^ 64 % 2 ^ 32 ≤
                pool1.limit - pool1.consumed :=
              (Nat.mod_le _ _).trans (Nat.mod_le _ _)
            omega
          · rw [if_neg hge]
            omega
        generalize (if pool1.consumed + n ≥ pool1.limit then
            (pool1.limit + 2 ^ 64 - pool1.consumed) % 2 ^ 64 % 2 ^ 32 else n) = m at hb
        refine ⟨_, rfl, ?_, ?_⟩
        · cases sr
          · simp only [fill_buf, pool_inv, Bool.false_eq_true, if_false]
            exact ⟨j1, hb.2, by omega, j4, j5, j6, j7⟩
          · simp only [fill_buf, pool_inv, append_request, if_true]
            exact ⟨j1, hb.2, by omega, j4, j5, j6, j7⟩
        · cases sr
          · simp only [fill_buf, Bool.false_eq_true, if_false]
            omega
          · simp only [fill_buf, append_request, if_true]
            omega

theorem bit_pool_random_keeps_pool_inv_witness :
    pool_inv (alloc_bit_pool 100 1000 16) ∧
      ∃ r, fuzz_autoshrink_bit_pool_random { mt := List.replicate 312 0, mti := 313 }
          (alloc_bit_pool 100 1000 16) 8 true [0] = some r ∧
        pool_inv r.2.1 ∧ (alloc_bit_pool 100 1000 16).consumed ≤ r.2.1.consumed :=
  ⟨(bit_pool_random_keeps_pool_inv 100 1000 16 (by decide)).1,
    (bit_pool_random_keeps_pool_inv 100 1000 16 (by decide)).2 _
      (bit_pool_random_keeps_pool_inv 100 1000 16 (by decide)).1 _ 8 true [0]⟩

/-! ## What truncation leaves -/

theorem truncate_scan_spec (bits : List Nat) :
    ∀ n : Nat, (truncate_scan bits n = 0 ∧ ∀ j, j < n → bits.getD j 0 = 0) ∨
      ∃ k, k < n ∧ bits.getD k 0 ≠ 0 ∧ (∀ j, k < j → j < n → bits.getD j 0 = 0) ∧
        truncate_scan bits n = k + 1 := by
  intro n
  induction n with
  | zero => exact Or.inl ⟨rfl, fun j hj => absurd hj (Nat.not_lt_zero j)⟩
  | succ n ih =>
    by_cases h : bits.getD n 0 ≠ 0
    · refine Or.inr ⟨n, Nat.lt_succ_self n, h, fun j h1 h2 => by omega, ?_⟩
      simp only [truncate_scan, if_pos h]
    · have h0 : bits.getD n 0 = 0 := not_not.mp h
      simp only [truncate_scan, if_neg h]
      rcases ih with ⟨a, b⟩ | ⟨k, a, b, c, d⟩
      · refine Or.inl ⟨a, fun j hj => ?_⟩
        rcases Nat.lt_succ_iff_lt_or_eq.mp hj with hj | hj
        · exact b j hj
        · rw [hj]; exact h0
      · refine Or.inr ⟨k, by omega, b, fun j h1 h2 => ?_, d⟩
        rcases Nat.lt_succ_iff_lt_or_eq.mp h2 with hj | hj
        · exact c j h1 hj
        · rw [hj]; exact h0

/-- C14: after `truncate_trailing_zero_bytes`, `bits_filled` is `8 * (k + 1)`
for the last non-zero byte `k` among the first `ceil(bits_filled / 8)` bytes,
or `0` when all those bytes are zero; the new `limit` is the minimum of the old
`limit` and the new `bits_filled`, hence `limit ≤ bits_filled`. -/
theorem truncate_trailing_zero_bytes_spec (pool : autoshrink_bit_pool) :
    (((∀ j, j < (pool.bits_filled + 7) / 8 → pool.bits.getD j 0 = 0) ∧
        (truncate_trailing_zero_bytes pool).bits_filled = 0) ∨
      ∃ k, k < (pool.bits_filled + 7) / 8 ∧ pool.bits.getD k 0 ≠ 0 ∧
        (∀ j, k < j → j < (pool.bits_filled + 7) / 8 → pool.bits.getD j 0 = 0) ∧
        (truncate_trailing_zero_bytes pool).bits_filled = 8 * (k + 1)) ∧
    (truncate_trailing_zero_bytes pool).limit =
      min pool.limit (truncate_trailing_zero_bytes pool).bits_filled ∧
    (truncate_trailing_zero_bytes pool).limit ≤ (truncate_trailing_zero_bytes pool).bits_filled := by
  have hbs : pool.bits_filled / 8 + (if pool.bits_filled % 8 = 0 then 0 else 1) =
      (pool.bits_filled + 7) / 8 := by
    split <;> omega
  simp only [truncate_trailing_zero_bytes, hbs]
  refine ⟨?_, ?_, ?_⟩
  · rcases truncate_scan_spec pool.bits ((pool.bits_filled + 7) / 8) with ⟨a, b⟩ | ⟨k, a, b, c, d⟩
    · exact Or.inl ⟨b, by rw [a]⟩
    · exact Or.inr ⟨k, a, b, c, by rw [d]; omega⟩
  · split
    · rw [Nat.min_eq_right]; omega
    · rw [Nat.min_eq_left]; omega
  · split <;> omega

/-! ## The model weights stay within their bounds -/

theorem adjust_weight (m : autoshrink_model) (w mn mx : Nat) (a : Int) (hmm : mn ≤ mx)
    (j : Nat) :
    (adjust m w mn mx a).weights.getD j 0 = m.weights.getD j 0 ∨
      (j = w ∧ mn ≤ (adjust m w mn mx a).weights.getD j 0 ∧
        (adjust m w mn mx a).weights.getD j 0 ≤ mx) := by
  have key : ∀ nv : Nat,
      (if nv ≠ 0 then
          ({ m with weights :=
              m.weights.set w (if nv > mx then mx else if nv < mn then mn else nv) } :
            autoshrink_model)
        else m).weights.getD j 0 = m.weights.getD j 0 ∨
      (j = w ∧ mn ≤ (if nv ≠ 0 then
          ({ m with weights :=
              m.weights.set w (if nv > mx then mx else if nv < mn then mn else nv) } :
            autoshrink_model)
        else m).weights.getD j 0 ∧
        (if nv ≠ 0 then
          ({ m with weights :=
              m.weights.set w (if nv > mx then mx else if nv < mn then mn else nv) } :
            autoshrink_model)
        else m).weights.getD j 0 ≤ mx) := by
    intro nv
    by_cases hnv : nv ≠ 0
    · simp only [if_pos hnv]
      by_cases hw : w < m.weights.length
      · rw [getD_set _ _ _ _ hw]
        by_cases hj : j = w
        · right
          rw [if_pos hj]
          refine ⟨hj, ?_⟩
          split
          · exact ⟨hmm, le_refl _⟩
          · split
            · exact ⟨le_refl _, hmm⟩
            · omega
        · left
          rw [if_neg hj]
      · left
        rw [List.set_eq_of_length_le (by omega)]
    · left
      simp only [if_neg hnv]
  exact key _

theorem adjust_keeps (m : autoshrink_model) (w mn mx : Nat) (a : Int) (hmm : mn ≤ mx)
    (j lo hi : Nat) (hw : j = w → lo = mn ∧ hi = mx)
    (h : lo ≤ m.weights.getD j 0 ∧ m.weights.getD j 0 ≤ hi) :
    lo ≤ (adjust m w mn mx a).weights.getD j 0 ∧ (adjust m w mn mx a).weights.getD j 0 ≤ hi := by
  rcases adjust_weight m w mn mx a hmm j with e | ⟨e1, e2, e3⟩
  · rw [e]; exact h
  · obtain ⟨a1, a2⟩ := hw e1
    rw [a1, a2]; exact ⟨e2, e3⟩

theorem adjust_in_bounds (m : autoshrink_model) (w mn mx : Nat) (a : Int)
    (hw : (w = WEIGHT_DROP ∧ mn = DROPS_MIN ∧ mx = DROPS_MAX) ∨
      (w ≠ WEIGHT_DROP ∧ mn = MODEL_MIN ∧ mx = MODEL_MAX))
    (h : weights_in_bounds m) : weights_in_bounds (adjust m w mn mx a) := by
  have hmm : mn ≤ mx := by
    rcases hw with ⟨_, b, c⟩ | ⟨_, b, c⟩ <;> rw [b, c] <;> decide
  obtain ⟨h0, h1, h2, h3, h4⟩ := h
  have hd : WEIGHT_DROP = 0 := rfl
  refine ⟨adjust_keeps m w mn mx a hmm _ _ _ ?_ h0, adjust_keeps m w mn mx a hmm _ _ _ ?_ h1,
    adjust_keeps m w mn mx a hmm _ _ _ ?_ h2, adjust_keeps m w mn mx a hmm _ _ _ ?_ h3,
    adjust_keeps m w mn mx a hmm _ _ _ ?_ h4⟩
  · intro e
    rcases hw with ⟨_, b, c⟩ | ⟨a1, _, _⟩
    · exact ⟨b.symm, c.symm⟩
    · exact absurd e.symm a1
  all_goals
    intro e
    rcases hw with ⟨a1, _, _⟩ | ⟨_, b, c⟩
    · rw [a1] at e; exact absurd e (by decide)
    · exact ⟨b.symm, c.symm⟩

/-- C18: the weights `init_model` sets (it sets them unless a test has
scheduled an action) are within the bounds —drop in `[0x10, 0xA0]`, shift,
mask, swap and sub in `[0x08, 0x80]`— and for every environment whose weights
are within them, every trial result, every adjustment and every
`cur_tried`/`cur_set`, `fuzz_autoshrink_update_model` leaves all five weights
within the same bounds. -/
theorem update_model_keeps_weight_bounds (env0 env : autoshrink_env) (res : Int)
    (adjustment : Nat) (h0 : env0.model.next_action = 0) (h : weights_in_bounds env.model) :
    weights_in_bounds (init_model env0).model ∧
      weights_in_bounds (fuzz_autoshrink_update_model env res adjustment).model := by
  constructor
  · simp only [init_model, h0, ne_eq, not_true_eq_false, if_false]
    decide
  · unfold fuzz_autoshrink_update_model
    split
    · exact h
    · simp only
      refine adjust_in_bounds _ _ _ _ _ (Or.inr ⟨by decide, rfl, rfl⟩) ?_
      refine adjust_in_bounds _ _ _ _ _ (Or.inr ⟨by decide, rfl, rfl⟩) ?_
      refine adjust_in_bounds _ _ _ _ _ (Or.inr ⟨by decide, rfl, rfl⟩) ?_
      refine adjust_in_bounds _ _ _ _ _ (Or.inr ⟨by decide, rfl, rfl⟩) ?_
      exact adjust_in_bounds _ _ _ _ _ (Or.inl ⟨rfl, rfl, rfl⟩) h

theorem update_model_keeps_weight_bounds_witness :
    weights_in_bounds (init_model (fuzz_autoshrink_alloc_env 0 (byte_type_info true))).model ∧
      weights_in_bounds
        (fuzz_autoshrink_update_model
          { fuzz_autoshrink_alloc_env 0 (byte_type_info true) with
            model := { cur_tried := 0x1f, cur_set := 0x03, next_action := 0,
                       weights := [0xA0, 0x80, 0x08, 0x08, 0x30] } }
          FUZZ_RESULT_FAIL 200).model :=
  update_model_keeps_weight_bounds (fuzz_autoshrink_alloc_env 0 (byte_type_info true))
    { fuzz_autoshrink_alloc_env 0 (byte_type_info true) with
      model := { cur_tried := 0x1f, cur_set := 0x03, next_action := 0,
                 weights := [0xA0, 0x80, 0x08, 0x08, 0x30] } }
    FUZZ_RESULT_FAIL 200 rfl (by decide)

/-! ## Always-run seeds come first, then the run seed -/

theorem fuzz_run_trials_loop_seeds {σ : Type} (c : fuzz_setup σ) (fuel : Nat) :
    ∀ (n trial seed : Nat) (t : fuzz σ) (ok : Bool) (l : List Nat) (t' : fuzz σ),
      fuzz_run_trials_loop c fuel n trial seed t = some (ok, l, t') →
      ∀ j, j < l.length →
        (trial + j < c.always_seeds.length → l.getD j 0 = c.always_seeds.getD (trial + j) 0) ∧
        (trial + j = c.always_seeds.length → (0 < c.always_seeds.length ∨ seed = c.run_seed) →
          l.getD j 0 = c.run_seed) := by
  intro n
  induction n with
  | zero =>
    intro trial seed t ok l t' h j hj
    simp only [fuzz_run_trials_loop] at h
    injection h with h
    injection h with _ h
    injection h with h _
    subst h
    exact absurd hj (Nat.not_lt_zero j)
  | succ n ih =>
    intro trial seed t ok l t' h j hj
    obtain ⟨res, s1, t1, _, hcase⟩ := fuzz_run_trials_loop_succ c fuel n trial seed t ok l t' h
    have h0 : (trial < c.always_seeds.length →
          trial_seed c trial seed = c.always_seeds.getD trial 0) ∧
        (trial = c.always_seeds.length → (0 < c.always_seeds.length ∨ seed = c.run_seed) →
          trial_seed c trial seed = c.run_seed) := by
      constructor
      · intro h1
        simp only [trial_seed, if_pos h1]
      · intro h1 h2
        simp only [trial_seed, if_neg (by omega : ¬ trial < c.always_seeds.length)]
        split
        · rfl
        · rcases h2 with h2 | h2
          · omega
          · exact h2
    rcases hcase with ⟨_, ok1, rest, t3, hr, hl⟩ | hl
    · subst hl
      cases j with
      | zero => simpa using h0
      | succ j =>
        have hj2 : j < rest.length := by simpa using hj
        have := ih (trial + 1) s1 _ ok1 rest t3 hr j hj2
        simp only [List.getD_cons_succ]
        constructor
        · intro h1
          have h2 := this.1 (by omega)
          rw [h2]; congr 1; omega
        · intro h1 _
          exact this.2 (by omega) (Or.inl (by omega))
    · subst hl
      have hj0 : j = 0 := by simpa using hj
      subst hj0
      simpa using h0

/-- The list of seeds of a run (`fuzz_run_init`, then `fuzz_run_trials`) holds
`always_seeds[i]` at every index `i < always_seed_count`, and `run_seed` at
index `always_seed_count`. -/
theorem trial_seeds_always_then_run_seed {σ : Type} (c : fuzz_setup σ) (fuel : Nat) (env : σ)
    (l : List Nat) (h : trial_seeds c fuel env = some l) (i : Nat) (hi : i < l.length) :
    (i < c.always_seeds.length → l.getD i 0 = c.always_seeds.getD i 0) ∧
      (i = c.always_seeds.length → l.getD i 0 = c.run_seed) := by
  unfold trial_seeds at h
  split at h
  · simp at h
  · next t ht =>
    unfold fuzz_run_trials at h
    simp only at h
    split at h
    · simp only [Option.map_some'] at h
      injection h with h
      subst h
      exact absurd hi (Nat.not_lt_zero i)
    · split at h
      · simp at h
      · next seeds t1 hl =>
        simp only [Option.map_some'] at h
        injection h with h
        subst h
        have := fuzz_run_trials_loop_seeds c fuel _ _ _ _ _ _ _ hl i hi
        simp only [Nat.zero_add] at this
        exact ⟨this.1, fun e => this.2 e (Or.inr trivial)⟩
      · next seeds t1 hl =>
        have hl2 : l = seeds := by
          split at h <;> [skip; split at h <;> [skip; split at h]] <;>
          · simp only [Option.map_some'] at h
            injection h with h
            exact h.symm
        subst hl2
        have := fuzz_run_trials_loop_seeds c fuel _ _ _ _ _ _ _ hl i hi
        simp only [Nat.zero_add] at this
        exact ⟨this.1, fun e => this.2 e (Or.inr trivial)⟩

theorem trial_seeds_always_then_run_seed_witness :
    (2 < (corpus_setup FUZZ_RESULT_OK).always_seeds.length →
        [11, 12, 13].getD 2 0 = (corpus_setup FUZZ_RESULT_OK).always_seeds.getD 2 0) ∧
      (2 = (corpus_setup FUZZ_RESULT_OK).always_seeds.length →
        [11, 12, 13].getD 2 0 = (corpus_setup FUZZ_RESULT_OK).run_seed) :=
  trial_seeds_always_then_run_seed (corpus_setup FUZZ_RESULT_OK) 3 () [11, 12, 13] (by decide!) 2
    (by decide)

/-! ## The result code of a run -/

/-- C20: when `fuzz_run_trials` returns a code other than `FUZZ_RESULT_ERROR`
(the run completed without a fatal error), the code is `FUZZ_RESULT_FAIL` iff
the fail counter is positive, `FUZZ_RESULT_OK` iff fail is zero and pass is
positive, and `FUZZ_RESULT_SKIP` iff both are zero. -/
theorem fuzz_run_trials_result {σ : Type} (c : fuzz_setup σ) (fuel : Nat) (t : fuzz σ) (r : Int)
    (cnt : counter_info)
    (h : (fuzz_run_trials c fuel t).map (fun x => (x.1, x.2.2.counters)) = some (r, cnt))
    (hr : r ≠ FUZZ_RESULT_ERROR) :
    (r = FUZZ_RESULT_FAIL ↔ 0 < cnt.fail) ∧
      (r = FUZZ_RESULT_OK ↔ cnt.fail = 0 ∧ 0 < cnt.pass) ∧
      (r = FUZZ_RESULT_SKIP ↔ cnt.fail = 0 ∧ cnt.pass = 0) := by
  have e1 : FUZZ_RESULT_FAIL ≠ FUZZ_RESULT_OK := by decide
  have e2 : FUZZ_RESULT_FAIL ≠ FUZZ_RESULT_SKIP := by decide
  have e3 : FUZZ_RESULT_OK ≠ FUZZ_RESULT_SKIP := by decide
  unfold fuzz_run_trials at h
  simp only at h
  split at h
  · simp only [Option.map_some'] at h
    injection h with h
    injection h with h _
    exact absurd h.symm hr
  · split at h
    · simp at h
    · simp only [Option.map_some'] at h
      injection h with h
      injection h with h _
      exact absurd h.symm hr
    · split at h
      · simp only [Option.map_some'] at h
        injection h with h
        injection h with h _
        exact absurd h.symm hr
      · split at h
        · next hf =>
          simp only [Option.map_some'] at h
          injection h with h
          injection h with h1 h2
          subst h1 h2
          refine ⟨⟨fun _ => hf, fun _ => rfl⟩, ⟨fun e => absurd e e1, fun e => ?_⟩,
            ⟨fun e => absurd e e2, fun e => ?_⟩⟩ <;> omega
        · split at h
          · next hf hp =>
            simp only [Option.map_some'] at h
            injection h with h
            injection h with h1 h2
            subst h1 h2
            refine ⟨⟨fun e => absurd e.symm e1, fun e => ?_⟩, ⟨fun _ => ⟨by omega, hp⟩, fun _ => rfl⟩,
              ⟨fun e => absurd e e3, fun e => ?_⟩⟩ <;> omega
          · next hf hp =>
            simp only [Option.map_some'] at h
            injection h with h
            injection h with h1 h2
            subst h1 h2
            refine ⟨⟨fun e => absurd e.symm e2, fun e => ?_⟩, ⟨fun e => absurd e.symm e3, fun e => ?_⟩,
              ⟨fun _ => ⟨by omega, by omega⟩, fun _ => rfl⟩⟩ <;> omega

theorem fuzz_run_trials_result_witness :
    (FUZZ_RESULT_FAIL = FUZZ_RESULT_FAIL ↔
        0 < ({ pass := 0, fail := 1, skip := 0, dup := 0 } : counter_info).fail) ∧
      (FUZZ_RESULT_FAIL = FUZZ_RESULT_OK ↔
        ({ pass := 0, fail := 1, skip := 0, dup := 0 } : counter_info).fail = 0 ∧
          0 < ({ pass := 0, fail := 1, skip := 0, dup := 0 } : counter_info).pass) ∧
      (FUZZ_RESULT_FAIL = FUZZ_RESULT_SKIP ↔
        ({ pass := 0, fail := 1, skip := 0, dup := 0 } : counter_info).fail = 0 ∧
          ({ pass := 0, fail := 1, skip := 0, dup := 0 } : counter_info).pass = 0) :=
  fuzz_run_trials_result (byte_setup false FUZZ_RESULT_FAIL 5) 3 byte_state FUZZ_RESULT_FAIL
    { pass := 0, fail := 1, skip := 0, dup := 0 } (by decide!) (by decide)

/-! ## The bulk request does not clear the caller's buffer -/

theorem or_low_bit (x b : Nat) (hx : x = 2 ^ 64 - 1) :
    (x ||| ((b &&& 1) <<< 0)) % 2 ^ 64 = 2 ^ 64 - 1 := by
  subst hx
  rw [Nat.shiftLeft_zero, Nat.and_one_is_mod]
  rcases Nat.mod_two_eq_zero_or_one b with h | h <;> rw [h] <;> decide

theorem bulk_one_bit (p : prng_info) (x : Nat) (hp : p.bit_pool = none) :
    ∃ b, (fuzz_random_bits_bulk p 1 [x]).map (fun r => r.2) =
      some [(x ||| ((b &&& 1) <<< 0)) % 2 ^ 64] := by
  have hm : get_random_mask 1 = 1 := by decide
  by_cases h0 : p.bits_available = 0
  · refine ⟨(fuzz_rng_random p.rng).1, ?_⟩
    simp only [fuzz_random_bits_bulk, hp, fuzz_random_bits_bulk_loop, h0, if_true]
    simp [hm]
  · refine ⟨p.buf, ?_⟩
    have h1 : ¬ 1 > p.bits_available := by omega
    simp only [fuzz_random_bits_bulk, hp, fuzz_random_bits_bulk_loop, h0, if_false]
    simp [hm, h1]

/-- C17: `fuzz_random_bits_bulk` does not zero the caller's buffer, against the
comment on its declaration (`BUF ... will be zeroed before any bits are copied
to it`).  From every state without a bit pool a request of one bit leaves a
buffer word of all ones as it is, while the same request on a zeroed word
yields the bit drawn; and with a pool at its limit a request of 64 bits clears
one byte of the word, not the word. -/
theorem fuzz_random_bits_bulk_keeps_old_bits (p : prng_info) :
    (fuzz_random_bits_bulk (fuzz_random_stop_using_bit_pool p) 1 [2 ^ 64 - 1]).map
        (fun r => r.2) = some [2 ^ 64 - 1] ∧
    (∃ b, b ≤ 1 ∧ (fuzz_random_bits_bulk (fuzz_random_stop_using_bit_pool p) 1 [0]).map
        (fun r => r.2) = some [b]) ∧
    (fuzz_random_bits_bulk
        (fuzz_random_inject_autoshrink_bit_pool p { alloc_bit_pool 64 0 16 with shrinking := true })
        64 [2 ^ 64 - 1]).map (fun r => r.2) = some [2 ^ 64 - 256] := by
  refine ⟨?_, ?_, ?_⟩
  · obtain ⟨b, hb⟩ := bulk_one_bit (fuzz_random_stop_using_bit_pool p) (2 ^ 64 - 1) rfl
    rw [hb, or_low_bit _ b rfl]
  · obtain ⟨b, hb⟩ := bulk_one_bit (fuzz_random_stop_using_bit_pool p) 0 rfl
    refine ⟨(0 ||| ((b &&& 1) <<< 0)) % 2 ^ 64, ?_, hb⟩
    rw [Nat.shiftLeft_zero, Nat.zero_or, Nat.and_one_is_mod]
    have := Nat.mod_lt b (by decide : 0 < 2)
    have h2 : b % 2 % 2 ^ 64 = b % 2 := Nat.mod_eq_of_lt (by omega)
    omega
  · simp only [fuzz_random_bits_bulk, fuzz_random_inject_autoshrink_bit_pool]
    rfl

/-! ## Built-in generators on a stream of zero bits -/

theorem zero_bits_forever_step (p : prng_info) (n : Nat) (hz : zero_bits_forever p)
    (h1 : 1 ≤ n) (h64 : n ≤ 64) :
    ∃ p1, fuzz_random_bits p n = some (0, p1) ∧ zero_bits_forever p1 := by
  have h := hz [n] (by simp [h1, h64])
  simp only [fuzz_random_bits_seq, List.map_cons, List.map_nil] at h
  split at h
  · simp at h
  · next r hr =>
    obtain ⟨v, p1⟩ := r
    simp only [Option.some.injEq, List.cons.injEq, and_true] at h
    subst h
    refine ⟨p1, hr, fun ns hns => ?_⟩
    have h2 := hz (n :: ns) (by
      intro m hm
      rcases List.mem_cons.mp hm with e | e
      · rw [e]; exact ⟨h1, h64⟩
      · exact hns m e)
    simp only [fuzz_random_bits_seq, hr, List.map_cons] at h2
    split at h2
    · simp at h2
    · next vs hvs =>
      simp only [Option.some.injEq, List.cons.injEq, true_and] at h2
      rw [hvs, h2]

theorem zero_bits_forever_at_limit :
    ∀ (ns : List Nat) (p : prng_info) (pool : autoshrink_bit_pool),
      p.bit_pool = some pool → pool.consumed = pool.limit →
      (pool.shrinking = true ∨ 0 < pool.bits_ceil) → (∀ n ∈ ns, 1 ≤ n ∧ n ≤ 64) →
      fuzz_random_bits_seq p ns = some (ns.map (fun _ => 0)) := by
  intro ns
  induction ns with
  | nil => intro p pool _ _ _ _; rfl
  | cons n ns ih =>
    intro p pool hp hl hc hns
    have hn := hns n (List.mem_cons_self n ns)
    obtain ⟨rng1, pool1, hr, ⟨e1, _, e3, _⟩, hc1⟩ :=
      bit_pool_random_at_limit p.rng pool n true [0] (by omega) hl hc
    have hb : fuzz_random_bits p n =
        some (0, { p with rng := rng1, bit_pool := some pool1 }) := by
      simp only [fuzz_random_bits, fuzz_random_bits_bulk, hp, hr, memset_zero_one]
      rfl
    have h2 := ih { p with rng := rng1, bit_pool := some pool1 } pool1 rfl (by rw [e1, e3]; exact hl)
      hc1 (fun m hm => hns m (List.mem_cons_of_mem n hm))
    simp only [fuzz_random_bits_seq, hb, h2, List.map_cons]

theorem scalar_draw_zero (bits count : Nat) (p : prng_info) (hz : zero_bits_forever p)
    (h1 : 1 ≤ bits) (h64 : bits ≤ 64) :
    (scalar_draw bits count p).map (fun r => r.1) = some (Sum.inr 0) := by
  obtain ⟨p1, hs, hz1⟩ := zero_bits_forever_step p BITS_USE_SPECIAL hz (by decide) (by decide)
  obtain ⟨p2, hv, _⟩ := zero_bits_forever_step p1 bits hz1 h1 h64
  have h7 : ¬ (1 <<< BITS_USE_SPECIAL) - 1 = 0 := by decide
  simp only [scalar_draw, hs, if_neg h7, hv, Option.map_some']

/-- C15: from a state in which every bit request returns `0`, `bool_alloc`
yields `false`, the unsigned and signed scalar generators (every width from 1
to 64 bits and every list of special values, with or without a limit that
passes the assertion) yield `0`, and `char_ARRAY_alloc` (with or without a
maximal length that passes the assertion, after one iteration) yields the empty
string, which is the terminator alone; all return `FUZZ_RESULT_OK`. -/
theorem builtin_alloc_minimal_on_zero_bits (p : prng_info) (bits fuel : Nat)
    (special_u : List Nat) (special_s : List Int) (env_u : Option Nat) (env_s : Option Int)
    (env_c : Option Nat) (hz : zero_bits_forever p) (h1 : 1 ≤ bits) (h64 : bits ≤ 64)
    (hu : env_u ≠ some 0) (hs : ∀ l, env_s = some l → 0 < l) (hc : env_c ≠ some 0) :
    (bool_alloc p).map (fun r => (r.1, r.2.1)) = some (FUZZ_RESULT_OK, false) ∧
    (ALLOC_USCALAR bits special_u env_u p).map (fun r => (r.1, r.2.1)) =
      some (FUZZ_RESULT_OK, 0) ∧
    (ALLOC_SSCALAR bits special_s env_s p).map (fun r => (r.1, r.2.1)) =
      some (FUZZ_RESULT_OK, 0) ∧
    (char_ARRAY_alloc (fuel + 1) env_c p).map (fun r => (r.1, r.2.1)) =
      some (FUZZ_RESULT_OK, [0]) := by
  refine ⟨?_, ?_, ?_, ?_⟩
  · obtain ⟨p1, hb, _⟩ := zero_bits_forever_step p 1 hz (by decide) (by decide)
    simp only [bool_alloc, hb, Option.map_some']
    rfl
  · have hd := scalar_draw_zero bits special_u.length p hz h1 h64
    unfold ALLOC_USCALAR
    split
    · next hn => rw [hn] at hd; simp at hd
    · next d p1 hn =>
      rw [hn] at hd
      simp only [Option.map_some', Option.some.injEq] at hd
      subst hd
      simp only [Nat.zero_mod]
      split
      · rfl
      · next limit =>
        have hl : limit ≠ 0 := fun e => hu (by rw [e])
        simp only [if_neg hl, Option.map_some', Nat.zero_mod]
  · have hd := scalar_draw_zero bits special_s.length p hz h1 h64
    unfold ALLOC_SSCALAR
    split
    · next hn => rw [hn] at hd; simp at hd
    · next d p1 hn =>
      rw [hn] at hd
      simp only [Option.map_some', Option.some.injEq] at hd
      subst hd
      have ht : to_signed bits 0 = 0 := by
        have hp : (2 : Nat) ^ (bits - 1) > 0 := Nat.two_pow_pos (bits - 1)
        simp only [to_signed, Nat.zero_mod]
        rw [if_neg (by omega)]
        rfl
      simp only [ht]
      split
      · rfl
      · next limit =>
        have hl : 0 < limit := hs limit rfl
        rw [if_neg (by omega), if_neg (by omega), if_neg (by omega)]
        rfl
  · obtain ⟨p1, hb, _⟩ := zero_bits_forever_step p 8 hz (by decide) (by decide)
    unfold char_ARRAY_alloc
    rw [if_neg hc]
    unfold char_ARRAY_alloc_loop
    by_cases hm : env_c = some ([] : List Nat).length.succ
    · rw [if_pos hm]
      rfl
    · rw [if_neg hm]
      simp only [hb, Nat.zero_mod, if_true, Option.map_some']
      rfl



theorem builtin_alloc_minimal_on_zero_bits_witness :
    (bool_alloc exhausted_source).map (fun r => (r.1, r.2.1)) = some (FUZZ_RESULT_OK, false) ∧
    (uint16_t_alloc (some 10) exhausted_source).map (fun r => (r.1, r.2.1)) =
      some (FUZZ_RESULT_OK, 0) ∧
    (int16_t_alloc (some 5) exhausted_source).map (fun r => (r.1, r.2.1)) =
      some (FUZZ_RESULT_OK, 0) ∧
    (char_ARRAY_alloc (0 + 1) (some 3) exhausted_source).map (fun r => (r.1, r.2.1)) =
      some (FUZZ_RESULT_OK, [0]) :=
  builtin_alloc_minimal_on_zero_bits exhausted_source 16 0 _ _ (some 10) (some 5) (some 3)
    (fun ns hns => zero_bits_forever_at_limit ns exhausted_source _ rfl rfl (Or.inl rfl) hns)
    (by decide) (by decide) (by decide) (fun l h => by cases h; decide) (by decide)

/-! ## Shrink candidates against the original pool -/

theorem lex_le_refl : ∀ a : List Nat, lex_le a a = true := by
  intro a
  induction a with
  | nil => rfl
  | cons x xs ih => simp [lex_le, ih]

theorem lex_le_trans : ∀ a b c : List Nat, lex_le a b = true → lex_le b c = true →
    lex_le a c = true := by
  intro a
  induction a with
  | nil => intro b c _ _; rfl
  | cons x xs ih =>
    intro b c hab hbc
    cases b with
    | nil => simp [lex_le] at hab
    | cons y ys =>
      cases c with
      | nil => simp [lex_le] at hbc
      | cons z zs =>
        simp only [lex_le, Bool.or_eq_true, Bool.and_eq_true, decide_eq_true_eq] at hab hbc ⊢
        rcases hab with h1 | ⟨h1, h2⟩
        · rcases hbc with h3 | ⟨h3, _⟩
          · left; omega
          · left; omega
        · rcases hbc with h3 | ⟨h3, h4⟩
          · left; omega
          · right; exact ⟨by omega, ih ys zs h2 h4⟩

theorem lex_le_of_first_lower : ∀ (a b : List Nat) (k : Nat), a.length = b.length →
    (∀ j, j < k → a.getD j 0 = b.getD j 0) → k < b.length → a.getD k 0 < b.getD k 0 →
    lex_le a b = true := by
  intro a
  induction a with
  | nil => intro b k _ _ _ _; rfl
  | cons x xs ih =>
    intro b k hlen hpre hk hlt
    cases b with
    | nil => simp at hk
    | cons y ys =>
      simp only [lex_le, Bool.or_eq_true, Bool.and_eq_true, decide_eq_true_eq]
      cases k with
      | zero => left; simpa using hlt
      | succ k =>
        right
        refine ⟨by simpa using hpre 0 (Nat.succ_pos k), ?_⟩
        refine ih ys k (by simpa using hlen) (fun j hj => ?_) (by simpa using hk) (by simpa using hlt)
        simpa using hpre (j + 1) (by omega)

theorem request_values_length (orig pool : autoshrink_bit_pool) :
    (request_values orig pool).length = orig.request_count := by
  simp [request_values]

theorem request_values_getD (orig pool : autoshrink_bit_pool) (j : Nat)
    (hj : j < orig.request_count) :
    (request_values orig pool).getD j 0 =
      read_bits_at_offset pool (offset_of_pos orig j) (orig.requests.getD j 0) := by
  simp [request_values, List.getD_eq_getElem?_getD, List.getElem?_map, List.getElem?_range hj]

theorem read_bits_congr (pool pool1 : autoshrink_bit_pool) (o s : Nat) (hs : s ≤ 64)
    (h : ∀ q, o ≤ q → q < o + s → bit_at pool1.bits q = bit_at pool.bits q) :
    read_bits_at_offset pool1 o s = read_bits_at_offset pool o s := by
  apply Nat.eq_of_testBit_eq
  intro j
  rw [read_bits_testBit _ _ _ _ hs, read_bits_testBit _ _ _ _ hs]
  by_cases hj : j < s
  · rw [h (o + j) (by omega) (by omega)]
  · simp [hj]

theorem write_bits_length (pool : autoshrink_bit_pool) (o s v : Nat) (hs : s ≤ 64)
    (hb : o + s ≤ 8 * pool.bits.length) :
    (write_bits_at_offset pool o s v).bits.length = pool.bits.length := by
  unfold write_bits_at_offset convert_bit_offset
  have h1 : (1 <<< (o % 8)) % 256 = 2 ^ (o % 8) := by
    rw [Nat.one_shiftLeft]
    have h8 : o % 8 < 8 := Nat.mod_lt o (by decide)
    exact Nat.mod_eq_of_lt (lt_of_lt_of_le (Nat.pow_lt_pow_right (by decide) h8) (by decide))
  simp only [h1]
  exact (write_loop_spec v s 0 o pool.bits hb (by omega)).1

theorem read_bits_write_same (pool : autoshrink_bit_pool) (o s v : Nat) (hs : s ≤ 64)
    (hb : o + s ≤ 8 * pool.bits.length) (hv : v < 2 ^ s) :
    read_bits_at_offset (write_bits_at_offset pool o s v) o s = v := by
  apply Nat.eq_of_testBit_eq
  intro j
  rw [read_bits_testBit _ _ _ _ hs, write_bits_bit_at _ _ _ _ _ hs hb]
  by_cases h : j < s
  · rw [if_pos (by omega)]
    simp [h]
  · have h2 : v.testBit j = false :=
      Nat.testBit_lt_two_pow (lt_of_lt_of_le hv (Nat.pow_le_pow_right (by decide) (by omega)))
    simp [h, h2]

theorem read_bits_write_other (pool : autoshrink_bit_pool) (o s v o1 s1 : Nat) (hs : s ≤ 64)
    (hs1 : s1 ≤ 64) (hb : o + s ≤ 8 * pool.bits.length) (hd : o1 + s1 ≤ o ∨ o + s ≤ o1) :
    read_bits_at_offset (write_bits_at_offset pool o s v) o1 s1 = read_bits_at_offset pool o1 s1 := by
  apply read_bits_congr _ _ _ _ hs1
  intro q h1 h2
  rw [write_bits_bit_at _ _ _ _ _ hs hb, if_neg (by omega)]

theorem read_bits_lt (pool : autoshrink_bit_pool) (o s : Nat) (hs : s ≤ 64) :
    read_bits_at_offset pool o s < 2 ^ s := by
  apply Nat.lt_pow_two_of_testBit
  intro i hi
  rw [read_bits_testBit _ _ _ _ hs]
  simp [show ¬ i < s by omega]

theorem index_foldl (rs : List Nat) :
    ∀ (l0 : List Nat) (s0 : Nat), ∃ t,
      (rs.foldl (fun (acc : List Nat × Nat) r => (acc.1 ++ [acc.2], acc.2 + r)) (l0, s0)).1 =
        l0 ++ t ∧
      ∀ i, i < rs.length → t.getD i 0 = s0 + (rs.take i).sum := by
  induction rs with
  | nil =>
    intro l0 s0
    exact ⟨[], by simp, fun i hi => absurd hi (Nat.not_lt_zero i)⟩
  | cons r rest ih =>
    intro l0 s0
    obtain ⟨t, h1, h2⟩ := ih (l0 ++ [s0]) (s0 + r)
    refine ⟨s0 :: t, ?_, fun i hi => ?_⟩
    · simp only [List.foldl_cons, h1, List.append_assoc, List.singleton_append]
    · cases i with
      | zero => simp
      | succ i =>
        have := h2 i (by simpa using hi)
        simp only [List.getD_cons_succ, List.take_succ_cons, List.sum_cons, this]
        omega

theorem offset_of_pos_build_index (pool : autoshrink_bit_pool) (hn : pool.index = none) (i : Nat)
    (hi : i < pool.request_count) :
    offset_of_pos (build_index pool) i = (pool.requests.take i).sum := by
  obtain ⟨t, h1, h2⟩ := index_foldl pool.requests [] 0
  simp only [offset_of_pos, build_index, hn, h1, List.nil_append]
  rw [h2 i hi, Nat.zero_add]

theorem take_sum_succ (l : List Nat) (j : Nat) (hj : j < l.length) :
    (l.take (j + 1)).sum = (l.take j).sum + l.getD j 0 := by
  induction l generalizing j with
  | nil => simp at hj
  | cons x xs ih =>
    cases j with
    | zero => simp
    | succ j =>
      have := ih j (by simpa using hj)
      simp only [List.take_succ_cons, List.sum_cons, List.getD_cons_succ, this]
      omega

theorem take_sum_mono (l : List Nat) (j k : Nat) (h : j ≤ k) : (l.take j).sum ≤ (l.take k).sum := by
  induction l generalizing j k with
  | nil => simp
  | cons x xs ih =>
    cases j with
    | zero => simp
    | succ j =>
      cases k with
      | zero => omega
      | succ k =>
        have := ih j k (by omega)
        simp only [List.take_succ_cons, List.sum_cons]
        omega

theorem take_sum_le (l : List Nat) (j : Nat) : (l.take j).sum ≤ l.sum := by
  induction l generalizing j with
  | nil => simp
  | cons x xs ih =>
    cases j with
    | zero => simp
    | succ j =>
      have := ih j
      simp only [List.take_succ_cons, List.sum_cons]
      omega

theorem windows_ok_facts (orig : autoshrink_bit_pool) (len i : Nat) (hw : windows_ok orig len)
    (hi : i < orig.request_count) :
    orig.requests.getD i 0 ≤ 64 ∧
      offset_of_pos orig i + orig.requests.getD i 0 ≤ 8 * len ∧
      ∀ j, j < i → offset_of_pos orig j + orig.requests.getD j 0 ≤ offset_of_pos orig i := by
  obtain ⟨h1, h2, h3⟩ := hw
  have hi2 : i < orig.requests.length := hi
  refine ⟨?_, ?_, fun j hj => ?_⟩
  · apply h2
    rw [List.getD_eq_getElem _ _ hi2]
    exact List.getElem_mem hi2
  · rw [h1 i hi, ← take_sum_succ _ _ hi2]
    exact (take_sum_le _ _).trans h3
  · have hj2 : j < orig.requests.length := by omega
    rw [h1 i hi, h1 j (by unfold autoshrink_bit_pool.request_count; omega),
      ← take_sum_succ _ _ hj2]
    exact take_sum_mono _ _ _ (by omega)

theorem request_values_congr (orig pool pool1 : autoshrink_bit_pool)
    (h : ∀ i, i < orig.request_count →
      read_bits_at_offset pool1 (offset_of_pos orig i) (orig.requests.getD i 0) =
        read_bits_at_offset pool (offset_of_pos orig i) (orig.requests.getD i 0)) :
    request_values orig pool1 = request_values orig pool := by
  unfold request_values
  apply List.map_congr_left
  intro i hi
  exact h i (List.mem_range.mp hi)

theorem request_values_write_le (orig pool : autoshrink_bit_pool) (pos nbits : Nat)
    (hw : windows_ok orig pool.bits.length) (hpos : pos < orig.request_count)
    (hle : nbits ≤ read_bits_at_offset pool (offset_of_pos orig pos) (orig.requests.getD pos 0)) :
    lex_le
        (request_values orig
          (write_bits_at_offset pool (offset_of_pos orig pos) (orig.requests.getD pos 0) nbits))
        (request_values orig pool) = true := by
  obtain ⟨s64, sb, sd⟩ := windows_ok_facts orig _ pos hw hpos
  have hlt : nbits < 2 ^ orig.requests.getD pos 0 :=
    lt_of_le_of_lt hle (read_bits_lt _ _ _ s64)
  have hother : ∀ j, j < orig.request_count → j ≠ pos →
      read_bits_at_offset
          (write_bits_at_offset pool (offset_of_pos orig pos) (orig.requests.getD pos 0) nbits)
          (offset_of_pos orig j) (orig.requests.getD j 0) =
        read_bits_at_offset pool (offset_of_pos orig j) (orig.requests.getD j 0) := by
    intro j hj hne
    obtain ⟨t64, _, td⟩ := windows_ok_facts orig _ j hw hj
    apply read_bits_write_other _ _ _ _ _ _ s64 t64 sb
    rcases Nat.lt_or_gt_of_ne hne with h | h
    · exact Or.inl (sd j h)
    · exact Or.inr (td pos h)
  rcases Nat.eq_or_lt_of_le hle with he | hl
  · rw [request_values_congr orig pool _ (fun j hj => ?_)]
    · exact lex_le_refl _
    · by_cases hne : j = pos
      · subst hne
        rw [read_bits_write_same _ _ _ _ s64 sb hlt]
        exact he
      · exact hother j hj hne
  · apply lex_le_of_first_lower _ _ pos
    · rw [request_values_length, request_values_length]
    · intro j hj
      rw [request_values_getD _ _ _ (by omega), request_values_getD _ _ _ (by omega)]
      exact hother j (by omega) (by omega)
    · rw [request_values_length]; exact hpos
    · rw [request_values_getD _ _ _ hpos, request_values_getD _ _ _ hpos,
        read_bits_write_same _ _ _ _ s64 sb hlt]
      exact hl

theorem swap_search_le (orig : autoshrink_bit_pool) (pos : Nat) :
    ∀ (fuel i : Nat) (pool : autoshrink_bit_pool), windows_ok orig pool.bits.length →
      pos < orig.request_count → pos < i →
      lex_le
          (request_values orig
            (swap_search orig (offset_of_pos orig pos) (orig.requests.getD pos 0)
              (read_bits_at_offset pool (offset_of_pos orig pos) (orig.requests.getD pos 0))
              fuel i pool).2)
          (request_values orig pool) = true ∧
        (swap_search orig (offset_of_pos orig pos) (orig.requests.getD pos 0)
              (read_bits_at_offset pool (offset_of_pos orig pos) (orig.requests.getD pos 0))
              fuel i pool).2.bits.length = pool.bits.length := by
  intro fuel
  induction fuel with
  | zero => intro i pool _ _ _; exact ⟨lex_le_refl _, rfl⟩
  | succ fuel ih =>
    intro i pool hw hpos hi
    obtain ⟨s64, sb, sd⟩ := windows_ok_facts orig _ pos hw hpos
    have hm : orig.requests.getD pos 0 % 256 = orig.requests.getD pos 0 :=
      Nat.mod_eq_of_lt (by omega)
    simp only [swap_search, hm]
    by_cases h1 : i < orig.request_count
    · rw [if_pos h1]
      obtain ⟨t64, tb, td⟩ := windows_ok_facts orig _ i hw h1
      by_cases h2 : orig.requests.getD i 0 = orig.requests.getD pos 0
      · rw [if_pos h2]
        by_cases h3 : read_bits_at_offset pool (offset_of_pos orig i) (orig.requests.getD pos 0) <
            read_bits_at_offset pool (offset_of_pos orig pos) (orig.requests.getD pos 0)
        · rw [if_pos h3]
          simp only
          have hl1 := write_bits_length pool (offset_of_pos orig pos) (orig.requests.getD pos 0)
            (read_bits_at_offset pool (offset_of_pos orig i) (orig.requests.getD pos 0)) s64 sb
          have tb2 : offset_of_pos orig i + orig.requests.getD pos 0 ≤ 8 * pool.bits.length := by
            rw [← h2]; exact tb
          have hdisj : offset_of_pos orig pos + orig.requests.getD pos 0 ≤ offset_of_pos orig i :=
            td pos hi
          refine ⟨?_, ?_⟩
          · apply lex_le_of_first_lower _ _ pos
            · rw [request_values_length, request_values_length]
            · intro j hj
              obtain ⟨u64, _, _⟩ := windows_ok_facts orig _ j hw (by omega)
              rw [request_values_getD _ _ _ (by omega), request_values_getD _ _ _ (by omega)]
              rw [read_bits_write_other _ _ _ _ _ _ s64 u64 (by rw [hl1]; exact tb2)
                (Or.inl ((sd j hj).trans (by omega))),
                read_bits_write_other _ _ _ _ _ _ s64 u64 sb (Or.inl (sd j hj))]
            · rw [request_values_length]; exact hpos
            · rw [request_values_getD _ _ _ hpos, request_values_getD _ _ _ hpos,
                read_bits_write_other _ _ _ _ _ _ s64 s64 (by rw [hl1]; exact tb2)
                  (Or.inl hdisj),
                read_bits_write_same _ _ _ _ s64 sb (read_bits_lt _ _ _ s64)]
              exact h3
          · rw [write_bits_length _ _ _ _ s64 (by rw [hl1]; exact tb2), hl1]
        · rw [if_neg h3]
          exact ih (i + 1) pool hw hpos (by omega)
      · rw [if_neg h2]
        exact ih (i + 1) pool hw hpos (by omega)
    · rw [if_neg h1]
      exact ⟨lex_le_refl _, rfl⟩

theorem swap_search_frame (orig : autoshrink_bit_pool) (bo size bits : Nat) :
    ∀ (fuel i : Nat) (pool : autoshrink_bit_pool),
      (swap_search orig bo size bits fuel i pool).2.limit = pool.limit ∧
        (swap_search orig bo size bits fuel i pool).2.consumed = pool.consumed := by
  intro fuel
  induction fuel with
  | zero => intro i pool; exact ⟨rfl, rfl⟩
  | succ fuel ih =>
    intro i pool
    simp only [swap_search]
    split
    · split
      · split
        · exact ⟨rfl, rfl⟩
        · exact ih _ _
      · exact ih _ _
    · exact ⟨rfl, rfl⟩

theorem choose_and_mutate_request_le (fuel : Nat) (p : prng_info) (env : autoshrink_env)
    (orig pool : autoshrink_bit_pool) (b : Bool) (env1 : autoshrink_env)
    (pool1 : autoshrink_bit_pool) (p1 : prng_info) (hw : windows_ok orig pool.bits.length)
    (h : choose_and_mutate_request fuel p env orig pool = some (b, env1, pool1, p1)) :
    lex_le (request_values orig pool1) (request_values orig pool) = true ∧
      pool1.bits.length = pool.bits.length ∧ pool1.limit = pool.limit ∧
      pool1.consumed = pool.consumed := by
  unfold choose_and_mutate_request at h
  cases hm : get_weighted_mutation fuel p env with
  | none => simp [hm] at h
  | some r =>
    obtain ⟨mtype, p0⟩ := r
    simp only [hm, Option.bind_eq_bind, Option.some_bind] at h
    by_cases hc : orig.request_count = 0
    · simp only [hc, if_true] at h
      injection h with h
      injection h with _ h
      injection h with _ h
      injection h with h _
      subst h
      exact ⟨lex_le_refl _, rfl, rfl, rfl⟩
    · simp only [hc, if_false] at h
      cases hr : fuzz_random_bits p0 (log2ceil orig.request_count) with
      | none => simp [hr] at h
      | some r =>
        obtain ⟨rv, q1⟩ := r
        simp only [hr, Option.some_bind] at h
        have hpos : rv % orig.request_count < orig.request_count :=
          Nat.mod_lt _ (Nat.pos_of_ne_zero hc)
        generalize rv % orig.request_count = pos at h hpos
        obtain ⟨s64, sb, _⟩ := windows_ok_facts orig _ pos hw hpos
        have hs256 : orig.requests.getD pos 0 % 256 = orig.requests.getD pos 0 :=
          Nat.mod_eq_of_lt (by omega)
        have hnot : ¬ orig.requests.getD pos 0 > 64 := by omega
        have hfin : ∀ (nb : Nat) (b2 : Bool) (e2 : autoshrink_env) (p2 : prng_info),
            nb ≤ read_bits_at_offset pool (offset_of_pos orig pos) (orig.requests.getD pos 0) →
            some (b2, e2,
              write_bits_at_offset pool (offset_of_pos orig pos) (orig.requests.getD pos 0) nb,
              p2) = some (b, env1, pool1, p1) →
            lex_le (request_values orig pool1) (request_values orig pool) = true ∧
              pool1.bits.length = pool.bits.length ∧ pool1.limit = pool.limit ∧
              pool1.consumed = pool.consumed := by
          intro nb b2 e2 p2 hle he
          injection he with he
          injection he with _ he
          injection he with _ he
          injection he with he _
          subst he
          exact ⟨request_values_write_le orig pool pos nb hw hpos hle,
            write_bits_length _ _ _ _ s64 sb, rfl, rfl⟩
        have hsame : ∀ (b2 : Bool) (e2 : autoshrink_env) (p2 : prng_info),
            some (b2, e2, pool, p2) = some (b, env1, pool1, p1) →
            lex_le (request_values orig pool1) (request_values orig pool) = true ∧
              pool1.bits.length = pool.bits.length ∧ pool1.limit = pool.limit ∧
              pool1.consumed = pool.consumed := by
          intro b2 e2 p2 he
          injection he with he
          injection he with _ he
          injection he with _ he
          injection he with he _
          subst he
          exact ⟨lex_le_refl _, rfl, rfl, rfl⟩
        cases mtype with
        | MUT_SHIFT =>
          simp only [if_neg hnot, Option.some_bind, Nat.add_zero, hs256] at h
          cases h2 : fuzz_random_bits q1 2 with
          | none => rw [h2] at h; cases h
          | some a =>
            simp only [h2, Option.some_bind] at h
            split at h
            · exact hfin _ _ _ _ (by rw [Nat.shiftRight_eq_div_pow]; exact Nat.div_le_self _ _) h
            · exact hfin _ _ _ _ (by rw [Nat.shiftRight_eq_div_pow]; exact Nat.div_le_self _ _) h
        | MUT_MASK =>
          simp only [if_neg hnot, if_pos s64, Option.some_bind, Nat.add_zero, hs256] at h
          cases h2 : fuzz_random_bits q1 (orig.requests.getD pos 0) with
          | none => rw [h2] at h; cases h
          | some a =>
            simp only [h2, Option.some_bind] at h
            cases h3 : fuzz_random_bits a.2 (orig.requests.getD pos 0) with
            | none => rw [h3] at h; cases h
            | some a1 =>
              simp only [h3, Option.some_bind] at h
              split at h
              · cases h4 : fuzz_random_bits a1.2 8 with
                | none => rw [h4] at h; cases h
                | some a2 =>
                  simp only [h4, Option.some_bind] at h
                  split at h
                  · exact hfin _ _ _ _ Nat.and_le_left h
                  · exact hfin _ _ _ _ Nat.and_le_left h
              · simp only [Option.some_bind] at h
                split at h
                · exact hfin _ _ _ _ Nat.and_le_left h
                · exact hfin _ _ _ _ Nat.and_le_left h
        | MUT_SWAP =>
          simp only [if_neg hnot, hs256] at h
          split at h
          · simp at h
          · have hsw := swap_search_le orig pos orig.request_count (pos + 1) pool hw hpos
              (Nat.lt_succ_self pos)
            have hsf := swap_search_frame orig (offset_of_pos orig pos) (orig.requests.getD pos 0)
              (read_bits_at_offset pool (offset_of_pos orig pos) (orig.requests.getD pos 0))
              orig.request_count (pos + 1) pool
            split at h
            · injection h with h
              injection h with _ h
              injection h with _ h
              injection h with h _
              subst h
              exact ⟨hsw.1, hsw.2, hsf.1, hsf.2⟩
            · injection h with h
              injection h with _ h
              injection h with _ h
              injection h with h _
              subst h
              exact ⟨hsw.1, hsw.2, hsf.1, hsf.2⟩
        | MUT_SUB =>
          simp only [if_neg hnot, if_pos s64, Option.some_bind, Nat.add_zero, hs256] at h
          cases h2 : fuzz_random_bits q1 (orig.requests.getD pos 0) with
          | none => rw [h2] at h; cases h
          | some a =>
            simp only [h2, Option.some_bind] at h
            split at h
            · next hpos2 =>
              refine hfin _ _ _ _ ?_ h
              have hlt := read_bits_lt pool (offset_of_pos orig pos) (orig.requests.getD pos 0) s64
              have h264 : 2 ^ orig.requests.getD pos 0 ≤ 2 ^ 64 :=
                Nat.pow_le_pow_right (by decide) s64
              generalize read_bits_at_offset pool (offset_of_pos orig pos)
                (orig.requests.getD pos 0) = bits at hpos2 hlt ⊢
              have hmod := Nat.mod_lt a.1 hpos2
              split
              · have e : bits - a.1 % bits + 2 ^ 64 - 1 = (bits - a.1 % bits - 1) + 2 ^ 64 := by
                  omega
                rw [e, Nat.add_mod_right, Nat.mod_eq_of_lt (by omega)]
                omega
              · omega
            · exact hsame _ _ _ h

theorem mutate_loop_le (fuel : Nat) (orig : autoshrink_bit_pool) (change_count : Nat) :
    ∀ (n i changed : Nat) (p : prng_info) (env : autoshrink_env) (pool : autoshrink_bit_pool)
      (env1 : autoshrink_env) (pool1 : autoshrink_bit_pool) (p1 : prng_info),
      windows_ok orig pool.bits.length →
      mutate_loop fuel orig change_count n i changed p env pool = some (env1, pool1, p1) →
      lex_le (request_values orig pool1) (request_values orig pool) = true ∧
        pool1.bits.length = pool.bits.length ∧ pool1.limit = pool.limit ∧
        pool1.consumed = pool.consumed := by
  intro n
  induction n with
  | zero =>
    intro i changed p env pool env1 pool1 p1 _ h
    simp only [mutate_loop] at h
    injection h with h
    injection h with _ h
    injection h with h _
    subst h
    exact ⟨lex_le_refl _, rfl, rfl, rfl⟩
  | succ n ih =>
    intro i changed p env pool env1 pool1 p1 hw h
    simp only [mutate_loop] at h
    split at h
    · split at h
      · cases h
      · next e2 pool2 p2 hs =>
        obtain ⟨a1, a2, a3, a4⟩ := choose_and_mutate_request_le _ _ _ _ _ _ _ _ _ hw hs
        split at h
        · injection h with h
          injection h with _ h
          injection h with h _
          subst h
          exact ⟨a1, a2, a3, a4⟩
        · obtain ⟨b1, b2, b3, b4⟩ := ih _ _ _ _ _ _ _ _ (by rw [a2]; exact hw) h
          exact ⟨lex_le_trans _ _ _ b1 a1, b2.trans a2, b3.trans a3, b4.trans a4⟩
      · next e2 pool2 p2 hs =>
        obtain ⟨a1, a2, a3, a4⟩ := choose_and_mutate_request_le _ _ _ _ _ _ _ _ _ hw hs
        obtain ⟨b1, b2, b3, b4⟩ := ih _ _ _ _ _ _ _ _ (by rw [a2]; exact hw) h
        exact ⟨lex_le_trans _ _ _ b1 a1, b2.trans a2, b3.trans a3, b4.trans a4⟩
    · injection h with h
      injection h with _ h
      injection h with h _
      subst h
      exact ⟨lex_le_refl _, rfl, rfl, rfl⟩

theorem bit_at_take_append (a b : List Nat) (n q : Nat) (hn : n ≤ a.length) (hq : q < 8 * n) :
    bit_at (a.take n ++ b) q = bit_at a q := by
  unfold bit_at
  have h1 : q / 8 < n := by omega
  rw [List.getD_eq_getElem?_getD, List.getD_eq_getElem?_getD,
    List.getElem?_append_left (by rw [List.length_take]; omega), List.getElem?_take_of_lt h1]

theorem mutate_bit_pool_le (fuel : Nat) (p : prng_info) (env : autoshrink_env)
    (orig pool : autoshrink_bit_pool) (env1 : autoshrink_env) (pool1 : autoshrink_bit_pool)
    (p1 : prng_info) (hlen : pool.bits.length = get_aligned_size orig.bits_filled 64 / 64 * 8)
    (hw : windows_ok orig ((orig.bits_filled + 7) / 8))
    (hbuf : orig.bits_filled ≤ 8 * orig.bits.length)
    (h : mutate_bit_pool fuel p env orig pool = some (env1, pool1, p1)) :
    lex_le (request_values orig pool1) (request_values orig orig) = true ∧
      pool1.limit ≤ pool.limit ∧ pool1.consumed = pool.consumed := by
  have hob : orig.bits_filled / 8 + (if orig.bits_filled % 8 = 0 then 0 else 1) =
      (orig.bits_filled + 7) / 8 := by
    split <;> omega
  unfold mutate_bit_pool at h
  simp only [hob, Option.bind_eq_bind] at h
  split at h
  · cases h
  · simp only [Option.pure_def, Option.bind_eq_bind, Option.some_bind] at h
    cases h2 : fuzz_random_bits p (max_changes_loop 64 5 orig.request_count) with
    | none => rw [h2] at h; cases h
    | some a =>
      simp only [h2, Option.some_bind] at h
      generalize hcc : (if (popcount a.1 + 1) % 256 > orig.request_count then
          if (orig.requests.all fun r => decide (r ≤ 64)) = true then orig.request_count % 256
          else (popcount a.1 + 1) % 256
        else (popcount a.1 + 1) % 256) = cc at h
      cases h3 : mutate_loop fuel orig cc (10 * cc) 0 0 a.2 env
          { pool with
            bits := orig.bits.take ((orig.bits_filled + 7) / 8) ++
              pool.bits.drop ((orig.bits_filled + 7) / 8)
            bits_filled := orig.bits_filled } with
      | none => rw [h3] at h; cases h
      | some r =>
        obtain ⟨e2, pool2, q2⟩ := r
        simp only [h3, Option.some_bind] at h
        injection h with h
        injection h with _ h
        injection h with h _
        subst h
        have hal : (orig.bits_filled + 7) / 8 ≤ pool.bits.length := by
          rw [hlen]
          unfold get_aligned_size
          split <;> omega
        have hol : (orig.bits_filled + 7) / 8 ≤ orig.bits.length := by omega
        have hl1 : (orig.bits.take ((orig.bits_filled + 7) / 8) ++
            pool.bits.drop ((orig.bits_filled + 7) / 8)).length = pool.bits.length := by
          rw [List.length_append, List.length_take, List.length_drop]
          omega
        have hw1 : windows_ok orig pool.bits.length :=
          ⟨hw.1, hw.2.1, hw.2.2.trans (by omega)⟩
        obtain ⟨b1, b2, b3, b4⟩ := mutate_loop_le fuel orig cc _ _ _ _ _ _ _ _ _
          (by simp only; rw [hl1]; exact hw1) h3
        simp only at b1 b2 b3 b4
        refine ⟨?_, ?_, b4⟩
        · have e0 : request_values orig
              { pool with
                bits := orig.bits.take ((orig.bits_filled + 7) / 8) ++
                  pool.bits.drop ((orig.bits_filled + 7) / 8)
                bits_filled := orig.bits_filled } = request_values orig orig := by
            apply request_values_congr
            intro i hi
            obtain ⟨s64, sb, _⟩ := windows_ok_facts orig _ i hw hi
            apply read_bits_congr _ _ _ _ s64
            intro q _ hq2
            exact bit_at_take_append _ _ _ _ hol (by omega)
          have e1 : request_values orig
              { pool2 with limit := if (orig.consumed + (orig.bits_filled + 2 ^ 64 - orig.consumed) %
                  2 ^ 64 / 2) % 2 ^ 64 < pool2.limit then (orig.consumed + (orig.bits_filled + 2 ^ 64 -
                  orig.consumed) % 2 ^ 64 / 2) % 2 ^ 64 else pool2.limit } =
              request_values orig pool2 := rfl
          rw [e1, ← e0]
          exact b1
        · simp only
          split <;> omega

theorem drop_request_bits_offsets (orig_bits : List Nat) (keep : Nat → Bool) :
    ∀ (n bi : Nat) (s : drop_state),
      (drop_request_bits orig_bits keep n bi s).src_offset = s.src_offset + n ∧
        (drop_request_bits orig_bits keep n bi s).dst_offset ≤ s.dst_offset + n := by
  intro n
  induction n with
  | zero => intro bi s; exact ⟨rfl, le_refl _⟩
  | succ n ih =>
    intro bi s
    simp only [drop_request_bits]
    obtain ⟨h1, h2⟩ := ih (bi + 1) (drop_skip_bit (if keep bi = true then drop_put_bit orig_bits s else s))
    rw [h1]
    have e1 : (drop_skip_bit (if keep bi = true then drop_put_bit orig_bits s else s)).src_offset =
        s.src_offset + 1 := by
      split <;> rfl
    have e2 : (drop_skip_bit (if keep bi = true then drop_put_bit orig_bits s else s)).dst_offset ≤
        s.dst_offset + 1 := by
      split
      · exact le_refl _
      · exact Nat.le_succ _
    constructor
    · rw [e1]; omega
    · omega

theorem drop_requests_offset (orig : autoshrink_bit_pool) (to_drop dt db : Nat) :
    ∀ (rs : List Nat) (ri : Nat) (s : drop_state) (p : prng_info) (s1 : drop_state)
      (p1 : prng_info), drop_requests orig to_drop dt db rs ri s p = some (s1, p1) →
      s1.dst_offset ≤ s.dst_offset + rs.sum := by
  intro rs
  induction rs with
  | nil =>
    intro ri s p s1 p1 h
    simp only [drop_requests] at h
    injection h with h
    injection h with h _
    subst h
    simp
  | cons r rest ih =>
    intro ri s p s1 p1 h
    simp only [drop_requests, Option.bind_eq_bind] at h
    have key : ∀ (keep : Nat → Bool) (q : prng_info),
        drop_requests orig to_drop dt db rest (ri + 1) (drop_request_bits orig.bits keep r 0 s) q =
          some (s1, p1) → s1.dst_offset ≤ s.dst_offset + (r :: rest).sum := by
      intro keep q hq
      have h1 := ih _ _ _ _ _ hq
      have h2 := (drop_request_bits_offsets orig.bits keep r 0 s).2
      simp only [List.sum_cons]
      omega
    cases hd : (if ri = to_drop then some (true, p)
        else (fuzz_random_bits p db).bind fun a => some (decide (a.1 ≤ dt), a.2)) with
    | none => rw [hd] at h; cases h
    | some d =>
      simp only [hd, Option.some_bind] at h
      split at h
      · split at h
        · cases h2 : fuzz_random_bits d.2 32 with
          | none => rw [h2] at h; cases h
          | some a =>
            simp only [h2, Option.some_bind] at h
            cases h3 : fuzz_random_bits a.2 32 with
            | none => rw [h3] at h; cases h
            | some a1 =>
              simp only [h3, Option.some_bind] at h
              exact key _ _ h
        · exact key _ _ h
      · exact key _ _ h

theorem drop_from_bit_pool_filled (p : prng_info) (env : autoshrink_env)
    (orig copy copy1 : autoshrink_bit_pool) (p1 : prng_info)
    (h : drop_from_bit_pool p env orig copy = some (copy1, p1)) :
    copy1.bits_filled ≤ orig.requests.sum ∧ copy1.limit = copy.limit ∧
      copy1.consumed = copy.consumed := by
  unfold drop_from_bit_pool at h
  simp only [Option.bind_eq_bind] at h
  cases h2 : fuzz_random_bits p 32 with
  | none => rw [h2] at h; cases h
  | some a =>
    simp only [h2, Option.some_bind] at h
    generalize (if a.1 ≠ DO_NOT_DROP ∧ orig.request_count > 0 then a.1 % orig.request_count
      else a.1) = td at h
    generalize (if env.drop_threshold ≠ 0 then env.drop_threshold else DEF_DROP_THRESHOLD) = dt at h
    generalize (if env.drop_bits ≠ 0 then env.drop_bits else DEF_DROP_BITS) = db at h
    cases hs : drop_requests orig td dt db orig.requests 0
        { src_offset := 0, dst_offset := 0, src_byte := 0, dst_byte := 0, src_bit := 0x01,
          dst_bit := 0x01, bits := copy.bits } a.2 with
    | none => rw [hs] at h; cases h
    | some r =>
      simp only [hs, Option.some_bind] at h
      injection h with h
      injection h with h _
      subst h
      have := drop_requests_offset _ _ _ _ _ _ _ _ _ _ hs
      simp only [Nat.zero_add] at this
      exact ⟨this, rfl, rfl⟩

theorem truncate_scan_le (bits : List Nat) : ∀ n, truncate_scan bits n ≤ n := by
  intro n
  induction n with
  | zero => exact le_refl _
  | succ n ih =>
    simp only [truncate_scan]
    split
    · exact le_refl _
    · exact ih.trans (Nat.le_succ n)

theorem bit_pool_random_shrinking (rng : fuzz_rng) (pool : autoshrink_bit_pool) (n : Nat)
    (sr : Bool) (buf : List Nat) (r : fuzz_rng × autoshrink_bit_pool × List Nat)
    (hs : pool.shrinking = true) (hcl : pool.consumed ≤ pool.limit)
    (h : fuzz_autoshrink_bit_pool_random rng pool n sr buf = some r) :
    r.2.1.bits = pool.bits ∧ r.2.1.limit = pool.limit ∧ r.2.1.shrinking = true ∧
      r.2.1.consumed ≤ r.2.1.limit := by
  unfold fuzz_autoshrink_bit_pool_random at h
  split at h
  · injection h with h
    subst h
    exact ⟨rfl, rfl, hs, hcl⟩
  · simp only [hs, if_true] at h
    split at h
    · injection h with h
      subst h
      exact ⟨rfl, rfl, hs, hcl⟩
    · next hne =>
      injection h with h
      subst h
      have hb : pool.consumed + (if pool.consumed + n ≥ pool.limit then
          (pool.limit + 2 ^ 64 - pool.consumed) % 2 ^ 64 % 2 ^ 32 else n) ≤ pool.limit := by
        by_cases hge : pool.consumed + n ≥ pool.limit
        · rw [if_pos hge]
          have h3 : pool.limit + 2 ^ 64 - pool.consumed =
              (pool.limit - pool.consumed) + 2 ^ 64 := by omega
          rw [h3, Nat.add_mod_right]
          have h4 : (pool.limit - pool.consumed) % 2 ^ 64 % 2 ^ 32 ≤ pool.limit - pool.consumed :=
            (Nat.mod_le _ _).trans (Nat.mod_le _ _)
          omega
        · rw [if_neg hge]
          omega
      cases sr
      · exact ⟨rfl, rfl, hs, hb⟩
      · exact ⟨rfl, rfl, hs, hb⟩

theorem gen_run_shrinking :
    ∀ (g : gen) (p : prng_info) (pool : autoshrink_bit_pool) (res : Int) (inst : instance_t)
      (p1 : prng_info), p.bit_pool = some pool → pool.shrinking = true →
      pool.consumed ≤ pool.limit → g.run p = some (res, inst, p1) →
      ∃ pool1, p1.bit_pool = some pool1 ∧ pool1.bits = pool.bits ∧ pool1.limit = pool.limit ∧
        pool1.consumed ≤ pool1.limit := by
  intro g
  induction g with
  | ret r i =>
    intro p pool res inst p1 hp _ hcl h
    simp only [gen.run] at h
    injection h with h
    injection h with _ h
    injection h with _ h
    subst h
    exact ⟨pool, hp, rfl, rfl, hcl⟩
  | bits n k ih =>
    intro p pool res inst p1 hp hs hcl h
    rw [gen.run] at h
    simp only [fuzz_random_bits, fuzz_random_bits_bulk] at h
    rw [hp] at h
    simp only at h
    cases hr : fuzz_autoshrink_bit_pool_random p.rng pool n true [0] with
    | none => rw [hr] at h; cases h
    | some r =>
      obtain ⟨a1, a2, a3, a4⟩ := bit_pool_random_shrinking _ _ _ _ _ _ hs hcl hr
      obtain ⟨rng1, pool2, buf1⟩ := r
      simp only [hr] at h
      obtain ⟨pool1, b1, b2, b3, b4⟩ := ih _ _ pool2 _ _ _ rfl a3 a4 h
      exact ⟨pool1, b1, b2.trans a1, b3.trans a2, b4⟩

theorem alloc_from_bit_pool_shrinking (p : prng_info) (ti : fuzz_type_info)
    (pool : autoshrink_bit_pool) (ares : Int) (inst : instance_t) (pool1 : autoshrink_bit_pool)
    (p1 : prng_info) (hcl : pool.consumed ≤ pool.limit)
    (h : alloc_from_bit_pool p ti pool true = some (ares, inst, pool1, p1)) :
    pool1.bits = pool.bits ∧ pool1.limit = pool.limit ∧ pool1.consumed ≤ pool1.limit := by
  unfold alloc_from_bit_pool at h
  simp only at h
  split at h
  · cases h
  · next ares1 inst1 q hq =>
    injection h with h
    injection h with _ h
    injection h with _ h
    injection h with h _
    obtain ⟨pool2, b1, b2, b3, b4⟩ := gen_run_shrinking _ _ { pool with shrinking := true } _ _ _
      rfl rfl hcl hq
    rw [b1] at h
    simp only [Option.getD_some] at h
    subst h
    exact ⟨b2, b3, b4⟩

theorem special_pool_shrink :
    fuzz_autoshrink_shrink 3 two_shifts_source uint16_t_type_info special_env 0 =
      some (FUZZ_SHRINK_OK, some ([57360], special_candidate),
        { special_env with
          model := { cur_tried := ASA_SHIFT, cur_set := ASA_SHIFT, next_action := 0,
                     weights := [TWO_EVENLY, FOUR_EVENLY, FOUR_EVENLY, FOUR_EVENLY - 0x10,
                       FOUR_EVENLY] }
          bit_pool := some (build_index special_pool) },
        { two_shifts_source with buf := 0, bits_available := 29 }) := by
  decide!

theorem uint16_t_gen_run (p : prng_info) :
    (uint16_t_gen.run p).map (fun r => (r.1, r.2.1)) =
      (uint16_t_alloc none p).map (fun r => (r.1, [r.2.1])) := by
  unfold uint16_t_gen uint16_t_alloc ALLOC_USCALAR scalar_draw
  rw [gen.run]
  cases h1 : fuzz_random_bits p BITS_USE_SPECIAL with
  | none => rfl
  | some r =>
    simp only
    by_cases h7 : (1 <<< BITS_USE_SPECIAL) - 1 = r.1
    · rw [if_pos h7, if_pos h7, gen.run]
      cases h2 : fuzz_random_bits r.2 8 with
      | none => rfl
      | some r2 => rfl
    · rw [if_neg h7, if_neg h7, gen.run]
      cases h2 : fuzz_random_bits r.2 16 with
      | none => rfl
      | some r2 => rfl

theorem shrink_tail (p2 : prng_info) (ti : fuzz_type_info) (copy2 : autoshrink_bit_pool)
    (env3 : autoshrink_env) (inst : instance_t) (cand : autoshrink_bit_pool)
    (env1 : autoshrink_env) (p1 : prng_info)
    (h : ((alloc_from_bit_pool p2 ti copy2 true).bind fun d =>
        if d.1 = FUZZ_RESULT_SKIP then some (FUZZ_SHRINK_DEAD_END, none, env3, d.2.2.2)
        else if d.1 = FUZZ_RESULT_ERROR then some (FUZZ_SHRINK_ERROR, none, env3, d.2.2.2)
        else if d.1 = FUZZ_RESULT_OK then
          some (FUZZ_SHRINK_OK, some (d.2.1, d.2.2.1), env3, d.2.2.2)
        else none) = some (FUZZ_SHRINK_OK, some (inst, cand), env1, p1)) :
    ∃ ares p3, alloc_from_bit_pool p2 ti copy2 true = some (ares, inst, cand, p3) := by
  cases ha : alloc_from_bit_pool p2 ti copy2 true with
  | none => rw [ha] at h; cases h
  | some d =>
    obtain ⟨ares, i2, c2, p3⟩ := d
    simp only [ha, Option.some_bind] at h
    split at h
    · injection h with h
      injection h with _ h
      injection h with h _
      cases h
    · split at h
      · injection h with h
        injection h with _ h
        injection h with h _
        cases h
      · split at h
        · injection h with h
          injection h with _ h
          injection h with h _
          injection h with h
          injection h with h1 h2
          subst h1 h2
          exact ⟨ares, p3, rfl⟩
        · cases h

theorem if_gt_le (a b : Nat) :
    (if a > b then b else a) ≤ a ∧ (if a > b then b else a) ≤ b := by
  split <;> omega

theorem truncate_if_facts (c : Bool) (copy1 : autoshrink_bit_pool) :
    (if c = true then truncate_trailing_zero_bytes copy1 else copy1).bits = copy1.bits ∧
      (if c = true then truncate_trailing_zero_bytes copy1 else copy1).limit ≤ copy1.limit ∧
      (if c = true then truncate_trailing_zero_bytes copy1 else copy1).consumed = copy1.consumed ∧
      (c = true → (truncate_trailing_zero_bytes copy1).limit ≤ 8 * ((copy1.bits_filled + 7) / 8)) := by
  have hbs : copy1.bits_filled / 8 + (if copy1.bits_filled % 8 = 0 then 0 else 1) =
      (copy1.bits_filled + 7) / 8 := by
    split <;> omega
  refine ⟨?_, ?_, ?_, fun _ => ?_⟩
  · split <;> rfl
  · split
    · exact (if_gt_le _ _).1
    · exact le_refl _
  · split <;> rfl
  · simp only [truncate_trailing_zero_bytes, hbs]
    have := truncate_scan_le copy1.bits ((copy1.bits_filled + 7) / 8)
    have := (if_gt_le copy1.limit (truncate_scan copy1.bits ((copy1.bits_filled + 7) / 8) * 8)).2
    omega

/-- C16 (amended): let `fuzz_autoshrink_shrink` return a candidate pool for an
original pool whose requests are at most 64 bits wide, whose index is absent or
holds the sums of the widths, whose consumed bits are filled and inside the
buffer, with `leave_trailing_zeroes` off.  Then the candidate's `consumed` does
not exceed its `limit`, which does not exceed the original's, and either its
`consumed` is at most the original's rounded up to a whole byte (this is so
after a drop), or the bits at the original's request positions, one number per
request, form a sequence that is lexicographically not greater than the
original's (this is so after a mutation). -/
theorem shrink_candidate_not_above (fuel : Nat) (p : prng_info) (ti : fuzz_type_info)
    (env : autoshrink_env) (tactic : Nat) (orig0 : autoshrink_bit_pool) (inst : instance_t)
    (cand : autoshrink_bit_pool) (env1 : autoshrink_env) (p1 : prng_info)
    (hpool : env.bit_pool = some orig0)
    (hidx : ∀ i, i < orig0.request_count →
      offset_of_pos (build_index orig0) i = (orig0.requests.take i).sum)
    (h64 : ∀ r ∈ orig0.requests, r ≤ 64)
    (hfill : orig0.consumed ≤ orig0.bits_filled) (hbuf : orig0.bits_filled ≤ 8 * orig0.bits.length)
    (hz : env.leave_trailing_zeroes = false)
    (h : fuzz_autoshrink_shrink fuel p ti env tactic =
      some (FUZZ_SHRINK_OK, some (inst, cand), env1, p1)) :
    cand.consumed ≤ cand.limit ∧ cand.limit ≤ orig0.limit ∧
      (cand.consumed ≤ 8 * ((orig0.consumed + 7) / 8) ∨
        lex_le (request_values (build_index orig0) cand)
          (request_values (build_index orig0) (build_index orig0)) = true) := by
  unfold fuzz_autoshrink_shrink at h
  rw [hpool] at h
  simp only [] at h
  generalize (if env.max_failed_shrinks ≠ 0 then env.max_failed_shrinks
    else DEF_MAX_FAILED_SHRINKS) = mfs at h
  split at h
  · injection h with h
    injection h with h _
    exact absurd h (by decide)
  · have hE : ∀ e : autoshrink_env, (init_model e).leave_trailing_zeroes = e.leave_trailing_zeroes := by
      intro e
      unfold init_model
      split <;> rfl
    generalize hE2 : (if env.model.weights.getD WEIGHT_DROP 0 = 0 then
        init_model { env with bit_pool := some (build_index orig0),
                              model := { env.model with cur_tried := 0x00, cur_set := 0x00 } }
      else { env with bit_pool := some (build_index orig0),
                      model := { env.model with cur_tried := 0x00, cur_set := 0x00 } }) = env2 at h
    have hz2 : env2.leave_trailing_zeroes = false := by
      rw [← hE2]
      split
      · rw [hE]; exact hz
      · exact hz
    generalize hcopy : ({ alloc_bit_pool (build_index orig0).bits_filled (build_index orig0).limit
        (build_index orig0).request_ceil with
        generation := (build_index orig0).generation + 1, limit := (build_index orig0).limit } :
        autoshrink_bit_pool) = copy at h
    have hbi : (build_index orig0).requests = orig0.requests ∧
        (build_index orig0).consumed = orig0.consumed ∧
        (build_index orig0).limit = orig0.limit ∧
        (build_index orig0).bits_filled = orig0.bits_filled ∧
        (build_index orig0).bits = orig0.bits := by
      unfold build_index
      split <;> exact ⟨rfl, rfl, rfl, rfl, rfl⟩
    obtain ⟨bi1, bi2, bi3, bi4, bi5⟩ := hbi
    have hc1 : copy.limit = orig0.limit := by rw [← hcopy]; exact bi3
    have hc2 : copy.consumed = 0 := by rw [← hcopy]; rfl
    have hc3 : copy.bits.length = get_aligned_size orig0.bits_filled 64 / 64 * 8 := by
      rw [← hcopy, ← bi4]
      simp only [alloc_bit_pool, List.length_replicate]
    split at h
    · cases h
    · next hsum =>
      have hsum2 : orig0.requests.sum = orig0.consumed := by
        rw [← bi1, ← bi2]; exact not_not.mp hsum
      simp only [Option.bind_eq_bind, Option.pure_def, Option.some_bind] at h
      cases hd : should_drop p env2 (build_index orig0).request_count with
      | none => rw [hd] at h; cases h
      | some d =>
        simp only [hd, Option.some_bind] at h
        by_cases hd1 : d.1 = true
        · simp only [hd1, if_true] at h
          generalize hE3 : ({ env2 with
            model := { env2.model with cur_set := env2.model.cur_set ||| ASA_DROP } } :
            autoshrink_env) = env3 at h
          have hz3 : env3.leave_trailing_zeroes = false := by rw [← hE3]; exact hz2
          cases hdr : drop_from_bit_pool d.2 env3 (build_index orig0) copy with
          | none => rw [hdr] at h; cases h
          | some r =>
            simp only [hdr, Option.some_bind, hz3, Bool.not_false, if_true] at h
            obtain ⟨ares, p3, ha⟩ := shrink_tail _ _ _ _ _ _ _ _ h
            obtain ⟨d1, d2, d3⟩ := drop_from_bit_pool_filled _ _ _ _ _ _ hdr
            obtain ⟨t1, t2, t3, t4⟩ := truncate_if_facts true r.1
            simp only [if_true] at t1 t2 t3
            obtain ⟨a1, a2, a3⟩ := alloc_from_bit_pool_shrinking _ _ _ _ _ _ _
              (by rw [t3, d3, hc2]; exact Nat.zero_le _) ha
            refine ⟨a3, ?_, Or.inl ?_⟩
            · exact (a2.le.trans t2).trans (d2.le.trans hc1.le)
            · have h5 := t4 rfl
              rw [bi1, hsum2] at d1
              have h6 : (r.1.bits_filled + 7) / 8 ≤ (orig0.consumed + 7) / 8 :=
                Nat.div_le_div_right (by omega)
              omega
        · simp only [hd1, if_false] at h
          cases hmr : mutate_bit_pool fuel d.2 env2 (build_index orig0) copy with
          | none => rw [hmr] at h; cases h
          | some r =>
            simp only [hmr, Option.some_bind] at h
            obtain ⟨ares, p3, ha⟩ := shrink_tail _ _ _ _ _ _ _ _ h
            have hw : windows_ok (build_index orig0) (((build_index orig0).bits_filled + 7) / 8) := by
              refine ⟨?_, ?_, ?_⟩
              · intro i hi
                rw [bi1]
                exact hidx i (by simpa [autoshrink_bit_pool.request_count, bi1] using hi)
              · rw [bi1]; exact h64
              · rw [bi1, bi4, hsum2]; omega
            obtain ⟨m1, m2, m3⟩ := mutate_bit_pool_le fuel _ _ _ _ _ _ _ (by rw [bi4]; exact hc3) hw
              (by rw [bi4, bi5]; exact hbuf) hmr
            obtain ⟨t1, t2, t3, _⟩ := truncate_if_facts (!r.1.leave_trailing_zeroes) r.2.1
            obtain ⟨a1, a2, a3⟩ := alloc_from_bit_pool_shrinking _ _ _ _ _ _ _
              (by rw [t3, m3, hc2]; exact Nat.zero_le _) ha
            refine ⟨a3, ?_, Or.inr ?_⟩
            · exact (a2.le.trans t2).trans (m2.trans hc1.le)
            · have e : request_values (build_index orig0) cand =
                  request_values (build_index orig0) r.2.1 := by
                apply request_values_congr
                intro i hi
                obtain ⟨s64, _, _⟩ := windows_ok_facts _ _ i hw hi
                apply read_bits_congr _ _ _ _ s64
                intro q _ _
                rw [a1, t1]
              rw [e]
              exact m1

theorem shrink_candidate_not_above_witness :
    special_candidate.consumed ≤ special_candidate.limit ∧
      special_candidate.limit ≤ special_pool.limit ∧
      (special_candidate.consumed ≤ 8 * ((special_pool.consumed + 7) / 8) ∨
        lex_le (request_values (build_index special_pool) special_candidate)
          (request_values (build_index special_pool) (build_index special_pool)) = true) :=
  shrink_candidate_not_above 3 two_shifts_source uint16_t_type_info special_env 0 special_pool
    [57360] special_candidate _ _ rfl
    (fun i hi => offset_of_pos_build_index special_pool rfl i hi) (by decide) (by decide)
    (by decide!) rfl special_pool_shrink

/-- C16 as stated fails: the candidate made of `special_pool` consumes 19 bits
where the original consumed 11, and its byte sequence is lexicographically
higher than the original's (first byte `0x83` against `0x0F`). -/
theorem shrink_candidate_increases_both :
    fuzz_autoshrink_shrink 3 two_shifts_source uint16_t_type_info special_env 0 =
      some (FUZZ_SHRINK_OK, some ([57360], special_candidate),
        { special_env with
          model := { cur_tried := ASA_SHIFT, cur_set := ASA_SHIFT, next_action := 0,
                     weights := [TWO_EVENLY, FOUR_EVENLY, FOUR_EVENLY, FOUR_EVENLY - 0x10,
                       FOUR_EVENLY] }
          bit_pool := some (build_index special_pool) },
        { two_shifts_source with buf := 0, bits_available := 29 }) ∧
      special_pool.consumed < special_candidate.consumed ∧
      lex_le special_candidate.bits special_pool.bits = false ∧
      lex_le special_pool.bits special_candidate.bits = true :=
  ⟨special_pool_shrink, by decide, by decide, by decide⟩

/-! ## UTF-8 decoding -/

theorem utf8_codepoint_decode_size (str : List Nat) :
    1 ≤ (utf8_codepoint_decode str).2 ∧ (utf8_codepoint_decode str).2 ≤ 4 := by
  unfold utf8_codepoint_decode
  simp only
  repeat' split
  all_goals (refine ⟨?_, ?_⟩ <;> simp)

theorem zero_fill_length (n : Nat) (o : List Nat) :
    ((List.range n).foldl (fun o k => o.set k 0) o).length = o.length := by
  induction n with
  | zero => rfl
  | succ n ih => rw [List.range_succ, List.foldl_append]; simp [ih]

theorem zero_fill_get (n : Nat) (o : List Nat) (k : Nat) (hk : k < n) (hn : n ≤ o.length) :
    ((List.range n).foldl (fun o k => o.set k 0) o)[k]? = some 0 := by
  induction n with
  | zero => omega
  | succ n ih =>
    rw [List.range_succ, List.foldl_append]
    simp only [List.foldl_cons, List.foldl_nil]
    rw [List.getElem?_set]
    by_cases hkn : n = k
    · subst hkn
      rw [if_pos rfl, if_pos (by rw [zero_fill_length]; omega)]
    · rw [if_neg hkn]
      exact ih (by omega) (by omega)

theorem utf8_decode_loop_spec (str : List Nat) (out_len : Nat) :
    ∀ (fuel i j : Nat) (out : List Nat), str.length ≤ fuel + i → j ≤ out_len →
      ∃ tr i1 j1 o1, utf8_decode_loop str out_len fuel i j out = some (tr, i1, j1, o1) ∧
        (tr = true → i1 < str.length ∧ j1 < out_len ∧
          i1 + encoded_size_at (str.getD i1 0) > str.length) ∧
        (tr = false → ¬ (i1 < str.length ∧ j1 < out_len)) ∧
        j1 ≤ out_len ∧ o1.length = out.length := by
  intro fuel
  induction fuel with
  | zero =>
    intro i j out hf hj
    unfold utf8_decode_loop
    rw [if_neg (by omega)]
    exact ⟨false, i, j, out, rfl, by simp, fun _ => by omega, hj, rfl⟩
  | succ fuel ih =>
    intro i j out hf hj
    unfold utf8_decode_loop
    by_cases hc : i < str.length ∧ j < out_len
    · rw [if_pos hc]
      simp only
      by_cases ht : i + encoded_size_at (str.getD i 0) > str.length
      · rw [if_pos ht]
        exact ⟨true, i, j, out, rfl, fun _ => ⟨hc.1, hc.2, ht⟩, by simp, hj, rfl⟩
      · rw [if_neg ht]
        have hp := (utf8_codepoint_decode_size (str.drop i)).1
        obtain ⟨tr, i1, j1, o1, h1, h2, h3, h4, h5⟩ :=
          ih (i + (utf8_codepoint_decode (str.drop i)).2) (j + 1)
            (out.set j (utf8_codepoint_decode (str.drop i)).1) (by omega) (by omega)
        exact ⟨tr, i1, j1, o1, h1, h2, h3, h4, by rw [h5, List.length_set]⟩
    · rw [if_neg hc]
      exact ⟨false, i, j, out, rfl, by simp, fun _ => hc, hj, rfl⟩

/-- C29: `utf8_decode` with room for at least one code point returns 0,
`ENCODING_INVALID_ARGUMENT` or `ENCODING_BUFFER_TOO_SMALL`.
Whenever the value is negative, all `out_len` elements of `out` are 0.  It is
`ENCODING_INVALID_ARGUMENT` exactly when the loop was left because the sequence
at the current position `i` extends past the end of the input, and
`ENCODING_BUFFER_TOO_SMALL` exactly when the loop was left with input remaining
and all `out_len` elements used. -/
theorem utf8_decode_no_partial_result (str out : List Nat) (out_len : Nat)
    (ho : 0 < out_len) (hlen : out_len ≤ out.length) :
    ∃ tr i j o1 r o2, utf8_decode_loop str out_len str.length 0 0 out = some (tr, i, j, o1) ∧
      utf8_decode str out_len out = some (r, o2) ∧
      (r = 0 ∨ r = ENCODING_INVALID_ARGUMENT ∨ r = ENCODING_BUFFER_TOO_SMALL) ∧
      (r < 0 → ∀ k, k < out_len → o2[k]? = some 0) ∧
      (r = ENCODING_INVALID_ARGUMENT ↔
        (i < str.length ∧ j < out_len ∧ i + encoded_size_at (str.getD i 0) > str.length)) ∧
      (r = ENCODING_BUFFER_TOO_SMALL ↔ (i < str.length ∧ j = out_len)) ∧
      (r = 0 ↔ str.length ≤ i) := by
  obtain ⟨tr, i, j, o1, h1, h2, h3, h4, h5⟩ :=
    utf8_decode_loop_spec str out_len str.length 0 0 out (by omega) (by omega)
  unfold utf8_decode
  by_cases hl : str.length = 0
  · rw [if_pos hl]
    refine ⟨tr, i, j, o1, 0, out, h1, rfl, Or.inl rfl, fun h => absurd h (by decide), ?_, ?_, ?_⟩
    · exact ⟨fun h => absurd h (by decide), fun h => by omega⟩
    · exact ⟨fun h => absurd h (by decide), fun h => by omega⟩
    · exact ⟨fun _ => by omega, fun _ => rfl⟩
  rw [if_neg hl, if_neg (by omega), h1]
  simp only
  by_cases hi : i < str.length
  · rw [if_pos hi]
    cases tr with
    | true =>
      obtain ⟨_, t2, t3⟩ := h2 rfl
      refine ⟨true, i, j, o1, ENCODING_INVALID_ARGUMENT, _, rfl, rfl, Or.inr (Or.inl rfl), ?_,
        ?_, ?_, ?_⟩
      · intro _ k hk
        exact zero_fill_get out_len o1 k hk (by omega)
      · exact ⟨fun _ => ⟨hi, t2, t3⟩, fun _ => rfl⟩
      · exact ⟨fun h => absurd h (by decide), fun h => by omega⟩
      · exact ⟨fun h => absurd h (by decide), fun h => by omega⟩
    | false =>
      have hn := h3 rfl
      refine ⟨false, i, j, o1, ENCODING_BUFFER_TOO_SMALL, _, rfl, rfl, Or.inr (Or.inr rfl), ?_,
        ?_, ?_, ?_⟩
      · intro _ k hk
        exact zero_fill_get out_len o1 k hk (by omega)
      · exact ⟨fun h => absurd h (by decide), fun h => absurd ⟨h.1, h.2.1⟩ hn⟩
      · exact ⟨fun _ => ⟨hi, by omega⟩, fun _ => rfl⟩
      · exact ⟨fun h => absurd h (by decide), fun h => by omega⟩
  · rw [if_neg hi]
    refine ⟨tr, i, j, o1, 0, o1, rfl, rfl, Or.inl rfl, fun h => absurd h (by decide), ?_, ?_, ?_⟩
    · exact ⟨fun h => absurd h (by decide), fun h => absurd h.1 hi⟩
    · exact ⟨fun h => absurd h (by decide), fun h => absurd h.1 hi⟩
    · exact ⟨fun _ => by omega, fun _ => rfl⟩

theorem utf8_decode_no_partial_result_witness :
    0 < 2 ∧ 2 ≤ [7, 7].length ∧
    ∃ tr i j o1 r o2, utf8_decode_loop [0x41, 0xc2] 2 [0x41, 0xc2].length 0 0 [7, 7] =
        some (tr, i, j, o1) ∧
      utf8_decode [0x41, 0xc2] 2 [7, 7] = some (r, o2) ∧
      (r = 0 ∨ r = ENCODING_INVALID_ARGUMENT ∨ r = ENCODING_BUFFER_TOO_SMALL) ∧
      (r < 0 → ∀ k, k < 2 → o2[k]? = some 0) ∧
      (r = ENCODING_INVALID_ARGUMENT ↔
        (i < [0x41, 0xc2].length ∧ j < 2 ∧
          i + encoded_size_at ([0x41, 0xc2].getD i 0) > [0x41, 0xc2].length)) ∧
      (r = ENCODING_BUFFER_TOO_SMALL ↔ (i < [0x41, 0xc2].length ∧ j = 2)) ∧
      (r = 0 ↔ [0x41, 0xc2].length ≤ i) :=
  ⟨by decide, by decide,
    utf8_decode_no_partial_result [0x41, 0xc2] [7, 7] 2 (by decide) (by decide)⟩

/-- C28: on the four bytes `F0 41 41 41` `utf8_decoded_length` reports one code
point, and no sequence of the input is truncated, but `utf8_decode` with room
for one code point leaves its loop at index 3 of 4 with the room used up,
clears `out` and returns `ENCODING_BUFFER_TOO_SMALL`: a failed decode advances
by 3 bytes where `utf8_decoded_length` advances by the table's 4. -/
theorem utf8_decode_needs_more_than_decoded_length :
    utf8_decoded_length [0xf0, 0x41, 0x41, 0x41] = some 1 ∧
    utf8_decode_loop [0xf0, 0x41, 0x41, 0x41] 1 4 0 0 [7] =
      some (false, 3, 1, [ENCODING_CODEPOINT_ERROR]) ∧
    utf8_decode [0xf0, 0x41, 0x41, 0x41] 1 [7] = some (ENCODING_BUFFER_TOO_SMALL, [0]) ∧
    utf8_decode [0xf0, 0x41, 0x41, 0x41] 2 [7, 7] = some (0, [ENCODING_CODEPOINT_ERROR, 0x41]) := by
  decide

/-- The width table as ranges of the lead byte. -/
theorem encoded_size_at_spec : ∀ b, b < 256 → encoded_size_at b =
    (if b < 194 then 1 else if b < 224 then 2 else if b < 240 then 3 else if b < 245 then 4
      else 1) := by
  decide!

/-- A byte that is not a continuation byte lies outside `80..BF`. -/
theorem not_continuation_range (b : Nat) (h : is_continuation b = false) :
    ¬ (0x80 ≤ b ∧ b ≤ 0xbf) := by
  intro hh
  unfold is_continuation at h
  simp [hh.1, hh.2] at h

/-- The second-byte test of a three-byte sequence fails on a byte that is not a
continuation byte. -/
theorem ranges_false (b : Nat) (h : is_continuation b = false) :
    (decide (b ≥ 0xa0) && decide (b ≤ 0xbf) || decide (b ≥ 0x80) && decide (b ≤ 0x9f)) =
      false := by
  have := not_continuation_range b h
  simp only [Bool.or_eq_false_iff, Bool.and_eq_false_iff, decide_eq_false_iff_not]
  omega

/-- The second-byte test of a four-byte sequence fails on a byte that is not a
continuation byte. -/
theorem byte2checks_false (b : Nat) (h : is_continuation b = false) :
    (is_continuation b || decide (b ≥ 0x90) && decide (b ≤ 0xbf) ||
      decide (b ≥ 0x80) && decide (b ≤ 0x8f)) = false := by
  have := not_continuation_range b h
  rw [h]
  simp only [Bool.false_or, Bool.or_eq_false_iff, Bool.and_eq_false_iff, decide_eq_false_iff_not]
  omega

/-- What `utf8_codepoint_decode` does reject: an empty input, a lead byte in
`80..C1` or `F5..FF`, an input shorter than the width of its lead byte, and a
sequence with a byte after the first that is not a continuation byte. -/
theorem utf8_codepoint_decode_rejects (str : List Nat) (hb : str.getD 0 0 < 256)
    (h : str = [] ∨ (0x80 ≤ str.getD 0 0 ∧ str.getD 0 0 ≤ 0xc1) ∨ 0xf5 ≤ str.getD 0 0 ∨
      str.length < encoded_size_at (str.getD 0 0) ∨
      ∃ k, 1 ≤ k ∧ k < encoded_size_at (str.getD 0 0) ∧ is_continuation (str.getD k 0) = false) :
    utf8_codepoint_decode str = (ENCODING_CODEPOINT_ERROR, 3) := by
  unfold utf8_codepoint_decode
  by_cases h0 : str.length = 0
  · rw [if_pos h0]
  rw [if_neg h0]
  show (if str.length < encoded_size_at (str.getD 0 0) then (ENCODING_CODEPOINT_ERROR, 3)
    else _) = _
  by_cases ht : str.length < encoded_size_at (str.getD 0 0)
  · rw [if_pos ht]
  rw [if_neg ht]
  have hsz := encoded_size_at_spec (str.getD 0 0) hb
  have hcases : encoded_size_at (str.getD 0 0) = 1 ∨ encoded_size_at (str.getD 0 0) = 2 ∨
      encoded_size_at (str.getD 0 0) = 3 ∨ encoded_size_at (str.getD 0 0) = 4 := by
    rw [hsz]
    split
    · exact Or.inl rfl
    · split
      · exact Or.inr (Or.inl rfl)
      · split
        · exact Or.inr (Or.inr (Or.inl rfl))
        · split
          · exact Or.inr (Or.inr (Or.inr rfl))
          · exact Or.inl rfl
  have hone : encoded_size_at (str.getD 0 0) = 1 → str.getD 0 0 ≥ 0x7f →
      (if encoded_size_at (str.getD 0 0) = 2 then
        (if (!is_continuation (str.getD 1 0)) = true then (ENCODING_CODEPOINT_ERROR, 3)
          else (((0x1f &&& str.getD 0 0) <<< 6) ||| (0x3f &&& str.getD 1 0), 2))
      else if encoded_size_at (str.getD 0 0) = 3 then
        (if (!is_continuation (str.getD 2 0) ||
            !(decide (str.getD 1 0 ≥ 0xa0) && decide (str.getD 1 0 ≤ 0xbf) ||
              decide (str.getD 1 0 ≥ 0x80) && decide (str.getD 1 0 ≤ 0x9f))) = true then
          (ENCODING_CODEPOINT_ERROR, 3)
        else
          (((0x0f &&& str.getD 0 0) <<< 12) ||| ((0x3f &&& str.getD 1 0) <<< 6) |||
            (0x3f &&& str.getD 2 0), 3))
      else if encoded_size_at (str.getD 0 0) = 4 then
        (if (!is_continuation (str.getD 2 0) || !is_continuation (str.getD 3 0) ||
            !(is_continuation (str.getD 1 0) ||
              decide (str.getD 1 0 ≥ 0x90) && decide (str.getD 1 0 ≤ 0xbf) ||
              decide (str.getD 1 0 ≥ 0x80) && decide (str.getD 1 0 ≤ 0x8f))) = true then
          (ENCODING_CODEPOINT_ERROR, 3)
        else
          (((0x07 &&& str.getD 0 0) <<< 18) ||| ((0x3f &&& str.getD 1 0) <<< 12) |||
            ((0x3f &&& str.getD 2 0) <<< 6) ||| (0x3f &&& str.getD 3 0), 4))
      else if str.getD 0 0 ≥ 0x7f then (ENCODING_CODEPOINT_ERROR, 3)
      else (str.getD 0 0, 1)) = (ENCODING_CODEPOINT_ERROR, 3) := by
    intro e hge
    rw [e, if_neg (by decide), if_neg (by decide), if_neg (by decide), if_pos hge]
  rcases h with h | h | h | h | ⟨k, hk1, hk2, hk3⟩
  · rw [h] at h0
    exact absurd rfl h0
  · refine hone ?_ (by omega)
    rw [hsz, if_pos (by omega)]
  · refine hone ?_ (by omega)
    rw [hsz, if_neg (by omega), if_neg (by omega), if_neg (by omega), if_neg (by omega)]
  · exact absurd h ht
  · rcases hcases with e | e | e | e
    · omega
    · rw [e] at hk2
      have : k = 1 := by omega
      subst this
      rw [e, if_pos rfl, hk3]
      rfl
    · rw [e] at hk2
      rw [e, if_neg (by decide), if_pos rfl]
      dsimp only
      have hk : k = 1 ∨ k = 2 := by omega
      rcases hk with hk | hk
      · subst hk
        rw [ranges_false _ hk3, Bool.not_false, Bool.or_true, if_pos rfl]
      · subst hk
        rw [hk3, Bool.not_false, Bool.true_or, if_pos rfl]
    · rw [e] at hk2
      rw [e, if_neg (by decide), if_neg (by decide), if_pos rfl]
      dsimp only
      have hk : k = 1 ∨ k = 2 ∨ k = 3 := by omega
      rcases hk with hk | hk | hk
      · subst hk
        rw [byte2checks_false _ hk3, Bool.not_false, Bool.or_true, if_pos rfl]
      · subst hk
        rw [hk3, Bool.not_false, Bool.true_or, Bool.true_or, if_pos rfl]
      · subst hk
        rw [hk3, Bool.not_false, Bool.or_true, Bool.true_or, if_pos rfl]

/-- C30: `utf8_codepoint_decode` returns the surrogate U+D800 with width 3 for
the bytes `ED A0 80`, the value 0 for the overlong form `E0 80 80` and the
value 0x110000 for `F4 90 80 80`, although no prefix of these inputs is a
well-formed sequence of Table 3-7 and `utf8_valid` rejects all three. -/
theorem utf8_codepoint_decode_accepts_ill_formed :
    utf8_codepoint_decode [0xed, 0xa0, 0x80] = (0xd800, 3) ∧
    utf8_codepoint_decode [0xe0, 0x80, 0x80] = (0, 3) ∧
    utf8_codepoint_decode [0xf4, 0x90, 0x80, 0x80] = (0x110000, 4) ∧
    0xd800 ≠ ENCODING_CODEPOINT_ERROR ∧ 0 ≠ ENCODING_CODEPOINT_ERROR ∧
    0x110000 ≠ ENCODING_CODEPOINT_ERROR ∧
    (∀ n, table_3_7 ([0xed, 0xa0, 0x80].take n) = false) ∧
    (∀ n, table_3_7 ([0xe0, 0x80, 0x80].take n) = false) ∧
    (∀ n, table_3_7 ([0xf4, 0x90, 0x80, 0x80].take n) = false) ∧
    utf8_valid 3 (some [0xed, 0xa0, 0x80]) = some false ∧
    utf8_valid 3 (some [0xe0, 0x80, 0x80]) = some false ∧
    utf8_valid 4 (some [0xf4, 0x90, 0x80, 0x80]) = some false := by
  refine ⟨by decide, by decide, by decide, by decide, by decide, by decide, ?_, ?_, ?_,
    by decide, by decide, by decide⟩
  · intro n
    match n with
    | 0 => rfl
    | 1 => rfl
    | 2 => rfl
    | n + 3 => simp [table_3_7]
  · intro n
    match n with
    | 0 => rfl
    | 1 => rfl
    | 2 => rfl
    | n + 3 => simp [table_3_7]
  · intro n
    match n with
    | 0 => rfl
    | 1 => rfl
    | 2 => rfl
    | 3 => rfl
    | n + 4 => simp [table_3_7]

/-! ## UTF-8 encoding -/

theorem encoded_sizes_le (str : List Nat) :
    (str.map (fun cp => if utf8_codepoint_size cp = 0 then 3 else utf8_codepoint_size cp)).sum ≤
      4 * str.length := by
  induction str with
  | nil => simp
  | cons cp rest ih =>
    simp only [List.map_cons, List.sum_cons, List.length_cons]
    have : (if utf8_codepoint_size cp = 0 then 3 else utf8_codepoint_size cp) ≤ 4 := by
      unfold utf8_codepoint_size
      repeat' split
      all_goals omega
    omega

theorem encoded_sizes_pos (str : List Nat) :
    str.length ≤
      (str.map (fun cp => if utf8_codepoint_size cp = 0 then 3 else utf8_codepoint_size cp)).sum := by
  induction str with
  | nil => simp
  | cons cp rest ih =>
    simp only [List.map_cons, List.sum_cons, List.length_cons]
    have : 1 ≤ (if utf8_codepoint_size cp = 0 then 3 else utf8_codepoint_size cp) := by
      split <;> omega
    omega

theorem utf8_encoded_length_loop_sum (str : List Nat) :
    ∀ result, result < 2 ^ 64 → utf8_encoded_length_loop str result =
      (result + (str.map (fun cp =>
        if utf8_codepoint_size cp = 0 then 3 else utf8_codepoint_size cp)).sum) % 2 ^ 64 := by
  induction str with
  | nil =>
    intro result hr
    simp only [utf8_encoded_length_loop, List.map_nil, List.sum_nil, Nat.add_zero]
    exact (Nat.mod_eq_of_lt hr).symm
  | cons cp rest ih =>
    intro result hr
    simp only [utf8_encoded_length_loop, List.map_cons, List.sum_cons]
    rw [ih _ (Nat.mod_lt _ (by decide))]
    rw [Nat.add_mod, Nat.mod_mod, ← Nat.add_mod, Nat.add_assoc]

theorem utf8_codepoint_encode_ret (cp n : Nat) (bytes : List Nat) (off : Nat) :
    (utf8_codepoint_encode cp n bytes off).1 =
      if n < (if utf8_codepoint_size cp = 0 then 3 else utf8_codepoint_size cp) then
        ENCODING_BUFFER_TOO_SMALL
      else ((if utf8_codepoint_size cp = 0 then 3 else utf8_codepoint_size cp : Nat) : Int) := by
  unfold utf8_codepoint_encode
  have hs : utf8_codepoint_size cp = 0 ∨ utf8_codepoint_size cp = 1 ∨ utf8_codepoint_size cp = 2 ∨
      utf8_codepoint_size cp = 3 ∨ utf8_codepoint_size cp = 4 := by
    unfold utf8_codepoint_size
    repeat' split
    all_goals simp
  simp only
  rcases hs with h | h | h | h | h <;> rw [h] <;> norm_num [to_int, to_signed] <;>
    split <;> rfl

theorem utf8_encode_loop_spec (out_len : Nat) (ho : out_len < 2 ^ 64) :
    ∀ (str : List Nat) (j : Nat) (out : List Nat) (rets : List Int),
      j + (str.map (fun cp =>
        if utf8_codepoint_size cp = 0 then 3 else utf8_codepoint_size cp)).sum ≤ out_len →
      (utf8_encode_loop out_len str j out rets).1 = j + (str.map (fun cp =>
        if utf8_codepoint_size cp = 0 then 3 else utf8_codepoint_size cp)).sum ∧
      (utf8_encode_loop out_len str j out rets).2.2 = rets ++ str.map (fun cp =>
        ((if utf8_codepoint_size cp = 0 then 3 else utf8_codepoint_size cp : Nat) : Int)) := by
  intro str
  induction str with
  | nil =>
    intro j out rets _
    simp [utf8_encode_loop]
  | cons cp rest ih =>
    intro j out rets hj
    simp only [List.map_cons, List.sum_cons] at hj ⊢
    unfold utf8_encode_loop
    simp only
    have hrem : (out_len + 2 ^ 64 - j) % 2 ^ 64 = out_len - j := by omega
    have h4 : (if utf8_codepoint_size cp = 0 then 3 else utf8_codepoint_size cp) ≤ 4 := by
      unfold utf8_codepoint_size
      repeat' split
      all_goals omega
    rw [utf8_codepoint_encode_ret, hrem, if_neg (by omega)]
    generalize (utf8_codepoint_encode cp (out_len - j) out j).2 = out1
    generalize hsz : (if utf8_codepoint_size cp = 0 then 3 else utf8_codepoint_size cp) = sz
      at hj h4 ⊢
    have hcast : ((sz : Int) % (2 ^ 64 : Int)).toNat = sz := by omega
    rw [hcast]
    have hmod : (j + sz) % 2 ^ 64 = j + sz := by omega
    rw [hmod]
    obtain ⟨e1, e2⟩ := ih (j + sz) out1 (rets ++ [(sz : Int)]) (by omega)
    rw [e1, e2]
    refine ⟨by omega, ?_⟩
    simp

/-- What `utf8_encode` returns on a non-empty input that fits in the address
space: the `int` conversion of the encoded length when the output has room. -/
theorem utf8_encode_ret (str out : List Nat) (out_len : Nat) (hs : str ≠ [])
    (ho : out_len < 2 ^ 64) (hl : str.length < 2 ^ 62) :
    utf8_encoded_length str = (str.map (fun cp =>
        if utf8_codepoint_size cp = 0 then 3 else utf8_codepoint_size cp)).sum ∧
      (utf8_encode str out_len out).1 =
        (if utf8_encoded_length str > out_len then ENCODING_BUFFER_TOO_SMALL
          else to_int (utf8_encoded_length str)) ∧
      (utf8_encoded_length str ≤ out_len →
        (utf8_encode_loop out_len str 0 out []).1 = utf8_encoded_length str ∧
        (utf8_encode_loop out_len str 0 out []).2.2 = str.map (fun cp =>
          ((if utf8_codepoint_size cp = 0 then 3 else utf8_codepoint_size cp : Nat) : Int))) := by
  have hne : str.length ≠ 0 := fun h => hs (List.length_eq_zero.mp h)
  have hle := encoded_sizes_le str
  have hL : utf8_encoded_length str = (str.map (fun cp =>
      if utf8_codepoint_size cp = 0 then 3 else utf8_codepoint_size cp)).sum := by
    unfold utf8_encoded_length
    rw [if_neg hne, utf8_encoded_length_loop_sum str 0 (by decide), Nat.zero_add]
    exact Nat.mod_eq_of_lt (by omega)
  refine ⟨hL, ?_, ?_⟩
  · unfold utf8_encode
    rw [if_neg hne]
    simp only
    by_cases hg : utf8_encoded_length str > out_len
    · rw [if_pos hg, if_pos hg]
    · rw [if_neg hg, if_neg hg]
      simp only
      rw [(utf8_encode_loop_spec out_len ho str 0 out [] (by omega)).1, Nat.zero_add, hL]
  · intro hfit
    obtain ⟨e1, e2⟩ := utf8_encode_loop_spec out_len ho str 0 out [] (by omega)
    rw [e1, e2, hL]
    simp

theorem to_int_small (x : Nat) (hx : x ≤ 2147483647) : to_int x = (x : Int) := by
  unfold to_int to_signed
  have h1 : x % 2 ^ 32 = x := Nat.mod_eq_of_lt (by omega)
  rw [if_neg (by omega)]
  omega

/-- C27 (amended): for a non-empty code point sequence whose encoded length is at
most `INT_MAX` (the array fits in the address space, `out_len` is a `size_t`),
`utf8_encode` returns `ENCODING_BUFFER_TOO_SMALL` iff the encoded length
exceeds `out_len`; otherwise it returns the encoded length, which is the number
of bytes written, and every inner `utf8_codepoint_encode` call returns a
positive byte count. -/
theorem utf8_encode_returns_encoded_length (str out : List Nat) (out_len : Nat) (hs : str ≠ [])
    (ho : out_len < 2 ^ 64) (hl : str.length < 2 ^ 62)
    (hmax : utf8_encoded_length str ≤ 2147483647) :
    ((utf8_encode str out_len out).1 = ENCODING_BUFFER_TOO_SMALL ↔
        utf8_encoded_length str > out_len) ∧
      (utf8_encoded_length str ≤ out_len →
        (utf8_encode str out_len out).1 = (utf8_encoded_length str : Int) ∧
        (utf8_encode_loop out_len str 0 out []).1 = utf8_encoded_length str ∧
        (utf8_encode_loop out_len str 0 out []).2.2.length = str.length ∧
        (utf8_encode_loop out_len str 0 out []).2.2.sum = (utf8_encoded_length str : Int) ∧
        ∀ r ∈ (utf8_encode_loop out_len str 0 out []).2.2, 0 < r) := by
  obtain ⟨hL, hr, hloop⟩ := utf8_encode_ret str out out_len hs ho hl
  constructor
  · rw [hr]
    by_cases hg : utf8_encoded_length str > out_len
    · rw [if_pos hg]
      exact ⟨fun _ => hg, fun _ => rfl⟩
    · rw [if_neg hg, to_int_small _ hmax]
      constructor
      · intro h
        unfold ENCODING_BUFFER_TOO_SMALL at h
        omega
      · intro h
        exact absurd h hg
  · intro hfit
    obtain ⟨e1, e2⟩ := hloop hfit
    rw [hr, if_neg (by omega), to_int_small _ hmax, e1, e2]
    refine ⟨rfl, rfl, by simp, ?_, ?_⟩
    · rw [hL]
      clear hL hr hloop hfit hmax hl hs e1 e2
      induction str with
      | nil => simp
      | cons cp rest ih => simp only [List.map_cons, List.sum_cons, ih]; push_cast; rfl
    · intro r hr2
      rw [List.mem_map] at hr2
      obtain ⟨cp, _, rfl⟩ := hr2
      split <;> omega

theorem encoded_sizes_replicate (n : Nat) :
    ((List.replicate n 0x41).map (fun cp =>
      if utf8_codepoint_size cp = 0 then 3 else utf8_codepoint_size cp)).sum = n := by
  induction n with
  | zero => rfl
  | succ n ih =>
    rw [List.replicate_succ, List.map_cons, List.sum_cons, ih]
    have : utf8_codepoint_size 0x41 = 1 := by decide
    rw [this]
    simp only [one_ne_zero, if_false]
    omega

theorem utf8_encode_replicate (n : Nat) (out : List Nat) (hn : 0 < n) (h62 : n < 2 ^ 62) :
    utf8_encoded_length (List.replicate n 0x41) = n ∧
      (utf8_encode (List.replicate n 0x41) n out).1 = to_int n := by
  have hs : List.replicate n 0x41 ≠ [] := by
    intro h
    have := congrArg List.length h
    rw [List.length_replicate] at this
    simp at this
    omega
  obtain ⟨hL, hr, _⟩ := utf8_encode_ret (List.replicate n 0x41) out n hs (by omega)
    (by rw [List.length_replicate]; exact h62)
  rw [encoded_sizes_replicate] at hL
  rw [hr, hL, if_neg (by omega)]
  exact ⟨rfl, rfl⟩

/-- C27 (counterexample): for 2^31 copies of the code point U+0041 and
`out_len = 2^31` the encoded length is 2^31, which does not exceed `out_len`,
and `utf8_encode` returns `(int)2^31 = -2147483648`, not the encoded length. -/
theorem utf8_encode_wraps_at_two_gib :
    utf8_encoded_length (List.replicate (2 ^ 31) 0x41) = 2 ^ 31 ∧
      ¬ (utf8_encoded_length (List.replicate (2 ^ 31) 0x41) > 2 ^ 31) ∧
      (utf8_encode (List.replicate (2 ^ 31) 0x41) (2 ^ 31) (List.replicate (2 ^ 31) 0)).1 =
        -2147483648 := by
  obtain ⟨h1, h2⟩ := utf8_encode_replicate (2 ^ 31) (List.replicate (2 ^ 31) 0) (by decide)
    (by decide)
  refine ⟨h1, by rw [h1]; exact Nat.lt_irrefl _, ?_⟩
  rw [h2]
  decide

theorem utf8_encode_returns_encoded_length_witness :
    [0x41, 0xe9, 0x20ac, 0x1f600, 0x110000] ≠ [] ∧
    ((utf8_encode [0x41, 0xe9, 0x20ac, 0x1f600, 0x110000] 13 (List.replicate 13 0)).1 =
        ENCODING_BUFFER_TOO_SMALL ↔
        utf8_encoded_length [0x41, 0xe9, 0x20ac, 0x1f600, 0x110000] > 13) ∧
      (utf8_encoded_length [0x41, 0xe9, 0x20ac, 0x1f600, 0x110000] ≤ 13 →
        (utf8_encode [0x41, 0xe9, 0x20ac, 0x1f600, 0x110000] 13 (List.replicate 13 0)).1 =
          (utf8_encoded_length [0x41, 0xe9, 0x20ac, 0x1f600, 0x110000] : Int) ∧
        (utf8_encode_loop 13 [0x41, 0xe9, 0x20ac, 0x1f600, 0x110000] 0
          (List.replicate 13 0) []).1 =
          utf8_encoded_length [0x41, 0xe9, 0x20ac, 0x1f600, 0x110000] ∧
        (utf8_encode_loop 13 [0x41, 0xe9, 0x20ac, 0x1f600, 0x110000] 0
          (List.replicate 13 0) []).2.2.length = [0x41, 0xe9, 0x20ac, 0x1f600, 0x110000].length ∧
        (utf8_encode_loop 13 [0x41, 0xe9, 0x20ac, 0x1f600, 0x110000] 0
          (List.replicate 13 0) []).2.2.sum =
          (utf8_encoded_length [0x41, 0xe9, 0x20ac, 0x1f600, 0x110000] : Int) ∧
        ∀ r ∈ (utf8_encode_loop 13 [0x41, 0xe9, 0x20ac, 0x1f600, 0x110000] 0
          (List.replicate 13 0) []).2.2, 0 < r) :=
  ⟨by decide, utf8_encode_returns_encoded_length [0x41, 0xe9, 0x20ac, 0x1f600, 0x110000]
    (List.replicate 13 0) 13 (by decide) (by decide) (by decide) (by decide)⟩

/-! ## The pool hash reads only the consumed bits -/

theorem fuzz_hash_sink_reference (data : List Nat) :
    ∀ h, fuzz_hash_sink h data = fnv1a_64_from h data := by
  induction data with
  | nil => intro h; rfl
  | cons d rest ih =>
    intro h
    unfold fuzz_hash_sink at ih ⊢
    rw [List.foldl_cons, ih]
    rfl

theorem fuzz_hash_sink_append (h : Nat) (a b : List Nat) :
    fuzz_hash_sink (fuzz_hash_sink h a) b = fuzz_hash_sink h (a ++ b) := by
  unfold fuzz_hash_sink
  rw [List.foldl_append]

theorem byte_eq_of_bits (a b : Nat) (ha : a < 256) (hb : b < 256)
    (h : ∀ j, j < 8 → a.testBit j = b.testBit j) : a = b := by
  apply Nat.eq_of_testBit_eq
  intro j
  by_cases hj : j < 8
  · exact h j hj
  · have hp : 256 ≤ 2 ^ j := by
      calc 256 = 2 ^ 8 := by norm_num
        _ ≤ 2 ^ j := Nat.pow_le_pow_right (by decide) (by omega)
    rw [Nat.testBit_lt_two_pow (by omega), Nat.testBit_lt_two_pow (by omega)]

theorem take_eq_of_bits (l1 l2 : List Nat) (n : Nat) (h1 : n ≤ l1.length) (h2 : n ≤ l2.length)
    (hb1 : ∀ b ∈ l1, b < 256) (hb2 : ∀ b ∈ l2, b < 256)
    (h : ∀ k, k < 8 * n → bit_at l1 k = bit_at l2 k) : l1.take n = l2.take n := by
  apply List.ext_getElem
  · rw [List.length_take, List.length_take]; omega
  · intro i hi1 hi2
    rw [List.length_take] at hi1
    have hi : i < n := by omega
    rw [List.getElem_take, List.getElem_take]
    have g1 : l1.getD i 0 = l1[i] := by
      rw [List.getD_eq_getElem?_getD, List.getElem?_eq_getElem (by omega)]; rfl
    have g2 : l2.getD i 0 = l2[i] := by
      rw [List.getD_eq_getElem?_getD, List.getElem?_eq_getElem (by omega)]; rfl
    apply byte_eq_of_bits _ _ (hb1 _ (List.getElem_mem _)) (hb2 _ (List.getElem_mem _))
    intro j hj
    have := h (8 * i + j) (by omega)
    unfold bit_at at this
    have e1 : (8 * i + j) / 8 = i := by omega
    have e2 : (8 * i + j) % 8 = j := by omega
    rw [e1, e2, g1, g2] at this
    exact this

theorem mask_low_bits (b r : Nat) (hr : r < 8) :
    b &&& (((1 <<< r) - 1) % 256) = b % 2 ^ r := by
  have h1 : (1 <<< r) = 2 ^ r := by rw [Nat.shiftLeft_eq, Nat.one_mul]
  have h2 : 2 ^ r ≤ 2 ^ 7 := Nat.pow_le_pow_right (by decide) (by omega)
  have h3 : 0 < 2 ^ r := Nat.two_pow_pos r
  rw [h1, Nat.mod_eq_of_lt (by omega), Nat.and_pow_two_sub_one_eq_mod]

theorem low_bits_eq (a b r : Nat) (h : ∀ j, j < r → a.testBit j = b.testBit j) :
    a % 2 ^ r = b % 2 ^ r := by
  apply Nat.eq_of_testBit_eq
  intro j
  rw [Nat.testBit_mod_two_pow, Nat.testBit_mod_two_pow]
  by_cases hj : j < r
  · rw [h j hj]
  · simp [hj]

theorem fuzz_autoshrink_hash_pool (ti : fuzz_type_info) (inst : instance_t)
    (env : autoshrink_env) (pool : autoshrink_bit_pool) (hti : ti.hash = none)
    (he : env.bit_pool = some pool) :
    fuzz_autoshrink_hash ti inst env = fnv1a_64_reference (consumed_bytes pool) := by
  unfold fuzz_autoshrink_hash
  rw [hti, he]
  simp only
  unfold fnv1a_64_reference consumed_bytes fuzz_hash_finish
  simp only
  rw [← fuzz_hash_sink_reference]
  by_cases hr : pool.consumed % 8 > 0
  · rw [if_pos hr, if_pos hr, fuzz_hash_sink_append, mask_low_bits _ _ (Nat.mod_lt _ (by decide))]
    rfl
  · rw [if_neg hr, if_neg hr, List.append_nil]
    rfl

theorem consumed_bytes_eq (p1 p2 : autoshrink_bit_pool) (hc : p1.consumed = p2.consumed)
    (hl1 : p1.consumed ≤ 8 * p1.bits.length) (hl2 : p2.consumed ≤ 8 * p2.bits.length)
    (hb1 : ∀ b ∈ p1.bits, b < 256) (hb2 : ∀ b ∈ p2.bits, b < 256)
    (hagree : ∀ k, k < p1.consumed → bit_at p1.bits k = bit_at p2.bits k) :
    consumed_bytes p1 = consumed_bytes p2 := by
  unfold consumed_bytes
  rw [← hc]
  have ht : p1.bits.take (p1.consumed / 8) = p2.bits.take (p1.consumed / 8) :=
    take_eq_of_bits _ _ _ (by omega) (by omega) hb1 hb2 (fun k hk => hagree k (by omega))
  rw [ht]
  by_cases hr : p1.consumed % 8 > 0
  · rw [if_pos hr, if_pos hr]
    have hlow := low_bits_eq (p1.bits.getD (p1.consumed / 8) 0) (p2.bits.getD (p1.consumed / 8) 0)
      (p1.consumed % 8) (by
        intro j hj
        have := hagree (8 * (p1.consumed / 8) + j) (by omega)
        unfold bit_at at this
        have e1 : (8 * (p1.consumed / 8) + j) / 8 = p1.consumed / 8 := by omega
        have e2 : (8 * (p1.consumed / 8) + j) % 8 = j := by omega
        rw [e1, e2] at this
        exact this)
    rw [hlow]
  · rw [if_neg hr, if_neg hr]

/-- C26: without a user hash callback, `fuzz_autoshrink_hash` is the published
64-bit FNV-1a hash of the `consumed / 8` whole bytes followed by the low
`consumed % 8` bits of the next byte; two pools (of bytes, holding their
consumed bits) with the same `consumed` count that agree on the first
`consumed` bits have the same hash, whatever the other bits, the request logs
and the instances are. -/
theorem fuzz_autoshrink_hash_consumed_bits_only (ti : fuzz_type_info) (i1 i2 : instance_t)
    (e1 e2 : autoshrink_env) (p1 p2 : autoshrink_bit_pool) (hti : ti.hash = none)
    (h1 : e1.bit_pool = some p1) (h2 : e2.bit_pool = some p2) (hc : p1.consumed = p2.consumed)
    (hl1 : p1.consumed ≤ 8 * p1.bits.length) (hl2 : p2.consumed ≤ 8 * p2.bits.length)
    (hb1 : ∀ b ∈ p1.bits, b < 256) (hb2 : ∀ b ∈ p2.bits, b < 256)
    (hagree : ∀ k, k < p1.consumed → bit_at p1.bits k = bit_at p2.bits k) :
    fuzz_autoshrink_hash ti i1 e1 = fuzz_autoshrink_hash ti i2 e2 ∧
      fuzz_autoshrink_hash ti i1 e1 = fnv1a_64_reference (consumed_bytes p1) := by
  rw [fuzz_autoshrink_hash_pool ti i1 e1 p1 hti h1, fuzz_autoshrink_hash_pool ti i2 e2 p2 hti h2,
    consumed_bytes_eq p1 p2 hc hl1 hl2 hb1 hb2 hagree]
  exact ⟨rfl, rfl⟩

theorem fuzz_autoshrink_hash_consumed_bits_only_witness :
    hash_pool_a.bits ≠ hash_pool_b.bits ∧
    fuzz_autoshrink_hash uint16_t_type_info [1]
        { special_env with bit_pool := some hash_pool_a } =
      fuzz_autoshrink_hash uint16_t_type_info [2]
        { special_env with bit_pool := some hash_pool_b } ∧
    fuzz_autoshrink_hash uint16_t_type_info [1]
        { special_env with bit_pool := some hash_pool_a } =
      fnv1a_64_reference (consumed_bytes hash_pool_a) :=
  ⟨by decide, fuzz_autoshrink_hash_consumed_bits_only uint16_t_type_info [1] [2]
    { special_env with bit_pool := some hash_pool_a }
    { special_env with bit_pool := some hash_pool_b } hash_pool_a hash_pool_b rfl rfl rfl rfl
    (by decide) (by decide) (by decide) (by decide) (by decide)⟩

/-! ## The result byte of a forked trial -/

/-- C25: the results `FUZZ_RESULT_OK`, `FUZZ_RESULT_FAIL` and `FUZZ_RESULT_SKIP`
come back unchanged from the byte the child wrote, but for
`FUZZ_RESULT_ERROR` (-2) the child writes the byte 254 and the parent obtains
254, which is not `FUZZ_RESULT_ERROR`. -/
theorem fork_wire_loses_result_error :
    fuzz_call_child_byte FUZZ_RESULT_ERROR = 254 ∧
      parent_handle_child_call 1 (fuzz_call_child_byte FUZZ_RESULT_ERROR) = some 254 ∧
      (254 : Int) ≠ FUZZ_RESULT_ERROR ∧
      (∀ r, r ∈ [FUZZ_RESULT_OK, FUZZ_RESULT_FAIL, FUZZ_RESULT_SKIP] →
        parent_handle_child_call 1 (fuzz_call_child_byte r) = some r) := by
  decide

/-! ## Invalid configurations -/

theorem infer_arity_loop_spec {σ : Type} (cfg : fuzz_run_config σ) :
    ∀ n i, i ≤ infer_arity_loop cfg n i ∧ infer_arity_loop cfg n i ≤ i + n ∧
      ∀ j, i ≤ j → j < infer_arity_loop cfg n i → (cfg.type_info.getD j none).isSome = true := by
  intro n
  induction n with
  | zero =>
    intro i
    refine ⟨Nat.le_refl _, Nat.le_refl _, fun j h1 h2 => ?_⟩
    unfold infer_arity_loop at h2
    omega
  | succ n ih =>
    intro i
    unfold infer_arity_loop
    by_cases hn : (cfg.type_info.getD i none).isNone = true
    · rw [if_pos hn]
      exact ⟨Nat.le_refl _, by omega, fun j h1 h2 => by omega⟩
    · rw [if_neg hn]
      obtain ⟨h1, h2, h3⟩ := ih (i + 1)
      refine ⟨by omega, by omega, fun j hj1 hj2 => ?_⟩
      by_cases hji : j = i
      · subst hji
        cases hx : cfg.type_info.getD j none with
        | none => rw [hx] at hn; simp at hn
        | some _ => rfl
      · exact h3 j (by omega) hj2

theorem infer_arity_le {σ : Type} (cfg : fuzz_run_config σ) : infer_arity cfg ≤ FUZZ_MAX_ARITY := by
  have := (infer_arity_loop_spec cfg FUZZ_MAX_ARITY 0).2.1
  unfold infer_arity
  omega

theorem infer_arity_some {σ : Type} (cfg : fuzz_run_config σ) (i : Nat) (hi : i < infer_arity cfg) :
    (cfg.type_info.getD i none).isSome = true :=
  (infer_arity_loop_spec cfg FUZZ_MAX_ARITY 0).2.2 i (Nat.zero_le _) hi

theorem infer_arity_zero {σ : Type} (cfg : fuzz_run_config σ)
    (h : cfg.type_info.getD 0 none = none) : infer_arity cfg = 0 := by
  unfold infer_arity FUZZ_MAX_ARITY infer_arity_loop
  rw [h]
  rfl

/-- `check_all_args` on entries that are all set: it returns, and it returns
`false` when one of them has no `alloc` or has both autoshrink and `shrink`. -/
theorem check_all_args_from_spec (l : List (Option type_info_config))
    (hall : ∀ o ∈ l, o.isSome = true) :
    ∀ ah, check_all_args_from l ah ≠ none ∧
      ((∃ ti, some ti ∈ l ∧ (ti.alloc = none ∨
          (ti.autoshrink_config.enable = true ∧ ti.shrink.isSome = true))) →
        check_all_args_from l ah = some none) := by
  induction l with
  | nil =>
    intro ah
    refine ⟨by simp [check_all_args_from], fun h => ?_⟩
    obtain ⟨ti, hm, _⟩ := h
    simp at hm
  | cons o rest ih =>
    intro ah
    have ho := hall o (List.mem_cons_self _ _)
    cases o with
    | none => simp at ho
    | some ti =>
      have ih2 := ih (fun o ho => hall o (List.mem_cons_of_mem _ ho))
      unfold check_all_args_from
      by_cases ha : ti.alloc.isNone = true
      · rw [if_pos ha]
        exact ⟨by simp, fun _ => rfl⟩
      · rw [if_neg ha]
        by_cases hc : (ti.autoshrink_config.enable && ti.shrink.isSome) = true
        · rw [if_pos hc]
          exact ⟨by simp, fun _ => rfl⟩
        · rw [if_neg hc]
          refine ⟨(ih2 _).1, fun h => ?_⟩
          obtain ⟨ti2, hm, hbad⟩ := h
          rw [List.mem_cons] at hm
          rcases hm with hm | hm
          · injection hm with hm
            subst hm
            rcases hbad with hb | hb
            · rw [hb] at ha
              simp at ha
            · rw [hb.1, hb.2] at hc
              simp at hc
          · exact (ih2 _).2 ⟨ti2, hm, hbad⟩

theorem fuzz_run_init_config_bad_args {σ : Type} (cfg : fuzz_run_config σ)
    (hinv : cfg.type_info.getD 0 none = none ∨
      (∃ i ti, i < infer_arity cfg ∧ cfg.type_info.getD i none = some ti ∧ ti.alloc = none) ∨
      (∃ i ti, i < infer_arity cfg ∧ cfg.type_info.getD i none = some ti ∧
        ti.autoshrink_config.enable = true ∧ ti.shrink.isSome = true) ∨
      cfg.props.getD (infer_arity cfg - 1) none = none) :
    fuzz_run_init_config cfg = some none := by
  unfold fuzz_run_init_config
  simp only
  by_cases h0 : infer_arity cfg = 0
  · rw [if_pos h0]
  · rw [if_neg h0]
    have hall : ∀ o ∈ (List.range (infer_arity cfg)).map (fun i => cfg.type_info.getD i none),
        o.isSome = true := by
      intro o ho
      rw [List.mem_map] at ho
      obtain ⟨i, hi, rfl⟩ := ho
      exact infer_arity_some cfg i (List.mem_range.mp hi)
    have hspec := check_all_args_from_spec _ hall true
    have hbad : ∀ i ti, i < infer_arity cfg → cfg.type_info.getD i none = some ti →
        (ti.alloc = none ∨ (ti.autoshrink_config.enable = true ∧ ti.shrink.isSome = true)) →
        check_all_args (infer_arity cfg) cfg = some none := by
      intro i ti hi hti hb
      refine hspec.2 ⟨ti, ?_, hb⟩
      rw [List.mem_map]
      exact ⟨i, List.mem_range.mpr hi, hti⟩
    rcases hinv with h | ⟨i, ti, hi, hti, hb⟩ | ⟨i, ti, hi, hti, hb⟩ | h
    · exact absurd (infer_arity_zero cfg h) h0
    · rw [hbad i ti hi hti (Or.inl hb)]
    · rw [hbad i ti hi hti (Or.inr hb)]
    · cases hc : check_all_args (infer_arity cfg) cfg with
      | none => exact absurd hc hspec.1
      | some r =>
        cases r with
        | none => rfl
        | some ah =>
          simp only
          unfold copy_propfun_for_arity
          rw [if_pos ⟨by omega, infer_arity_le cfg⟩, h]

/-- C22 (amended): when the platform has `fork` or the configuration does not
ask for it, `fuzz_run` returns `FUZZ_RESULT_ERROR` and starts no trial for
every invalid configuration: `cfg` is `NULL`, `type_info[0]` is `NULL`, an
argument below the inferred arity has no `alloc` or has both autoshrink and a
`shrink` callback, or the property for the inferred arity is `NULL`. -/
theorem fuzz_run_rejects_invalid_config {σ : Type} (have_fork : Bool) (fuel : Nat)
    (cfg : Option (fuzz_run_config σ))
    (hfork : ∀ c, cfg = some c → c.fork_enable = true → have_fork = true)
    (hinv : cfg = none ∨ ∃ c, cfg = some c ∧
      (c.type_info.getD 0 none = none ∨
        (∃ i ti, i < infer_arity c ∧ c.type_info.getD i none = some ti ∧ ti.alloc = none) ∨
        (∃ i ti, i < infer_arity c ∧ c.type_info.getD i none = some ti ∧
          ti.autoshrink_config.enable = true ∧ ti.shrink.isSome = true) ∨
        c.props.getD (infer_arity c - 1) none = none)) :
    fuzz_run have_fork fuel cfg = some (FUZZ_RESULT_ERROR, []) := by
  rcases hinv with h | ⟨c, hc, h⟩
  · rw [h]
    rfl
  · rw [hc]
    unfold fuzz_run
    have hf : (c.fork_enable && !have_fork) = false := by
      cases he : c.fork_enable with
      | false => rfl
      | true => rw [hfork c hc he]; rfl
    simp only [hf, Bool.false_eq_true, if_false]
    rw [fuzz_run_init_config_bad_args c h]

theorem fuzz_run_rejects_invalid_config_witness :
    fuzz_run true 5 (some conflicting_shrink_config) = some (FUZZ_RESULT_ERROR, []) :=
  fuzz_run_rejects_invalid_config true 5 (some conflicting_shrink_config)
    (fun _ _ _ => rfl)
    (Or.inr ⟨conflicting_shrink_config, rfl, Or.inr (Or.inr (Or.inl
      ⟨1, { alloc := some (gen.ret FUZZ_RESULT_OK [0]), has_free := false, hash := none,
            shrink := some (fun i _ => (FUZZ_SHRINK_OK, i)),
            autoshrink_config := { enable := true, pool_size := 0, print_mode := 0,
                                   max_failed_shrinks := 0 } },
        by decide, rfl, rfl, rfl⟩))⟩)

/-- C22 (counterexample): where `FUZZ_POLYFILL_HAVE_FORK` is `false`, a
configuration with `fork.enable` set whose `type_info[0]` is `NULL` makes
`fuzz_run` return `FUZZ_RESULT_SKIP`, not `FUZZ_RESULT_ERROR`. -/
theorem fuzz_run_skips_invalid_config_without_fork :
    forked_empty_config.type_info.getD 0 none = none ∧
      infer_arity forked_empty_config = 0 ∧
      fuzz_run false 5 (some forked_empty_config) = some (FUZZ_RESULT_SKIP, []) ∧
      FUZZ_RESULT_SKIP ≠ FUZZ_RESULT_ERROR :=
  ⟨rfl, rfl, rfl, by decide⟩

/-! ## The counters of a run -/

theorem update_model_arg_counters {σ : Type} (c : fuzz_setup σ) (t : fuzz σ) (arg_id : Nat)
    (res : Int) (adj : Nat) :
    (update_model_arg c t arg_id res adj).counters = t.counters ∧
      (update_model_arg c t arg_id res adj).env = t.env := by
  unfold update_model_arg
  split
  · exact ⟨rfl, rfl⟩
  · split
    · exact ⟨rfl, rfl⟩
    · split <;> exact ⟨rfl, rfl⟩

theorem shrink_count_result_counters {σ : Type} (c : fuzz_setup σ) (arg_i : Nat) (repeated : Bool)
    (res : Int) (t : fuzz σ) :
    (shrink_count_result c arg_i repeated res t).counters = t.counters ∧
      (shrink_count_result c arg_i repeated res t).env = t.env := by
  unfold shrink_count_result
  split
  · split
    · exact update_model_arg_counters c _ arg_i res 3
    · exact ⟨rfl, rfl⟩
  · exact ⟨rfl, rfl⟩

theorem shrink_call_loop_counters {σ : Type} (c : fuzz_setup σ) (arg_i tactic : Nat) :
    ∀ (fuel : Nat) (repeated : Bool) (t : fuzz σ) (o : Option Int) (t1 : fuzz σ),
      shrink_call_loop c arg_i tactic fuel repeated t = some (o, t1) →
      t1.counters = t.counters := by
  intro fuel
  induction fuel with
  | zero => intro repeated t o t1 h; simp [shrink_call_loop] at h
  | succ n ih =>
    intro repeated t o t1 h
    unfold shrink_call_loop at h
    simp only at h
    obtain ⟨_, _, _, hr⟩ := fuzz_call_frame c t (fuzz_trial_get_args t)
    generalize fuzz_call c t (fuzz_trial_get_args t) = r at h hr
    have hc := (shrink_count_result_counters c arg_i repeated r.1 r.2).1
    generalize shrink_count_result c arg_i repeated r.1 r.2 = t2 at h hc
    have hh : (shrink_trial_post_hook c t2 arg_i (fuzz_trial_get_args t) tactic r.1).2.counters =
        t2.counters := (call_hook_frame _ _ _).2.2.2
    generalize shrink_trial_post_hook c t2 arg_i (fuzz_trial_get_args t) tactic r.1 = hk at h hh
    have key : hk.2.counters = t.counters := by rw [hh, hc, hr]
    split at h
    · rw [ih true hk.2 o t1 h, key]
    · split at h
      · injection h with h; injection h with _ h; rw [← h, key]
      · split at h
        · injection h with h; injection h with _ h; rw [← h, key]
        · injection h with h; injection h with _ h; rw [← h, key]

theorem store_arg_counters {σ : Type} (t : fuzz σ) (arg_i : Nat) (ua : Bool)
    (inst : Option instance_t) (pool : Option autoshrink_bit_pool) :
    (store_arg t arg_i ua inst pool).counters = t.counters ∧
      (store_arg t arg_i ua inst pool).env = t.env := ⟨rfl, rfl⟩

theorem fuzz_call_mark_called_counters {σ : Type} (c : fuzz_setup σ) (t t0 : fuzz σ)
    (b : fuzz_bloom) (h : fuzz_call_mark_called c t b = some t0) :
    t0.counters = t.counters ∧ t0.env = t.env := by
  unfold fuzz_call_mark_called at h
  split at h
  · simp at h
  · injection h with h; rw [← h]; exact ⟨rfl, rfl⟩

theorem shrink_try_candidate_counters {σ : Type} (c : fuzz_setup σ) (fuel arg_i tactic : Nat)
    (ua : Bool) (cur : Option instance_t) (cbp : Option autoshrink_bit_pool) (tc : fuzz σ)
    (r : Option shrink_res) (t' : fuzz σ)
    (h : shrink_try_candidate c fuel arg_i tactic ua cur cbp tc = some (r, t')) :
    t'.counters = tc.counters := by
  unfold shrink_try_candidate at h
  split at h
  · simp at h
  · next t1 hl =>
    injection h with h
    injection h with _ h
    rw [← h]
    exact shrink_call_loop_counters c arg_i tactic fuel false tc _ t1 hl
  · next res t1 hl =>
    have h1 := shrink_call_loop_counters c arg_i tactic fuel false tc _ t1 hl
    have h2 := (update_model_arg_counters c t1 arg_i res 8).1
    simp only at h
    split at h
    · injection h with h
      injection h with _ h
      rw [← h]
      exact h2.trans h1
    · split at h
      · injection h with h
        injection h with _ h
        rw [← h]
        exact h2.trans h1
      · injection h with h
        injection h with _ h
        rw [← h]
        exact h2.trans h1

theorem shrink_post_hook_counters {σ : Type} (c : fuzz_setup σ) (t : fuzz σ) (arg_index : Nat)
    (arg : Option instance_t) (tactic : Nat) (sres : Int) (post : Int × fuzz σ)
    (h : shrink_post_hook c t arg_index arg tactic sres = some post) :
    post.2.counters = t.counters := by
  unfold shrink_post_hook at h
  split at h
  · injection h with h; rw [← h]
  · split at h
    · injection h with h; rw [← h]; exact (call_hook_frame _ _ _).2.2.2
    · simp at h

/-- One tactic of the shrink engine leaves the counters of the run as they
were. -/
theorem attempt_tactic_counters {σ : Type} (c : fuzz_setup σ) (fuel arg_i tactic : Nat) (t : fuzz σ)
    (r : Option shrink_res) (t' : fuzz σ)
    (h : attempt_tactic c fuel arg_i tactic t = some (r, t')) : t'.counters = t.counters := by
  unfold attempt_tactic at h
  split at h
  · simp at h
  · next ti hti =>
    have hpre : (shrink_pre_hook c t arg_i (get_arg t arg_i).inst tactic).2.counters =
        t.counters := (call_hook_frame _ _ _).2.2.2
    simp only at h
    generalize shrink_pre_hook c t arg_i (get_arg t arg_i).inst tactic = pre at h hpre
    split at h
    · injection h with h; injection h with _ h; rw [← h]; exact hpre
    · split at h
      · injection h with h; injection h with _ h; rw [← h]; exact hpre
      · split at h
        · simp at h
        · next sres candidate candidate_bit_pool t2 hsh =>
          have h2 : t2.counters = t.counters := by
            split at hsh
            · split at hsh
              · simp at hsh
              · split at hsh
                · simp at hsh
                · injection hsh with hsh
                  injection hsh with _ hsh
                  injection hsh with _ hsh
                  injection hsh with _ hsh
                  rw [← hsh]
                  exact hpre
            · split at hsh
              · simp at hsh
              · injection hsh with hsh
                injection hsh with _ hsh
                injection hsh with _ hsh
                injection hsh with _ hsh
                rw [← hsh]
                exact hpre
          split at h
          · simp at h
          · next post hpost =>
            have h3 : post.2.counters = t.counters :=
              (shrink_post_hook_counters c _ _ _ _ _ post hpost).trans h2
            split at h
            · injection h with h; injection h with _ h; rw [← h]; exact h3
            · split at h
              · split at h
                · split at h
                  · injection h with h; injection h with _ h; rw [← h]; exact h3
                  · split at h
                    · simp at h
                    · next t6 hm =>
                      rw [shrink_try_candidate_counters c fuel arg_i tactic _ _ _ t6 r t' h,
                        (fuzz_call_mark_called_counters c _ t6 _ hm).1]
                      exact h3
                · rw [shrink_try_candidate_counters c fuel arg_i tactic _ _ _ _ r t' h]
                  exact h3
              · split at h
                · injection h with h; injection h with _ h; rw [← h]; exact h3
                · split at h
                  · injection h with h; injection h with _ h; rw [← h]; exact h3
                  · injection h with h; injection h with _ h; rw [← h]; exact h3

theorem attempt_to_shrink_arg_loop_counters {σ : Type} (c : fuzz_setup σ) (fuel arg_i : Nat) :
    ∀ (n tactic : Nat) (t : fuzz σ) (r : shrink_res) (t' : fuzz σ),
      attempt_to_shrink_arg_loop c fuel arg_i n tactic t = some (r, t') →
      t'.counters = t.counters := by
  intro n
  induction n with
  | zero => intro tactic t r t' h; simp [attempt_to_shrink_arg_loop] at h
  | succ n ih =>
    intro tactic t r t' h
    unfold attempt_to_shrink_arg_loop at h
    split at h
    · split at h
      · simp at h
      · next r1 t1 ht =>
        injection h with h
        injection h with _ h
        rw [← h]
        exact attempt_tactic_counters c fuel arg_i tactic t _ t1 ht
      · next t1 ht =>
        rw [ih _ _ _ _ h]
        exact attempt_tactic_counters c fuel arg_i tactic t _ t1 ht
    · injection h with h
      injection h with _ h
      rw [← h]

theorem fuzz_shrink_loop_counters {σ : Type} (c : fuzz_setup σ) (fuel : Nat) :
    ∀ (n arg_i : Nat) (progress : Bool) (t : fuzz σ) (b : Bool) (t' : fuzz σ),
      fuzz_shrink_loop c fuel n arg_i progress t = some (b, t') → t'.counters = t.counters := by
  intro n
  induction n with
  | zero => intro arg_i progress t b t' h; simp [fuzz_shrink_loop] at h
  | succ n ih =>
    intro arg_i progress t b t' h
    unfold fuzz_shrink_loop at h
    split at h
    · split at h
      · simp at h
      · split at h
        · split at h
          · simp at h
          · next t1 ha =>
            rw [ih _ _ _ _ _ h]
            exact attempt_to_shrink_arg_loop_counters c fuel arg_i _ _ _ _ _ ha
          · next t1 ha =>
            injection h with h
            injection h with _ h
            rw [← h]
            exact attempt_to_shrink_arg_loop_counters c fuel arg_i _ _ _ _ _ ha
          · next t1 ha =>
            rw [ih _ _ _ _ _ h]
            exact attempt_to_shrink_arg_loop_counters c fuel arg_i _ _ _ _ _ ha
          · next t1 ha =>
            injection h with h
            injection h with _ h
            rw [← h]
            exact attempt_to_shrink_arg_loop_counters c fuel arg_i _ _ _ _ _ ha
        · exact ih _ _ _ _ _ h
    · split at h
      · exact ih _ _ _ _ _ h
      · injection h with h
        injection h with _ h
        rw [← h]

/-- Shrinking leaves the counters of the run as they were. -/
theorem fuzz_shrink_counters {σ : Type} (c : fuzz_setup σ) (fuel : Nat) (t : fuzz σ) (b : Bool)
    (t' : fuzz σ) (h : fuzz_shrink c fuel t = some (b, t')) : t'.counters = t.counters := by
  unfold fuzz_shrink at h
  split at h
  · simp at h
  · exact fuzz_shrink_loop_counters c fuel _ _ _ _ _ _ h

theorem report_repeat_loop_counters {σ : Type} (c : fuzz_setup σ) (info : hook_call) :
    ∀ (fuel : Nat) (res : Int) (t : fuzz σ) (r : Int) (t' : fuzz σ),
      report_repeat_loop c info fuel res t = some (r, t') → t'.counters = t.counters := by
  intro fuel
  induction fuel with
  | zero => intro res t r t' h; simp [report_repeat_loop] at h
  | succ n ih =>
    intro res t r t' h
    unfold report_repeat_loop at h
    split at h
    · have hc := (fuzz_call_frame c t info.args).2.2.2
      simp only at h
      generalize fuzz_call c t info.args = q at h hc
      split at h
      · split at h
        · injection h with h
          injection h with _ h
          rw [← h, (call_hook_frame _ _ _).2.2.2]
          exact hc
        · rw [ih _ _ _ _ h, (call_hook_frame _ _ _).2.2.2]
          exact hc
      · split at h
        · rw [ih _ _ _ _ h]
          exact hc
        · split at h
          · injection h with h
            injection h with _ h
            rw [← h]
            exact hc
          · injection h with h
            injection h with _ h
            rw [← h]
            exact hc
    · injection h with h
      injection h with _ h
      rw [← h]

theorem report_on_failure_counters {σ : Type} (c : fuzz_setup σ) (fuel : Nat) (t : fuzz σ)
    (info : hook_call) (r : Int) (t' : fuzz σ)
    (h : report_on_failure c fuel t info = some (r, t')) : t'.counters = t.counters := by
  unfold report_on_failure at h
  simp only at h
  split at h
  · injection h with h
    injection h with _ h
    rw [← h]
    exact (call_hook_frame _ _ _).2.2.2
  · rw [report_repeat_loop_counters c info _ _ _ _ _ h, (call_hook_frame _ _ _).2.2.2,
      (call_hook_frame _ _ _).2.2.2]

/-- A trial whose property was called and that did not end in an error counted
exactly once: as a pass, a failure or a skip, according to the result of the
property. -/
theorem fuzz_trial_run_counters {σ : Type} (c : fuzz_setup σ) (fuel : Nat) (t : fuzz σ)
    (pres : Int) (t' : fuzz σ) (h : fuzz_trial_run c fuel t = some (true, pres, t')) :
    ∃ s a, (c.prop s a).1 ≠ FUZZ_RESULT_ERROR ∧
      (((c.prop s a).1 = FUZZ_RESULT_OK ∧
          t'.counters = { t.counters with pass := t.counters.pass + 1 }) ∨
        ((c.prop s a).1 = FUZZ_RESULT_FAIL ∧
          t'.counters = { t.counters with fail := t.counters.fail + 1 }) ∨
        ((c.prop s a).1 = FUZZ_RESULT_SKIP ∧
          t'.counters = { t.counters with skip := t.counters.skip + 1 })) := by
  unfold fuzz_trial_run at h
  split at h
  · simp at h
  · next hlen =>
    split at h
    · simp at h
    · next t0 h0 =>
      have hp0 : t0.counters = t.counters := by
        split at h0
        · exact (fuzz_call_mark_called_counters c t t0 _ h0).1
        · injection h0 with h0; rw [h0]
      have hcall : (fuzz_call c t0 (fuzz_trial_get_args t0)).1 =
          (c.prop t0.env (fuzz_trial_get_args t0)).1 ∨
          (fuzz_call c t0 (fuzz_trial_get_args t0)).1 = FUZZ_RESULT_ERROR := by
        unfold fuzz_call
        split
        · exact Or.inl rfl
        · exact Or.inr rfl
      obtain ⟨_, _, _, hc⟩ := fuzz_call_frame c t0 (fuzz_trial_get_args t0)
      simp only at h
      generalize fuzz_call c t0 (fuzz_trial_get_args t0) = r at h hcall hc
      have hres : r.1 ≠ FUZZ_RESULT_ERROR → r.1 = (c.prop t0.env (fuzz_trial_get_args t0)).1 :=
        fun hne => hcall.resolve_right hne
      by_cases hok : r.1 = FUZZ_RESULT_OK
      · rw [if_pos hok] at h
        injection h with h
        injection h with _ h
        injection h with _ h
        have hne : r.1 ≠ FUZZ_RESULT_ERROR := by rw [hok]; decide
        refine ⟨t0.env, fuzz_trial_get_args t0, by rw [← hres hne]; exact hne,
          Or.inl ⟨by rw [← hres hne]; exact hok, ?_⟩⟩
        rw [← h, (call_hook_frame _ _ _).2.2.2, hc, hp0]
      · rw [if_neg hok] at h
        by_cases hf : r.1 = FUZZ_RESULT_FAIL
        · rw [if_pos hf] at h
          have hne : r.1 ≠ FUZZ_RESULT_ERROR := by rw [hf]; decide
          split at h
          · simp at h
          · simp at h
          · next t2 hs =>
            have h2 : t2.counters = r.2.counters := fuzz_shrink_counters c fuel _ _ _ hs
            split at h
            · simp at h
            · next pres1 t4 hr =>
              injection h with h
              injection h with _ h
              injection h with _ h
              refine ⟨t0.env, fuzz_trial_get_args t0, by rw [← hres hne]; exact hne,
                Or.inr (Or.inl ⟨by rw [← hres hne]; exact hf, ?_⟩)⟩
              rw [← h, report_on_failure_counters c fuel _ _ _ _ hr]
              simp only [h2, hc, hp0]
        · rw [if_neg hf] at h
          by_cases hsk : r.1 = FUZZ_RESULT_SKIP
          · rw [if_pos hsk] at h
            have hne : r.1 ≠ FUZZ_RESULT_ERROR := by rw [hsk]; decide
            injection h with h
            injection h with _ h
            injection h with _ h
            refine ⟨t0.env, fuzz_trial_get_args t0, by rw [← hres hne]; exact hne,
              Or.inr (Or.inr ⟨by rw [← hres hne]; exact hsk, ?_⟩)⟩
            rw [← h, (call_hook_frame _ _ _).2.2.2, hc, hp0]
          · rw [if_neg hsk] at h
            split at h
            · simp at h
            · simp at h

theorem gen_all_args_counters {σ : Type} (c : fuzz_setup σ) (t : fuzz σ) (g : all_gen_res)
    (t3 : fuzz σ) (h : gen_all_args c t = some (g, t3)) :
    t3.counters = t.counters ∧ t3.env = t.env := by
  unfold gen_all_args at h
  split at h
  · simp at h
  · simp only at h
    split at h
    · injection h with h; injection h with _ h; rw [← h]; exact ⟨rfl, rfl⟩
    · split at h
      · split at h
        · injection h with h; injection h with _ h; rw [← h]; exact ⟨rfl, rfl⟩
        · injection h with h; injection h with _ h; rw [← h]; exact ⟨rfl, rfl⟩
      · injection h with h; injection h with _ h; rw [← h]; exact ⟨rfl, rfl⟩

/-- When the `switch (gres)` of `run_step` falls through to the end of the
step, exactly one counter has been incremented: `skip` or `dup` for arguments
that were not generated, else the one that belongs to the result of the
property. -/
theorem run_step_switch_counters {σ : Type} (c : fuzz_setup σ) (fuel : Nat) (t3 : fuzz σ)
    (gres : all_gen_res) (info : hook_call) (pres : Int) (t6 : fuzz σ)
    (h : run_step_switch c fuel t3 gres info = some (none, pres, t6)) :
    t6.counters = { t3.counters with skip := t3.counters.skip + 1 } ∨
      t6.counters = { t3.counters with dup := t3.counters.dup + 1 } ∨
      ((∃ s a, (c.prop s a).1 = FUZZ_RESULT_OK) ∧
        t6.counters = { t3.counters with pass := t3.counters.pass + 1 }) ∨
      ((∃ s a, (c.prop s a).1 = FUZZ_RESULT_FAIL) ∧
        t6.counters = { t3.counters with fail := t3.counters.fail + 1 }) := by
  unfold run_step_switch at h
  split at h
  · injection h with h
    injection h with _ h
    injection h with _ h
    left
    rw [← h, (call_hook_frame _ _ _).2.2.2]
  · injection h with h
    injection h with _ h
    injection h with _ h
    right; left
    rw [← h, (call_hook_frame _ _ _).2.2.2]
  · injection h with h
    injection h with h1 h
    cases h1
  · simp only at h
    split at h
    · injection h with h
      injection h with h1 h
      cases h1
    · split at h
      · injection h with h
        injection h with h1 h
        cases h1
      · split at h
        · simp at h
        · injection h with h
          injection h with h1 h
          cases h1
        · next pres1 t5 htr =>
          injection h with h
          injection h with _ h
          injection h with _ h
          obtain ⟨s, a, _, hk⟩ := fuzz_trial_run_counters c fuel _ pres1 t5 htr
          rw [(call_hook_frame _ _ _).2.2.2] at hk
          rw [← h]
          rcases hk with ⟨h1, h2⟩ | ⟨h1, h2⟩ | ⟨h1, h2⟩
          · exact Or.inr (Or.inr (Or.inl ⟨⟨s, a, h1⟩, h2⟩))
          · exact Or.inr (Or.inr (Or.inr ⟨⟨s, a, h1⟩, h2⟩))
          · exact Or.inl h2

theorem run_step_switch_not_ok {σ : Type} (c : fuzz_setup σ) (fuel : Nat) (t3 : fuzz σ)
    (gres : all_gen_res) (info : hook_call) (o : Option run_step_res) (pres : Int) (t6 : fuzz σ)
    (h : run_step_switch c fuel t3 gres info = some (o, pres, t6)) :
    o ≠ some run_step_res.RUN_STEP_OK := by
  unfold run_step_switch at h
  split at h
  · injection h with h
    injection h with h1 h
    subst h1
    simp
  · injection h with h
    injection h with h1 h
    subst h1
    simp
  · injection h with h
    injection h with h1 h
    subst h1
    simp
  · simp only at h
    split at h
    · injection h with h
      injection h with h1 h
      subst h1
      simp
    · split at h
      · injection h with h
        injection h with h1 h
        subst h1
        simp
      · split at h
        · simp at h
        · injection h with h
          injection h with h1 h
          subst h1
          simp
        · injection h with h
          injection h with h1 h
          subst h1
          simp

/-- A step that ends with `RUN_STEP_OK` incremented exactly one counter. -/
theorem run_step_counters {σ : Type} (c : fuzz_setup σ) (fuel : Nat) (t : fuzz σ)
    (trial seed v : Nat) (t' : fuzz σ)
    (h : run_step c fuel t trial seed = some (run_step_res.RUN_STEP_OK, v, t')) :
    t'.counters = { t.counters with skip := t.counters.skip + 1 } ∨
      t'.counters = { t.counters with dup := t.counters.dup + 1 } ∨
      ((∃ s a, (c.prop s a).1 = FUZZ_RESULT_OK) ∧
        t'.counters = { t.counters with pass := t.counters.pass + 1 }) ∨
      ((∃ s a, (c.prop s a).1 = FUZZ_RESULT_FAIL) ∧
        t'.counters = { t.counters with fail := t.counters.fail + 1 }) := by
  unfold run_step at h
  simp only at h
  split at h
  · simp at h
  · split at h
    · simp at h
    · split at h
      · simp at h
      · split at h
        · simp at h
        · next gres t3 hg =>
          have hga := (gen_all_args_counters c _ gres t3 hg).1
          dsimp only at hga
          have h3 : t3.counters = t.counters := by
            rw [hga]
            exact (call_hook_frame _ _ _).2.2.2
          split at h
          · simp at h
          · next r1 x t6 hsw =>
            have hne := run_step_switch_not_ok c fuel t3 gres _ _ _ _ hsw
            injection h with h
            injection h with h1 h
            subst h1
            exact absurd rfl hne
          · next pres t6 hsw =>
            have h6 := run_step_switch_counters c fuel t3 gres _ pres t6 hsw
            rw [h3] at h6
            split at h
            · simp at h
            · split at h
              · simp at h
              · next v1 p1 hb =>
                injection h with h
                injection h with _ h
                injection h with _ ht
                rw [← ht]
                exact h6

theorem run_step_switch_halt {σ : Type} (c : fuzz_setup σ) (fuel : Nat) (t3 : fuzz σ)
    (gres : all_gen_res) (info : hook_call) (pres : Int) (t6 : fuzz σ)
    (h : run_step_switch c fuel t3 gres info = some (some run_step_res.RUN_STEP_HALT, pres, t6)) :
    ∃ f s i, c.trial_pre = some f ∧ (f s i).1 = FUZZ_HOOK_RUN_HALT := by
  unfold run_step_switch at h
  split at h
  · injection h with h
    injection h with h1 h
    cases h1
  · injection h with h
    injection h with h1 h
    cases h1
  · injection h with h
    injection h with h1 h
    cases h1
  · simp only at h
    split at h
    · next hh =>
      cases hf : c.trial_pre with
      | none => rw [hf] at hh; simp at hh
      | some f =>
        refine ⟨f, t3.env, hook_call_of c t3, rfl, ?_⟩
        have := hh.2
        rw [hf] at this
        exact this
    · split at h
      · injection h with h
        injection h with h1 h
        cases h1
      · split at h
        · simp at h
        · injection h with h
          injection h with h1 h
          cases h1
        · injection h with h
          injection h with h1 h
          cases h1

/-- A step ends with `RUN_STEP_HALT` only when the pre-gen-args hook or the
pre-trial hook returned `FUZZ_HOOK_RUN_HALT`. -/
theorem run_step_halt {σ : Type} (c : fuzz_setup σ) (fuel : Nat) (t : fuzz σ)
    (trial seed v : Nat) (t' : fuzz σ)
    (h : run_step c fuel t trial seed = some (run_step_res.RUN_STEP_HALT, v, t')) :
    (∃ f s i, c.pre_gen_args = some f ∧ (f s i).1 = FUZZ_HOOK_RUN_HALT) ∨
      (∃ f s i, c.trial_pre = some f ∧ (f s i).1 = FUZZ_HOOK_RUN_HALT) := by
  unfold run_step at h
  simp only at h
  split at h
  · next hh =>
    left
    cases hf : c.pre_gen_args with
    | none =>
      rw [hf] at hh
      exact absurd (show FUZZ_HOOK_RUN_CONTINUE = FUZZ_HOOK_RUN_HALT from hh) (by decide)
    | some f =>
      rw [hf] at hh
      exact ⟨f, _, _, rfl, hh⟩
  · split at h
    · injection h with h
      injection h with h1 h
      cases h1
    · split at h
      · simp at h
      · split at h
        · simp at h
        · next gres t3 hg =>
          split at h
          · simp at h
          · next r1 x t6 hsw =>
            injection h with h
            injection h with h1 h
            subst h1
            exact Or.inr (run_step_switch_halt c fuel t3 gres _ _ _ hsw)
          · split at h
            · injection h with h
              injection h with h1 h
              cases h1
            · split at h
              · simp at h
              · injection h with h
                injection h with h1 h
                cases h1

theorem fuzz_run_trials_loop_counters {σ : Type} (c : fuzz_setup σ) (fuel : Nat)
    (hpg : ∀ f, c.pre_gen_args = some f → ∀ s i, (f s i).1 ≠ FUZZ_HOOK_RUN_HALT)
    (htp : ∀ f, c.trial_pre = some f → ∀ s i, (f s i).1 ≠ FUZZ_HOOK_RUN_HALT) :
    ∀ (n trial seed : Nat) (t : fuzz σ) (seeds : List Nat) (t' : fuzz σ),
      fuzz_run_trials_loop c fuel n trial seed t = some (true, seeds, t') →
      t'.counters.pass + t'.counters.fail + t'.counters.skip + t'.counters.dup =
          t.counters.pass + t.counters.fail + t.counters.skip + t.counters.dup + n ∧
        ((∀ s a, (c.prop s a).1 ≠ FUZZ_RESULT_OK) → t'.counters.pass = t.counters.pass) ∧
        ((∀ s a, (c.prop s a).1 ≠ FUZZ_RESULT_FAIL) → t'.counters.fail = t.counters.fail) := by
  intro n
  induction n with
  | zero =>
    intro trial seed t seeds t' h
    unfold fuzz_run_trials_loop at h
    injection h with h
    injection h with _ h
    injection h with _ h
    rw [← h]
    exact ⟨rfl, fun _ => rfl, fun _ => rfl⟩
  | succ n ih =>
    intro trial seed t seeds t' h
    unfold fuzz_run_trials_loop at h
    split at h
    · simp at h
    · next res s1 t1 hs =>
      simp only at h
      split at h
      · split at h
        · simp at h
        · next ok1 rest t3 hr =>
          injection h with h
          injection h with hok h
          injection h with _ h
          subst hok
          subst h
          obtain ⟨e1, e2, e3⟩ := ih _ _ _ _ _ hr
          simp only at e1 e2 e3
          have hk := run_step_counters c fuel t trial seed s1 t1 hs
          rcases hk with hk | hk | ⟨⟨s, a, hp⟩, hk⟩ | ⟨⟨s, a, hp⟩, hk⟩
          · rw [hk] at e1 e2 e3
            simp only at e1 e2 e3
            exact ⟨by omega, e2, e3⟩
          · rw [hk] at e1 e2 e3
            simp only at e1 e2 e3
            exact ⟨by omega, e2, e3⟩
          · rw [hk] at e1 e2 e3
            simp only at e1 e2 e3
            exact ⟨by omega, fun hno => absurd hp (hno s a), e3⟩
          · rw [hk] at e1 e2 e3
            simp only at e1 e2 e3
            exact ⟨by omega, e2, fun hno => absurd hp (hno s a)⟩
      · exfalso
        rcases run_step_halt c fuel t trial seed s1 t1 hs with ⟨f, s, i, hf, hh⟩ | ⟨f, s, i, hf, hh⟩
        · exact hpg f hf s i hh
        · exact htp f hf s i hh
      · injection h with h
        injection h with hok h
        cases hok

/-- C21 (amended): in a run that does not end with `FUZZ_RESULT_ERROR` and in
which neither the pre-gen-args hook nor the pre-trial hook halts, every trial
that completes increments exactly one of `pass`, `fail`, `skip`, `dup`, and at
the end their sum has grown by the configured trial count (the counters start
at zero in a new engine).  When the property always returns skip, `pass` and
`fail` keep their values, and from zero counters the run returns
`FUZZ_RESULT_SKIP`. -/
theorem run_counts_every_trial {σ : Type} (c : fuzz_setup σ) (fuel : Nat) (t : fuzz σ) (r : Int)
    (cnt : counter_info)
    (hpg : ∀ f, c.pre_gen_args = some f → ∀ s i, (f s i).1 ≠ FUZZ_HOOK_RUN_HALT)
    (htp : ∀ f, c.trial_pre = some f → ∀ s i, (f s i).1 ≠ FUZZ_HOOK_RUN_HALT)
    (hrun : (fuzz_run_trials c fuel t).map (fun x => (x.1, x.2.2.counters)) = some (r, cnt))
    (hr : r ≠ FUZZ_RESULT_ERROR) :
    cnt.pass + cnt.fail + cnt.skip + cnt.dup =
        t.counters.pass + t.counters.fail + t.counters.skip + t.counters.dup + c.trial_count ∧
      ((∀ s a, (c.prop s a).1 = FUZZ_RESULT_SKIP) →
        cnt.pass = t.counters.pass ∧ cnt.fail = t.counters.fail ∧
          (t.counters.pass = 0 → t.counters.fail = 0 → r = FUZZ_RESULT_SKIP)) ∧
      (∀ (t0 : fuzz σ) (trial seed v : Nat) (t1 : fuzz σ),
        run_step c fuel t0 trial seed = some (run_step_res.RUN_STEP_OK, v, t1) →
        t1.counters = { t0.counters with pass := t0.counters.pass + 1 } ∨
          t1.counters = { t0.counters with fail := t0.counters.fail + 1 } ∨
          t1.counters = { t0.counters with skip := t0.counters.skip + 1 } ∨
          t1.counters = { t0.counters with dup := t0.counters.dup + 1 }) := by
  have hstep : ∀ (t0 : fuzz σ) (trial seed v : Nat) (t1 : fuzz σ),
      run_step c fuel t0 trial seed = some (run_step_res.RUN_STEP_OK, v, t1) →
      t1.counters = { t0.counters with pass := t0.counters.pass + 1 } ∨
        t1.counters = { t0.counters with fail := t0.counters.fail + 1 } ∨
        t1.counters = { t0.counters with skip := t0.counters.skip + 1 } ∨
        t1.counters = { t0.counters with dup := t0.counters.dup + 1 } := by
    intro t0 trial seed v t1 h
    rcases run_step_counters c fuel t0 trial seed v t1 h with hk | hk | ⟨_, hk⟩ | ⟨_, hk⟩
    · exact Or.inr (Or.inr (Or.inl hk))
    · exact Or.inr (Or.inr (Or.inr hk))
    · exact Or.inl hk
    · exact Or.inr (Or.inl hk)
  cases hx : fuzz_run_trials c fuel t with
  | none => rw [hx] at hrun; cases hrun
  | some x =>
    rw [hx] at hrun
    simp only [Option.map_some'] at hrun
    injection hrun with hrun
    injection hrun with hr1 hcnt
    unfold fuzz_run_trials at hx
    simp only at hx
    have hpre : (call_hook c.pre_run t (hook_call_of c t)).2.counters = t.counters :=
      (call_hook_frame _ _ _).2.2.2
    generalize call_hook c.pre_run t (hook_call_of c t) = pre at hx hpre
    split at hx
    · injection hx with hx
      rw [← hx] at hr1
      exact absurd hr1.symm hr
    · split at hx
      · simp at hx
      · injection hx with hx
        rw [← hx] at hr1
        exact absurd hr1.symm hr
      · next seeds t1 hl =>
        obtain ⟨e1, e2, e3⟩ := fuzz_run_trials_loop_counters c fuel hpg htp _ _ _ _ _ _ hl
        have hpost : (call_hook c.post_run t1 (hook_call_of c t1)).2.counters = t1.counters :=
          (call_hook_frame _ _ _).2.2.2
        generalize call_hook c.post_run t1 (hook_call_of c t1) = post at hx hpost
        rw [hpre] at e1 e2 e3
        have hcases : x.2.2.counters = t1.counters ∧
            (t1.counters.fail = 0 → t1.counters.pass = 0 → x.1 = FUZZ_RESULT_SKIP) := by
          split at hx
          · injection hx with hx
            rw [← hx] at hr1
            exact absurd hr1.symm hr
          · split at hx
            · next hf =>
              injection hx with hx
              rw [← hx]
              refine ⟨hpost, fun h0 _ => ?_⟩
              rw [hpost] at hf
              omega
            · split at hx
              · next hp =>
                injection hx with hx
                rw [← hx]
                refine ⟨hpost, fun _ h0 => ?_⟩
                rw [hpost] at hp
                omega
              · injection hx with hx
                rw [← hx]
                exact ⟨hpost, fun _ _ => rfl⟩
        rw [← hcnt, hcases.1]
        refine ⟨e1, fun hskip => ?_, hstep⟩
        have p1 := e2 (fun s a => by rw [hskip s a]; decide)
        have p2 := e3 (fun s a => by rw [hskip s a]; decide)
        refine ⟨p1, p2, fun h1 h2 => ?_⟩
        rw [← hr1]
        exact hcases.2 (by omega) (by omega)

theorem run_counts_every_trial_witness :
    ((fuzz_run_trials (probe_setup Unit FUZZ_RESULT_OK FUZZ_RESULT_SKIP) 5 (probe_state ())).map
        (fun x => (x.1, x.2.2.counters)) =
      some (FUZZ_RESULT_SKIP, { pass := 0, fail := 0, skip := 3, dup := 0 })) ∧
    (0 + 0 + 3 + 0 = (probe_state ()).counters.pass + (probe_state ()).counters.fail +
        (probe_state ()).counters.skip + (probe_state ()).counters.dup +
        (probe_setup Unit FUZZ_RESULT_OK FUZZ_RESULT_SKIP).trial_count ∧
      ((∀ s a, ((probe_setup Unit FUZZ_RESULT_OK FUZZ_RESULT_SKIP).prop s a).1 = FUZZ_RESULT_SKIP) →
        0 = (probe_state ()).counters.pass ∧ 0 = (probe_state ()).counters.fail ∧
          ((probe_state ()).counters.pass = 0 → (probe_state ()).counters.fail = 0 →
            FUZZ_RESULT_SKIP = FUZZ_RESULT_SKIP)) ∧
      (∀ (t0 : fuzz Unit) (trial seed v : Nat) (t1 : fuzz Unit),
        run_step (probe_setup Unit FUZZ_RESULT_OK FUZZ_RESULT_SKIP) 5 t0 trial seed =
          some (run_step_res.RUN_STEP_OK, v, t1) →
        t1.counters = { t0.counters with pass := t0.counters.pass + 1 } ∨
          t1.counters = { t0.counters with fail := t0.counters.fail + 1 } ∨
          t1.counters = { t0.counters with skip := t0.counters.skip + 1 } ∨
          t1.counters = { t0.counters with dup := t0.counters.dup + 1 })) :=
  ⟨by decide!,
    run_counts_every_trial (probe_setup Unit FUZZ_RESULT_OK FUZZ_RESULT_SKIP) 5 (probe_state ())
      FUZZ_RESULT_SKIP { pass := 0, fail := 0, skip := 3, dup := 0 }
      (fun _ h => nomatch h) (fun _ h => nomatch h) (by decide!) (by decide)⟩

/-- C21 (counterexample): with a generator that returns `FUZZ_RESULT_ERROR`,
a property that only returns ok and the default hooks, a run of three trials
returns `FUZZ_RESULT_ERROR` with all counters at zero. -/
theorem generator_error_leaves_counters_short :
    (fuzz_run_trials (probe_setup Unit FUZZ_RESULT_ERROR FUZZ_RESULT_OK) 5 (probe_state ())).map
        (fun x => (x.1, x.2.2.counters)) =
      some (FUZZ_RESULT_ERROR, { pass := 0, fail := 0, skip := 0, dup := 0 }) ∧
    (probe_setup Unit FUZZ_RESULT_ERROR FUZZ_RESULT_OK).trial_count = 3 ∧
    (∀ s a, ((probe_setup Unit FUZZ_RESULT_ERROR FUZZ_RESULT_OK).prop s a).1 = FUZZ_RESULT_OK) := by
  refine ⟨by decide!, rfl, fun _ _ => rfl⟩

/-! ## A hook code that is not accepted ends the run with an error -/

theorem call_hook_unmarked {σ : Type} (bad : σ → Prop) (h : Option (σ → hook_call → Int × σ))
    (acc : Int → Prop)
    (hh : ∀ f, h = some f → ∀ s i, ¬ bad s → acc (f s i).1 → ¬ bad (f s i).2)
    (t : fuzz σ) (info : hook_call) (h0 : ¬ bad t.env) (ha : acc (call_hook h t info).1) :
    ¬ bad (call_hook h t info).2.env := by
  cases h with
  | none => exact h0
  | some f => exact hh f rfl t.env info h0 ha

theorem fuzz_call_unmarked {σ : Type} (c : fuzz_setup σ) (bad : σ → Prop)
    (hm : marks_only_fatal c bad) (t : fuzz σ) (args : List (Option instance_t))
    (h0 : ¬ bad t.env) : ¬ bad (fuzz_call c t args).2.env := by
  unfold fuzz_call
  split
  · exact hm.1 t.env args h0
  · exact h0

theorem shrink_call_loop_unmarked {σ : Type} (c : fuzz_setup σ) (bad : σ → Prop)
    (hm : marks_only_fatal c bad) (arg_i tactic : Nat) :
    ∀ (fuel : Nat) (repeated : Bool) (t : fuzz σ) (res : Int) (t1 : fuzz σ),
      shrink_call_loop c arg_i tactic fuel repeated t = some (some res, t1) →
      ¬ bad t.env → ¬ bad t1.env := by
  intro fuel
  induction fuel with
  | zero => intro repeated t res t1 h; simp [shrink_call_loop] at h
  | succ n ih =>
    intro repeated t res t1 h h0
    unfold shrink_call_loop at h
    simp only at h
    have hr := fuzz_call_unmarked c bad hm t (fuzz_trial_get_args t) h0
    generalize fuzz_call c t (fuzz_trial_get_args t) = r at h hr
    have hc := (shrink_count_result_counters c arg_i repeated r.1 r.2).2
    have h2 : ¬ bad (shrink_count_result c arg_i repeated r.1 r.2).env := by rw [hc]; exact hr
    generalize shrink_count_result c arg_i repeated r.1 r.2 = t2 at h h2
    have hh : ((shrink_trial_post_hook c t2 arg_i (fuzz_trial_get_args t) tactic r.1).1 =
          FUZZ_HOOK_RUN_CONTINUE ∨
        (shrink_trial_post_hook c t2 arg_i (fuzz_trial_get_args t) tactic r.1).1 =
          FUZZ_HOOK_RUN_REPEAT ∨
        (shrink_trial_post_hook c t2 arg_i (fuzz_trial_get_args t) tactic r.1).1 =
          FUZZ_HOOK_RUN_REPEAT_ONCE) →
        ¬ bad (shrink_trial_post_hook c t2 arg_i (fuzz_trial_get_args t) tactic r.1).2.env :=
      fun ha => call_hook_unmarked bad c.shrink_trial_post
        (fun x => x = FUZZ_HOOK_RUN_CONTINUE ∨ x = FUZZ_HOOK_RUN_REPEAT ∨
          x = FUZZ_HOOK_RUN_REPEAT_ONCE) hm.2.2.2.2.2.2.2.2.2 t2 _ h2 ha
    generalize shrink_trial_post_hook c t2 arg_i (fuzz_trial_get_args t) tactic r.1 = hk at h hh
    split at h
    · next hc1 =>
      refine ih true hk.2 res t1 h (hh ?_)
      rcases hc1 with hc1 | hc1
      · exact Or.inr (Or.inl hc1)
      · exact Or.inr (Or.inr hc1.1)
    · split at h
      · next hc2 =>
        injection h with h
        injection h with _ h
        rw [← h]
        exact hh (Or.inr (Or.inr hc2.1))
      · split at h
        · next hc3 =>
          injection h with h
          injection h with _ h
          rw [← h]
          exact hh (Or.inl hc3)
        · injection h with h
          injection h with h1 h
          cases h1

theorem shrink_try_candidate_unmarked {σ : Type} (c : fuzz_setup σ) (bad : σ → Prop)
    (hm : marks_only_fatal c bad) (fuel arg_i tactic : Nat)
    (ua : Bool) (cur : Option instance_t) (cbp : Option autoshrink_bit_pool) (tc : fuzz σ)
    (r : Option shrink_res) (t' : fuzz σ)
    (h : shrink_try_candidate c fuel arg_i tactic ua cur cbp tc = some (r, t'))
    (hr : r ≠ some shrink_res.SHRINK_ERROR) (h0 : ¬ bad tc.env) : ¬ bad t'.env := by
  unfold shrink_try_candidate at h
  split at h
  · simp at h
  · injection h with h
    injection h with h1 h
    exact absurd h1.symm hr
  · next res t1 hl =>
    have h1 := shrink_call_loop_unmarked c bad hm arg_i tactic fuel false tc res t1 hl h0
    have h2 := (update_model_arg_counters c t1 arg_i res 8).2
    simp only at h
    split at h
    · injection h with h
      injection h with _ h
      rw [← h, (store_arg_counters _ _ _ _ _).2, h2]
      exact h1
    · split at h
      · injection h with h
        injection h with _ h
        rw [← h, h2]
        exact h1
      · injection h with h
        injection h with h3 h
        exact absurd h3.symm hr

theorem shrink_post_hook_unmarked {σ : Type} (c : fuzz_setup σ) (bad : σ → Prop)
    (hm : marks_only_fatal c bad) (t : fuzz σ) (arg_index : Nat)
    (arg : Option instance_t) (tactic : Nat) (sres : Int) (post : Int × fuzz σ)
    (h : shrink_post_hook c t arg_index arg tactic sres = some post) (h0 : ¬ bad t.env)
    (hc : post.1 = FUZZ_HOOK_RUN_CONTINUE) : ¬ bad post.2.env := by
  unfold shrink_post_hook at h
  split at h
  · injection h with h; rw [← h]; exact h0
  · split at h
    · injection h with h
      rw [← h] at hc ⊢
      exact call_hook_unmarked bad c.shrink_post (fun x => x = FUZZ_HOOK_RUN_CONTINUE)
        hm.2.2.2.2.2.2.2.2.1 t _ h0 hc
    · simp at h

/-- One tactic that does not end with `SHRINK_ERROR` leaves the mark unset. -/
theorem attempt_tactic_unmarked {σ : Type} (c : fuzz_setup σ) (bad : σ → Prop)
    (hm : marks_only_fatal c bad) (fuel arg_i tactic : Nat) (t : fuzz σ)
    (r : Option shrink_res) (t' : fuzz σ)
    (h : attempt_tactic c fuel arg_i tactic t = some (r, t'))
    (hr : r ≠ some shrink_res.SHRINK_ERROR) (h0 : ¬ bad t.env) : ¬ bad t'.env := by
  unfold attempt_tactic at h
  split at h
  · simp at h
  · next ti hti =>
    have hpre : ((shrink_pre_hook c t arg_i (get_arg t arg_i).inst tactic).1 =
          FUZZ_HOOK_RUN_CONTINUE ∨
        (shrink_pre_hook c t arg_i (get_arg t arg_i).inst tactic).1 = FUZZ_HOOK_RUN_HALT) →
        ¬ bad (shrink_pre_hook c t arg_i (get_arg t arg_i).inst tactic).2.env :=
      fun ha => call_hook_unmarked bad c.shrink_pre
        (fun x => x = FUZZ_HOOK_RUN_CONTINUE ∨ x = FUZZ_HOOK_RUN_HALT) hm.2.2.2.2.2.2.2.1 t _ h0 ha
    simp only at h
    generalize shrink_pre_hook c t arg_i (get_arg t arg_i).inst tactic = pre at h hpre
    split at h
    · next hhalt =>
      injection h with h; injection h with _ h; rw [← h]; exact hpre (Or.inr hhalt)
    · split at h
      · injection h with h
        injection h with h1 h
        exact absurd h1.symm hr
      · next hnh hcont =>
        have hp := hpre (Or.inl (not_not.mp hcont))
        split at h
        · simp at h
        · next sres candidate candidate_bit_pool t2 hsh =>
          have h2 : t2.env = pre.2.env := by
            split at hsh
            · split at hsh
              · simp at hsh
              · split at hsh
                · simp at hsh
                · injection hsh with hsh
                  injection hsh with _ hsh
                  injection hsh with _ hsh
                  injection hsh with _ hsh
                  rw [← hsh]
                  rfl
            · split at hsh
              · simp at hsh
              · injection hsh with hsh
                injection hsh with _ hsh
                injection hsh with _ hsh
                injection hsh with _ hsh
                rw [← hsh]
          split at h
          · simp at h
          · next post hpost =>
            split at h
            · injection h with h
              injection h with h1 h
              exact absurd h1.symm hr
            · next hpc =>
              have h3 : ¬ bad post.2.env :=
                shrink_post_hook_unmarked c bad hm _ _ _ _ _ post hpost
                  (by show ¬ bad t2.env; rw [h2]; exact hp) (not_not.mp hpc)
              split at h
              · split at h
                · split at h
                  · injection h with h; injection h with _ h; rw [← h]; exact h3
                  · split at h
                    · simp at h
                    · next t6 hmk =>
                      refine shrink_try_candidate_unmarked c bad hm fuel arg_i tactic _ _ _ t6 r t'
                        h hr ?_
                      rw [(fuzz_call_mark_called_counters c _ t6 _ hmk).2]
                      exact h3
                · exact shrink_try_candidate_unmarked c bad hm fuel arg_i tactic _ _ _ _ r t'
                    h hr h3
              · split at h
                · injection h with h; injection h with _ h; rw [← h]; exact h3
                · split at h
                  · injection h with h; injection h with _ h; rw [← h]; exact h3
                  · injection h with h
                    injection h with h1 h
                    exact absurd h1.symm hr

theorem attempt_to_shrink_arg_loop_unmarked {σ : Type} (c : fuzz_setup σ) (bad : σ → Prop)
    (hm : marks_only_fatal c bad) (fuel arg_i : Nat) :
    ∀ (n tactic : Nat) (t : fuzz σ) (r : shrink_res) (t' : fuzz σ),
      attempt_to_shrink_arg_loop c fuel arg_i n tactic t = some (r, t') →
      r ≠ shrink_res.SHRINK_ERROR → ¬ bad t.env → ¬ bad t'.env := by
  intro n
  induction n with
  | zero => intro tactic t r t' h; simp [attempt_to_shrink_arg_loop] at h
  | succ n ih =>
    intro tactic t r t' h hr h0
    unfold attempt_to_shrink_arg_loop at h
    split at h
    · split at h
      · simp at h
      · next r1 t1 ht =>
        injection h with h
        injection h with h1 h
        rw [← h]
        exact attempt_tactic_unmarked c bad hm fuel arg_i tactic t _ t1 ht
          (by rw [h1]; intro hx; injection hx with hx; exact hr hx) h0
      · next t1 ht =>
        exact ih _ _ _ _ h hr
          (attempt_tactic_unmarked c bad hm fuel arg_i tactic t _ t1 ht (by simp) h0)
    · injection h with h
      injection h with _ h
      rw [← h]
      exact h0

theorem fuzz_shrink_loop_unmarked {σ : Type} (c : fuzz_setup σ) (bad : σ → Prop)
    (hm : marks_only_fatal c bad) (fuel : Nat) :
    ∀ (n arg_i : Nat) (progress : Bool) (t : fuzz σ) (t' : fuzz σ),
      fuzz_shrink_loop c fuel n arg_i progress t = some (true, t') →
      ¬ bad t.env → ¬ bad t'.env := by
  intro n
  induction n with
  | zero => intro arg_i progress t t' h; simp [fuzz_shrink_loop] at h
  | succ n ih =>
    intro arg_i progress t t' h h0
    unfold fuzz_shrink_loop at h
    split at h
    · split at h
      · simp at h
      · split at h
        · split at h
          · simp at h
          · next t1 ha =>
            exact ih _ _ _ _ h
              (attempt_to_shrink_arg_loop_unmarked c bad hm fuel arg_i _ _ _ _ _ ha (by simp) h0)
          · next t1 ha =>
            injection h with h
            injection h with _ h
            rw [← h]
            exact attempt_to_shrink_arg_loop_unmarked c bad hm fuel arg_i _ _ _ _ _ ha (by simp) h0
          · next t1 ha =>
            exact ih _ _ _ _ h
              (attempt_to_shrink_arg_loop_unmarked c bad hm fuel arg_i _ _ _ _ _ ha (by simp) h0)
          · injection h with h
            injection h with h1 h
            cases h1
        · exact ih _ _ _ _ h h0
    · split at h
      · exact ih _ _ _ _ h h0
      · injection h with h
        injection h with _ h
        rw [← h]
        exact h0

theorem report_repeat_loop_unmarked {σ : Type} (c : fuzz_setup σ) (bad : σ → Prop)
    (hm : marks_only_fatal c bad) (info : hook_call) :
    ∀ (fuel : Nat) (res : Int) (t : fuzz σ) (r : Int) (t' : fuzz σ),
      report_repeat_loop c info fuel res t = some (r, t') →
      (res ≠ FUZZ_HOOK_RUN_ERROR → ¬ bad t.env) → r ≠ FUZZ_HOOK_RUN_ERROR → ¬ bad t'.env := by
  intro fuel
  induction fuel with
  | zero => intro res t r t' h; simp [report_repeat_loop] at h
  | succ n ih =>
    intro res t r t' h h0 hr
    unfold report_repeat_loop at h
    split at h
    · next hrep =>
      have hne : res ≠ FUZZ_HOOK_RUN_ERROR := by
        rcases hrep with hrep | hrep <;> rw [hrep] <;> decide
      have hc := fuzz_call_unmarked c bad hm t info.args (h0 hne)
      simp only at h
      generalize fuzz_call c t info.args = q at h hc
      have hh : ∀ i, (call_hook c.trial_post q.2 i).1 ≠ FUZZ_HOOK_RUN_ERROR →
          ¬ bad (call_hook c.trial_post q.2 i).2.env :=
        fun i ha => call_hook_unmarked bad c.trial_post (fun x => x ≠ FUZZ_HOOK_RUN_ERROR)
          hm.2.2.2.2.2.1 q.2 i hc ha
      split at h
      · split at h
        · next honce =>
          injection h with h
          injection h with h1 h
          rw [← h]
          exact hh _ (by rw [honce]; decide)
        · exact ih _ _ _ _ h (hh _) hr
      · split at h
        · exact ih _ _ _ _ h (fun hx => absurd rfl hx) hr
        · split at h
          · injection h with h
            injection h with h1 h
            exact absurd h1.symm hr
          · injection h with h
            injection h with _ h
            rw [← h]
            exact hc
    · next hrep =>
      injection h with h
      injection h with h1 h
      rw [← h]
      exact h0 (by rw [h1]; exact hr)

theorem report_on_failure_unmarked {σ : Type} (c : fuzz_setup σ) (bad : σ → Prop)
    (hm : marks_only_fatal c bad) (fuel : Nat) (t : fuzz σ)
    (info : hook_call) (r : Int) (t' : fuzz σ)
    (h : report_on_failure c fuel t info = some (r, t')) (h0 : ¬ bad t.env)
    (hr : r ≠ FUZZ_HOOK_RUN_ERROR) : ¬ bad t'.env := by
  unfold report_on_failure at h
  simp only at h
  split at h
  · injection h with h
    injection h with h1 h
    exact absurd h1.symm hr
  · next hce =>
    have h1 : ¬ bad (call_hook c.counterexample t info).2.env :=
      call_hook_unmarked bad c.counterexample (fun x => x = FUZZ_HOOK_RUN_CONTINUE)
        hm.2.2.2.2.2.2.1 t info h0 (not_not.mp hce)
    exact report_repeat_loop_unmarked c bad hm info _ _ _ _ _ h
      (fun ha => call_hook_unmarked bad c.trial_post (fun x => x ≠ FUZZ_HOOK_RUN_ERROR)
        hm.2.2.2.2.2.1 _ info h1 ha) hr

/-- A trial that `fuzz_trial_run` reports as run leaves the mark unset. -/
theorem fuzz_trial_run_unmarked {σ : Type} (c : fuzz_setup σ) (bad : σ → Prop)
    (hm : marks_only_fatal c bad) (fuel : Nat) (t : fuzz σ)
    (pres : Int) (t' : fuzz σ) (h : fuzz_trial_run c fuel t = some (true, pres, t'))
    (h0 : ¬ bad t.env) : ¬ bad t'.env := by
  unfold fuzz_trial_run at h
  split at h
  · simp at h
  · split at h
    · simp at h
    · next t0 hmk =>
      have hp0 : ¬ bad t0.env := by
        split at hmk
        · rw [(fuzz_call_mark_called_counters c t t0 _ hmk).2]; exact h0
        · injection hmk with hmk; rw [← hmk]; exact h0
      have hc := fuzz_call_unmarked c bad hm t0 (fuzz_trial_get_args t0) hp0
      simp only at h
      generalize fuzz_call c t0 (fuzz_trial_get_args t0) = r at h hc
      have hh : ∀ (u : fuzz σ) i, ¬ bad u.env →
          (call_hook c.trial_post u i).1 ≠ FUZZ_HOOK_RUN_ERROR →
          ¬ bad (call_hook c.trial_post u i).2.env :=
        fun u i hu ha => call_hook_unmarked bad c.trial_post (fun x => x ≠ FUZZ_HOOK_RUN_ERROR)
          hm.2.2.2.2.2.1 u i hu ha
      split at h
      · injection h with h
        injection h with hb h
        injection h with _ h
        rw [← h]
        exact hh _ _ hc (of_decide_eq_true hb)
      · split at h
        · split at h
          · simp at h
          · simp at h
          · next t2 hs =>
            have h2 : ¬ bad t2.env := by
              unfold fuzz_shrink at hs
              split at hs
              · simp at hs
              · exact fuzz_shrink_loop_unmarked c bad hm fuel _ _ _ _ _ hs hc
            split at h
            · simp at h
            · next pres1 t4 hr =>
              injection h with h
              injection h with hb h
              injection h with _ h
              rw [← h]
              exact report_on_failure_unmarked c bad hm fuel _ _ _ _ hr h2 (of_decide_eq_true hb)
        · split at h
          · injection h with h
            injection h with hb h
            injection h with _ h
            rw [← h]
            exact hh _ _ hc (of_decide_eq_true hb)
          · split at h
            · simp at h
            · simp at h

theorem run_step_switch_unmarked {σ : Type} (c : fuzz_setup σ) (bad : σ → Prop)
    (hm : marks_only_fatal c bad) (fuel : Nat) (t3 : fuzz σ)
    (gres : all_gen_res) (info : hook_call) (o : Option run_step_res) (pres : Int) (t6 : fuzz σ)
    (h : run_step_switch c fuel t3 gres info = some (o, pres, t6))
    (hgood : (o = none ∧ pres ≠ FUZZ_HOOK_RUN_ERROR) ∨ o = some run_step_res.RUN_STEP_HALT)
    (h0 : ¬ bad t3.env) : ¬ bad t6.env := by
  have hh : ∀ (u : fuzz σ) i, ¬ bad u.env →
      (call_hook c.trial_post u i).1 ≠ FUZZ_HOOK_RUN_ERROR →
      ¬ bad (call_hook c.trial_post u i).2.env :=
    fun u i hu ha => call_hook_unmarked bad c.trial_post (fun x => x ≠ FUZZ_HOOK_RUN_ERROR)
      hm.2.2.2.2.2.1 u i hu ha
  unfold run_step_switch at h
  split at h
  · injection h with h
    injection h with h1 h
    injection h with h2 h
    subst h1
    rcases hgood with ⟨_, hp⟩ | hx
    · rw [← h]
      exact hh _ _ h0 (by rw [h2]; exact hp)
    · cases hx
  · injection h with h
    injection h with h1 h
    injection h with h2 h
    subst h1
    rcases hgood with ⟨_, hp⟩ | hx
    · rw [← h]
      exact hh _ _ h0 (by rw [h2]; exact hp)
    · cases hx
  · injection h with h
    injection h with h1 h
    subst h1
    rcases hgood with ⟨hx, _⟩ | hx <;> cases hx
  · simp only at h
    have hpre : (call_hook c.trial_pre t3 (hook_call_of c t3)).1 ≠ FUZZ_HOOK_RUN_ERROR →
        ¬ bad (call_hook c.trial_pre t3 (hook_call_of c t3)).2.env :=
      fun ha => call_hook_unmarked bad c.trial_pre (fun x => x ≠ FUZZ_HOOK_RUN_ERROR)
        hm.2.2.2.2.1 t3 _ h0 ha
    have hnone : c.trial_pre = none →
        ¬ bad (call_hook c.trial_pre t3 (hook_call_of c t3)).2.env := by
      intro hn
      rw [hn]
      exact h0
    generalize call_hook c.trial_pre t3 (hook_call_of c t3) = tp at h hpre hnone
    split at h
    · next hhalt =>
      injection h with h
      injection h with _ h
      injection h with _ h
      rw [← h]
      exact hpre (by rw [hhalt.2]; decide)
    · split at h
      · injection h with h
        injection h with h1 h
        subst h1
        rcases hgood with ⟨hx, _⟩ | hx <;> cases hx
      · next hne =>
        have htp : ¬ bad tp.2.env := by
          cases hs : c.trial_pre with
          | none => exact hnone hs
          | some f =>
            refine hpre (fun he => hne ⟨?_, he⟩)
            rw [hs]
            rfl
        split at h
        · simp at h
        · injection h with h
          injection h with h1 h
          subst h1
          rcases hgood with ⟨hx, _⟩ | hx <;> cases hx
        · next pres1 t5 htr =>
          injection h with h
          injection h with _ h
          injection h with _ h
          rw [← h]
          exact fuzz_trial_run_unmarked c bad hm fuel _ _ _ htr htp

/-- A step that ends with `RUN_STEP_OK` or `RUN_STEP_HALT` leaves the mark
unset. -/
theorem run_step_unmarked {σ : Type} (c : fuzz_setup σ) (bad : σ → Prop)
    (hm : marks_only_fatal c bad) (fuel : Nat) (t : fuzz σ)
    (trial seed : Nat) (res : run_step_res) (v : Nat) (t' : fuzz σ)
    (h : run_step c fuel t trial seed = some (res, v, t'))
    (hres : res = run_step_res.RUN_STEP_OK ∨ res = run_step_res.RUN_STEP_HALT)
    (h0 : ¬ bad t.env) : ¬ bad t'.env := by
  unfold run_step at h
  simp only at h
  have hpre : ((call_hook c.pre_gen_args
        { t with trial := { trial_info_zero with trial := trial, seed := trial_seed c trial seed,
                                                 args := init_arg_info c.type_info } }
        (hook_call_of c
          { t with trial := { trial_info_zero with trial := trial, seed := trial_seed c trial seed,
                                                   args := init_arg_info c.type_info } })).1 =
          FUZZ_HOOK_RUN_CONTINUE ∨
      (call_hook c.pre_gen_args
        { t with trial := { trial_info_zero with trial := trial, seed := trial_seed c trial seed,
                                                 args := init_arg_info c.type_info } }
        (hook_call_of c
          { t with trial := { trial_info_zero with trial := trial, seed := trial_seed c trial seed,
                                                   args := init_arg_info c.type_info } })).1 =
          FUZZ_HOOK_RUN_HALT) →
      ¬ bad (call_hook c.pre_gen_args
        { t with trial := { trial_info_zero with trial := trial, seed := trial_seed c trial seed,
                                                 args := init_arg_info c.type_info } }
        (hook_call_of c
          { t with trial := { trial_info_zero with trial := trial, seed := trial_seed c trial seed,
                                                   args := init_arg_info c.type_info } })).2.env :=
    fun ha => call_hook_unmarked bad c.pre_gen_args
      (fun x => x = FUZZ_HOOK_RUN_CONTINUE ∨ x = FUZZ_HOOK_RUN_HALT) hm.2.2.2.1 _ _ h0 ha
  generalize call_hook c.pre_gen_args
      { t with trial := { trial_info_zero with trial := trial, seed := trial_seed c trial seed,
                                               args := init_arg_info c.type_info } }
      (hook_call_of c
        { t with trial := { trial_info_zero with trial := trial, seed := trial_seed c trial seed,
                                                 args := init_arg_info c.type_info } }) = pre
    at h hpre
  split at h
  · next hhalt =>
    injection h with h
    injection h with _ h
    injection h with _ h
    rw [← h]
    exact hpre (Or.inr hhalt)
  · split at h
    · injection h with h
      injection h with h1 h
      subst h1
      rcases hres with hx | hx <;> cases hx
    · split at h
      · simp at h
      · next hcont =>
        have hp := hpre (Or.inl (not_not.mp hcont))
        split at h
        · simp at h
        · next gres t3 hg =>
          have hga := (gen_all_args_counters c _ gres t3 hg).2
          dsimp only at hga
          have h3 : ¬ bad t3.env := by rw [hga]; exact hp
          split at h
          · simp at h
          · next r1 x t6 hsw =>
            injection h with h
            injection h with h1 h
            injection h with _ h
            subst h1
            rw [← h]
            rcases hres with hx | hx
            · exact absurd (congrArg some hx) (run_step_switch_not_ok c fuel t3 gres _ _ _ _ hsw)
            · exact run_step_switch_unmarked c bad hm fuel t3 gres _ _ _ _ hsw
                (Or.inr (congrArg some hx)) h3
          · next pres t6 hsw =>
            split at h
            · injection h with h
              injection h with h1 h
              subst h1
              rcases hres with hx | hx <;> cases hx
            · next hpe =>
              have h6 := run_step_switch_unmarked c bad hm fuel t3 gres _ _ _ _ hsw
                (Or.inl ⟨rfl, hpe⟩) h3
              split at h
              · simp at h
              · injection h with h
                injection h with _ h
                injection h with _ h
                rw [← h]
                exact h6

theorem fuzz_run_trials_loop_unmarked {σ : Type} (c : fuzz_setup σ) (bad : σ → Prop)
    (hm : marks_only_fatal c bad) (fuel : Nat) :
    ∀ (n trial seed : Nat) (t : fuzz σ) (seeds : List Nat) (t' : fuzz σ),
      fuzz_run_trials_loop c fuel n trial seed t = some (true, seeds, t') →
      ¬ bad t.env → ¬ bad t'.env := by
  intro n
  induction n with
  | zero =>
    intro trial seed t seeds t' h h0
    unfold fuzz_run_trials_loop at h
    injection h with h
    injection h with _ h
    injection h with _ h
    rw [← h]
    exact h0
  | succ n ih =>
    intro trial seed t seeds t' h h0
    unfold fuzz_run_trials_loop at h
    split at h
    · simp at h
    · next res s1 t1 hs =>
      simp only at h
      split at h
      · have h1 := run_step_unmarked c bad hm fuel t trial seed _ s1 t1 hs (Or.inl rfl) h0
        split at h
        · simp at h
        · next ok1 rest t3 hr =>
          injection h with h
          injection h with hok h
          injection h with _ h
          subst hok
          subst h
          exact ih _ _ _ _ _ hr h1
      · have h1 := run_step_unmarked c bad hm fuel t trial seed _ s1 t1 hs (Or.inr rfl) h0
        injection h with h
        injection h with _ h
        injection h with _ h
        rw [← h]
        exact h1
      · injection h with h
        injection h with hok h
        cases hok

theorem fuzz_run_trials_unmarked {σ : Type} (c : fuzz_setup σ) (bad : σ → Prop)
    (hm : marks_only_fatal c bad) (fuel : Nat) (t : fuzz σ) (r : Int) (seeds : List Nat)
    (t' : fuzz σ) (h : fuzz_run_trials c fuel t = some (r, seeds, t'))
    (hr : r ≠ FUZZ_RESULT_ERROR) (h0 : ¬ bad t.env) : ¬ bad t'.env := by
  unfold fuzz_run_trials at h
  simp only at h
  split at h
  · injection h with h
    injection h with h1 h
    exact absurd h1.symm hr
  · next hpre =>
    have hp : ¬ bad (call_hook c.pre_run t (hook_call_of c t)).2.env :=
      call_hook_unmarked bad c.pre_run (fun x => x = FUZZ_HOOK_RUN_CONTINUE) hm.2.1 t _ h0
        (not_not.mp hpre)
    split at h
    · simp at h
    · injection h with h
      injection h with h1 h
      exact absurd h1.symm hr
    · next seeds1 t1 hl =>
      have h1 := fuzz_run_trials_loop_unmarked c bad hm fuel _ _ _ _ _ _ hl hp
      split at h
      · injection h with h
        injection h with h2 h
        exact absurd h2.symm hr
      · next hpost =>
        have hq : ¬ bad (call_hook c.post_run t1 (hook_call_of c t1)).2.env :=
          call_hook_unmarked bad c.post_run (fun x => x = FUZZ_HOOK_RUN_CONTINUE) hm.2.2.1 t1 _ h1
            (not_not.mp hpost)
        split at h
        · injection h with h
          injection h with _ h
          injection h with _ h
          rw [← h]
          exact hq
        · split at h
          · injection h with h
            injection h with _ h
            injection h with _ h
            rw [← h]
            exact hq
          · injection h with h
            injection h with _ h
            injection h with _ h
            rw [← h]
            exact hq

/-- A code of the pre-gen-args hook other than continue, halt and error stops
the step at `assert(false)`. -/
theorem run_step_pre_gen_args_unknown {σ : Type} (c : fuzz_setup σ) (fuel : Nat) (t : fuzz σ)
    (trial seed : Nat)
    (hk : (call_hook c.pre_gen_args
        { t with trial := { trial_info_zero with trial := trial, seed := trial_seed c trial seed,
                                                 args := init_arg_info c.type_info } }
        (hook_call_of c
          { t with trial := { trial_info_zero with trial := trial, seed := trial_seed c trial seed,
                                                   args := init_arg_info c.type_info } })).1 ∉
      [FUZZ_HOOK_RUN_CONTINUE, FUZZ_HOOK_RUN_HALT, FUZZ_HOOK_RUN_ERROR]) :
    run_step c fuel t trial seed = none := by
  unfold run_step
  simp only
  simp only [List.mem_cons, List.mem_singleton, List.not_mem_nil, or_false, not_or] at hk
  rw [if_neg hk.2.1, if_neg hk.2.2, if_pos hk.1]

/-- The call sites that do end the run.  Let the callbacks keep a mark in the
user's environment that is set only when a hook returns a code its call site does not accept: anything
but continue for the pre-run, post-run, counterexample and post-shrink hooks,
anything but continue and halt for the pre-shrink and pre-gen-args hooks,
anything but continue, repeat and repeat-once for the post-shrink-trial hook,
and error for the pre-trial and post-trial hooks.  If the mark is set when the
run returns, the run returns `FUZZ_RESULT_ERROR`; so every code that is not
continue, halt, repeat, repeat-once or error, returned by the pre-run,
post-run, counterexample, pre-shrink, post-shrink or post-shrink-trial hook,
ends the run with `FUZZ_RESULT_ERROR`.  Such a code from the pre-gen-args hook
stops the step at `assert(false)`. -/
theorem unaccepted_hook_code_ends_run_with_error {σ : Type} (c : fuzz_setup σ) (fuel : Nat)
    (t : fuzz σ) (bad : σ → Prop) (r : Int) (e : σ) (hm : marks_only_fatal c bad)
    (h0 : ¬ bad t.env)
    (hrun : (fuzz_run_trials c fuel t).map (fun x => (x.1, x.2.2.env)) = some (r, e))
    (hbad : bad e) :
    r = FUZZ_RESULT_ERROR ∧
      ∀ (t0 : fuzz σ) (trial seed : Nat),
        (call_hook c.pre_gen_args
          { t0 with trial := { trial_info_zero with trial := trial, seed := trial_seed c trial seed,
                                                    args := init_arg_info c.type_info } }
          (hook_call_of c
            { t0 with trial := { trial_info_zero with trial := trial, seed := trial_seed c trial seed,
                                                      args := init_arg_info c.type_info } })).1 ∉
          [FUZZ_HOOK_RUN_CONTINUE, FUZZ_HOOK_RUN_HALT, FUZZ_HOOK_RUN_ERROR] →
        run_step c fuel t0 trial seed = none := by
  refine ⟨?_, fun t0 trial seed hk => run_step_pre_gen_args_unknown c fuel t0 trial seed hk⟩
  cases hx : fuzz_run_trials c fuel t with
  | none => rw [hx] at hrun; cases hrun
  | some x =>
    rw [hx] at hrun
    simp only [Option.map_some'] at hrun
    injection hrun with hrun
    injection hrun with hr1 he
    by_contra hne
    have := fuzz_run_trials_unmarked c bad hm fuel t x.1 x.2.1 x.2.2 hx (by rw [hr1]; exact hne) h0
    rw [he] at this
    exact this hbad

theorem unknown_pre_shrink_setup_marks :
    marks_only_fatal unknown_pre_shrink_setup (fun b => b = true) := by
  unfold marks_only_fatal
  refine ⟨fun _ _ h => h, ?_, ?_, ?_, ?_, ?_, ?_, ?_, ?_, ?_⟩ <;> intro f h <;> cases h
  intro s i _ hc
  exact hc.elim (fun h1 => absurd (show (7 : Int) = FUZZ_HOOK_RUN_CONTINUE from h1) (by decide))
    (fun h2 => absurd (show (7 : Int) = FUZZ_HOOK_RUN_HALT from h2) (by decide))

theorem unaccepted_hook_code_ends_run_with_error_witness :
    marks_only_fatal unknown_pre_shrink_setup (fun b => b = true) ∧
    ((fuzz_run_trials unknown_pre_shrink_setup 5 (probe_state false)).map
        (fun x => (x.1, x.2.2.env)) = some (FUZZ_RESULT_ERROR, true)) ∧
    (FUZZ_RESULT_ERROR = FUZZ_RESULT_ERROR ∧
      ∀ (t0 : fuzz Bool) (trial seed : Nat),
        (call_hook unknown_pre_shrink_setup.pre_gen_args
          { t0 with trial := { trial_info_zero with
              trial := trial, seed := trial_seed unknown_pre_shrink_setup trial seed,
              args := init_arg_info unknown_pre_shrink_setup.type_info } }
          (hook_call_of unknown_pre_shrink_setup
            { t0 with trial := { trial_info_zero with
                trial := trial, seed := trial_seed unknown_pre_shrink_setup trial seed,
                args := init_arg_info unknown_pre_shrink_setup.type_info } })).1 ∉
          [FUZZ_HOOK_RUN_CONTINUE, FUZZ_HOOK_RUN_HALT, FUZZ_HOOK_RUN_ERROR] →
        run_step unknown_pre_shrink_setup 5 t0 trial seed = none) :=
  ⟨unknown_pre_shrink_setup_marks, by decide!,
    unaccepted_hook_code_ends_run_with_error unknown_pre_shrink_setup 5 (probe_state false)
      (fun b => b = true) FUZZ_RESULT_ERROR true unknown_pre_shrink_setup_marks (by decide)
      (by decide!) rfl⟩

/-- C23: the code does not treat an unknown code of the pre-trial and post-trial
hooks as fatal.  The code 7 is none of continue, halt, repeat, repeat-once and
error, yet a run whose pre-trial hook returns 7 on every call, and a run whose
post-trial hook does, start all three trials and return `FUZZ_RESULT_OK`,
where `FUZZ_RESULT_ERROR` is due.  At the other call sites the same code is
fatal: returned by the pre-shrink hook it ends the run with
`FUZZ_RESULT_ERROR` in the first trial, and returned by the pre-gen-args hook
it stops the step at `assert(false)`. -/
theorem unknown_trial_hook_code_is_ignored :
    (7 : Int) ∉ [FUZZ_HOOK_RUN_CONTINUE, FUZZ_HOOK_RUN_HALT, FUZZ_HOOK_RUN_REPEAT,
      FUZZ_HOOK_RUN_REPEAT_ONCE, FUZZ_HOOK_RUN_ERROR] ∧
    (fuzz_run_trials unknown_pre_trial_setup 5 (probe_state false)).map
        (fun x => (x.1, x.2.1, x.2.2.env)) = some (FUZZ_RESULT_OK, [11, 12, 13], true) ∧
    (fuzz_run_trials unknown_post_trial_setup 5 (probe_state false)).map
        (fun x => (x.1, x.2.1, x.2.2.env)) = some (FUZZ_RESULT_OK, [11, 12, 13], true) ∧
    (fuzz_run_trials unknown_pre_shrink_setup 5 (probe_state false)).map
        (fun x => (x.1, x.2.1, x.2.2.env)) = some (FUZZ_RESULT_ERROR, [11], true) ∧
    (fuzz_run_trials unknown_pre_gen_args_setup 5 (probe_state false)).map
        (fun x => (x.1, x.2.1, x.2.2.env)) = none := by
  refine ⟨by decide, by decide!, by decide!, by decide!, by decide!⟩

/-! ## A halt from the pre-gen-args or pre-trial hook ends the trial loop -/

/-- The trial loop after `j` completed trials goes on as the loop started from
the state they left, with their seeds in front. -/
theorem fuzz_run_trials_loop_split {σ : Type} (c : fuzz_setup σ) (fuel : Nat) :
    ∀ (j trial seed : Nat) (t : fuzz σ) (sj : Nat) (tj : fuzz σ),
      trial_loop_after c fuel j trial seed t = some (sj, tj) →
      ∃ pre : List Nat, pre.length = j ∧ ∀ m,
        fuzz_run_trials_loop c fuel (j + m) trial seed t =
          (fuzz_run_trials_loop c fuel m (trial + j) sj tj).map
            (fun r => (r.1, pre ++ r.2.1, r.2.2)) := by
  intro j
  induction j with
  | zero =>
    intro trial seed t sj tj h
    unfold trial_loop_after at h
    injection h with h
    injection h with h1 h2
    subst h1
    subst h2
    refine ⟨[], rfl, fun m => ?_⟩
    rw [Nat.zero_add, Nat.add_zero]
    cases fuzz_run_trials_loop c fuel m trial seed t with
    | none => rfl
    | some r => rfl
  | succ j ih =>
    intro trial seed t sj tj h
    unfold trial_loop_after at h
    split at h
    · next seed1 t1 hs =>
      obtain ⟨pre, hlen, hpre⟩ := ih _ _ _ _ _ h
      refine ⟨trial_seed c trial seed :: pre, by simp [hlen], fun m => ?_⟩
      have e : j + 1 + m = (j + m) + 1 := by omega
      rw [e, fuzz_run_trials_loop, hs]
      simp only
      rw [hpre m]
      have e2 : trial + 1 + j = trial + (j + 1) := by omega
      rw [e2]
      cases fuzz_run_trials_loop c fuel m (trial + (j + 1)) sj tj with
      | none => rfl
      | some r => rfl
    · simp at h

/-- A halt from the pre-gen-args hook ends the step with `RUN_STEP_HALT`
before anything is generated. -/
theorem run_step_pre_gen_args_halt {σ : Type} (c : fuzz_setup σ) (fuel : Nat) (t : fuzz σ)
    (trial seed : Nat)
    (hk : (call_hook c.pre_gen_args
        { t with trial := { trial_info_zero with trial := trial, seed := trial_seed c trial seed,
                                                 args := init_arg_info c.type_info } }
        (hook_call_of c
          { t with trial := { trial_info_zero with trial := trial, seed := trial_seed c trial seed,
                                                   args := init_arg_info c.type_info } })).1 =
      FUZZ_HOOK_RUN_HALT) :
    ∃ t1, run_step c fuel t trial seed =
        some (run_step_res.RUN_STEP_HALT, trial_seed c trial seed, t1) ∧
      t1.counters = t.counters := by
  unfold run_step
  simp only
  rw [if_pos hk]
  exact ⟨_, rfl, (call_hook_frame _ _ _).2.2.2⟩

/-- A halt from the pre-trial hook, called after the arguments were generated,
ends the step with `RUN_STEP_HALT` before the property is called. -/
theorem run_step_trial_pre_halt {σ : Type} (c : fuzz_setup σ) (fuel : Nat) (t : fuzz σ)
    (trial seed : Nat) (t3 : fuzz σ)
    (hk : (call_hook c.pre_gen_args
        { t with trial := { trial_info_zero with trial := trial, seed := trial_seed c trial seed,
                                                 args := init_arg_info c.type_info } }
        (hook_call_of c
          { t with trial := { trial_info_zero with trial := trial, seed := trial_seed c trial seed,
                                                   args := init_arg_info c.type_info } })).1 =
      FUZZ_HOOK_RUN_CONTINUE)
    (hg : gen_all_args c
        { (call_hook c.pre_gen_args
            { t with trial := { trial_info_zero with trial := trial,
                                                     seed := trial_seed c trial seed,
                                                     args := init_arg_info c.type_info } }
            (hook_call_of c
              { t with trial := { trial_info_zero with trial := trial,
                                                       seed := trial_seed c trial seed,
                                                       args := init_arg_info c.type_info } })).2 with
          prng := fuzz_random_set_seed
            (call_hook c.pre_gen_args
              { t with trial := { trial_info_zero with trial := trial,
                                                       seed := trial_seed c trial seed,
                                                       args := init_arg_info c.type_info } }
              (hook_call_of c
                { t with trial := { trial_info_zero with trial := trial,
                                                         seed := trial_seed c trial seed,
                                                         args := init_arg_info c.type_info } })).2.prng
            (trial_seed c trial seed) } = some (all_gen_res.ALL_GEN_OK, t3))
    (hs : c.trial_pre.isSome = true)
    (hh : (call_hook c.trial_pre t3 (hook_call_of c t3)).1 = FUZZ_HOOK_RUN_HALT) :
    ∃ t1, run_step c fuel t trial seed =
        some (run_step_res.RUN_STEP_HALT, trial_seed c trial seed, t1) ∧
      t1.counters = t.counters := by
  have hga := (gen_all_args_counters c _ _ t3 hg).1
  dsimp only at hga
  have h3 : t3.counters = t.counters := by
    rw [hga]
    exact (call_hook_frame _ _ _).2.2.2
  unfold run_step
  simp only
  rw [if_neg (by rw [hk]; decide), if_neg (by rw [hk]; decide), if_neg (by rw [hk]; simp)]
  simp only [hg]
  unfold run_step_switch
  simp only
  rw [if_pos ⟨hs, hh⟩]
  exact ⟨_, rfl, by rw [(call_hook_frame _ _ _).2.2.2, h3]⟩

/-- The hooks whose halt does end the trial loop.  When the pre-run hook
returned continue, `j` trials have
completed, and in the next trial the pre-gen-args hook returns halt, or the
pre-trial hook does after the arguments were generated, then the run returns:
the seeds of the trials it started are `j + 1`, so no later trial is started;
the post-run hook (which returns continue) is called on the counters as trial
`j` found them; and the result is the one these counters give,
`FUZZ_RESULT_FAIL`, `FUZZ_RESULT_OK` or `FUZZ_RESULT_SKIP`, not
`FUZZ_RESULT_ERROR`. -/
theorem halt_ends_trial_loop {σ : Type} (c : fuzz_setup σ) (fuel : Nat) (t : fuzz σ) (j sj : Nat)
    (tj : fuzz σ)
    (hpre : (call_hook c.pre_run t (hook_call_of c t)).1 = FUZZ_HOOK_RUN_CONTINUE)
    (hj : trial_loop_after c fuel j 0 c.run_seed (call_hook c.pre_run t (hook_call_of c t)).2 =
      some (sj, tj))
    (hlt : j < c.trial_count)
    (hhalt : (call_hook c.pre_gen_args
          { tj with trial := { trial_info_zero with trial := j, seed := trial_seed c j sj,
                                                    args := init_arg_info c.type_info } }
          (hook_call_of c
            { tj with trial := { trial_info_zero with trial := j, seed := trial_seed c j sj,
                                                      args := init_arg_info c.type_info } })).1 =
        FUZZ_HOOK_RUN_HALT ∨
      ((call_hook c.pre_gen_args
          { tj with trial := { trial_info_zero with trial := j, seed := trial_seed c j sj,
                                                    args := init_arg_info c.type_info } }
          (hook_call_of c
            { tj with trial := { trial_info_zero with trial := j, seed := trial_seed c j sj,
                                                      args := init_arg_info c.type_info } })).1 =
          FUZZ_HOOK_RUN_CONTINUE ∧
        ∃ t3, gen_all_args c
            { (call_hook c.pre_gen_args
                { tj with trial := { trial_info_zero with trial := j, seed := trial_seed c j sj,
                                                          args := init_arg_info c.type_info } }
                (hook_call_of c
                  { tj with trial := { trial_info_zero with trial := j, seed := trial_seed c j sj,
                                                            args := init_arg_info c.type_info } })).2 with
              prng := fuzz_random_set_seed
                (call_hook c.pre_gen_args
                  { tj with trial := { trial_info_zero with trial := j, seed := trial_seed c j sj,
                                                            args := init_arg_info c.type_info } }
                  (hook_call_of c
                    { tj with trial := { trial_info_zero with trial := j, seed := trial_seed c j sj,
                                                              args := init_arg_info c.type_info } })).2.prng
                (trial_seed c j sj) } = some (all_gen_res.ALL_GEN_OK, t3) ∧
          c.trial_pre.isSome = true ∧
          (call_hook c.trial_pre t3 (hook_call_of c t3)).1 = FUZZ_HOOK_RUN_HALT))
    (hpost : ∀ f, c.post_run = some f → ∀ s i, (f s i).1 = FUZZ_HOOK_RUN_CONTINUE) :
    ∃ r seeds t1,
      fuzz_run_trials c fuel t =
        some (r, seeds, (call_hook c.post_run t1 (hook_call_of c t1)).2) ∧
      seeds.length = j + 1 ∧ t1.counters = tj.counters ∧
      r = (if tj.counters.fail > 0 then FUZZ_RESULT_FAIL
        else if tj.counters.pass > 0 then FUZZ_RESULT_OK else FUZZ_RESULT_SKIP) ∧
      r ≠ FUZZ_RESULT_ERROR := by
  have hstep : ∃ t1, run_step c fuel tj j sj =
      some (run_step_res.RUN_STEP_HALT, trial_seed c j sj, t1) ∧ t1.counters = tj.counters := by
    rcases hhalt with hA | ⟨hk, t3, hg, hs, hh⟩
    · exact run_step_pre_gen_args_halt c fuel tj j sj hA
    · exact run_step_trial_pre_halt c fuel tj j sj t3 hk hg hs hh
  obtain ⟨t1, hrs, hcnt⟩ := hstep
  obtain ⟨pre, hlen, hsplit⟩ := fuzz_run_trials_loop_split c fuel j 0 c.run_seed _ sj tj hj
  obtain ⟨m, hm⟩ : ∃ m, c.trial_count = j + (m + 1) := ⟨c.trial_count - j - 1, by omega⟩
  have hloop : fuzz_run_trials_loop c fuel c.trial_count 0 c.run_seed
      (call_hook c.pre_run t (hook_call_of c t)).2 =
      some (true, pre ++ [trial_seed c j sj], { t1 with trial := trial_info_zero }) := by
    rw [hm, hsplit (m + 1), Nat.zero_add, fuzz_run_trials_loop, hrs]
    rfl
  have hpc : (call_hook c.post_run { t1 with trial := trial_info_zero }
      (hook_call_of c { t1 with trial := trial_info_zero })).1 = FUZZ_HOOK_RUN_CONTINUE := by
    cases hp : c.post_run with
    | none => rfl
    | some f => exact hpost f hp _ _
  have hpcnt : (call_hook c.post_run { t1 with trial := trial_info_zero }
      (hook_call_of c { t1 with trial := trial_info_zero })).2.counters = tj.counters := by
    rw [(call_hook_frame _ _ _).2.2.2]
    exact hcnt
  refine ⟨_, pre ++ [trial_seed c j sj], { t1 with trial := trial_info_zero }, ?_, by simp [hlen],
    hcnt, rfl, ?_⟩
  · unfold fuzz_run_trials
    simp only
    rw [if_neg (by rw [hpre]; simp), hloop]
    simp only
    rw [if_neg (by rw [hpc]; simp), hpcnt]
    split
    · rfl
    · split <;> rfl
  · split
    · decide
    · split <;> decide

theorem halt_ends_trial_loop_witness :
    ∃ r seeds t1,
      fuzz_run_trials (halting_setup 0) 5 (probe_state ()) =
        some (r, seeds, (call_hook (halting_setup 0).post_run t1
          (hook_call_of (halting_setup 0) t1)).2) ∧
      seeds.length = 0 + 1 ∧ t1.counters = (probe_state ()).counters ∧
      r = (if (probe_state ()).counters.fail > 0 then FUZZ_RESULT_FAIL
        else if (probe_state ()).counters.pass > 0 then FUZZ_RESULT_OK else FUZZ_RESULT_SKIP) ∧
      r ≠ FUZZ_RESULT_ERROR :=
  halt_ends_trial_loop (halting_setup 0) 5 (probe_state ()) 0 (halting_setup 0).run_seed
    (probe_state ()) rfl rfl (by decide) (Or.inl rfl) (fun _ h => nomatch h)

/-- C24: the code does not end the trial loop on a halt from every hook.  A
pre-shrink hook that returns `FUZZ_HOOK_RUN_HALT` on every call stops the
shrinking of the failing trial only, although the header says of this hook
that halt means that no more trials must be ran; and the value of halt
returned by the post-trial hook is the one of repeat: in both runs all three
trials are started.  A pre-gen-args hook that halts at trial 1 does end the
run after two trials. -/
theorem halt_from_other_hooks_does_not_end_trial_loop :
    (fuzz_run_trials halting_pre_shrink_setup 5 (probe_state ())).map
        (fun x => (x.1, x.2.1, x.2.2.counters)) =
      some (FUZZ_RESULT_FAIL, [11, 12, 13], { pass := 0, fail := 3, skip := 0, dup := 0 }) ∧
    (fuzz_run_trials halting_post_trial_setup 5 (probe_state ())).map
        (fun x => (x.1, x.2.1, x.2.2.counters)) =
      some (FUZZ_RESULT_OK, [11, 12, 13], { pass := 3, fail := 0, skip := 0, dup := 0 }) ∧
    (fuzz_run_trials (halting_setup 1) 5 (probe_state ())).map
        (fun x => (x.1, x.2.1, x.2.2.counters)) =
      some (FUZZ_RESULT_OK, [11, 12], { pass := 1, fail := 0, skip := 0, dup := 0 }) ∧
    FUZZ_HOOK_RUN_HALT = FUZZ_HOOK_RUN_REPEAT := by
  refine ⟨by decide!, by decide!, by decide!, rfl⟩

/-! ## Invalid code points in the encoder -/

theorem utf8_codepoint_size_above (cp : Nat) (h : 0x10FFFF < cp) : utf8_codepoint_size cp = 0 := by
  unfold utf8_codepoint_size
  rw [if_neg (by omega), if_neg (by omega), if_neg (by omega), if_neg (by omega)]

theorem utf8_codepoint_size_surrogate (cp : Nat) (h : 0xD800 ≤ cp ∧ cp ≤ 0xDFFF) :
    utf8_codepoint_size cp = 3 := by
  unfold utf8_codepoint_size
  rw [if_neg (by omega), if_neg (by omega), if_pos (by omega)]

/-- A code point above U+10FFFF is encoded as the replacement character: with
room for three bytes `utf8_codepoint_encode` writes `EF BF BD` and returns 3. -/
theorem utf8_codepoint_encode_above_range (cp out_len : Nat) (bytes : List Nat) (off : Nat)
    (h : 0x10FFFF < cp) (ho : 3 ≤ out_len) :
    utf8_codepoint_encode cp out_len bytes off =
      (3, ((bytes.set off 0xef).set (off + 1) 0xbf).set (off + 2) 0xbd) := by
  unfold utf8_codepoint_encode
  simp only [utf8_codepoint_size_above cp h]
  rw [if_neg (by omega), if_neg (by decide), if_neg (by decide), if_neg (by decide),
    if_neg (by decide), if_neg (by omega)]
  rfl

/-- The `utf8_encoded_length` of an invalid code point (a surrogate or a value above
U+10FFFF) is 3. -/
theorem utf8_encoded_length_invalid (cp : Nat)
    (h : (0xD800 ≤ cp ∧ cp ≤ 0xDFFF) ∨ 0x10FFFF < cp) : utf8_encoded_length [cp] = 3 := by
  unfold utf8_encoded_length
  rw [if_neg (by simp)]
  simp only [utf8_encoded_length_loop]
  rcases h with h | h
  · rw [utf8_codepoint_size_surrogate cp h]
    rfl
  · rw [utf8_codepoint_size_above cp h]
    rfl

/-- A surrogate is encoded as it stands: `utf8_codepoint_encode` returns 3 and
the first byte written is `ED`, not the `EF` of the replacement character. -/
theorem utf8_codepoint_encode_surrogate (cp out_len : Nat) (bytes : List Nat) (off : Nat)
    (h : 0xD800 ≤ cp ∧ cp ≤ 0xDFFF) (ho : 3 ≤ out_len) (hb : off < bytes.length) :
    (utf8_codepoint_encode cp out_len bytes off).1 = 3 ∧
      (utf8_codepoint_encode cp out_len bytes off).2.getD off 0 = 0xed := by
  unfold utf8_codepoint_encode
  simp only [utf8_codepoint_size_surrogate cp h]
  rw [if_neg (by omega), if_neg (by decide), if_neg (by decide), if_pos trivial]
  refine ⟨show to_int 3 = 3 by decide, ?_⟩
  have e : cp >>> 12 = 13 := by
    rw [Nat.shiftRight_eq_div_pow]
    omega
  simp only [e]
  rw [List.getD_eq_getElem?_getD, List.getElem?_set_ne (by omega), List.getElem?_set_ne (by omega),
    List.getElem?_set_self hb]
  rfl

/-- C31: `utf8_codepoint_encode` does not replace a surrogate.  For U+D800 with
room for three bytes it returns 3 and writes `ED A0 80`, not `EF BF BD`; these
bytes are what `utf8_valid` rejects.  `utf8_encoded_length` counts the
surrogate as 3 bytes, and a value above U+10FFFF is written as `EF BF BD`. -/
theorem utf8_codepoint_encode_keeps_surrogate :
    utf8_codepoint_encode 0xD800 3 [0, 0, 0] 0 = (3, [0xed, 0xa0, 0x80]) ∧
      utf8_valid 3 (some [0xed, 0xa0, 0x80]) = some false ∧
      utf8_encoded_length [0xD800] = 3 ∧
      utf8_codepoint_encode 0x110000 3 [0, 0, 0] 0 = (3, utf8_replacement) := by
  decide

/-! ## Encoding a code point and decoding it again -/

theorem cont_byte_spec : ∀ x, x < 64 → (x ||| 0x80) % 256 = 128 + x ∧ 0x3f &&& (128 + x) = x := by
  decide

theorem lead2_byte_spec : ∀ x, x < 32 → (x ||| 0xc0) % 256 = 192 + x ∧ 0x1f &&& (192 + x) = x := by
  decide

theorem lead3_byte_spec : ∀ x, x < 16 → (x ||| 0xe0) % 256 = 224 + x ∧ 0x0f &&& (224 + x) = x := by
  decide

theorem lead4_byte_spec : ∀ x, x < 8 → (x ||| 0xf0) % 256 = 240 + x ∧ 0x07 &&& (240 + x) = x := by
  decide

theorem shift_and_mask (cp k m : Nat) : (cp >>> k) &&& (2 ^ m - 1) = cp / 2 ^ k % 2 ^ m := by
  rw [Nat.shiftRight_eq_div_pow, Nat.and_pow_two_sub_one_eq_mod]

theorem or_eq_add_of_low (x y k : Nat) (hx : x % 2 ^ k = 0) (hy : y < 2 ^ k) : x ||| y = x + y := by
  have e : x = 2 ^ k * (x / 2 ^ k) := (Nat.mul_div_cancel' (Nat.dvd_of_mod_eq_zero hx)).symm
  rw [e, Nat.mul_add_lt_is_or hy]

theorem is_continuation_cont (x : Nat) (h : x < 64) : is_continuation (128 + x) = true := by
  unfold is_continuation
  simp only [Bool.and_eq_true, decide_eq_true_eq]
  omega

theorem list_take_two (a b : Nat) (xs : List Nat) (h : 2 ≤ xs.length) :
    ((xs.set 0 a).set 1 b).take 2 = [a, b] := by
  match xs, h with
  | _ :: _ :: _, _ => rfl

theorem list_take_three (a b c : Nat) (xs : List Nat) (h : 3 ≤ xs.length) :
    (((xs.set 0 a).set 1 b).set 2 c).take 3 = [a, b, c] := by
  match xs, h with
  | _ :: _ :: _ :: _, _ => rfl

theorem list_take_four (a b c d : Nat) (xs : List Nat) (h : 4 ≤ xs.length) :
    ((((xs.set 0 a).set 1 b).set 2 c).set 3 d).take 4 = [a, b, c, d] := by
  match xs, h with
  | _ :: _ :: _ :: _ :: _, _ => rfl

theorem list_take_one (a : Nat) (xs : List Nat) (h : 1 ≤ xs.length) :
    (xs.set 0 a).take 1 = [a] := by
  match xs, h with
  | _ :: _, _ => rfl

theorem decode_two (x y : Nat) (hx : 2 ≤ x) (hx2 : x < 32) (hy : y < 64) :
    utf8_codepoint_decode [192 + x, 128 + y] = (x * 64 + y, 2) := by
  have hsz : encoded_size_at (192 + x) = 2 := by
    rw [encoded_size_at_spec _ (by omega), if_neg (by omega), if_pos (by omega)]
  unfold utf8_codepoint_decode
  simp only [List.length_cons, List.length_nil, List.getD_cons_zero, List.getD_cons_succ, hsz]
  rw [if_neg (by decide), if_neg (by decide), if_pos trivial, is_continuation_cont y hy]
  simp only [Bool.not_true, Bool.false_eq_true, if_false]
  rw [(lead2_byte_spec x hx2).2, (cont_byte_spec y hy).2, Nat.shiftLeft_eq,
    or_eq_add_of_low _ _ 6 (by omega) hy]

theorem ranges_cont (y : Nat) (hy : y < 64) :
    (decide (128 + y ≥ 0xa0) && decide (128 + y ≤ 0xbf) ||
      decide (128 + y ≥ 0x80) && decide (128 + y ≤ 0x9f)) = true := by
  simp only [Bool.or_eq_true, Bool.and_eq_true, decide_eq_true_eq]
  omega

theorem decode_three (x y z : Nat) (hx : x < 16) (hy : y < 64) (hz : z < 64) :
    utf8_codepoint_decode [224 + x, 128 + y, 128 + z] = (x * 4096 + y * 64 + z, 3) := by
  have hsz : encoded_size_at (224 + x) = 3 := by
    rw [encoded_size_at_spec _ (by omega), if_neg (by omega), if_neg (by omega),
      if_pos (by omega)]
  unfold utf8_codepoint_decode
  simp only [List.length_cons, List.length_nil, List.getD_cons_zero, List.getD_cons_succ, hsz]
  rw [if_neg (by decide), if_neg (by decide), if_neg (by decide), if_pos trivial]
  simp only [ranges_cont y hy, is_continuation_cont z hz, Bool.not_true, Bool.or_self,
    Bool.false_eq_true, if_false]
  rw [(lead3_byte_spec x hx).2, (cont_byte_spec y hy).2, (cont_byte_spec z hz).2,
    Nat.shiftLeft_eq, Nat.shiftLeft_eq, or_eq_add_of_low (x * 2 ^ 12) (y * 2 ^ 6) 12 (by omega)
      (by omega),
    or_eq_add_of_low (x * 2 ^ 12 + y * 2 ^ 6) z 6 (by omega) hz]

theorem decode_four (w x y z : Nat) (hw : w < 5) (hx : x < 64) (hy : y < 64) (hz : z < 64) :
    utf8_codepoint_decode [240 + w, 128 + x, 128 + y, 128 + z] =
      (w * 262144 + x * 4096 + y * 64 + z, 4) := by
  have hsz : encoded_size_at (240 + w) = 4 := by
    rw [encoded_size_at_spec _ (by omega), if_neg (by omega), if_neg (by omega),
      if_neg (by omega), if_pos (by omega)]
  unfold utf8_codepoint_decode
  simp only [List.length_cons, List.length_nil, List.getD_cons_zero, List.getD_cons_succ, hsz]
  rw [if_neg (by decide), if_neg (by decide), if_neg (by decide), if_neg (by decide),
    if_pos trivial]
  simp only [is_continuation_cont x hx, is_continuation_cont y hy, is_continuation_cont z hz,
    Bool.not_true, Bool.or_self, Bool.true_or, Bool.false_eq_true, if_false]
  rw [(lead4_byte_spec w (by omega)).2, (cont_byte_spec x hx).2, (cont_byte_spec y hy).2,
    (cont_byte_spec z hz).2, Nat.shiftLeft_eq, Nat.shiftLeft_eq, Nat.shiftLeft_eq,
    or_eq_add_of_low (w * 2 ^ 18) (x * 2 ^ 12) 18 (by omega) (by omega),
    or_eq_add_of_low (w * 2 ^ 18 + x * 2 ^ 12) (y * 2 ^ 6) 12 (by omega) (by omega),
    or_eq_add_of_low (w * 2 ^ 18 + x * 2 ^ 12 + y * 2 ^ 6) z 6 (by omega) hz]

theorem decode_one (cp : Nat) (h : cp < 0x7f) : utf8_codepoint_decode [cp] = (cp, 1) := by
  have hsz : encoded_size_at cp = 1 := by
    rw [encoded_size_at_spec _ (by omega), if_pos (by omega)]
  unfold utf8_codepoint_decode
  simp only [List.length_cons, List.length_nil, List.getD_cons_zero, hsz]
  rw [if_neg (by decide), if_neg (by decide), if_neg (by decide), if_neg (by decide),
    if_neg (by decide), if_neg (by omega)]

/-- Round trip of a code point, for every code point up to U+10FFFF other than
U+007F: `utf8_codepoint_encode` returns the width of the code point, and
`utf8_codepoint_decode` on the bytes it wrote returns the code point and that
width. -/
theorem utf8_codepoint_round_trip (cp out_len : Nat) (bytes : List Nat) (hcp : cp ≤ 0x10FFFF)
    (h7f : cp ≠ 0x7f) (ho : utf8_codepoint_size cp ≤ out_len)
    (hb : utf8_codepoint_size cp ≤ bytes.length) :
    (utf8_codepoint_encode cp out_len bytes 0).1 = (utf8_codepoint_size cp : Int) ∧
      utf8_codepoint_decode
          ((utf8_codepoint_encode cp out_len bytes 0).2.take (utf8_codepoint_size cp)) =
        (cp, utf8_codepoint_size cp) := by
  have m5 : (0x1f : Nat) = 2 ^ 5 - 1 := by norm_num
  have m6 : (0x3f : Nat) = 2 ^ 6 - 1 := by norm_num
  have m4 : (0x0f : Nat) = 2 ^ 4 - 1 := by norm_num
  have m3 : (0x07 : Nat) = 2 ^ 3 - 1 := by norm_num
  have e0 : (cp >>> 0) &&& 0x3f = cp % 64 := by
    rw [m6, shift_and_mask]; simp
  have e6 : (cp >>> 6) &&& 0x3f = cp / 64 % 64 := by
    rw [m6, shift_and_mask]; rfl
  have e12 : (cp >>> 12) &&& 0x3f = cp / 4096 % 64 := by
    rw [m6, shift_and_mask]; rfl
  by_cases h1 : cp ≤ 0x7F
  · have hs : utf8_codepoint_size cp = 1 := by
      unfold utf8_codepoint_size; rw [if_pos h1]
    rw [hs] at ho hb ⊢
    unfold utf8_codepoint_encode
    simp only [hs]
    rw [if_neg (by omega), if_pos trivial]
    simp only [Nat.zero_add]
    rw [list_take_one _ _ hb, Nat.mod_eq_of_lt (by omega), decode_one cp (by omega)]
    exact ⟨by decide, rfl⟩
  by_cases h2 : cp ≤ 0x07FF
  · have hs : utf8_codepoint_size cp = 2 := by
      unfold utf8_codepoint_size; rw [if_neg h1, if_pos h2]
    rw [hs] at ho hb ⊢
    have e6b : (cp >>> 6) &&& 0x1f = cp / 64 % 32 := by
      rw [m5, shift_and_mask]; rfl
    unfold utf8_codepoint_encode
    simp only [hs]
    rw [if_neg (by omega), if_neg (by decide), if_pos trivial]
    simp only [Nat.zero_add, e0, e6b]
    rw [list_take_two _ _ _ hb, (lead2_byte_spec _ (Nat.mod_lt _ (by decide))).1,
      (cont_byte_spec _ (Nat.mod_lt _ (by decide))).1,
      decode_two _ _ (by omega) (Nat.mod_lt _ (by decide)) (Nat.mod_lt _ (by decide))]
    refine ⟨by decide, ?_⟩
    congr 1
    omega
  by_cases h3 : cp ≤ 0xFFFF
  · have hs : utf8_codepoint_size cp = 3 := by
      unfold utf8_codepoint_size; rw [if_neg h1, if_neg h2, if_pos h3]
    rw [hs] at ho hb ⊢
    have e12b : (cp >>> 12) &&& 0x0f = cp / 4096 % 16 := by
      rw [m4, shift_and_mask]; rfl
    unfold utf8_codepoint_encode
    simp only [hs]
    rw [if_neg (by omega), if_neg (by decide), if_neg (by decide), if_pos trivial]
    simp only [Nat.zero_add, e0, e6, e12b]
    rw [list_take_three _ _ _ _ hb, (lead3_byte_spec _ (Nat.mod_lt _ (by decide))).1,
      (cont_byte_spec _ (Nat.mod_lt _ (by decide))).1,
      (cont_byte_spec _ (Nat.mod_lt _ (by decide))).1,
      decode_three _ _ _ (Nat.mod_lt _ (by decide)) (Nat.mod_lt _ (by decide))
        (Nat.mod_lt _ (by decide))]
    refine ⟨by decide, ?_⟩
    congr 1
    omega
  · have hs : utf8_codepoint_size cp = 4 := by
      unfold utf8_codepoint_size; rw [if_neg h1, if_neg h2, if_neg h3, if_pos hcp]
    rw [hs] at ho hb ⊢
    have e18 : (cp >>> 18) &&& 0x07 = cp / 262144 % 8 := by
      rw [m3, shift_and_mask]; rfl
    unfold utf8_codepoint_encode
    simp only [hs]
    rw [if_neg (by omega), if_neg (by decide), if_neg (by decide), if_neg (by decide),
      if_pos trivial]
    simp only [Nat.zero_add, e0, e6, e12, e18]
    rw [list_take_four _ _ _ _ _ hb, (lead4_byte_spec _ (Nat.mod_lt _ (by decide))).1,
      (cont_byte_spec _ (Nat.mod_lt _ (by decide))).1,
      (cont_byte_spec _ (Nat.mod_lt _ (by decide))).1,
      (cont_byte_spec _ (Nat.mod_lt _ (by decide))).1,
      decode_four _ _ _ _ (by omega) (Nat.mod_lt _ (by decide)) (Nat.mod_lt _ (by decide))
        (Nat.mod_lt _ (by decide))]
    refine ⟨by decide, ?_⟩
    congr 1
    omega

/-- C38: the round trip fails for U+007F.  `utf8_codepoint_encode` writes the
single byte `7F` and returns 1; `utf8_codepoint_decode` on that byte returns
the replacement character U+FFFD and reports the size 3, although `utf8_valid`
accepts the byte. -/
theorem utf8_codepoint_round_trip_fails_at_del :
    utf8_codepoint_encode 0x7f 1 [0] 0 = (1, [0x7f]) ∧
      utf8_codepoint_decode [0x7f] = (ENCODING_CODEPOINT_ERROR, 3) ∧
      utf8_valid 1 (some [0x7f]) = some true := by
  decide

/-! ## How the model treats a tactic that was tried without changing bits -/

theorem adjust_flags (m : autoshrink_model) (w mn mx : Nat) (a : Int) :
    (adjust m w mn mx a).cur_set = m.cur_set ∧ (adjust m w mn mx a).cur_tried = m.cur_tried ∧
      (adjust m w mn mx a).weights.length = m.weights.length := by
  have key : ∀ nv : Nat,
      (if nv ≠ 0 then
          ({ m with weights :=
              m.weights.set w (if nv > mx then mx else if nv < mn then mn else nv) } :
            autoshrink_model)
        else m).cur_set = m.cur_set ∧
      (if nv ≠ 0 then
          ({ m with weights :=
              m.weights.set w (if nv > mx then mx else if nv < mn then mn else nv) } :
            autoshrink_model)
        else m).cur_tried = m.cur_tried ∧
      (if nv ≠ 0 then
          ({ m with weights :=
              m.weights.set w (if nv > mx then mx else if nv < mn then mn else nv) } :
            autoshrink_model)
        else m).weights.length = m.weights.length := by
    intro nv
    by_cases hnv : nv ≠ 0
    · simp only [if_pos hnv, List.length_set, and_self]
    · simp only [if_neg hnv, and_self]
  exact key _

theorem adjust_other (m : autoshrink_model) (w mn mx : Nat) (a : Int) (j : Nat) (hj : j ≠ w) :
    (adjust m w mn mx a).weights.getD j 0 = m.weights.getD j 0 := by
  have key : ∀ nv : Nat,
      (if nv ≠ 0 then
          ({ m with weights :=
              m.weights.set w (if nv > mx then mx else if nv < mn then mn else nv) } :
            autoshrink_model)
        else m).weights.getD j 0 = m.weights.getD j 0 := by
    intro nv
    by_cases hnv : nv ≠ 0
    · simp only [if_pos hnv, List.getD_eq_getElem?_getD]
      rw [List.getElem?_set_ne (fun e => hj e.symm)]
    · simp only [if_neg hnv]
  exact key _

theorem adjust_tried_only (m : autoshrink_model) (w mn mx : Nat) (a : Int)
    (hset : m.cur_set &&& (1 <<< w) = 0) (htried : m.cur_tried &&& (1 <<< w) ≠ 0)
    (hlen : w < m.weights.length) :
    (adjust m w mn mx a).weights.getD w 0 =
      if 0 < a ∧ (((m.weights.getD w 0 : Int) - a) % 256).toNat ≠ 0 then
        (if (((m.weights.getD w 0 : Int) - a) % 256).toNat > mx then mx
          else if (((m.weights.getD w 0 : Int) - a) % 256).toNat < mn then mn
          else (((m.weights.getD w 0 : Int) - a) % 256).toNat)
      else m.weights.getD w 0 := by
  unfold adjust
  simp only [hset, ne_eq, not_true_eq_false, if_false, htried, not_false_eq_true, true_and, gt_iff_lt]
  by_cases ha : 0 < a
  · simp only [ha, if_true, true_and]
    by_cases hnv : (((m.weights.getD w 0 : Int) - a) % 256).toNat = 0
    · simp only [hnv, not_true_eq_false, if_false]
    · simp only [hnv, not_false_eq_true, if_true]
      rw [List.getD_eq_getElem?_getD, List.getElem?_set_self hlen]
      rfl
  · simp only [ha, if_false, false_and, not_true_eq_false]

theorem getD_pos_lt (l : List Nat) (i : Nat) (h : 0 < l.getD i 0) : i < l.length := by
  by_contra hn
  rw [List.getD_eq_default _ _ (by omega)] at h
  exact absurd h (by decide)

theorem adjust_chain_weight (m : autoshrink_model) (a : Int) (w : Nat) (hw : w ≤ 4) :
    ∃ m0, m0.cur_set = m.cur_set ∧ m0.cur_tried = m.cur_tried ∧
      m0.weights.length = m.weights.length ∧ m0.weights.getD w 0 = m.weights.getD w 0 ∧
      (adjust (adjust (adjust (adjust (adjust m WEIGHT_DROP DROPS_MIN DROPS_MAX a)
        WEIGHT_SHIFT MODEL_MIN MODEL_MAX a) WEIGHT_MASK MODEL_MIN MODEL_MAX a)
        WEIGHT_SWAP MODEL_MIN MODEL_MAX a) WEIGHT_SUB MODEL_MIN MODEL_MAX a).weights.getD w 0 =
      (adjust m0 w (if w = WEIGHT_DROP then DROPS_MIN else MODEL_MIN)
        (if w = WEIGHT_DROP then DROPS_MAX else MODEL_MAX) a).weights.getD w 0 := by
  have f := adjust_flags
  have o := adjust_other
  interval_cases w
  · refine ⟨m, rfl, rfl, rfl, rfl, ?_⟩
    rw [o _ _ _ _ _ 0 (by decide), o _ _ _ _ _ 0 (by decide), o _ _ _ _ _ 0 (by decide),
      o _ _ _ _ _ 0 (by decide)]
    rfl
  · refine ⟨adjust m WEIGHT_DROP DROPS_MIN DROPS_MAX a, (f _ _ _ _ _).1, (f _ _ _ _ _).2.1,
      (f _ _ _ _ _).2.2, o _ _ _ _ _ 1 (by decide), ?_⟩
    rw [o _ _ _ _ _ 1 (by decide), o _ _ _ _ _ 1 (by decide), o _ _ _ _ _ 1 (by decide)]
    rfl
  · refine ⟨adjust (adjust m WEIGHT_DROP DROPS_MIN DROPS_MAX a) WEIGHT_SHIFT MODEL_MIN MODEL_MAX a,
      ?_, ?_, ?_, ?_, ?_⟩
    · rw [(f _ _ _ _ _).1, (f _ _ _ _ _).1]
    · rw [(f _ _ _ _ _).2.1, (f _ _ _ _ _).2.1]
    · rw [(f _ _ _ _ _).2.2, (f _ _ _ _ _).2.2]
    · rw [o _ _ _ _ _ 2 (by decide), o _ _ _ _ _ 2 (by decide)]
    · rw [o _ _ _ _ _ 2 (by decide), o _ _ _ _ _ 2 (by decide)]
      rfl
  · refine ⟨adjust (adjust (adjust m WEIGHT_DROP DROPS_MIN DROPS_MAX a) WEIGHT_SHIFT MODEL_MIN
      MODEL_MAX a) WEIGHT_MASK MODEL_MIN MODEL_MAX a, ?_, ?_, ?_, ?_, ?_⟩
    · rw [(f _ _ _ _ _).1, (f _ _ _ _ _).1, (f _ _ _ _ _).1]
    · rw [(f _ _ _ _ _).2.1, (f _ _ _ _ _).2.1, (f _ _ _ _ _).2.1]
    · rw [(f _ _ _ _ _).2.2, (f _ _ _ _ _).2.2, (f _ _ _ _ _).2.2]
    · rw [o _ _ _ _ _ 3 (by decide), o _ _ _ _ _ 3 (by decide), o _ _ _ _ _ 3 (by decide)]
    · rw [o _ _ _ _ _ 3 (by decide)]
      rfl
  · refine ⟨adjust (adjust (adjust (adjust m WEIGHT_DROP DROPS_MIN DROPS_MAX a) WEIGHT_SHIFT
      MODEL_MIN MODEL_MAX a) WEIGHT_MASK MODEL_MIN MODEL_MAX a) WEIGHT_SWAP MODEL_MIN MODEL_MAX a,
      ?_, ?_, ?_, ?_, ?_⟩
    · rw [(f _ _ _ _ _).1, (f _ _ _ _ _).1, (f _ _ _ _ _).1, (f _ _ _ _ _).1]
    · rw [(f _ _ _ _ _).2.1, (f _ _ _ _ _).2.1, (f _ _ _ _ _).2.1, (f _ _ _ _ _).2.1]
    · rw [(f _ _ _ _ _).2.2, (f _ _ _ _ _).2.2, (f _ _ _ _ _).2.2, (f _ _ _ _ _).2.2]
    · rw [o _ _ _ _ _ 4 (by decide), o _ _ _ _ _ 4 (by decide), o _ _ _ _ _ 4 (by decide),
        o _ _ _ _ _ 4 (by decide)]
    · rfl

theorem weights_in_bounds_at (m : autoshrink_model) (h : weights_in_bounds m) (w : Nat)
    (hw : w ≤ 4) :
    (if w = WEIGHT_DROP then DROPS_MIN else MODEL_MIN) ≤ m.weights.getD w 0 ∧
      m.weights.getD w 0 ≤ (if w = WEIGHT_DROP then DROPS_MAX else MODEL_MAX) := by
  obtain ⟨h0, h1, h2, h3, h4⟩ := h
  interval_cases w
  · exact h0
  · exact h1
  · exact h2
  · exact h3
  · exact h4

/-- C37: a tactic that was tried without changing bits (its flag is in
`cur_tried` and not in `cur_set`, while another tactic did change bits) has its
weight lowered by `fuzz_autoshrink_update_model` when the trial failed: for an
adjustment of 1 to 8 (the engine passes 3 and 8) and weights within their
bounds the new weight is the old one less the adjustment, but not less than the
minimum of the tactic.  For every other trial result the weight stays as it
is. -/
theorem update_model_lowers_idle_tactic_on_failure (env : autoshrink_env) (adjustment w : Nat)
    (hw : w ≤ 4) (hb : weights_in_bounds env.model) (hset0 : env.model.cur_set ≠ 0)
    (hset : env.model.cur_set &&& (1 <<< w) = 0) (htried : env.model.cur_tried &&& (1 <<< w) ≠ 0)
    (ha : 0 < adjustment) (ha8 : adjustment ≤ 8) :
    (fuzz_autoshrink_update_model env FUZZ_RESULT_FAIL adjustment).model.weights.getD w 0 =
        max (env.model.weights.getD w 0 - adjustment)
          (if w = WEIGHT_DROP then DROPS_MIN else MODEL_MIN) ∧
      ∀ res, res ≠ FUZZ_RESULT_FAIL →
        (fuzz_autoshrink_update_model env res adjustment).model.weights.getD w 0 =
          env.model.weights.getD w 0 := by
  obtain ⟨b1, b2⟩ := weights_in_bounds_at env.model hb w hw
  have hmin : 8 ≤ (if w = WEIGHT_DROP then DROPS_MIN else MODEL_MIN) := by
    split <;> decide
  have hmax : (if w = WEIGHT_DROP then DROPS_MAX else MODEL_MAX) ≤ 160 := by
    split <;> decide
  have hlen : w < env.model.weights.length := getD_pos_lt _ _ (by omega)
  have main : ∀ a : Int,
      (adjust (adjust (adjust (adjust (adjust env.model WEIGHT_DROP DROPS_MIN DROPS_MAX a)
        WEIGHT_SHIFT MODEL_MIN MODEL_MAX a) WEIGHT_MASK MODEL_MIN MODEL_MAX a)
        WEIGHT_SWAP MODEL_MIN MODEL_MAX a) WEIGHT_SUB MODEL_MIN MODEL_MAX a).weights.getD w 0 =
      if 0 < a ∧ (((env.model.weights.getD w 0 : Int) - a) % 256).toNat ≠ 0 then
        (if (((env.model.weights.getD w 0 : Int) - a) % 256).toNat >
            (if w = WEIGHT_DROP then DROPS_MAX else MODEL_MAX) then
            (if w = WEIGHT_DROP then DROPS_MAX else MODEL_MAX)
          else if (((env.model.weights.getD w 0 : Int) - a) % 256).toNat <
              (if w = WEIGHT_DROP then DROPS_MIN else MODEL_MIN) then
            (if w = WEIGHT_DROP then DROPS_MIN else MODEL_MIN)
          else (((env.model.weights.getD w 0 : Int) - a) % 256).toNat)
      else env.model.weights.getD w 0 := by
    intro a
    obtain ⟨m0, e1, e2, e3, e4, e5⟩ := adjust_chain_weight env.model a w hw
    rw [e5, adjust_tried_only m0 w _ _ a (by rw [e1]; exact hset) (by rw [e2]; exact htried)
      (by rw [e3]; exact hlen), e4]
  constructor
  · unfold fuzz_autoshrink_update_model
    rw [if_neg hset0]
    simp only [if_true]
    rw [main]
    have e : to_int8 (adjustment % 256) = (adjustment : Int) := by
      unfold to_int8
      rw [if_neg (by omega)]
      omega
    rw [e]
    generalize env.model.weights.getD w 0 = x at b1 b2 ⊢
    generalize (if w = WEIGHT_DROP then DROPS_MIN else MODEL_MIN) = mn at b1 hmin ⊢
    generalize (if w = WEIGHT_DROP then DROPS_MAX else MODEL_MAX) = mx at b2 hmax ⊢
    have e2 : (((x : Int) - adjustment) % 256).toNat = x - adjustment := by omega
    rw [e2]
    split
    · split
      · omega
      · split
        · omega
        · omega
    · omega
  · intro res hres
    unfold fuzz_autoshrink_update_model
    rw [if_neg hset0]
    simp only [if_neg hres]
    rw [main]
    have e : ¬ (0 < to_int8 ((256 - adjustment % 256) % 256)) := by
      unfold to_int8
      rw [if_pos (by omega)]
      omega
    rw [if_neg (fun h => e h.1)]

theorem update_model_lowers_idle_tactic_on_failure_witness :
    (fuzz_autoshrink_update_model
        { fuzz_autoshrink_alloc_env 0 (byte_type_info true) with
          model := { cur_tried := 0x06, cur_set := 0x04, next_action := 0,
                     weights := [0x80, 0x40, 0x40, 0x30, 0x40] } }
        FUZZ_RESULT_FAIL 8).model.weights.getD WEIGHT_SHIFT 0 =
        max (0x40 - 8) (if WEIGHT_SHIFT = WEIGHT_DROP then DROPS_MIN else MODEL_MIN) ∧
      ∀ res, res ≠ FUZZ_RESULT_FAIL →
        (fuzz_autoshrink_update_model
          { fuzz_autoshrink_alloc_env 0 (byte_type_info true) with
            model := { cur_tried := 0x06, cur_set := 0x04, next_action := 0,
                       weights := [0x80, 0x40, 0x40, 0x30, 0x40] } }
          res 8).model.weights.getD WEIGHT_SHIFT 0 = 0x40 :=
  update_model_lowers_idle_tactic_on_failure
    { fuzz_autoshrink_alloc_env 0 (byte_type_info true) with
      model := { cur_tried := 0x06, cur_set := 0x04, next_action := 0,
                 weights := [0x80, 0x40, 0x40, 0x30, 0x40] } }
    8 WEIGHT_SHIFT (by decide) (by decide) (by decide) (by decide) (by decide) (by decide)
    (by decide)

/-- C37, counterexample: shift was tried without changing bits while mask
changed bits, and the trial passed.  `fuzz_autoshrink_update_model` leaves the
weight of shift at `0x40` (it lowers the weight of mask, the tactic that did
change bits); and when no tactic changed bits it changes no weight, whatever
the result. -/
theorem idle_tactic_keeps_weight_when_trial_passes :
    (fuzz_autoshrink_update_model
        { fuzz_autoshrink_alloc_env 0 (byte_type_info true) with
          model := { cur_tried := ASA_SHIFT ||| ASA_MASK, cur_set := ASA_MASK, next_action := 0,
                     weights := [0x80, 0x40, 0x40, 0x30, 0x40] } }
        FUZZ_RESULT_OK 8).model.weights = [0x80, 0x40, 0x38, 0x30, 0x40] ∧
      (fuzz_autoshrink_update_model
        { fuzz_autoshrink_alloc_env 0 (byte_type_info true) with
          model := { cur_tried := ASA_SHIFT, cur_set := 0, next_action := 0,
                     weights := [0x80, 0x40, 0x40, 0x30, 0x40] } }
        FUZZ_RESULT_FAIL 8).model.weights = [0x80, 0x40, 0x40, 0x30, 0x40] := by
  decide

/-! ## Values drawn without a bit pool -/

theorem get_random_mask_eq (t : Nat) (ht : t ≤ 64) : get_random_mask t = 2 ^ t - 1 := by
  unfold get_random_mask
  by_cases h : t = 64
  · rw [if_pos h, h]
  · rw [if_neg h, one_shiftLeft_mod t (by omega)]

theorem bulk_loop_zero_rem (fuel shift offset : Nat) (p : prng_info) (buf : List Nat) :
    fuzz_random_bits_bulk_loop fuel 0 shift offset p buf = (p, buf) := by
  cases fuel with
  | zero => rfl
  | succ f =>
    simp only [fuzz_random_bits_bulk_loop]
    rw [if_neg (by omega)]

theorem bulk_loop_lt :
    ∀ (fuel rem shift : Nat) (p : prng_info) (acc : Nat), shift + rem ≤ 64 →
      acc < 2 ^ (shift + rem) →
      (fuzz_random_bits_bulk_loop fuel rem shift 0 p [acc]).2.getD 0 0 < 2 ^ (shift + rem) := by
  intro fuel
  induction fuel with
  | zero => intro rem shift p acc _ h; exact h
  | succ f ih =>
    intro rem shift p acc hsr hacc
    simp only [fuzz_random_bits_bulk_loop]
    by_cases hr : rem > 0
    · rw [if_pos hr]
      generalize hp1 : (if p.bits_available = 0 then
          ({ p with buf := (fuzz_rng_random p.rng).1, rng := (fuzz_rng_random p.rng).2,
                    bits_available := 64 } : prng_info)
        else p) = p1
      generalize ht : (if (if 64 - shift > rem then rem else 64 - shift) > p1.bits_available
          then p1.bits_available else (if 64 - shift > rem then rem else 64 - shift)) = take
      have ht1 : take ≤ rem ∧ take ≤ 64 - shift := by
        rw [← ht]
        split <;> split <;> omega
      have hm : get_random_mask take = 2 ^ take - 1 := get_random_mask_eq take (by omega)
      have hacc1 : (acc ||| ((p1.buf &&& get_random_mask take) <<< shift)) % 2 ^ 64 <
          2 ^ (shift + rem) := by
        refine lt_of_le_of_lt (Nat.mod_le _ _) (Nat.or_lt_two_pow hacc ?_)
        rw [hm, Nat.and_pow_two_sub_one_eq_mod, Nat.shiftLeft_eq]
        have h1 : p1.buf % 2 ^ take < 2 ^ take := Nat.mod_lt _ (Nat.two_pow_pos _)
        have h2 : p1.buf % 2 ^ take * 2 ^ shift < 2 ^ take * 2 ^ shift :=
          Nat.mul_lt_mul_of_pos_right h1 (Nat.two_pow_pos _)
        rw [← Nat.pow_add] at h2
        exact lt_of_lt_of_le h2 (Nat.pow_le_pow_right (by decide) (by omega))
      simp only [List.set_cons_zero, List.getD_cons_zero]
      by_cases h64 : shift + take = 64
      · rw [if_pos h64, if_pos h64]
        have e : rem - take = 0 := by omega
        rw [e, bulk_loop_zero_rem]
        exact hacc1
      · rw [if_neg h64, if_neg h64]
        have e : shift + take + (rem - take) = shift + rem := by omega
        rw [← e]
        apply ih
        · omega
        · rw [e]; exact hacc1
    · rw [if_neg hr]
      exact hacc

/-- Without an injected pool `fuzz_random_bits` returns, the value has no bit
at or above the width asked for, and the source still has no pool. -/
theorem fuzz_random_bits_some (p : prng_info) (n : Nat) (hp : p.bit_pool = none) :
    ∃ v p1, fuzz_random_bits p n = some (v, p1) ∧ p1.bit_pool = none ∧ (n ≤ 64 → v < 2 ^ n) := by
  refine ⟨(fuzz_random_bits_bulk_loop n n 0 0 p [0]).2.getD 0 0,
    (fuzz_random_bits_bulk_loop n n 0 0 p [0]).1, ?_, ?_, ?_⟩
  · simp only [fuzz_random_bits, fuzz_random_bits_bulk, hp]
  · exact fuzz_random_bits_bulk_loop_pool n n 0 0 p [0] hp
  · intro hn
    have := bulk_loop_lt n n 0 p 0 (by omega) (Nat.two_pow_pos _)
    rw [Nat.zero_add] at this
    exact this

theorem rng_stream_succ (r : fuzz_rng) (j : Nat) :
    rng_stream r (64 + j) = rng_stream (fuzz_rng_random r).2 j := by
  unfold rng_stream
  have e1 : (64 + j) / 64 = j / 64 + 1 := by omega
  have e2 : (64 + j) % 64 = j % 64 := by omega
  rw [e1, e2]
  rfl

theorem source_stream_refill (p : prng_info) (h0 : p.bits_available = 0) (j : Nat) :
    source_stream
        { p with buf := (fuzz_rng_random p.rng).1, rng := (fuzz_rng_random p.rng).2,
                 bits_available := 64 } j = source_stream p j := by
  unfold source_stream
  simp only [h0, Nat.not_lt_zero, if_false, Nat.sub_zero]
  by_cases hj : j < 64
  · rw [if_pos hj]
    unfold rng_stream
    have e1 : j / 64 = 0 := by omega
    have e2 : j % 64 = j := by omega
    rw [e1, e2]
    rfl
  · rw [if_neg hj]
    have e : j = 64 + (j - 64) := by omega
    conv => rhs; rw [e]
    rw [rng_stream_succ]

theorem source_stream_take (p1 : prng_info) (take j : Nat) (ht : take ≤ p1.bits_available)
    (ha : p1.bits_available ≤ 64) :
    source_stream
        { p1 with bits_available := p1.bits_available - take,
                  buf := if take = 64 then 0 else p1.buf >>> take } j =
      source_stream p1 (take + j) := by
  unfold source_stream
  simp only
  by_cases hj : j < p1.bits_available - take
  · rw [if_pos hj, if_neg (show ¬ take = 64 by omega),
      if_pos (show take + j < p1.bits_available by omega), Nat.testBit_shiftRight]
  · rw [if_neg hj, if_neg (by omega)]
    congr 1
    omega

theorem bulk_loop_stream :
    ∀ (fuel rem shift : Nat) (p : prng_info) (acc : Nat), p.bit_pool = none →
      p.bits_available ≤ 64 → shift + rem ≤ 64 → rem ≤ fuel →
      (∀ j, shift ≤ j → acc.testBit j = false) →
      (fuzz_random_bits_bulk_loop fuel rem shift 0 p [acc]).1.bit_pool = none ∧
      (fuzz_random_bits_bulk_loop fuel rem shift 0 p [acc]).1.bits_available ≤ 64 ∧
      (∀ j, ((fuzz_random_bits_bulk_loop fuel rem shift 0 p [acc]).2.getD 0 0).testBit j =
        if j < shift then acc.testBit j
        else (decide (j < shift + rem) && source_stream p (j - shift))) ∧
      (∀ j, source_stream (fuzz_random_bits_bulk_loop fuel rem shift 0 p [acc]).1 j =
        source_stream p (rem + j)) := by
  intro fuel
  induction fuel with
  | zero =>
    intro rem shift p acc hp ha _ hrf hacc
    have e : rem = 0 := by omega
    subst e
    refine ⟨hp, ha, fun j => ?_, fun j => by rw [Nat.zero_add]; rfl⟩
    simp only [fuzz_random_bits_bulk_loop, List.getD_cons_zero]
    by_cases hj : j < shift
    · rw [if_pos hj]
    · rw [if_neg hj, hacc j (by omega)]
      simp [hj]
  | succ f ih =>
    intro rem shift p acc hp ha hsr hrf hacc
    by_cases hr : rem > 0
    · simp only [fuzz_random_bits_bulk_loop]
      rw [if_pos hr]
      have hrefill : ∃ p1 : prng_info, (if p.bits_available = 0 then
          ({ p with buf := (fuzz_rng_random p.rng).1, rng := (fuzz_rng_random p.rng).2,
                    bits_available := 64 } : prng_info)
        else p) = p1 ∧ p1.bit_pool = none ∧ 0 < p1.bits_available ∧ p1.bits_available ≤ 64 ∧
          ∀ j, source_stream p1 j = source_stream p j := by
        by_cases h0 : p.bits_available = 0
        · rw [if_pos h0]
          exact ⟨_, rfl, hp, Nat.succ_pos 63, le_refl _, source_stream_refill p h0⟩
        · rw [if_neg h0]
          exact ⟨p, rfl, hp, by omega, ha, fun _ => rfl⟩
      obtain ⟨p1, hp1, hq1, hq2, hq3, hq4⟩ := hrefill
      rw [hp1]
      generalize ht : (if (if 64 - shift > rem then rem else 64 - shift) > p1.bits_available
          then p1.bits_available else (if 64 - shift > rem then rem else 64 - shift)) = take
      have ht1 : take ≤ rem ∧ take ≤ 64 - shift ∧ take ≤ p1.bits_available ∧ 0 < take := by
        rw [← ht]
        split <;> split <;> omega
      obtain ⟨t1, t2, t3, t4⟩ := ht1
      have hm : get_random_mask take = 2 ^ take - 1 := get_random_mask_eq take (by omega)
      have hbit : ∀ j, ((acc ||| ((p1.buf &&& get_random_mask take) <<< shift)) % 2 ^ 64).testBit j
          = if j < shift then acc.testBit j
            else (decide (j < shift + take) && source_stream p (j - shift)) := by
        intro j
        rw [Nat.testBit_mod_two_pow, Nat.testBit_or, Nat.testBit_shiftLeft, Nat.testBit_and, hm,
          Nat.testBit_two_pow_sub_one]
        by_cases hj : j < shift
        · rw [if_pos hj]
          have hj2 : ¬ j ≥ shift := by omega
          have hj3 : j < 64 := by omega
          simp [hj2, hj3]
        · rw [if_neg hj, hacc j (by omega)]
          have hj2 : j ≥ shift := by omega
          by_cases hj3 : j < shift + take
          · have hj4 : j - shift < take := by omega
            have hj5 : j < 64 := by omega
            have hs : source_stream p (j - shift) = p1.buf.testBit (j - shift) := by
              rw [← hq4]
              unfold source_stream
              rw [if_pos (by omega)]
            simp [hj2, hj3, hj4, hj5, hs]
          · have hj4 : ¬ j - shift < take := by omega
            simp [hj3, hj4]
      have hstream := fun j => (source_stream_take p1 take j t3 hq3).trans (hq4 (take + j))
      simp only [List.set_cons_zero]
      by_cases h64 : shift + take = 64
      · rw [if_pos h64, if_pos h64]
        have e : rem - take = 0 := by omega
        rw [e, bulk_loop_zero_rem]
        have e2 : rem = take := by omega
        subst e2
        refine ⟨hq1, by simp only; omega, fun j => ?_, hstream⟩
        simp only [List.getD_cons_zero]
        exact hbit j
      · rw [if_neg h64, if_neg h64]
        obtain ⟨i1, i2, i3, i4⟩ := ih (rem - take) (shift + take)
          { p1 with bits_available := p1.bits_available - take,
                    buf := if take = 64 then 0 else p1.buf >>> take }
          ((acc ||| ((p1.buf &&& get_random_mask take) <<< shift)) % 2 ^ 64) hq1
          (by simp only; omega) (by omega) (by omega)
          (fun j hj => by rw [hbit j, if_neg (by omega)]; simp [show ¬ j < shift + take by omega])
        refine ⟨i1, i2, fun j => ?_, fun j => ?_⟩
        · refine (i3 j).trans ?_
          by_cases hj : j < shift + take
          · rw [if_pos hj, hbit j]
            by_cases hj2 : j < shift
            · rw [if_pos hj2, if_pos hj2]
            · rw [if_neg hj2, if_neg hj2]
              simp [hj, show j < shift + rem by omega]
          · rw [if_neg hj, if_neg (show ¬ j < shift by omega)]
            have e1 : shift + take + (rem - take) = shift + rem := by omega
            have e2 : take + (j - (shift + take)) = j - shift := by omega
            have hs := hstream (j - (shift + take))
            rw [e2] at hs
            rw [e1]
            exact congrArg (fun b => decide (j < shift + rem) && b) hs
        · refine (i4 j).trans ((hstream _).trans ?_)
          congr 1
          omega
    · have e : rem = 0 := by omega
      subst e
      rw [bulk_loop_zero_rem]
      refine ⟨hp, ha, fun j => ?_, fun j => by rw [Nat.zero_add]⟩
      simp only [List.getD_cons_zero]
      by_cases hj : j < shift
      · rw [if_pos hj]
      · rw [if_neg hj, hacc j (by omega)]
        simp [hj]

/-- One request served without a pool: the value is made of the next `n` bits
of the source, and the source moves on by `n` bits. -/
theorem fuzz_random_bits_stream (p : prng_info) (n : Nat) (hp : p.bit_pool = none)
    (ha : p.bits_available ≤ 64) (hn : n ≤ 64) :
    ∃ v p1, fuzz_random_bits p n = some (v, p1) ∧ p1.bit_pool = none ∧
      p1.bits_available ≤ 64 ∧ (∀ j, v.testBit j = (decide (j < n) && source_stream p j)) ∧
      ∀ j, source_stream p1 j = source_stream p (n + j) := by
  obtain ⟨h1, h2, h3, h4⟩ := bulk_loop_stream n n 0 p 0 hp ha (by omega) (le_refl _)
    (fun j _ => Nat.zero_testBit j)
  refine ⟨(fuzz_random_bits_bulk_loop n n 0 0 p [0]).2.getD 0 0,
    (fuzz_random_bits_bulk_loop n n 0 0 p [0]).1, ?_, h1, h2, fun j => ?_, h4⟩
  · simp only [fuzz_random_bits, fuzz_random_bits_bulk, hp]
  · rw [h3 j, if_neg (Nat.not_lt_zero j), Nat.zero_add, Nat.sub_zero]

/-! ## Values drawn through a recording pool -/

theorem fuzz_rng_after_succ (r : fuzz_rng) : ∀ k,
    fuzz_rng_after r (k + 1) = (fuzz_rng_random (fuzz_rng_after r k)).2 := by
  intro k
  induction k generalizing r with
  | zero => rfl
  | succ k ih =>
    show fuzz_rng_after (fuzz_rng_random r).2 (k + 1) = _
    rw [ih]
    rfl

theorem bit_at_append_left (a b : List Nat) (q : Nat) (hq : q < 8 * a.length) :
    bit_at (a ++ b) q = bit_at a q := by
  unfold bit_at
  rw [List.getD_eq_getElem?_getD, List.getD_eq_getElem?_getD,
    List.getElem?_append_left (by omega)]

theorem store_u64_spec (bits : List Nat) (w v : Nat) (h : 8 * w + 8 ≤ bits.length) :
    (store_u64 bits w v).length = bits.length ∧
      ∀ q, bit_at (store_u64 bits w v) q =
        if q / 64 = w then v.testBit (q % 64) else bit_at bits q := by
  have hr : List.range 8 = [0, 1, 2, 3, 4, 5, 6, 7] := by decide
  have h256 : (256 : Nat) = 2 ^ 8 := by norm_num
  simp only [store_u64, hr, List.foldl]
  refine ⟨by simp, fun q => ?_⟩
  have hq8 : q % 8 < 8 := Nat.mod_lt _ (by decide)
  rw [bit_at_set _ _ _ _ (by simp; omega), bit_at_set _ _ _ _ (by simp; omega),
    bit_at_set _ _ _ _ (by simp; omega), bit_at_set _ _ _ _ (by simp; omega),
    bit_at_set _ _ _ _ (by simp; omega), bit_at_set _ _ _ _ (by simp; omega),
    bit_at_set _ _ _ _ (by simp; omega), bit_at_set _ _ _ _ (by omega)]
  simp only [h256, Nat.testBit_mod_two_pow, Nat.testBit_shiftRight, hq8, decide_True,
    Bool.true_and]
  by_cases hw : q / 64 = w
  · rw [if_pos hw]
    have ha : (q % 64) / 8 < 8 := by omega
    have hq : q / 8 = 8 * w + (q % 64) / 8 := by omega
    have hb : q % 64 = 8 * ((q % 64) / 8) + q % 8 := by omega
    generalize (q % 64) / 8 = a at ha hq hb
    rw [hq, hb]
    interval_cases a <;> simp
  · rw [if_neg hw]
    repeat rw [if_neg (by omega)]

theorem lazily_fill_grow_stream (n : Nat) :
    ∀ (fuel : Nat) (pool pool1 : autoshrink_bit_pool),
      lazily_fill_grow fuel pool n = some pool1 → pool.bits_ceil % 64 = 0 →
      pool.bits_ceil ≤ 8 * pool.bits.length →
      pool1.bits_ceil ≤ 8 * pool1.bits.length ∧
        ∀ q, q < 8 * pool.bits.length → bit_at pool1.bits q = bit_at pool.bits q := by
  intro fuel
  induction fuel with
  | zero =>
    intro pool pool1 h _ hl
    simp only [lazily_fill_grow] at h
    split at h
    · exact absurd h (by simp)
    · injection h with h
      subst h
      exact ⟨hl, fun _ _ => rfl⟩
  | succ fuel ih =>
    intro pool pool1 h h64 hl
    simp only [lazily_fill_grow] at h
    split at h
    · obtain ⟨a1, a2⟩ := ih _ _ h (by simp only; omega)
        (by simp only [List.length_append, List.length_replicate]; omega)
      refine ⟨a1, fun q hq => ?_⟩
      rw [a2 q (by simp only [List.length_append, List.length_replicate]; omega)]
      exact bit_at_append_left _ _ _ hq
    · injection h with h
      subst h
      exact ⟨hl, fun _ _ => rfl⟩

theorem lazily_fill_words_stream (rng0 : fuzz_rng) (n : Nat) :
    ∀ (fuel : Nat) (rng : fuzz_rng) (pool : autoshrink_bit_pool),
      pool.bits_filled % 64 = 0 → pool.bits_ceil % 64 = 0 → pool.bits_filled ≤ pool.bits_ceil →
      pool.consumed + n ≤ pool.bits_ceil → pool.bits_ceil ≤ 8 * pool.bits.length →
      rng = fuzz_rng_after rng0 (pool.bits_filled / 64) →
      (∀ q, q < pool.bits_filled → bit_at pool.bits q = rng_stream rng0 q) →
      (lazily_fill_words fuel rng pool n).2.bits.length = pool.bits.length ∧
        (lazily_fill_words fuel rng pool n).1 =
          fuzz_rng_after rng0 ((lazily_fill_words fuel rng pool n).2.bits_filled / 64) ∧
        ∀ q, q < (lazily_fill_words fuel rng pool n).2.bits_filled →
          bit_at (lazily_fill_words fuel rng pool n).2.bits q = rng_stream rng0 q := by
  intro fuel
  induction fuel with
  | zero =>
    intro rng pool _ _ _ _ _ hr hb
    exact ⟨rfl, hr, hb⟩
  | succ fuel ih =>
    intro rng pool h1 h2 h3 h4 h5 hr hb
    by_cases hc : pool.consumed + n > pool.bits_filled
    · simp only [lazily_fill_words, if_pos hc]
      have hroom : 8 * (pool.bits_filled / 64) + 8 ≤ pool.bits.length := by omega
      obtain ⟨s1, s2⟩ := store_u64_spec pool.bits (pool.bits_filled / 64) (fuzz_rng_random rng).1
        hroom
      obtain ⟨i1, i2, i3⟩ := ih (fuzz_rng_random rng).2
        { pool with bits := store_u64 pool.bits (pool.bits_filled / 64) (fuzz_rng_random rng).1,
                    bits_filled := pool.bits_filled + 64 }
        (by simp only; omega) h2 (by simp only; omega) h4 (by simp only; rw [s1]; exact h5)
        (by
          simp only
          rw [show (pool.bits_filled + 64) / 64 = pool.bits_filled / 64 + 1 by omega,
            fuzz_rng_after_succ, ← hr])
        (by
          intro q hq
          simp only at hq ⊢
          rw [s2 q]
          by_cases hq2 : q / 64 = pool.bits_filled / 64
          · rw [if_pos hq2]
            unfold rng_stream
            rw [hq2, ← hr]
          · rw [if_neg hq2]
            exact hb q (by omega))
      exact ⟨i1.trans s1, i2, i3⟩
    · simp only [lazily_fill_words, if_neg hc]
      exact ⟨trivial, hr, hb⟩

theorem lazily_fill_bit_pool_stream (rng0 rng : fuzz_rng) (pool : autoshrink_bit_pool) (n : Nat)
    (h : pool_holds_stream rng0 rng pool) :
    ∃ r, lazily_fill_bit_pool rng pool n = some r ∧ same_cursor pool r.2 ∧
      pool_holds_stream rng0 r.1 r.2 ∧ r.2.consumed + n ≤ r.2.bits_filled := by
  obtain ⟨hinv, hlen, hrng, hbits⟩ := h
  obtain ⟨r, hr, hsc, hinv1, hfill⟩ := lazily_fill_bit_pool_inv rng pool n hinv
  refine ⟨r, hr, hsc, ?_, hfill⟩
  obtain ⟨i1, i2, i3, i4, i5, i6, i7⟩ := hinv
  unfold lazily_fill_bit_pool at hr
  cases hg : lazily_fill_grow (pool.consumed + n) pool n with
  | none => rw [hg] at hr; cases hr
  | some pool1 =>
    rw [hg] at hr
    simp only at hr
    injection hr with hr
    subst hr
    obtain ⟨g1, ⟨c1, c2, c3, c4⟩, g3, g4, g5⟩ := lazily_fill_grow_inv n _ pool pool1 hg
    obtain ⟨k1, k2⟩ := lazily_fill_grow_stream n _ pool pool1 hg i6 hlen
    obtain ⟨w1, w2, w3⟩ := lazily_fill_words_stream rng0 n (pool1.consumed + n) rng pool1
      (by omega) (g3 i6) (by omega) g5 k1 (by rw [g1]; exact hrng)
      (fun q hq => by rw [k2 q (by omega)]; exact hbits q (by omega))
    refine ⟨hinv1, ?_, w2, w3⟩
    rw [(lazily_fill_words_same n (pool1.consumed + n) rng pool1).2, w1]
    exact k1

theorem fill_buf_testBit (pool : autoshrink_bit_pool) (n : Nat) (h1 : 1 ≤ n) (h64 : n ≤ 64)
    (j : Nat) :
    ((fill_buf pool n [0]).2.getD 0 0).testBit j =
      (decide (j < n) && bit_at pool.bits (pool.consumed + j)) := by
  have hinv0 : fill_inv pool.bits pool.consumed n 0 ([0].set 0 0) := by
    have hhi : fill_hi n 0 = 64 := by
      simp only [fill_hi]
      rw [if_pos (by omega)]
    rw [fill_inv, hhi]
    refine ⟨fun p hp => absurd hp (Nat.not_lt_zero p), ?_, ?_⟩
    · intro p _ hp
      simp only [List.set_cons_zero, word_bit]
      rw [show p / 64 = 0 by omega]
      simp
    · intro w hw
      have : w = 0 := by omega
      rw [this]
      exact Nat.two_pow_pos 64
  obtain ⟨_, ha, hb, hw⟩ := fill_buf_loop_spec pool.bits pool.consumed n n 0 ([0].set 0 0)
    (by omega) (by omega) (by simp; omega) hinv0
  have hhi : fill_hi n n = 64 := by
    simp only [fill_hi, if_neg (Nat.lt_irrefl n)]
    omega
  rw [hhi] at hb hw
  simp only [fill_buf]
  simp only [Nat.add_zero, Nat.zero_div] at ha hb hw
  by_cases hj : j < n
  · have := ha j hj
    simp only [word_bit] at this
    rw [show j / 64 = 0 by omega, show j % 64 = j by omega] at this
    rw [this]
    simp [hj]
  · by_cases hj2 : j < 64
    · have := hb j (by omega) hj2
      simp only [word_bit] at this
      rw [show j / 64 = 0 by omega, show j % 64 = j by omega] at this
      rw [this]
      simp [hj]
    · have hlt := hw 0 (by omega)
      rw [Nat.testBit_lt_two_pow (lt_of_lt_of_le hlt (Nat.pow_le_pow_right (by decide) (by omega)))]
      simp [hj]

/-- One request served through a recording pool that holds the stream: the
value is made of the stream bits from the cursor on, and the cursor moves on by
the width of the request. -/
theorem fuzz_random_bits_pool_stream (rng0 : fuzz_rng) (p : prng_info)
    (pool : autoshrink_bit_pool) (n : Nat) (hp : p.bit_pool = some pool)
    (h : pool_holds_stream rng0 p.rng pool) (hn : n ≤ 64) (hl : pool.consumed + n ≤ pool.limit) :
    ∃ v p1 pool1, fuzz_random_bits p n = some (v, p1) ∧ p1.bit_pool = some pool1 ∧
      pool_holds_stream rng0 p1.rng pool1 ∧ pool1.consumed = pool.consumed + n ∧
      pool1.limit = pool.limit ∧
      ∀ j, v.testBit j = (decide (j < n) && rng_stream rng0 (pool.consumed + j)) := by
  by_cases h0 : n = 0
  · subst h0
    refine ⟨0, { p with rng := p.rng, bit_pool := some pool }, pool, ?_, rfl, h, rfl, rfl,
      fun j => by simp⟩
    simp only [fuzz_random_bits, fuzz_random_bits_bulk, hp, fuzz_autoshrink_bit_pool_random,
      if_true]
    rfl
  · obtain ⟨⟨rng1, pool1⟩, hf, ⟨e1, e2, e3, e4⟩, hs1, hfill⟩ :=
      lazily_fill_bit_pool_stream rng0 p.rng pool n h
    simp only at e1 e2 e3 e4 hs1 hfill
    obtain ⟨⟨j1, j2, j3, j4, j5, j6, j7⟩, k1, k2, k3⟩ := hs1
    have hsh : pool.shrinking = false := h.1.1
    have hne : ¬ pool1.consumed = pool1.limit := by omega
    have hbc : (if pool1.consumed + n ≥ pool1.limit then
        (pool1.limit + 2 ^ 64 - pool1.consumed) % 2 ^ 64 % 2 ^ 32 else n) = n := by
      by_cases hge : pool1.consumed + n ≥ pool1.limit
      · rw [if_pos hge]
        have h3 : pool1.limit + 2 ^ 64 - pool1.consumed = n + 2 ^ 64 := by omega
        rw [h3, Nat.add_mod_right, Nat.mod_eq_of_lt (by omega), Nat.mod_eq_of_lt (by omega)]
      · rw [if_neg hge]
    refine ⟨((fill_buf (append_request pool1 n) n [0]).2.getD 0 0),
      { p with rng := rng1, bit_pool := some (fill_buf (append_request pool1 n) n [0]).1 },
      (fill_buf (append_request pool1 n) n [0]).1, ?_, rfl, ?_, ?_, ?_, ?_⟩
    · simp only [fuzz_random_bits, fuzz_random_bits_bulk, hp, fuzz_autoshrink_bit_pool_random,
        if_neg h0, hsh, Bool.false_eq_true, if_false, hf, if_neg hne, hbc, if_true]
    · refine ⟨⟨j1, ?_, ?_, j4, j5, j6, j7⟩, k1, k2, k3⟩
      · simp only [fill_buf, append_request]
        omega
      · simp only [fill_buf, append_request]
        omega
    · simp only [fill_buf, append_request]
      omega
    · simp only [fill_buf, append_request]
      exact e3
    · intro j
      rw [fill_buf_testBit _ n (by omega) hn j]
      by_cases hj : j < n
      · have hb := k3 (pool1.consumed + j) (by omega)
        simp only [append_request]
        rw [hb, e1]
      · simp [hj]

theorem bit_seq_agree (rng0 : fuzz_rng) :
    ∀ (ws : List Nat) (pd pp : prng_info) (pool : autoshrink_bit_pool),
      pd.bit_pool = none → pd.bits_available ≤ 64 →
      (∀ j, source_stream pd j = rng_stream rng0 (pool.consumed + j)) →
      pp.bit_pool = some pool → pool_holds_stream rng0 pp.rng pool →
      (∀ w ∈ ws, w ≤ 64) → pool.consumed + ws.sum ≤ pool.limit →
      ∃ vs, fuzz_random_bits_seq pd ws = some vs ∧ fuzz_random_bits_seq pp ws = some vs := by
  intro ws
  induction ws with
  | nil => intro _ _ _ _ _ _ _ _ _ _; exact ⟨[], rfl, rfl⟩
  | cons w ws ih =>
    intro pd pp pool hd1 hd2 hd3 hp1 hp2 hws hlim
    have hw : w ≤ 64 := hws w (List.mem_cons_self _ _)
    simp only [List.sum_cons] at hlim
    obtain ⟨v1, pd1, a1, a2, a3, a4, a5⟩ := fuzz_random_bits_stream pd w hd1 hd2 hw
    obtain ⟨v2, pp1, pool1, b1, b2, b3, b4, b5, b6⟩ :=
      fuzz_random_bits_pool_stream rng0 pp pool w hp1 hp2 hw (by omega)
    have hv : v1 = v2 := by
      apply Nat.eq_of_testBit_eq
      intro j
      rw [a4 j, b6 j, hd3 j]
    subst hv
    obtain ⟨vs, c1, c2⟩ := ih pd1 pp1 pool1 a2 a3
      (fun j => by rw [a5 j, hd3, b4]; congr 1; omega) b2 b3
      (fun x hx => hws x (List.mem_cons_of_mem _ hx)) (by rw [b4, b5]; omega)
    refine ⟨v1 :: vs, ?_, ?_⟩
    · simp only [fuzz_random_bits_seq, a1, c1]
    · simp only [fuzz_random_bits_seq, b1, c2]

theorem alloc_bit_pool_holds_stream (rng0 : fuzz_rng) (size limit request_ceil : Nat)
    (hsize : 0 < size) :
    pool_holds_stream rng0 rng0 (alloc_bit_pool size limit request_ceil) := by
  have hal : (if size % 64 ≠ 0 then size + (64 - size % 64) else size) % 64 = 0 ∧
      0 < (if size % 64 ≠ 0 then size + (64 - size % 64) else size) := by
    split <;> omega
  refine ⟨⟨rfl, Nat.zero_le _, Nat.le_refl _, Nat.zero_le _, rfl, hal.1, hal.2⟩, ?_,
    (by show rng0 = fuzz_rng_after rng0 (0 / 64); rw [Nat.zero_div]; rfl),
    fun q hq => absurd hq (Nat.not_lt_zero q)⟩
  show get_aligned_size size 64 ≤ 8 * (List.replicate (get_aligned_size size 64 / 64 * 8) 0).length
  rw [List.length_replicate]
  have : get_aligned_size size 64 % 64 = 0 := hal.1
  omega

/-- C39: recording through a bit pool is transparent.  After
`fuzz_random_set_seed`, the values `fuzz_random_bits` returns for a sequence of
requests of up to 64 bits each are the same whether the engine serves them
from its own bit buffer or through a fresh pool (`alloc_bit_pool` of a positive
size, injected with `fuzz_random_inject_autoshrink_bit_pool`) whose limit the
requests do not pass; with the default limit `DEF_POOL_LIMIT` that is every
sequence of fewer than `2 ^ 64` bits.  Both runs return. -/
theorem pool_recording_is_transparent (p : prng_info) (seed size limit request_ceil : Nat)
    (ws : List Nat) (hsize : 0 < size) (hws : ∀ w ∈ ws, w ≤ 64) (hlim : ws.sum ≤ limit) :
    ∃ vs, fuzz_random_bits_seq (fuzz_random_set_seed p seed) ws = some vs ∧
      fuzz_random_bits_seq
        (fuzz_random_inject_autoshrink_bit_pool (fuzz_random_set_seed p seed)
          (alloc_bit_pool size limit request_ceil)) ws = some vs := by
  apply bit_seq_agree (fuzz_random_set_seed p seed).rng ws _ _
    (alloc_bit_pool size limit request_ceil) rfl (Nat.zero_le _)
  · intro j
    show source_stream (fuzz_random_set_seed p seed) j = rng_stream _ (0 + j)
    rw [Nat.zero_add]
    rfl
  · rfl
  · exact alloc_bit_pool_holds_stream _ size limit request_ceil hsize
  · exact hws
  · show 0 + ws.sum ≤ limit
    omega

theorem pool_recording_is_transparent_witness :
    ∃ vs, fuzz_random_bits_seq (fuzz_random_set_seed exhausted_source 7) [3, 64, 17, 1] = some vs ∧
      fuzz_random_bits_seq
        (fuzz_random_inject_autoshrink_bit_pool (fuzz_random_set_seed exhausted_source 7)
          (alloc_bit_pool DEF_POOL_SIZE DEF_POOL_LIMIT DEF_REQUESTS_CEIL)) [3, 64, 17, 1] = some vs :=
  pool_recording_is_transparent exhausted_source 7 DEF_POOL_SIZE DEF_POOL_LIMIT DEF_REQUESTS_CEIL
    [3, 64, 17, 1] (by decide) (by decide) (by decide)

/-! ## The in-place tactics -/

theorem weighted_draw_pool (shift mask swap sub bit_count : Nat) :
    ∀ (fuel : Nat) (p : prng_info) (m : mutation) (p0 : prng_info), p.bit_pool = none →
      weighted_draw shift mask swap sub bit_count fuel p = some (m, p0) → p0.bit_pool = none := by
  intro fuel
  induction fuel with
  | zero => intro p m p0 _ h; simp [weighted_draw] at h
  | succ fuel ih =>
    intro p m p0 hp h
    obtain ⟨v, p1, h1, hp1, _⟩ := fuzz_random_bits_some p bit_count hp
    simp only [weighted_draw, h1] at h
    split at h
    · injection h with h; injection h with _ h; rw [← h]; exact hp1
    · split at h
      · injection h with h; injection h with _ h; rw [← h]; exact hp1
      · split at h
        · injection h with h; injection h with _ h; rw [← h]; exact hp1
        · split at h
          · injection h with h; injection h with _ h; rw [← h]; exact hp1
          · exact ih p1 m p0 hp1 h

theorem get_weighted_mutation_pool (fuel : Nat) (p : prng_info) (env : autoshrink_env)
    (m : mutation) (p0 : prng_info) (hp : p.bit_pool = none)
    (h : get_weighted_mutation fuel p env = some (m, p0)) : p0.bit_pool = none := by
  unfold get_weighted_mutation at h
  split at h
  · split at h
    · injection h with h; injection h with _ h; rw [← h]; exact hp
    · split at h
      · injection h with h; injection h with _ h; rw [← h]; exact hp
      · split at h
        · injection h with h; injection h with _ h; rw [← h]; exact hp
        · split at h
          · injection h with h; injection h with _ h; rw [← h]; exact hp
          · cases h
  · simp only at h
    split at h
    · exact weighted_draw_pool _ _ _ _ _ fuel p m p0 hp h
    · cases h

theorem write_step_len (c : Prop) [Decidable c] (bits : List Nat) (b x y : Nat) :
    (if c then bits.set b x else bits.set b y).length = bits.length := by
  split <;> simp

theorem write_step_frame (c : Prop) [Decidable c] (bits : List Nat) (k q : Nat) (hq : q ≠ k) :
    bit_at (if c then bits.set (k / 8) (bits.getD (k / 8) 0 ||| 2 ^ (k % 8))
        else bits.set (k / 8) (bits.getD (k / 8) 0 &&& (255 ^^^ 2 ^ (k % 8)))) q =
      bit_at bits q := by
  · by_cases hk : k / 8 < bits.length
    · by_cases hc : c
      · rw [if_pos hc]
        have := write_step_bit_at 1 bits k 0 q hk
        rw [if_pos (by decide), if_neg hq] at this
        exact this
      · rw [if_neg hc]
        have := write_step_bit_at 0 bits k 0 q hk
        rw [if_neg (by decide), if_neg hq] at this
        exact this
    · rw [List.set_eq_of_length_le (by omega), List.set_eq_of_length_le (by omega)]
      split <;> rfl

theorem write_loop_frame (v : Nat) :
    ∀ (n i k : Nat) (bits : List Nat),
      (write_bits_at_offset_loop v n i (k / 8) (2 ^ (k % 8)) bits).length = bits.length ∧
      ∀ q, ¬ (k ≤ q ∧ q < k + n) →
        bit_at (write_bits_at_offset_loop v n i (k / 8) (2 ^ (k % 8)) bits) q = bit_at bits q := by
  intro n
  induction n with
  | zero => intro i k bits; exact ⟨rfl, fun _ _ => rfl⟩
  | succ n ih =>
    intro i k bits
    simp only [write_bits_at_offset_loop]
    rw [(advance_bit k).1, (advance_bit k).2]
    obtain ⟨h1, h2⟩ := ih (i + 1) (k + 1)
      (if v &&& (1 <<< i) % 2 ^ 64 ≠ 0 then bits.set (k / 8) (bits.getD (k / 8) 0 ||| 2 ^ (k % 8))
        else bits.set (k / 8) (bits.getD (k / 8) 0 &&& (255 ^^^ 2 ^ (k % 8))))
    refine ⟨h1.trans (write_step_len _ bits _ _ _), fun q hq => ?_⟩
    rw [h2 q (by omega)]
    exact write_step_frame _ bits k q (by omega)

/-- What `write_bits_at_offset(pool, o, s, v)` leaves alone: every bit outside
`[o, o + s)`, the length of the buffer and the other fields of the pool. -/
theorem write_bits_frame (pool : autoshrink_bit_pool) (o s v : Nat) :
    write_bits_at_offset pool o s v =
        { pool with bits := (write_bits_at_offset pool o s v).bits } ∧
      (write_bits_at_offset pool o s v).bits.length = pool.bits.length ∧
      ∀ q, ¬ (o ≤ q ∧ q < o + s) →
        bit_at (write_bits_at_offset pool o s v).bits q = bit_at pool.bits q := by
  have h1 : (1 <<< (o % 8)) % 256 = 2 ^ (o % 8) := by
    rw [Nat.one_shiftLeft]
    have h8 : o % 8 < 8 := Nat.mod_lt o (by decide)
    exact Nat.mod_eq_of_lt (lt_of_lt_of_le (Nat.pow_lt_pow_right (by decide) h8) (by decide))
  refine ⟨rfl, ?_, ?_⟩
  · unfold write_bits_at_offset convert_bit_offset
    simp only [h1]
    exact (write_loop_frame v s 0 o pool.bits).1
  · unfold write_bits_at_offset convert_bit_offset
    simp only [h1]
    exact (write_loop_frame v s 0 o pool.bits).2

/-- The sub-range an in-place tactic works on: the whole request of up to 64
bits, or `to_change` bits (at most 63, by the draw of six bits) from `new_pos`
on inside a wider request. -/
theorem pick_range (size : Nat) (p2 : prng_info) (hp2 : p2.bit_pool = none) :
    ∃ np tc p3,
      (if size > 64 then
          (fuzz_random_bits p2 32).bind fun d =>
            (fuzz_random_bits d.2 6).bind fun d1 =>
              some ((d.1 % size,
                  if d1.1 % 2 ^ 32 > size - d.1 % size then (size - d.1 % size) % 2 ^ 32
                  else d1.1 % 2 ^ 32), d1.2)
        else some ((0, size), p2)) = some ((np, tc), p3) ∧
      p3.bit_pool = none ∧ np + tc % 256 ≤ size ∧ tc % 256 ≤ 64 ∧
      (size ≤ 64 → np = 0 ∧ tc = size) := by
  by_cases hs : size > 64
  · obtain ⟨a, q1, h1, hq1, _⟩ := fuzz_random_bits_some p2 32 hp2
    obtain ⟨c, q2, h2, hq2, hc⟩ := fuzz_random_bits_some q1 6 hq1
    have hc := hc (by decide)
    have hnp : a % size < size := Nat.mod_lt _ (by omega)
    refine ⟨a % size, (if c % 2 ^ 32 > size - a % size then (size - a % size) % 2 ^ 32
      else c % 2 ^ 32), q2, ?_, hq2, ?_, ?_, fun h => absurd hs (by omega)⟩
    · rw [if_pos hs, h1]
      simp only [Option.some_bind, h2]
    · have := Nat.mod_le (if c % 2 ^ 32 > size - a % size then (size - a % size) % 2 ^ 32
        else c % 2 ^ 32) 256
      have h3 : (if c % 2 ^ 32 > size - a % size then (size - a % size) % 2 ^ 32
        else c % 2 ^ 32) ≤ size - a % size := by
        split
        · exact Nat.mod_le _ _
        · omega
      omega
    · have h3 : (if c % 2 ^ 32 > size - a % size then (size - a % size) % 2 ^ 32
        else c % 2 ^ 32) ≤ c := by
        split
        · have := Nat.mod_le (size - a % size) (2 ^ 32)
          have := Nat.mod_le c (2 ^ 32)
          omega
        · exact Nat.mod_le _ _
      have := Nat.mod_le (if c % 2 ^ 32 > size - a % size then (size - a % size) % 2 ^ 32
        else c % 2 ^ 32) 256
      have h64 : (2 : Nat) ^ 6 = 64 := by decide
      omega
  · refine ⟨0, size, p2, by rw [if_neg hs], hp2, ?_, ?_, fun _ => ⟨rfl, rfl⟩⟩
    · have := Nat.mod_le size 256
      omega
    · have := Nat.mod_le size 256
      omega

/-- The shape of a shift, mask or sub step of `choose_and_mutate_request` when
the random source has no pool: the step returns; it works on `s ≤ 64` bits at
`new_pos` inside the request chosen by the first draw; the pool it returns is
the old one or the old one after one `write_bits_at_offset` on that range; and
for sub a payload above zero is replaced by a smaller value and reported as a
change, while a payload of zero leaves the pool alone without a change. -/
theorem mutate_in_place_shape (fuel : Nat) (p : prng_info) (env : autoshrink_env)
    (orig pool : autoshrink_bit_pool) (mtype : mutation) (p0 : prng_info)
    (hp : p.bit_pool = none) (hm : get_weighted_mutation fuel p env = some (mtype, p0))
    (hmt : mtype ≠ mutation.MUT_SWAP) (hc : orig.request_count ≠ 0) :
    ∃ r q1 np s changed env1 pool1 p3,
      fuzz_random_bits p0 (log2ceil orig.request_count) = some (r, q1) ∧
      np + s ≤ orig.requests.getD (r % orig.request_count) 0 ∧ s ≤ 64 ∧
      choose_and_mutate_request fuel p env orig pool = some (changed, env1, pool1, p3) ∧
      (pool1 = pool ∨ ∃ nb, pool1 =
        write_bits_at_offset pool (offset_of_pos orig (r % orig.request_count) + np) s nb) ∧
      (mtype = mutation.MUT_SUB →
        (0 < read_bits_at_offset pool (offset_of_pos orig (r % orig.request_count) + np) s →
          changed = true ∧ ∃ nb,
            nb < read_bits_at_offset pool (offset_of_pos orig (r % orig.request_count) + np) s ∧
            pool1 = write_bits_at_offset pool
              (offset_of_pos orig (r % orig.request_count) + np) s nb) ∧
        (read_bits_at_offset pool (offset_of_pos orig (r % orig.request_count) + np) s = 0 →
          changed = false ∧ pool1 = pool)) := by
  have hp0 := get_weighted_mutation_pool fuel p env mtype p0 hp hm
  obtain ⟨r, q1, h1, hq1, _⟩ := fuzz_random_bits_some p0 (log2ceil orig.request_count) hp0
  refine ⟨r, q1, ?_⟩
  unfold choose_and_mutate_request
  simp only [hm, Option.bind_eq_bind, Option.some_bind, hc, if_false, h1]
  generalize r % orig.request_count = pos
  cases mtype with
  | MUT_SWAP => exact absurd rfl hmt
  | MUT_SHIFT =>
    obtain ⟨sh, q2, h2, hq2, _⟩ := fuzz_random_bits_some q1 2 hq1
    obtain ⟨np, tc, q3, h3, hq3, r1, r2, r3⟩ := pick_range (orig.requests.getD pos 0) q2 hq2
    simp only [h2, Option.some_bind, h3]
    repeat' split
    all_goals exact ⟨np, tc % 256, _, _, _, q3, trivial, r1, r2, rfl, Or.inr ⟨_, rfl⟩,
        fun h => by cases h⟩
  | MUT_MASK =>
    obtain ⟨m1, q2, h2, hq2, _⟩ := fuzz_random_bits_some q1
      (if orig.requests.getD pos 0 ≤ 64 then orig.requests.getD pos 0 else 64) hq1
    obtain ⟨m2, q3, h3, hq3, _⟩ := fuzz_random_bits_some q2
      (if orig.requests.getD pos 0 ≤ 64 then orig.requests.getD pos 0 else 64) hq2
    simp only [h2, Option.some_bind, h3]
    by_cases hall : m1 ||| m2 = 2 ^ 64 - 1
    · obtain ⟨o, q4, h4, hq4, _⟩ := fuzz_random_bits_some q3 8 hq3
      obtain ⟨np, tc, q5, h5, hq5, r1, r2, r3⟩ := pick_range (orig.requests.getD pos 0) q4 hq4
      simp only [if_pos hall, h4, Option.some_bind, h5]
      repeat' split
      all_goals exact ⟨np, tc % 256, _, _, _, q5, trivial, r1, r2, rfl, Or.inr ⟨_, rfl⟩,
          fun h => by cases h⟩
    · obtain ⟨np, tc, q5, h5, hq5, r1, r2, r3⟩ := pick_range (orig.requests.getD pos 0) q3 hq3
      simp only [if_neg hall, Option.some_bind, h5]
      repeat' split
      all_goals exact ⟨np, tc % 256, _, _, _, q5, trivial, r1, r2, rfl, Or.inr ⟨_, rfl⟩,
          fun h => by cases h⟩
  | MUT_SUB =>
    obtain ⟨sub, q2, h2, hq2, _⟩ := fuzz_random_bits_some q1
      (if orig.requests.getD pos 0 ≤ 64 then orig.requests.getD pos 0 else 64) hq1
    obtain ⟨np, tc, q3, h3, hq3, r1, r2, r3⟩ := pick_range (orig.requests.getD pos 0) q2 hq2
    simp only [h2, Option.some_bind, h3]
    have hlt := read_bits_lt pool (offset_of_pos orig pos + np) (tc % 256) r2
    have h264 : 2 ^ (tc % 256) ≤ 2 ^ 64 := Nat.pow_le_pow_right (by decide) r2
    have hnb : ∀ bits : Nat, bits < 2 ^ 64 → bits > 0 →
        (if bits - sub % bits = bits then (bits - sub % bits + 2 ^ 64 - 1) % 2 ^ 64
          else bits - sub % bits) < bits := by
      intro bits hlt hb
      have hmod := Nat.mod_lt sub hb
      split
      · have e : bits - sub % bits + 2 ^ 64 - 1 = (bits - sub % bits - 1) + 2 ^ 64 := by omega
        rw [e, Nat.add_mod_right, Nat.mod_eq_of_lt (by omega)]
        omega
      · omega
    by_cases hb : read_bits_at_offset pool (offset_of_pos orig pos + np) (tc % 256) > 0
    · simp only [if_pos hb]
      exact ⟨np, tc % 256, _, _, _, q3, trivial, r1, r2, rfl, Or.inr ⟨_, rfl⟩, fun _ =>
        ⟨fun _ => ⟨rfl, _, hnb _ (by omega) hb, rfl⟩, fun h0 => absurd h0 (by omega)⟩⟩
    · simp only [if_neg hb]
      exact ⟨np, tc % 256, _, _, _, q3, trivial, r1, r2, rfl, Or.inl rfl, fun _ =>
        ⟨fun h0 => absurd h0 hb, fun _ => ⟨rfl, rfl⟩⟩⟩

/-! ## The sub tactic, the mask tactic and the frame of the in-place tactics -/

/-- C40: a shift, mask or sub step of `choose_and_mutate_request` (random
source without a pool, at least one request) returns, and it works on a range
`[offset + new_pos, offset + new_pos + s)` inside the payload
`[offset, offset + size)` of the request chosen by the first draw: the pool it
returns is the old one or the old one after one `write_bits_at_offset` on that
range.  So every bit of the buffer outside the payload is as before, and so
are the length of the buffer and all other fields of the pool. -/
theorem in_place_tactics_touch_only_the_request (fuel : Nat) (p : prng_info)
    (env : autoshrink_env) (orig pool : autoshrink_bit_pool) (mtype : mutation) (p0 : prng_info)
    (hp : p.bit_pool = none) (hm : get_weighted_mutation fuel p env = some (mtype, p0))
    (hmt : mtype ≠ mutation.MUT_SWAP) (hc : orig.request_count ≠ 0) :
    ∃ r q1 np s changed env1 pool1 p3,
      fuzz_random_bits p0 (log2ceil orig.request_count) = some (r, q1) ∧
      np + s ≤ orig.requests.getD (r % orig.request_count) 0 ∧
      choose_and_mutate_request fuel p env orig pool = some (changed, env1, pool1, p3) ∧
      (pool1 = pool ∨ ∃ nb, pool1 =
        write_bits_at_offset pool (offset_of_pos orig (r % orig.request_count) + np) s nb) ∧
      pool1 = { pool with bits := pool1.bits } ∧ pool1.bits.length = pool.bits.length ∧
      ∀ q, ¬ (offset_of_pos orig (r % orig.request_count) ≤ q ∧
          q < offset_of_pos orig (r % orig.request_count) +
            orig.requests.getD (r % orig.request_count) 0) →
        bit_at pool1.bits q = bit_at pool.bits q := by
  obtain ⟨r, q1, np, s, changed, env1, pool1, p3, h1, h2, h3, h4, h5, _⟩ :=
    mutate_in_place_shape fuel p env orig pool mtype p0 hp hm hmt hc
  refine ⟨r, q1, np, s, changed, env1, pool1, p3, h1, h2, h4, h5, ?_⟩
  rcases h5 with e | ⟨nb, e⟩
  · subst e
    exact ⟨rfl, rfl, fun _ _ => rfl⟩
  · obtain ⟨f1, f2, f3⟩ := write_bits_frame pool
      (offset_of_pos orig (r % orig.request_count) + np) s nb
    rw [e]
    exact ⟨f1, f2, fun q hq => f3 q (by omega)⟩

theorem in_place_tactics_touch_only_the_request_witness :
    ∃ r q1 np s changed env1 pool1 p3,
      fuzz_random_bits (draws_source 64 0x1234 []) (log2ceil pair_pool.request_count) = some (r, q1) ∧
      np + s ≤ pair_pool.requests.getD (r % pair_pool.request_count) 0 ∧
      choose_and_mutate_request 0 (draws_source 64 0x1234 []) (scheduled_env ASA_SHIFT) pair_pool pair_pool = some (changed, env1, pool1, p3) ∧
      (pool1 = pair_pool ∨ ∃ nb, pool1 =
        write_bits_at_offset pair_pool (offset_of_pos pair_pool (r % pair_pool.request_count) + np) s nb) ∧
      pool1 = { pair_pool with bits := pool1.bits } ∧ pool1.bits.length = pair_pool.bits.length ∧
      ∀ q, ¬ (offset_of_pos pair_pool (r % pair_pool.request_count) ≤ q ∧
          q < offset_of_pos pair_pool (r % pair_pool.request_count) +
            pair_pool.requests.getD (r % pair_pool.request_count) 0) →
        bit_at pool1.bits q = bit_at pair_pool.bits q :=
  in_place_tactics_touch_only_the_request 0 (draws_source 64 0x1234 []) (scheduled_env ASA_SHIFT) pair_pool pair_pool
    mutation.MUT_SHIFT (draws_source 64 0x1234 []) rfl rfl (by decide) (by decide)

/-- C33: the mask of the mask tactic can have no zero bit in the range it is
applied to.  A request of 8 bits with the payload `FF` and the two draws `FF`:
the mask is `FF`, no bit is cleared and no change is reported.  A request of
64 bits with the payload of all ones, the two draws of all ones and the draw
`0` for `one_bit`: `mask &= ~(1LU << one_bit) + 1` leaves the mask at all ones,
no bit is cleared and no change is reported. -/
theorem mask_tactic_can_clear_no_bit :
    fuzz_random_bits_seq (draws_source 64 0xFFFF []) [0, 8, 8] = some [0, 0xFF, 0xFF] ∧
      (choose_and_mutate_request 0 (draws_source 64 0xFFFF []) (scheduled_env ASA_MASK)
          (recorded_pool [8] [0xFF]) (recorded_pool [8] [0xFF])).map
        (fun x => (x.1, x.2.2.1.bits)) = some (false, [0xFF]) ∧
      fuzz_random_bits_seq
          (draws_source 0 0 [0x3a9803feaa40155, 0x3a9803feaa40155])
          [0, 64, 64, 8] = some [0, 2 ^ 64 - 1, 2 ^ 64 - 1, 0] ∧
      (choose_and_mutate_request 0
          (draws_source 0 0 [0x3a9803feaa40155, 0x3a9803feaa40155])
          (scheduled_env ASA_MASK)
          (recorded_pool [64] [0xFF, 0xFF, 0xFF, 0xFF, 0xFF, 0xFF, 0xFF, 0xFF])
          (recorded_pool [64] [0xFF, 0xFF, 0xFF, 0xFF, 0xFF, 0xFF, 0xFF, 0xFF])).map
        (fun x => (x.1, x.2.2.1.bits)) =
          some (false, [0xFF, 0xFF, 0xFF, 0xFF, 0xFF, 0xFF, 0xFF, 0xFF]) := by
  decide!

/-! ## The swap tactic on a request wider than 64 bits -/

theorem swap_halve_spec : ∀ (fuel x size : Nat), x < 2 ^ fuel → 0 < size →
    2 * swap_halve fuel x size < size ∧ swap_halve fuel x size ≤ x := by
  intro fuel
  induction fuel with
  | zero =>
    intro x size hx hs
    have : x = 0 := by simpa using hx
    subst this
    exact ⟨by simpa [swap_halve] using hs, le_refl _⟩
  | succ f ih =>
    intro x size hx hs
    simp only [swap_halve]
    by_cases h : 2 * x ≥ size
    · rw [if_pos h]
      obtain ⟨a, b⟩ := ih (x / 2) size (by rw [pow_succ] at hx; omega) hs
      exact ⟨a, by omega⟩
    · rw [if_neg h]
      exact ⟨by omega, le_refl _⟩

/-- C35: a swap step of `choose_and_mutate_request` on a request wider than 64
bits (random source without a pool) returns; when it reports no change the
pool is the old one; when it reports a change it has exchanged two ranges of
`to_swap` bits (1 to 63) at `pos_a` and `pos_b` that lie inside the request and
do not overlap, the value `vb` of the range at `pos_b` was below the value `va`
of the range at `pos_a`, and afterwards the range at `pos_a` (drawn first)
holds `vb` and the range at `pos_b` holds `va`: the value of the range at
`pos_a` is lowered, which is the earlier of the two ranges only when
`pos_a < pos_b`. -/
theorem bulk_swap_lowers_first_drawn_range (fuel : Nat) (p : prng_info) (env : autoshrink_env)
    (orig pool : autoshrink_bit_pool) (p0 : prng_info) (hp : p.bit_pool = none)
    (hm : get_weighted_mutation fuel p env = some (mutation.MUT_SWAP, p0))
    (hc : orig.request_count ≠ 0) :
    ∃ r q1, fuzz_random_bits p0 (log2ceil orig.request_count) = some (r, q1) ∧
      (64 < orig.requests.getD (r % orig.request_count) 0 →
        ∃ changed env1 pool1 p3,
          choose_and_mutate_request fuel p env orig pool = some (changed, env1, pool1, p3) ∧
          (changed = false → pool1 = pool) ∧
          (changed = true → ∃ to_swap pos_a pos_b,
            0 < to_swap ∧ to_swap ≤ 63 ∧
            pos_a + to_swap ≤ orig.requests.getD (r % orig.request_count) 0 ∧
            pos_b + to_swap ≤ orig.requests.getD (r % orig.request_count) 0 ∧
            (pos_a + to_swap ≤ pos_b ∨ pos_b + to_swap ≤ pos_a) ∧
            read_bits_at_offset pool (offset_of_pos orig (r % orig.request_count) + pos_b) to_swap <
              read_bits_at_offset pool (offset_of_pos orig (r % orig.request_count) + pos_a)
                to_swap ∧
            pool1 = write_bits_at_offset
              (write_bits_at_offset pool (offset_of_pos orig (r % orig.request_count) + pos_a)
                to_swap
                (read_bits_at_offset pool (offset_of_pos orig (r % orig.request_count) + pos_b)
                  to_swap))
              (offset_of_pos orig (r % orig.request_count) + pos_b) to_swap
              (read_bits_at_offset pool (offset_of_pos orig (r % orig.request_count) + pos_a)
                to_swap) ∧
            (offset_of_pos orig (r % orig.request_count) +
                orig.requests.getD (r % orig.request_count) 0 ≤ 8 * pool.bits.length →
              read_bits_at_offset pool1 (offset_of_pos orig (r % orig.request_count) + pos_a)
                  to_swap =
                read_bits_at_offset pool (offset_of_pos orig (r % orig.request_count) + pos_b)
                  to_swap ∧
              read_bits_at_offset pool1 (offset_of_pos orig (r % orig.request_count) + pos_b)
                  to_swap =
                read_bits_at_offset pool (offset_of_pos orig (r % orig.request_count) + pos_a)
                  to_swap))) := by
  have hp0 := get_weighted_mutation_pool fuel p env _ p0 hp hm
  obtain ⟨r, q1, h1, hq1, _⟩ := fuzz_random_bits_some p0 (log2ceil orig.request_count) hp0
  refine ⟨r, q1, h1, fun hsz => ?_⟩
  unfold choose_and_mutate_request
  simp only [hm, Option.bind_eq_bind, Option.some_bind, hc, if_false, h1]
  generalize r % orig.request_count = pos at hsz ⊢
  generalize offset_of_pos orig pos = off
  generalize orig.requests.getD pos 0 = size at hsz ⊢
  rw [if_neg (by omega), if_pos hsz]
  obtain ⟨w, q2, h2, hq2, hw⟩ := fuzz_random_bits_some q1 6 hq1
  have hw := hw (by decide)
  simp only [h2, Option.some_bind]
  have hw256 : w % 256 = w := Nat.mod_eq_of_lt (by
    have : (2 : Nat) ^ 6 = 64 := by decide
    omega)
  rw [hw256]
  obtain ⟨s1, s2⟩ := swap_halve_spec 8 w size (lt_trans hw (by decide)) (by omega)
  generalize swap_halve 8 w size = ts at s1 s2 ⊢
  have h64 : (2 : Nat) ^ 6 = 64 := by decide
  by_cases h0 : ts = 0
  · rw [if_pos h0]
    exact ⟨false, _, pool, q2, rfl, fun _ => rfl, fun h => by cases h⟩
  · rw [if_neg h0]
    obtain ⟨a, q3, h3, hq3, _⟩ := fuzz_random_bits_some q2 32 hq2
    obtain ⟨b, q4, h4, hq4, _⟩ := fuzz_random_bits_some q3 32 hq3
    simp only [h3, Option.some_bind, h4]
    have ha : a % (size - ts) < size - ts := Nat.mod_lt _ (by omega)
    have hb : b % (size - 2 * ts) < size - 2 * ts := Nat.mod_lt _ (by omega)
    generalize a % (size - ts) = pa at ha ⊢
    generalize b % (size - 2 * ts) = pb at hb ⊢
    by_cases hov : (pa < pb ∧ pa + ts > pb) ∨ (pb < pa ∧ pb + ts > pa)
    · rw [if_pos hov]
      exact ⟨false, _, pool, q4, rfl, fun _ => rfl, fun h => by cases h⟩
    · rw [if_neg hov]
      by_cases hlt : read_bits_at_offset pool (off + pb) ts < read_bits_at_offset pool (off + pa) ts
      · rw [if_pos hlt]
        have hne : pa ≠ pb := by
          intro e
          rw [e] at hlt
          exact absurd hlt (Nat.lt_irrefl _)
        have hdis : pa + ts ≤ pb ∨ pb + ts ≤ pa := by omega
        refine ⟨true, _, _, q4, rfl, (fun h => by cases h), fun _ =>
          ⟨ts, pa, pb, by omega, by omega, by omega, by omega, hdis, hlt, rfl, fun hbuf => ?_⟩⟩
        have hts : ts ≤ 64 := by omega
        have hl1 := write_bits_length pool (off + pa) ts (read_bits_at_offset pool (off + pb) ts)
          hts (by omega)
        constructor
        · rw [read_bits_write_other _ _ _ _ _ _ hts hts (by rw [hl1]; omega) (by omega),
            read_bits_write_same _ _ _ _ hts (by omega) (read_bits_lt _ _ _ hts)]
        · rw [read_bits_write_same _ _ _ _ hts (by rw [hl1]; omega) (read_bits_lt _ _ _ hts)]
      · rw [if_neg hlt]
        exact ⟨false, _, pool, q4, rfl, fun _ => rfl, fun h => by cases h⟩

theorem bulk_swap_lowers_first_drawn_range_witness :
    ∃ r q1, fuzz_random_bits (draws_source 64 520 []) (log2ceil wide_request_pool.request_count) = some (r, q1) ∧
      (64 < wide_request_pool.requests.getD (r % wide_request_pool.request_count) 0 →
        ∃ changed env1 pool1 p3,
          choose_and_mutate_request 0 (draws_source 64 520 []) (scheduled_env ASA_SWAP) wide_request_pool wide_request_pool = some (changed, env1, pool1, p3) ∧
          (changed = false → pool1 = wide_request_pool) ∧
          (changed = true → ∃ to_swap pos_a pos_b,
            0 < to_swap ∧ to_swap ≤ 63 ∧
            pos_a + to_swap ≤ wide_request_pool.requests.getD (r % wide_request_pool.request_count) 0 ∧
            pos_b + to_swap ≤ wide_request_pool.requests.getD (r % wide_request_pool.request_count) 0 ∧
            (pos_a + to_swap ≤ pos_b ∨ pos_b + to_swap ≤ pos_a) ∧
            read_bits_at_offset wide_request_pool (offset_of_pos wide_request_pool (r % wide_request_pool.request_count) + pos_b) to_swap <
              read_bits_at_offset wide_request_pool (offset_of_pos wide_request_pool (r % wide_request_pool.request_count) + pos_a)
                to_swap ∧
            pool1 = write_bits_at_offset
              (write_bits_at_offset wide_request_pool (offset_of_pos wide_request_pool (r % wide_request_pool.request_count) + pos_a)
                to_swap
                (read_bits_at_offset wide_request_pool (offset_of_pos wide_request_pool (r % wide_request_pool.request_count) + pos_b)
                  to_swap))
              (offset_of_pos wide_request_pool (r % wide_request_pool.request_count) + pos_b) to_swap
              (read_bits_at_offset wide_request_pool (offset_of_pos wide_request_pool (r % wide_request_pool.request_count) + pos_a)
                to_swap) ∧
            (offset_of_pos wide_request_pool (r % wide_request_pool.request_count) +
                wide_request_pool.requests.getD (r % wide_request_pool.request_count) 0 ≤ 8 * wide_request_pool.bits.length →
              read_bits_at_offset pool1 (offset_of_pos wide_request_pool (r % wide_request_pool.request_count) + pos_a)
                  to_swap =
                read_bits_at_offset wide_request_pool (offset_of_pos wide_request_pool (r % wide_request_pool.request_count) + pos_b)
                  to_swap ∧
              read_bits_at_offset pool1 (offset_of_pos wide_request_pool (r % wide_request_pool.request_count) + pos_b)
                  to_swap =
                read_bits_at_offset wide_request_pool (offset_of_pos wide_request_pool (r % wide_request_pool.request_count) + pos_a)
                  to_swap))) :=
  bulk_swap_lowers_first_drawn_range 0 (draws_source 64 520 []) (scheduled_env ASA_SWAP) wide_request_pool
    wide_request_pool (draws_source 64 520 []) rfl rfl (by decide)

/-- C35, counterexample: one request of 100 bits whose first two bytes are
`01 02`; the draws are `to_swap = 8`, `pos_a = 8` and `pos_b = 0`.  The ranges
do not overlap and the value 1 at `pos_b` is below the value 2 at `pos_a`, so
the step exchanges them and reports a change: the earlier range (offset 0)
held 1 and holds 2 afterwards. -/
theorem bulk_swap_can_raise_earlier_range :
    fuzz_random_bits_seq (draws_source 64 520 []) [0, 6, 32, 32] = some [0, 8, 8, 0] ∧
      (choose_and_mutate_request 0 (draws_source 64 520 []) (scheduled_env ASA_SWAP)
          wide_request_pool wide_request_pool).map
        (fun x => (x.1, x.2.2.1.bits)) = some (true, [2, 1, 0, 0, 0, 0, 0, 0, 0, 0, 0, 0, 0]) ∧
      read_bits_at_offset wide_request_pool 0 8 = 1 ∧
      read_bits_at_offset (recorded_pool [100] [2, 1, 0, 0, 0, 0, 0, 0, 0, 0, 0, 0, 0]) 0 8 = 2 := by
  decide!

/-! ## The swap tactic on a request of up to 64 bits -/

theorem swap_search_spec (orig : autoshrink_bit_pool) (bo size bits : Nat) :
    ∀ (fuel i : Nat) (pool : autoshrink_bit_pool), orig.request_count ≤ i + fuel →
      ((swap_search orig bo size bits fuel i pool).1 = true →
        ∃ k, i ≤ k ∧ k < orig.request_count ∧ orig.requests.getD k 0 = size ∧
          read_bits_at_offset pool (offset_of_pos orig k) (size % 256) < bits ∧
          (∀ m, i ≤ m → m < k → orig.requests.getD m 0 = size →
            ¬ read_bits_at_offset pool (offset_of_pos orig m) (size % 256) < bits) ∧
          (swap_search orig bo size bits fuel i pool).2 =
            write_bits_at_offset
              (write_bits_at_offset pool bo (size % 256)
                (read_bits_at_offset pool (offset_of_pos orig k) (size % 256)))
              (offset_of_pos orig k) (size % 256) bits) ∧
      ((swap_search orig bo size bits fuel i pool).1 = false →
        (swap_search orig bo size bits fuel i pool).2 = pool ∧
          ∀ m, i ≤ m → m < orig.request_count → orig.requests.getD m 0 = size →
            ¬ read_bits_at_offset pool (offset_of_pos orig m) (size % 256) < bits) := by
  intro fuel
  induction fuel with
  | zero =>
    intro i pool hf
    refine ⟨(fun h => by cases h), fun _ => ⟨rfl, fun m h1 h2 => ?_⟩⟩
    omega
  | succ fuel ih =>
    intro i pool hf
    simp only [swap_search]
    by_cases h1 : i < orig.request_count
    · rw [if_pos h1]
      by_cases h2 : orig.requests.getD i 0 = size
      · rw [if_pos h2]
        by_cases h3 : read_bits_at_offset pool (offset_of_pos orig i) (size % 256) < bits
        · rw [if_pos h3]
          refine ⟨fun _ => ⟨i, le_refl _, h1, h2, h3, fun m a b => ?_, rfl⟩, fun h => by cases h⟩
          omega
        · rw [if_neg h3]
          obtain ⟨a, b⟩ := ih (i + 1) pool (by omega)
          refine ⟨fun h => ?_, fun h => ?_⟩
          · obtain ⟨k, k1, k2, k3, k4, k5, k6⟩ := a h
            refine ⟨k, by omega, k2, k3, k4, fun m m1 m2 m3 => ?_, k6⟩
            by_cases hm : m = i
            · subst hm; exact h3
            · exact k5 m (by omega) m2 m3
          · obtain ⟨b1, b2⟩ := b h
            refine ⟨b1, fun m m1 m2 m3 => ?_⟩
            by_cases hm : m = i
            · subst hm; exact h3
            · exact b2 m (by omega) m2 m3
      · rw [if_neg h2]
        obtain ⟨a, b⟩ := ih (i + 1) pool (by omega)
        refine ⟨fun h => ?_, fun h => ?_⟩
        · obtain ⟨k, k1, k2, k3, k4, k5, k6⟩ := a h
          refine ⟨k, by omega, k2, k3, k4, fun m m1 m2 m3 => ?_, k6⟩
          by_cases hm : m = i
          · subst hm; exact absurd m3 h2
          · exact k5 m (by omega) m2 m3
        · obtain ⟨b1, b2⟩ := b h
          refine ⟨b1, fun m m1 m2 m3 => ?_⟩
          by_cases hm : m = i
          · subst hm; exact absurd m3 h2
          · exact b2 m (by omega) m2 m3
    · rw [if_neg h1]
      refine ⟨(fun h => by cases h), fun _ => ⟨rfl, fun m m1 m2 => ?_⟩⟩
      omega

theorem request_windows (orig : autoshrink_bit_pool) (len : Nat)
    (hidx : ∀ i, i < orig.request_count → offset_of_pos orig i = (orig.requests.take i).sum)
    (hbuf : orig.requests.sum ≤ 8 * len) (i : Nat) (hi : i < orig.request_count) :
    offset_of_pos orig i + orig.requests.getD i 0 ≤ 8 * len ∧
      ∀ j, j < i → offset_of_pos orig j + orig.requests.getD j 0 ≤ offset_of_pos orig i := by
  have hi2 : i < orig.requests.length := hi
  refine ⟨?_, fun j hj => ?_⟩
  · rw [hidx i hi, ← take_sum_succ _ _ hi2]
    exact (take_sum_le _ _).trans hbuf
  · have hj2 : j < orig.requests.length := by omega
    rw [hidx i hi, hidx j (by unfold autoshrink_bit_pool.request_count; omega),
      ← take_sum_succ _ _ hj2]
    exact take_sum_mono _ _ _ (by omega)

/-- C34: a swap step of `choose_and_mutate_request` on a chosen request `pos`
of 1 to 64 bits, in a pool whose index holds the sums of the widths before each
request and whose requests lie in the buffer (random source without a pool),
returns.  When it reports a change there is a later request `i` of the same
size whose value was below the value at `pos`, no request of that size between
them had a value below it, and afterwards the value at `pos` is the old value
at `i` (so it has decreased), the value at `i` is the old value at `pos`, every
bit outside the two payloads is as before, and so is the value of every other
request of up to 64 bits.  When it reports no change the pool is the old one
and no later request of the same size has a value below the value at `pos`. -/
theorem small_swap_exchanges_with_first_smaller (fuel : Nat) (p : prng_info)
    (env : autoshrink_env) (orig pool : autoshrink_bit_pool) (p0 : prng_info)
    (hp : p.bit_pool = none)
    (hm : get_weighted_mutation fuel p env = some (mutation.MUT_SWAP, p0))
    (hc : orig.request_count ≠ 0)
    (hidx : ∀ i, i < orig.request_count → offset_of_pos orig i = (orig.requests.take i).sum)
    (hbuf : orig.requests.sum ≤ 8 * pool.bits.length) :
    ∃ r q1, fuzz_random_bits p0 (log2ceil orig.request_count) = some (r, q1) ∧
      (0 < orig.requests.getD (r % orig.request_count) 0 →
        orig.requests.getD (r % orig.request_count) 0 ≤ 64 →
        ∃ changed env1 pool1,
          choose_and_mutate_request fuel p env orig pool = some (changed, env1, pool1, q1) ∧
          (changed = true → ∃ i, r % orig.request_count < i ∧ i < orig.request_count ∧
            orig.requests.getD i 0 = orig.requests.getD (r % orig.request_count) 0 ∧
            read_bits_at_offset pool (offset_of_pos orig i) (orig.requests.getD i 0) <
              read_bits_at_offset pool (offset_of_pos orig (r % orig.request_count))
                (orig.requests.getD (r % orig.request_count) 0) ∧
            (∀ m, r % orig.request_count < m → m < i →
              orig.requests.getD m 0 = orig.requests.getD (r % orig.request_count) 0 →
              ¬ read_bits_at_offset pool (offset_of_pos orig m) (orig.requests.getD m 0) <
                read_bits_at_offset pool (offset_of_pos orig (r % orig.request_count))
                  (orig.requests.getD (r % orig.request_count) 0)) ∧
            read_bits_at_offset pool1 (offset_of_pos orig (r % orig.request_count))
                (orig.requests.getD (r % orig.request_count) 0) =
              read_bits_at_offset pool (offset_of_pos orig i) (orig.requests.getD i 0) ∧
            read_bits_at_offset pool1 (offset_of_pos orig i) (orig.requests.getD i 0) =
              read_bits_at_offset pool (offset_of_pos orig (r % orig.request_count))
                (orig.requests.getD (r % orig.request_count) 0) ∧
            pool1 = { pool with bits := pool1.bits } ∧ pool1.bits.length = pool.bits.length ∧
            (∀ q, ¬ (offset_of_pos orig (r % orig.request_count) ≤ q ∧
                q < offset_of_pos orig (r % orig.request_count) +
                  orig.requests.getD (r % orig.request_count) 0) →
              ¬ (offset_of_pos orig i ≤ q ∧ q < offset_of_pos orig i + orig.requests.getD i 0) →
              bit_at pool1.bits q = bit_at pool.bits q) ∧
            (∀ k, k < orig.request_count → k ≠ r % orig.request_count → k ≠ i →
              orig.requests.getD k 0 ≤ 64 →
              read_bits_at_offset pool1 (offset_of_pos orig k) (orig.requests.getD k 0) =
                read_bits_at_offset pool (offset_of_pos orig k) (orig.requests.getD k 0))) ∧
          (changed = false → pool1 = pool ∧
            ∀ m, r % orig.request_count < m → m < orig.request_count →
              orig.requests.getD m 0 = orig.requests.getD (r % orig.request_count) 0 →
              ¬ read_bits_at_offset pool (offset_of_pos orig m) (orig.requests.getD m 0) <
                read_bits_at_offset pool (offset_of_pos orig (r % orig.request_count))
                  (orig.requests.getD (r % orig.request_count) 0))) := by
  have hp0 := get_weighted_mutation_pool fuel p env _ p0 hp hm
  obtain ⟨r, q1, h1, hq1, _⟩ := fuzz_random_bits_some p0 (log2ceil orig.request_count) hp0
  refine ⟨r, q1, h1, fun hs0 hs64 => ?_⟩
  have hpos : r % orig.request_count < orig.request_count :=
    Nat.mod_lt _ (Nat.pos_of_ne_zero hc)
  unfold choose_and_mutate_request
  simp only [hm, Option.bind_eq_bind, Option.some_bind, hc, if_false, h1]
  generalize r % orig.request_count = pos at hs0 hs64 hpos ⊢
  have hs256 : orig.requests.getD pos 0 % 256 = orig.requests.getD pos 0 :=
    Nat.mod_eq_of_lt (by omega)
  rw [if_neg (by omega), if_neg (by omega), hs256]
  obtain ⟨sp1, sp2⟩ := swap_search_spec orig (offset_of_pos orig pos) (orig.requests.getD pos 0)
    (read_bits_at_offset pool (offset_of_pos orig pos) (orig.requests.getD pos 0))
    orig.request_count (pos + 1) pool (by omega)
  rw [hs256] at sp1 sp2
  obtain ⟨wp1, wp2⟩ := request_windows orig _ hidx hbuf pos hpos
  by_cases hr : (swap_search orig (offset_of_pos orig pos) (orig.requests.getD pos 0)
      (read_bits_at_offset pool (offset_of_pos orig pos) (orig.requests.getD pos 0))
      orig.request_count (pos + 1) pool).1 = true
  · rw [if_pos hr]
    refine ⟨true, _, _, rfl, fun _ => ?_, fun h => by cases h⟩
    obtain ⟨i, i1, i2, i3, i4, i5, i6⟩ := sp1 hr
    obtain ⟨wi1, wi2⟩ := request_windows orig _ hidx hbuf i i2
    have hdis := wi2 pos (by omega)
    rw [i3] at wi1
    have hl1 := write_bits_length pool (offset_of_pos orig pos) (orig.requests.getD pos 0)
      (read_bits_at_offset pool (offset_of_pos orig i) (orig.requests.getD pos 0)) hs64 wp1
    obtain ⟨f1, f2, f3⟩ := write_bits_frame pool (offset_of_pos orig pos)
      (orig.requests.getD pos 0)
      (read_bits_at_offset pool (offset_of_pos orig i) (orig.requests.getD pos 0))
    obtain ⟨g1, g2, g3⟩ := write_bits_frame
      (write_bits_at_offset pool (offset_of_pos orig pos) (orig.requests.getD pos 0)
        (read_bits_at_offset pool (offset_of_pos orig i) (orig.requests.getD pos 0)))
      (offset_of_pos orig i) (orig.requests.getD pos 0)
      (read_bits_at_offset pool (offset_of_pos orig pos) (orig.requests.getD pos 0))
    have hframe : ∀ q, ¬ (offset_of_pos orig pos ≤ q ∧
          q < offset_of_pos orig pos + orig.requests.getD pos 0) →
        ¬ (offset_of_pos orig i ≤ q ∧ q < offset_of_pos orig i + orig.requests.getD pos 0) →
        bit_at (write_bits_at_offset
          (write_bits_at_offset pool (offset_of_pos orig pos) (orig.requests.getD pos 0)
            (read_bits_at_offset pool (offset_of_pos orig i) (orig.requests.getD pos 0)))
          (offset_of_pos orig i) (orig.requests.getD pos 0)
          (read_bits_at_offset pool (offset_of_pos orig pos) (orig.requests.getD pos 0))).bits q =
        bit_at pool.bits q := by
      intro q hq1 hq2
      rw [g3 q hq2, f3 q hq1]
    rw [i6]
    refine ⟨i, by omega, i2, i3, ?_, fun m m1 m2 m3 => ?_, ?_, ?_, rfl, ?_, ?_, ?_⟩
    · rw [i3]; exact i4
    · rw [m3]
      exact i5 m (by omega) m2 m3
    · rw [i3, read_bits_write_other _ _ _ _ _ _ hs64 hs64 (by rw [hl1]; exact wi1) (Or.inl hdis),
        read_bits_write_same _ _ _ _ hs64 wp1 (read_bits_lt _ _ _ hs64)]
    · rw [i3, read_bits_write_same _ _ _ _ hs64 (by rw [hl1]; exact wi1)
        (read_bits_lt _ _ _ hs64)]
    · rw [g2, f2]
    · rw [i3]; exact hframe
    · intro k hk hk1 hk2 hk64
      obtain ⟨wk1, wk2⟩ := request_windows orig _ hidx hbuf k hk
      apply read_bits_congr _ _ _ _ hk64
      intro q q1 q2
      apply hframe
      · rcases Nat.lt_or_gt_of_ne hk1 with h | h
        · have := wp2 k h
          omega
        · have := wk2 pos h
          omega
      · rcases Nat.lt_or_gt_of_ne hk2 with h | h
        · have := wi2 k h
          omega
        · have := wk2 i h
          rw [i3] at this
          omega
  · rw [if_neg hr]
    have hr2 : (swap_search orig (offset_of_pos orig pos) (orig.requests.getD pos 0)
      (read_bits_at_offset pool (offset_of_pos orig pos) (orig.requests.getD pos 0))
      orig.request_count (pos + 1) pool).1 = false := by
      cases hx : (swap_search orig (offset_of_pos orig pos) (orig.requests.getD pos 0)
        (read_bits_at_offset pool (offset_of_pos orig pos) (orig.requests.getD pos 0))
        orig.request_count (pos + 1) pool).1
      · rfl
      · exact absurd hx hr
    obtain ⟨n1, n2⟩ := sp2 hr2
    refine ⟨false, _, _, rfl, (fun h => by cases h), fun _ => ⟨n1, fun m m1 m2 m3 => ?_⟩⟩
    rw [m3]
    exact n2 m (by omega) m2 m3

theorem small_swap_exchanges_with_first_smaller_witness :
    ∃ r q1, fuzz_random_bits (draws_source 64 0x1234 []) (log2ceil pair_pool.request_count) = some (r, q1) ∧
      (0 < pair_pool.requests.getD (r % pair_pool.request_count) 0 →
        pair_pool.requests.getD (r % pair_pool.request_count) 0 ≤ 64 →
        ∃ changed env1 pool1,
          choose_and_mutate_request 0 (draws_source 64 0x1234 []) (scheduled_env ASA_SWAP) pair_pool pair_pool = some (changed, env1, pool1, q1) ∧
          (changed = true → ∃ i, r % pair_pool.request_count < i ∧ i < pair_pool.request_count ∧
            pair_pool.requests.getD i 0 = pair_pool.requests.getD (r % pair_pool.request_count) 0 ∧
            read_bits_at_offset pair_pool (offset_of_pos pair_pool i) (pair_pool.requests.getD i 0) <
              read_bits_at_offset pair_pool (offset_of_pos pair_pool (r % pair_pool.request_count))
                (pair_pool.requests.getD (r % pair_pool.request_count) 0) ∧
            (∀ m, r % pair_pool.request_count < m → m < i →
              pair_pool.requests.getD m 0 = pair_pool.requests.getD (r % pair_pool.request_count) 0 →
              ¬ read_bits_at_offset pair_pool (offset_of_pos pair_pool m) (pair_pool.requests.getD m 0) <
                read_bits_at_offset pair_pool (offset_of_pos pair_pool (r % pair_pool.request_count))
                  (pair_pool.requests.getD (r % pair_pool.request_count) 0)) ∧
            read_bits_at_offset pool1 (offset_of_pos pair_pool (r % pair_pool.request_count))
                (pair_pool.requests.getD (r % pair_pool.request_count) 0) =
              read_bits_at_offset pair_pool (offset_of_pos pair_pool i) (pair_pool.requests.getD i 0) ∧
            read_bits_at_offset pool1 (offset_of_pos pair_pool i) (pair_pool.requests.getD i 0) =
              read_bits_at_offset pair_pool (offset_of_pos pair_pool (r % pair_pool.request_count))
                (pair_pool.requests.getD (r % pair_pool.request_count) 0) ∧
            pool1 = { pair_pool with bits := pool1.bits } ∧ pool1.bits.length = pair_pool.bits.length ∧
            (∀ q, ¬ (offset_of_pos pair_pool (r % pair_pool.request_count) ≤ q ∧
                q < offset_of_pos pair_pool (r % pair_pool.request_count) +
                  pair_pool.requests.getD (r % pair_pool.request_count) 0) →
              ¬ (offset_of_pos pair_pool i ≤ q ∧ q < offset_of_pos pair_pool i + pair_pool.requests.getD i 0) →
              bit_at pool1.bits q = bit_at pair_pool.bits q) ∧
            (∀ k, k < pair_pool.request_count → k ≠ r % pair_pool.request_count → k ≠ i →
              pair_pool.requests.getD k 0 ≤ 64 →
              read_bits_at_offset pool1 (offset_of_pos pair_pool k) (pair_pool.requests.getD k 0) =
                read_bits_at_offset pair_pool (offset_of_pos pair_pool k) (pair_pool.requests.getD k 0))) ∧
          (changed = false → pool1 = pair_pool ∧
            ∀ m, r % pair_pool.request_count < m → m < pair_pool.request_count →
              pair_pool.requests.getD m 0 = pair_pool.requests.getD (r % pair_pool.request_count) 0 →
              ¬ read_bits_at_offset pair_pool (offset_of_pos pair_pool m) (pair_pool.requests.getD m 0) <
                read_bits_at_offset pair_pool (offset_of_pos pair_pool (r % pair_pool.request_count))
                  (pair_pool.requests.getD (r % pair_pool.request_count) 0))) :=
  small_swap_exchanges_with_first_smaller 0 (draws_source 64 0x1234 []) (scheduled_env ASA_SWAP) pair_pool pair_pool
    (draws_source 64 0x1234 []) rfl rfl (by decide) (by decide) (by decide)

/-! ## The drop tactic copies the payloads of the requests it keeps -/

theorem payload_bits_length (bits : List Nat) : ∀ (size off : Nat),
    (payload_bits bits off size).length = size := by
  intro size
  induction size with
  | zero => intro off; rfl
  | succ n ih => intro off; simp only [payload_bits, List.length_cons, ih]

theorem kept_payloads_length (bits : List Nat) : ∀ (rs : List Nat) (ks : List Bool) (off : Nat),
    (kept_payloads bits rs ks off).length = kept_width rs ks := by
  intro rs
  induction rs with
  | nil => intro ks off; cases ks <;> rfl
  | cons r rs ih =>
    intro ks off
    cases ks with
    | nil => rfl
    | cons k ks =>
      simp only [kept_payloads, kept_width, List.length_append, ih]
      cases k
      · simp
      · simp [payload_bits_length]

theorem drop_skip_bit_holds (n : Nat) (acc : List Bool) (src : Nat) (s : drop_state)
    (h : drop_state_holds n acc src s) : drop_state_holds n acc (src + 1) (drop_skip_bit s) := by
  obtain ⟨h1, h2, h3, h4, h5, h6, h7, h8⟩ := h
  have a := advance_bit src
  unfold drop_skip_bit
  simp only [h3, h2, h1]
  exact ⟨rfl, a.1, a.2, h4, h5, h6, h7, h8⟩

theorem getD_append_one (acc : List Bool) (b : Bool) (q : Nat) :
    (acc ++ [b]).getD q false = if q = acc.length then b else acc.getD q false := by
  rw [List.getD_eq_getElem?_getD, List.getD_eq_getElem?_getD]
  rcases Nat.lt_trichotomy q acc.length with h | h | h
  · rw [List.getElem?_append_left h, if_neg (by omega)]
  · subst h
    rw [if_pos rfl, List.getElem?_append_right (le_refl _)]
    simp
  · rw [List.getElem?_append_right (by omega), if_neg (by omega),
      List.getElem?_eq_none (show [b].length ≤ q - acc.length by
        simp only [List.length_singleton]; omega),
      List.getElem?_eq_none (show acc.length ≤ q by omega)]

theorem drop_put_bit_holds (orig_bits : List Nat) (n : Nat) (acc : List Bool) (src : Nat)
    (s : drop_state) (h : drop_state_holds n acc src s) (hroom : acc.length < 8 * n) :
    drop_state_holds n (acc ++ [bit_at orig_bits src]) src (drop_put_bit orig_bits s) := by
  obtain ⟨h1, h2, h3, h4, h5, h6, h7, h8⟩ := h
  have a := advance_bit acc.length
  have hk : acc.length / 8 < s.bits.length := by omega
  unfold drop_put_bit
  simp only [h2, h3, h5, h6]
  by_cases hb : orig_bits.getD (src / 8) 0 &&& 2 ^ (src % 8) ≠ 0
  · simp only [if_pos hb]
    refine ⟨h1, rfl, rfl, ?_, ?_, ?_, ?_, fun q => ?_⟩
    · simp only [List.length_append, List.length_singleton]
      exact congrArg (· + 1) h4
    · simp only [List.length_append, List.length_singleton]
      exact a.1
    · simp only [List.length_append, List.length_singleton]
      exact a.2
    · simp [h7]
    · rw [getD_append_one]
      have hbit : bit_at orig_bits src = true := (and_two_pow_ne_zero _ _).1 hb
      have w := write_step_bit_at 1 s.bits acc.length 0 q hk
      rw [if_pos (by decide)] at w
      simp only
      rw [w, hbit]
      by_cases hq : q = acc.length
      · rw [if_pos hq, if_pos hq]; rfl
      · rw [if_neg hq, if_neg hq]; exact h8 q
  · simp only [if_neg hb]
    refine ⟨h1, rfl, rfl, ?_, ?_, ?_, h7, fun q => ?_⟩
    · simp only [List.length_append, List.length_singleton]
      exact congrArg (· + 1) h4
    · simp only [List.length_append, List.length_singleton]
      exact a.1
    · simp only [List.length_append, List.length_singleton]
      exact a.2
    · rw [getD_append_one]
      have hbit : bit_at orig_bits src = false := by
        cases hx : bit_at orig_bits src
        · rfl
        · exact absurd ((and_two_pow_ne_zero _ _).2 hx) hb
      simp only
      rw [hbit, h8 q]
      by_cases hq : q = acc.length
      · rw [if_pos hq, hq, List.getD_eq_default _ _ (le_refl _)]
      · rw [if_neg hq]

theorem drop_request_bits_copy (orig_bits : List Nat) (n : Nat) :
    ∀ (size bi : Nat) (acc : List Bool) (src : Nat) (s : drop_state),
      drop_state_holds n acc src s → acc.length + size ≤ 8 * n →
      drop_state_holds n (acc ++ payload_bits orig_bits src size) (src + size)
        (drop_request_bits orig_bits (fun _ => true) size bi s) := by
  intro size
  induction size with
  | zero =>
    intro bi acc src s h _
    simpa [payload_bits, drop_request_bits] using h
  | succ size ih =>
    intro bi acc src s h hroom
    simp only [drop_request_bits, if_true, payload_bits]
    have h1 := drop_skip_bit_holds n _ src _
      (drop_put_bit_holds orig_bits n acc src s h (by omega))
    have h2 := ih (bi + 1) _ (src + 1) _ h1
      (by simp only [List.length_append, List.length_singleton]; omega)
    rw [List.append_assoc, List.singleton_append,
      show src + 1 + size = src + (size + 1) by omega] at h2
    exact h2

theorem drop_request_bits_skip (orig_bits : List Nat) (n : Nat) :
    ∀ (size bi : Nat) (acc : List Bool) (src : Nat) (s : drop_state),
      drop_state_holds n acc src s →
      drop_state_holds n acc (src + size)
        (drop_request_bits orig_bits (fun _ => false) size bi s) := by
  intro size
  induction size with
  | zero =>
    intro bi acc src s h
    simpa [drop_request_bits] using h
  | succ size ih =>
    intro bi acc src s h
    simp only [drop_request_bits, Bool.false_eq_true, if_false]
    have h2 := ih (bi + 1) acc (src + 1) _ (drop_skip_bit_holds n acc src s h)
    rw [show src + 1 + size = src + (size + 1) by omega] at h2
    exact h2

theorem drop_requests_spec (orig : autoshrink_bit_pool) (td dt db n : Nat) :
    ∀ (rs : List Nat) (ri : Nat) (s : drop_state) (p : prng_info) (acc : List Bool) (src : Nat),
      p.bit_pool = none → (∀ r ∈ rs, r ≤ 64) → drop_state_holds n acc src s →
      acc.length ≤ src → src + rs.sum ≤ 8 * n →
      ∃ kept s1 p1, drop_kept td dt db rs ri p = some (kept, p1) ∧
        drop_requests orig td dt db rs ri s p = some (s1, p1) ∧ kept.length = rs.length ∧
        drop_state_holds n (acc ++ kept_payloads orig.bits rs kept src) (src + rs.sum) s1 := by
  intro rs
  induction rs with
  | nil =>
    intro ri s p acc src _ _ h _ _
    refine ⟨[], s, p, rfl, rfl, rfl, ?_⟩
    simpa [kept_payloads] using h
  | cons r rest ih =>
    intro ri s p acc src hp h64 h hacc hroom
    have hr : r ≤ 64 := h64 r (List.mem_cons_self _ _)
    have hrest : ∀ x ∈ rest, x ≤ 64 := fun x hx => h64 x (List.mem_cons_of_mem _ hx)
    simp only [List.sum_cons] at hroom
    have hdrop : ∀ q : prng_info, q.bit_pool = none →
        ∃ ks s1 p1, drop_kept td dt db rest (ri + 1) q = some (ks, p1) ∧
          drop_requests orig td dt db rest (ri + 1)
            (drop_request_bits orig.bits (fun _ => false) r 0 s) q = some (s1, p1) ∧
          ks.length = rest.length ∧
          drop_state_holds n (acc ++ kept_payloads orig.bits (r :: rest) (false :: ks) src)
            (src + (r :: rest).sum) s1 := by
      intro q hq
      obtain ⟨ks, s1, p1, a1, a2, a3, a4⟩ := ih (ri + 1) _ q acc (src + r) hq hrest
        (drop_request_bits_skip orig.bits n r 0 acc src s h) (by omega) (by omega)
      refine ⟨ks, s1, p1, a1, a2, a3, ?_⟩
      simp only [kept_payloads, Bool.false_eq_true, if_false, List.nil_append, List.sum_cons]
      rw [← Nat.add_assoc]
      exact a4
    have hcopy : ∀ q : prng_info, q.bit_pool = none →
        ∃ ks s1 p1, drop_kept td dt db rest (ri + 1) q = some (ks, p1) ∧
          drop_requests orig td dt db rest (ri + 1)
            (drop_request_bits orig.bits (fun _ => true) r 0 s) q = some (s1, p1) ∧
          ks.length = rest.length ∧
          drop_state_holds n (acc ++ kept_payloads orig.bits (r :: rest) (true :: ks) src)
            (src + (r :: rest).sum) s1 := by
      intro q hq
      obtain ⟨ks, s1, p1, a1, a2, a3, a4⟩ := ih (ri + 1) _ q
        (acc ++ payload_bits orig.bits src r) (src + r) hq hrest
        (drop_request_bits_copy orig.bits n r 0 acc src s h (by omega))
        (by simp only [List.length_append, payload_bits_length]; omega) (by omega)
      refine ⟨ks, s1, p1, a1, a2, a3, ?_⟩
      simp only [kept_payloads, if_true, List.sum_cons]
      rw [← Nat.add_assoc, ← List.append_assoc]
      exact a4
    by_cases htd : ri = td
    · obtain ⟨ks, s1, p1, a1, a2, a3, a4⟩ := hdrop p hp
      refine ⟨false :: ks, s1, p1, ?_, ?_, by simp [a3], a4⟩
      · simp only [drop_kept, if_pos htd, a1, Option.map_some']
      · simp only [drop_requests, if_pos htd, Option.bind_eq_bind, Option.some_bind, if_true,
          if_neg (show ¬ r > 64 by omega), a2]
    · obtain ⟨v, q, hv, hq, _⟩ := fuzz_random_bits_some p db hp
      by_cases hle : v ≤ dt
      · obtain ⟨ks, s1, p1, a1, a2, a3, a4⟩ := hdrop q hq
        refine ⟨false :: ks, s1, p1, ?_, ?_, by simp [a3], a4⟩
        · simp only [drop_kept, if_neg htd, hv, a1, Option.map_some', hle, decide_True,
            Bool.not_true]
        · simp only [drop_requests, if_neg htd, Option.bind_eq_bind, Option.some_bind, hv, hle,
            decide_True, if_true, if_neg (show ¬ r > 64 by omega), a2]
      · obtain ⟨ks, s1, p1, a1, a2, a3, a4⟩ := hcopy q hq
        refine ⟨true :: ks, s1, p1, ?_, ?_, by simp [a3], a4⟩
        · simp only [drop_kept, if_neg htd, hv, a1, Option.map_some', hle, decide_False,
            Bool.not_false]
        · simp only [drop_requests, if_neg htd, Option.bind_eq_bind, Option.some_bind, hv, hle,
            decide_False, Bool.false_eq_true, if_false, a2]

theorem bit_at_replicate_zero (n q : Nat) : bit_at (List.replicate n 0) q = false := by
  unfold bit_at
  rw [List.getD_eq_getElem?_getD]
  by_cases h : q / 8 < n
  · rw [List.getElem?_replicate, if_pos h]
    exact Nat.zero_testBit _
  · rw [List.getElem?_eq_none (by simpa using Nat.le_of_not_lt h)]
    exact Nat.zero_testBit _

/-- C36: when every request of the original pool is at most 64 bits wide, the
random source has no pool attached and the copy is a zeroed buffer with room
for the original requests, `drop_from_bit_pool` returns for every state of the
random source. Which requests survive is fixed by the draws alone (`drop_kept`):
the request at the drawn position goes, and every other one goes when its draw
of `drop_bits` bits is at most the threshold. The bits of the copy are then
exactly the payloads of the surviving requests, in order and without gaps, all
other bits are zero, and `bits_filled` is the sum of the surviving widths. -/
theorem drop_copies_kept_payloads (p : prng_info) (env : autoshrink_env)
    (orig copy : autoshrink_bit_pool) (n : Nat) (hp : p.bit_pool = none)
    (h64 : ∀ r ∈ orig.requests, r ≤ 64) (hz : copy.bits = List.replicate n 0)
    (hn : orig.requests.sum ≤ 8 * n) :
    ∃ d p0 kept copy1 p1, fuzz_random_bits p 32 = some (d, p0) ∧
      drop_kept
        (if d ≠ DO_NOT_DROP ∧ orig.request_count > 0 then d % orig.request_count else d)
        (if env.drop_threshold ≠ 0 then env.drop_threshold else DEF_DROP_THRESHOLD)
        (if env.drop_bits ≠ 0 then env.drop_bits else DEF_DROP_BITS)
        orig.requests 0 p0 = some (kept, p1) ∧
      kept.length = orig.requests.length ∧
      drop_from_bit_pool p env orig copy = some (copy1, p1) ∧
      copy1 = { copy with bits := copy1.bits, bits_filled := copy1.bits_filled } ∧
      copy1.bits_filled = kept_width orig.requests kept ∧
      copy1.bits.length = n ∧
      ∀ q, bit_at copy1.bits q = (kept_payloads orig.bits orig.requests kept 0).getD q false := by
  obtain ⟨d, p0, hd, hp0, _⟩ := fuzz_random_bits_some p 32 hp
  have h0 : drop_state_holds n [] 0
      { src_offset := 0, dst_offset := 0, src_byte := 0, dst_byte := 0, src_bit := 0x01,
        dst_bit := 0x01, bits := copy.bits } := by
    refine ⟨rfl, rfl, rfl, rfl, rfl, rfl, ?_, ?_⟩
    · show copy.bits.length = n
      rw [hz, List.length_replicate]
    · intro q
      show bit_at copy.bits q = _
      rw [hz, bit_at_replicate_zero]
      rfl
  obtain ⟨kept, s1, p1, a1, a2, a3, a4⟩ := drop_requests_spec orig
    (if d ≠ DO_NOT_DROP ∧ orig.request_count > 0 then d % orig.request_count else d)
    (if env.drop_threshold ≠ 0 then env.drop_threshold else DEF_DROP_THRESHOLD)
    (if env.drop_bits ≠ 0 then env.drop_bits else DEF_DROP_BITS) n
    orig.requests 0 _ p0 [] 0 hp0 h64 h0 (Nat.le_refl _) (by omega)
  rw [List.nil_append] at a4
  obtain ⟨_, _, _, b4, _, _, b7, b8⟩ := a4
  refine ⟨d, p0, kept, { copy with bits := s1.bits, bits_filled := s1.dst_offset }, p1, hd, a1,
    a3, ?_, rfl, ?_, b7, b8⟩
  · simp only [drop_from_bit_pool, Option.bind_eq_bind, hd, Option.some_bind, a2]
  · show s1.dst_offset = _
    rw [b4]
    exact kept_payloads_length orig.bits orig.requests kept 0

theorem drop_copies_kept_payloads_witness :
    ∃ d p0 kept copy1 p1, fuzz_random_bits (draws_source 64 0x100001234 []) 32 = some (d, p0) ∧
      drop_kept
        (if d ≠ DO_NOT_DROP ∧ pair_pool.request_count > 0 then d % pair_pool.request_count else d)
        (if (scheduled_env ASA_DROP).drop_threshold ≠ 0 then (scheduled_env ASA_DROP).drop_threshold else DEF_DROP_THRESHOLD)
        (if (scheduled_env ASA_DROP).drop_bits ≠ 0 then (scheduled_env ASA_DROP).drop_bits else DEF_DROP_BITS)
        pair_pool.requests 0 p0 = some (kept, p1) ∧
      kept.length = pair_pool.requests.length ∧
      drop_from_bit_pool (draws_source 64 0x100001234 []) (scheduled_env ASA_DROP) pair_pool (alloc_bit_pool pair_pool.bits_filled pair_pool.limit pair_pool.request_ceil) = some (copy1, p1) ∧
      copy1 = { (alloc_bit_pool pair_pool.bits_filled pair_pool.limit pair_pool.request_ceil) with bits := copy1.bits, bits_filled := copy1.bits_filled } ∧
      copy1.bits_filled = kept_width pair_pool.requests kept ∧
      copy1.bits.length = 8 ∧
      ∀ q, bit_at copy1.bits q = (kept_payloads pair_pool.bits pair_pool.requests kept 0).getD q false :=
  drop_copies_kept_payloads (draws_source 64 0x100001234 []) (scheduled_env ASA_DROP) pair_pool
    (alloc_bit_pool pair_pool.bits_filled pair_pool.limit pair_pool.request_ceil) 8 rfl (by decide) rfl
    (by decide)

/-- The run of the witness of C36 evaluated: the first draw `0x1234` drops
request 0, the draw of five bits for request 1 is 1 and keeps it, so the copy
holds the payload `3` of request 1 alone. -/
theorem drop_from_bit_pool_pair_example :
    (drop_from_bit_pool (draws_source 64 0x100001234 []) (scheduled_env ASA_DROP) pair_pool
      (alloc_bit_pool pair_pool.bits_filled pair_pool.limit pair_pool.request_ceil)).map
        (fun x => (x.1.bits, x.1.bits_filled)) = some ([3, 0, 0, 0, 0, 0, 0, 0], 8) := by
  decide!

/-! ## The sub tactic on the range it draws -/

/-- The value the sub tactic writes back, computed on 64 bits, is below the
payload it was computed from. -/
theorem sub_new_value_lt (sub bits : Nat) (hb : 0 < bits) (hlt : bits < 2 ^ 64) :
    (if bits - sub % bits = bits then (bits - sub % bits + 2 ^ 64 - 1) % 2 ^ 64
      else bits - sub % bits) = (if sub % bits = 0 then bits - 1 else bits - sub % bits) ∧
    (if sub % bits = 0 then bits - 1 else bits - sub % bits) < bits := by
  have hmod := Nat.mod_lt sub hb
  by_cases h0 : sub % bits = 0
  · rw [if_pos (by omega), if_pos h0, h0, Nat.sub_zero]
    have e : bits + 2 ^ 64 - 1 = (bits - 1) + 2 ^ 64 := by omega
    rw [e, Nat.add_mod_right, Nat.mod_eq_of_lt (by omega)]
    exact ⟨rfl, by omega⟩
  · rw [if_neg (by omega), if_neg h0]
    exact ⟨rfl, by omega⟩

/-- C32: a sub step of `choose_and_mutate_request` (random source without a
pool, at least one request) returns.  The first draw `r` picks the request, of
`size` bits at offset `off`; the second draw is `sub`; the range the step works
on is the whole request when `size ≤ 64`, and otherwise the `s` bits at
`np` inside it that the next two draws give (`np = a % size`, `s` the 6-bit
draw `c` cut down to `size - np`).  With `bits` the payload read from that
range: when `bits > 0` the step reports a change and writes back
`bits - sub % bits`, or `bits - 1` when that is `bits`, a value below `bits`,
which is what the range holds afterwards when the range lies in the buffer;
when `bits = 0` it reports no change and the pool is the old one. -/
theorem sub_tactic_lowers_payload (fuel : Nat) (p : prng_info) (env : autoshrink_env)
    (orig pool : autoshrink_bit_pool) (p0 : prng_info) (hp : p.bit_pool = none)
    (hm : get_weighted_mutation fuel p env = some (mutation.MUT_SUB, p0))
    (hc : orig.request_count ≠ 0) :
    ∃ r q1 size off sub q2 np s p3 bits changed env1 pool1,
      fuzz_random_bits p0 (log2ceil orig.request_count) = some (r, q1) ∧
      size = orig.requests.getD (r % orig.request_count) 0 ∧
      off = offset_of_pos orig (r % orig.request_count) ∧
      fuzz_random_bits q1 (if size ≤ 64 then size else 64) = some (sub, q2) ∧
      (size ≤ 64 → np = 0 ∧ s = size ∧ p3 = q2) ∧
      (64 < size → ∃ a q3 c, fuzz_random_bits q2 32 = some (a, q3) ∧
        fuzz_random_bits q3 6 = some (c, p3) ∧ np = a % size ∧ s = min c (size - np)) ∧
      np + s ≤ size ∧ s ≤ 64 ∧
      bits = read_bits_at_offset pool (off + np) s ∧
      choose_and_mutate_request fuel p env orig pool = some (changed, env1, pool1, p3) ∧
      (0 < bits →
        changed = true ∧
        (if sub % bits = 0 then bits - 1 else bits - sub % bits) < bits ∧
        pool1 = write_bits_at_offset pool (off + np) s
          (if sub % bits = 0 then bits - 1 else bits - sub % bits) ∧
        (off + np + s ≤ 8 * pool.bits.length →
          read_bits_at_offset pool1 (off + np) s =
            (if sub % bits = 0 then bits - 1 else bits - sub % bits))) ∧
      (bits = 0 → changed = false ∧ pool1 = pool) := by
  have hp0 := get_weighted_mutation_pool fuel p env _ p0 hp hm
  obtain ⟨r, q1, h1, hq1, _⟩ := fuzz_random_bits_some p0 (log2ceil orig.request_count) hp0
  obtain ⟨sub, q2, h2, hq2, _⟩ := fuzz_random_bits_some q1
    (if orig.requests.getD (r % orig.request_count) 0 ≤ 64 then
      orig.requests.getD (r % orig.request_count) 0 else 64) hq1
  have key : ∀ (np s : Nat) (p3 : prng_info), s ≤ 64 →
      (if orig.requests.getD (r % orig.request_count) 0 > 64 then
          (fuzz_random_bits q2 32).bind fun d =>
            (fuzz_random_bits d.2 6).bind fun d1 =>
              some ((d.1 % orig.requests.getD (r % orig.request_count) 0,
                  if d1.1 % 2 ^ 32 > orig.requests.getD (r % orig.request_count) 0 -
                      d.1 % orig.requests.getD (r % orig.request_count) 0 then
                    (orig.requests.getD (r % orig.request_count) 0 -
                      d.1 % orig.requests.getD (r % orig.request_count) 0) % 2 ^ 32
                  else d1.1 % 2 ^ 32), d1.2)
        else some ((0, orig.requests.getD (r % orig.request_count) 0), q2)) =
        some ((np, s), p3) → s % 256 = s →
      ∃ changed env1 pool1,
        choose_and_mutate_request fuel p env orig pool = some (changed, env1, pool1, p3) ∧
        (0 < read_bits_at_offset pool (offset_of_pos orig (r % orig.request_count) + np) s →
          changed = true ∧
          (if sub % read_bits_at_offset pool (offset_of_pos orig (r % orig.request_count) + np) s
              = 0 then
            read_bits_at_offset pool (offset_of_pos orig (r % orig.request_count) + np) s - 1
            else read_bits_at_offset pool (offset_of_pos orig (r % orig.request_count) + np) s -
              sub % read_bits_at_offset pool
                (offset_of_pos orig (r % orig.request_count) + np) s) <
            read_bits_at_offset pool (offset_of_pos orig (r % orig.request_count) + np) s ∧
          pool1 = write_bits_at_offset pool (offset_of_pos orig (r % orig.request_count) + np) s
            (if sub % read_bits_at_offset pool
                (offset_of_pos orig (r % orig.request_count) + np) s = 0 then
              read_bits_at_offset pool (offset_of_pos orig (r % orig.request_count) + np) s - 1
              else read_bits_at_offset pool (offset_of_pos orig (r % orig.request_count) + np) s -
                sub % read_bits_at_offset pool
                  (offset_of_pos orig (r % orig.request_count) + np) s) ∧
          (offset_of_pos orig (r % orig.request_count) + np + s ≤ 8 * pool.bits.length →
            read_bits_at_offset pool1 (offset_of_pos orig (r % orig.request_count) + np) s =
              (if sub % read_bits_at_offset pool
                  (offset_of_pos orig (r % orig.request_count) + np) s = 0 then
                read_bits_at_offset pool (offset_of_pos orig (r % orig.request_count) + np) s - 1
                else
                  read_bits_at_offset pool (offset_of_pos orig (r % orig.request_count) + np) s -
                  sub % read_bits_at_offset pool
                    (offset_of_pos orig (r % orig.request_count) + np) s))) ∧
        (read_bits_at_offset pool (offset_of_pos orig (r % orig.request_count) + np) s = 0 →
          changed = false ∧ pool1 = pool) := by
    intro np s p3 hs64 hpick hs256
    unfold choose_and_mutate_request
    simp only [hm, Option.bind_eq_bind, Option.some_bind, hc, if_false, h1, h2, hpick, hs256]
    have hlt := read_bits_lt pool (offset_of_pos orig (r % orig.request_count) + np) s hs64
    have h264 : 2 ^ s ≤ 2 ^ 64 := Nat.pow_le_pow_right (by decide) hs64
    by_cases hb : read_bits_at_offset pool (offset_of_pos orig (r % orig.request_count) + np) s > 0
    · obtain ⟨e1, e2⟩ := sub_new_value_lt sub _ hb (by omega)
      simp only [if_pos hb, e1]
      refine ⟨_, _, _, rfl, fun _ => ⟨rfl, e2, rfl, fun hbuf => ?_⟩, fun h0 => absurd h0 (by omega)⟩
      exact read_bits_write_same _ _ _ _ hs64 hbuf (lt_trans e2 hlt)
    · simp only [if_neg hb]
      exact ⟨_, _, _, rfl, fun h0 => absurd h0 hb, fun _ => ⟨rfl, rfl⟩⟩
  by_cases hs : orig.requests.getD (r % orig.request_count) 0 > 64
  · obtain ⟨a, q3, h3, hq3, _⟩ := fuzz_random_bits_some q2 32 hq2
    obtain ⟨c, p3, h4, _, hc6⟩ := fuzz_random_bits_some q3 6 hq3
    have hc6 := hc6 (by decide)
    have h64 : (2 : Nat) ^ 6 = 64 := by decide
    have hnp : a % orig.requests.getD (r % orig.request_count) 0 <
        orig.requests.getD (r % orig.request_count) 0 := Nat.mod_lt _ (by omega)
    have hmin : (if c % 2 ^ 32 > orig.requests.getD (r % orig.request_count) 0 -
          a % orig.requests.getD (r % orig.request_count) 0 then
        (orig.requests.getD (r % orig.request_count) 0 -
          a % orig.requests.getD (r % orig.request_count) 0) % 2 ^ 32
        else c % 2 ^ 32) = min c (orig.requests.getD (r % orig.request_count) 0 -
          a % orig.requests.getD (r % orig.request_count) 0) := by
      rw [Nat.mod_eq_of_lt (show c < 2 ^ 32 by omega)]
      split
      · rw [Nat.mod_eq_of_lt (by omega)]; omega
      · omega
    have hsle : min c (orig.requests.getD (r % orig.request_count) 0 -
          a % orig.requests.getD (r % orig.request_count) 0) ≤ 64 := by omega
    obtain ⟨changed, env1, pool1, k1, k2, k3⟩ :=
      key (a % orig.requests.getD (r % orig.request_count) 0)
        (min c (orig.requests.getD (r % orig.request_count) 0 -
          a % orig.requests.getD (r % orig.request_count) 0)) p3 hsle
        (by rw [if_pos hs, h3]; simp only [Option.some_bind, h4, hmin])
        (Nat.mod_eq_of_lt (by omega))
    exact ⟨r, q1, _, _, sub, q2, _, _, p3, _, changed, env1, pool1, h1, rfl, rfl, h2,
      fun h => absurd hs (by omega), fun _ => ⟨a, q3, c, h3, h4, rfl, rfl⟩, by omega, hsle, rfl,
      k1, k2, k3⟩
  · obtain ⟨changed, env1, pool1, k1, k2, k3⟩ :=
      key 0 (orig.requests.getD (r % orig.request_count) 0) q2 (by omega)
        (by rw [if_neg hs]) (Nat.mod_eq_of_lt (by omega))
    exact ⟨r, q1, _, _, sub, q2, 0, _, q2, _, changed, env1, pool1, h1, rfl, rfl, h2,
      fun _ => ⟨rfl, rfl, rfl⟩, fun h => absurd h hs, by omega, by omega, rfl, k1, k2, k3⟩

theorem sub_tactic_lowers_payload_witness :
    ∃ r q1 size off sub q2 np s p3 bits changed env1 pool1,
      fuzz_random_bits (draws_source 64 0x1234 []) (log2ceil pair_pool.request_count) =
        some (r, q1) ∧
      size = pair_pool.requests.getD (r % pair_pool.request_count) 0 ∧
      off = offset_of_pos pair_pool (r % pair_pool.request_count) ∧
      fuzz_random_bits q1 (if size ≤ 64 then size else 64) = some (sub, q2) ∧
      (size ≤ 64 → np = 0 ∧ s = size ∧ p3 = q2) ∧
      (64 < size → ∃ a q3 c, fuzz_random_bits q2 32 = some (a, q3) ∧
        fuzz_random_bits q3 6 = some (c, p3) ∧ np = a % size ∧ s = min c (size - np)) ∧
      np + s ≤ size ∧ s ≤ 64 ∧
      bits = read_bits_at_offset pair_pool (off + np) s ∧
      choose_and_mutate_request 0 (draws_source 64 0x1234 []) (scheduled_env ASA_SUB) pair_pool
          pair_pool = some (changed, env1, pool1, p3) ∧
      (0 < bits →
        changed = true ∧
        (if sub % bits = 0 then bits - 1 else bits - sub % bits) < bits ∧
        pool1 = write_bits_at_offset pair_pool (off + np) s
          (if sub % bits = 0 then bits - 1 else bits - sub % bits) ∧
        (off + np + s ≤ 8 * pair_pool.bits.length →
          read_bits_at_offset pool1 (off + np) s =
            (if sub % bits = 0 then bits - 1 else bits - sub % bits))) ∧
      (bits = 0 → changed = false ∧ pool1 = pair_pool) :=
  sub_tactic_lowers_payload 0 (draws_source 64 0x1234 []) (scheduled_env ASA_SUB) pair_pool
    pair_pool (draws_source 64 0x1234 []) rfl rfl (by decide)

/-- The step of the witness evaluated: the first draw picks request 0, which
holds 5; the draw `sub` is 26, and `5 - 26 % 5 = 4` is written back. -/
theorem sub_tactic_pair_example :
    fuzz_random_bits_seq (draws_source 64 0x1234 []) [1, 8] = some [0, 26] ∧
      (choose_and_mutate_request 0 (draws_source 64 0x1234 []) (scheduled_env ASA_SUB) pair_pool
          pair_pool).map (fun x => (x.1, x.2.2.1.bits)) = some (true, [4, 3]) := by
  decide!

/-! ## The seed of the trial record -/

theorem call_hook_seed {σ : Type} (h : Option (σ → hook_call → Int × σ)) (t : fuzz σ)
    (info : hook_call) : (call_hook h t info).2.trial.seed = t.trial.seed := by
  rw [(call_hook_frame h t info).1]

theorem fuzz_call_seed {σ : Type} (c : fuzz_setup σ) (t : fuzz σ)
    (args : List (Option instance_t)) : (fuzz_call c t args).2.trial.seed = t.trial.seed := by
  rw [(fuzz_call_frame c t args).1]

theorem update_model_arg_seed {σ : Type} (c : fuzz_setup σ) (t : fuzz σ) (arg_id : Nat)
    (res : Int) (adj : Nat) : (update_model_arg c t arg_id res adj).trial.seed = t.trial.seed := by
  unfold update_model_arg
  split
  · rfl
  · split
    · rfl
    · split <;> rfl

theorem shrink_count_result_seed {σ : Type} (c : fuzz_setup σ) (arg_i : Nat) (repeated : Bool)
    (res : Int) (t : fuzz σ) :
    (shrink_count_result c arg_i repeated res t).trial.seed = t.trial.seed := by
  unfold shrink_count_result
  split
  · split
    · exact update_model_arg_seed c _ arg_i res 3
    · rfl
  · rfl

theorem shrink_call_loop_seed {σ : Type} (c : fuzz_setup σ) (arg_i tactic : Nat) :
    ∀ (fuel : Nat) (repeated : Bool) (t : fuzz σ) (o : Option Int) (t1 : fuzz σ),
      shrink_call_loop c arg_i tactic fuel repeated t = some (o, t1) →
      t1.trial.seed = t.trial.seed := by
  intro fuel
  induction fuel with
  | zero => intro repeated t o t1 h; simp [shrink_call_loop] at h
  | succ n ih =>
    intro repeated t o t1 h
    unfold shrink_call_loop at h
    simp only at h
    have hr := fuzz_call_seed c t (fuzz_trial_get_args t)
    generalize fuzz_call c t (fuzz_trial_get_args t) = r at h hr
    have hc := shrink_count_result_seed c arg_i repeated r.1 r.2
    generalize shrink_count_result c arg_i repeated r.1 r.2 = t2 at h hc
    have hh : (shrink_trial_post_hook c t2 arg_i (fuzz_trial_get_args t) tactic r.1).2.trial.seed =
        t2.trial.seed := call_hook_seed _ _ _
    generalize shrink_trial_post_hook c t2 arg_i (fuzz_trial_get_args t) tactic r.1 = hk at h hh
    have key : hk.2.trial.seed = t.trial.seed := by rw [hh, hc, hr]
    split at h
    · rw [ih true hk.2 o t1 h, key]
    · split at h
      · injection h with h; injection h with _ h; rw [← h, key]
      · split at h
        · injection h with h; injection h with _ h; rw [← h, key]
        · injection h with h; injection h with _ h; rw [← h, key]

theorem fuzz_call_mark_called_seed {σ : Type} (c : fuzz_setup σ) (t t0 : fuzz σ)
    (b : fuzz_bloom) (h : fuzz_call_mark_called c t b = some t0) :
    t0.trial.seed = t.trial.seed := by
  unfold fuzz_call_mark_called at h
  split at h
  · simp at h
  · injection h with h; rw [← h]

theorem shrink_try_candidate_seed {σ : Type} (c : fuzz_setup σ) (fuel arg_i tactic : Nat)
    (ua : Bool) (cur : Option instance_t) (cbp : Option autoshrink_bit_pool) (tc : fuzz σ)
    (r : Option shrink_res) (t' : fuzz σ)
    (h : shrink_try_candidate c fuel arg_i tactic ua cur cbp tc = some (r, t')) :
    t'.trial.seed = tc.trial.seed := by
  unfold shrink_try_candidate at h
  split at h
  · simp at h
  · next t1 hl =>
    injection h with h
    injection h with _ h
    rw [← h]
    exact shrink_call_loop_seed c arg_i tactic fuel false tc _ t1 hl
  · next res t1 hl =>
    have h1 := shrink_call_loop_seed c arg_i tactic fuel false tc _ t1 hl
    have h2 := update_model_arg_seed c t1 arg_i res 8
    simp only at h
    split at h
    · injection h with h
      injection h with _ h
      rw [← h]
      exact h2.trans h1
    · split at h
      · injection h with h
        injection h with _ h
        rw [← h]
        exact h2.trans h1
      · injection h with h
        injection h with _ h
        rw [← h]
        exact h2.trans h1

theorem shrink_post_hook_seed {σ : Type} (c : fuzz_setup σ) (t : fuzz σ) (arg_index : Nat)
    (arg : Option instance_t) (tactic : Nat) (sres : Int) (post : Int × fuzz σ)
    (h : shrink_post_hook c t arg_index arg tactic sres = some post) :
    post.2.trial.seed = t.trial.seed := by
  unfold shrink_post_hook at h
  split at h
  · injection h with h; rw [← h]
  · split at h
    · injection h with h; rw [← h]; exact call_hook_seed _ _ _
    · simp at h

theorem attempt_tactic_seed {σ : Type} (c : fuzz_setup σ) (fuel arg_i tactic : Nat) (t : fuzz σ)
    (r : Option shrink_res) (t' : fuzz σ)
    (h : attempt_tactic c fuel arg_i tactic t = some (r, t')) : t'.trial.seed = t.trial.seed := by
  unfold attempt_tactic at h
  split at h
  · simp at h
  · next ti hti =>
    have hpre : (shrink_pre_hook c t arg_i (get_arg t arg_i).inst tactic).2.trial.seed =
        t.trial.seed := call_hook_seed _ _ _
    simp only at h
    generalize shrink_pre_hook c t arg_i (get_arg t arg_i).inst tactic = pre at h hpre
    split at h
    · injection h with h; injection h with _ h; rw [← h]; exact hpre
    · split at h
      · injection h with h; injection h with _ h; rw [← h]; exact hpre
      · split at h
        · simp at h
        · next sres candidate candidate_bit_pool t2 hsh =>
          have h2 : t2.trial.seed = t.trial.seed := by
            split at hsh
            · split at hsh
              · simp at hsh
              · split at hsh
                · simp at hsh
                · injection hsh with hsh
                  injection hsh with _ hsh
                  injection hsh with _ hsh
                  injection hsh with _ hsh
                  rw [← hsh]
                  exact hpre
            · split at hsh
              · simp at hsh
              · injection hsh with hsh
                injection hsh with _ hsh
                injection hsh with _ hsh
                injection hsh with _ hsh
                rw [← hsh]
                exact hpre
          split at h
          · simp at h
          · next post hpost =>
            have h3 : post.2.trial.seed = t.trial.seed :=
              (shrink_post_hook_seed c _ _ _ _ _ post hpost).trans h2
            split at h
            · injection h with h; injection h with _ h; rw [← h]; exact h3
            · split at h
              · split at h
                · split at h
                  · injection h with h; injection h with _ h; rw [← h]; exact h3
                  · split at h
                    · simp at h
                    · next t6 hm =>
                      rw [shrink_try_candidate_seed c fuel arg_i tactic _ _ _ t6 r t' h,
                        fuzz_call_mark_called_seed c _ t6 _ hm]
                      exact h3
                · rw [shrink_try_candidate_seed c fuel arg_i tactic _ _ _ _ r t' h]
                  exact h3
              · split at h
                · injection h with h; injection h with _ h; rw [← h]; exact h3
                · split at h
                  · injection h with h; injection h with _ h; rw [← h]; exact h3
                  · injection h with h; injection h with _ h; rw [← h]; exact h3

theorem attempt_to_shrink_arg_loop_seed {σ : Type} (c : fuzz_setup σ) (fuel arg_i : Nat) :
    ∀ (n tactic : Nat) (t : fuzz σ) (r : shrink_res) (t' : fuzz σ),
      attempt_to_shrink_arg_loop c fuel arg_i n tactic t = some (r, t') →
      t'.trial.seed = t.trial.seed := by
  intro n
  induction n with
  | zero => intro tactic t r t' h; simp [attempt_to_shrink_arg_loop] at h
  | succ n ih =>
    intro tactic t r t' h
    unfold attempt_to_shrink_arg_loop at h
    split at h
    · split at h
      · simp at h
      · next r1 t1 ht =>
        injection h with h
        injection h with _ h
        rw [← h]
        exact attempt_tactic_seed c fuel arg_i tactic t _ t1 ht
      · next t1 ht =>
        rw [ih _ _ _ _ h]
        exact attempt_tactic_seed c fuel arg_i tactic t _ t1 ht
    · injection h with h
      injection h with _ h
      rw [← h]

theorem fuzz_shrink_loop_seed {σ : Type} (c : fuzz_setup σ) (fuel : Nat) :
    ∀ (n arg_i : Nat) (progress : Bool) (t : fuzz σ) (b : Bool) (t' : fuzz σ),
      fuzz_shrink_loop c fuel n arg_i progress t = some (b, t') →
      t'.trial.seed = t.trial.seed := by
  intro n
  induction n with
  | zero => intro arg_i progress t b t' h; simp [fuzz_shrink_loop] at h
  | succ n ih =>
    intro arg_i progress t b t' h
    unfold fuzz_shrink_loop at h
    split at h
    · split at h
      · simp at h
      · split at h
        · split at h
          · simp at h
          · next t1 ha =>
            rw [ih _ _ _ _ _ h]
            exact attempt_to_shrink_arg_loop_seed c fuel arg_i _ _ _ _ _ ha
          · next t1 ha =>
            injection h with h
            injection h with _ h
            rw [← h]
            exact attempt_to_shrink_arg_loop_seed c fuel arg_i _ _ _ _ _ ha
          · next t1 ha =>
            rw [ih _ _ _ _ _ h]
            exact attempt_to_shrink_arg_loop_seed c fuel arg_i _ _ _ _ _ ha
          · next t1 ha =>
            injection h with h
            injection h with _ h
            rw [← h]
            exact attempt_to_shrink_arg_loop_seed c fuel arg_i _ _ _ _ _ ha
        · exact ih _ _ _ _ _ h
    · split at h
      · exact ih _ _ _ _ _ h
      · injection h with h
        injection h with _ h
        rw [← h]

theorem fuzz_shrink_seed {σ : Type} (c : fuzz_setup σ) (fuel : Nat) (t : fuzz σ) (b : Bool)
    (t' : fuzz σ) (h : fuzz_shrink c fuel t = some (b, t')) : t'.trial.seed = t.trial.seed := by
  unfold fuzz_shrink at h
  split at h
  · simp at h
  · exact fuzz_shrink_loop_seed c fuel _ _ _ _ _ _ h

theorem report_repeat_loop_seed {σ : Type} (c : fuzz_setup σ) (info : hook_call) :
    ∀ (fuel : Nat) (res : Int) (t : fuzz σ) (r : Int) (t' : fuzz σ),
      report_repeat_loop c info fuel res t = some (r, t') → t'.trial.seed = t.trial.seed := by
  intro fuel
  induction fuel with
  | zero => intro res t r t' h; simp [report_repeat_loop] at h
  | succ n ih =>
    intro res t r t' h
    unfold report_repeat_loop at h
    split at h
    · have hc := fuzz_call_seed c t info.args
      simp only at h
      generalize fuzz_call c t info.args = q at h hc
      split at h
      · split at h
        · injection h with h
          injection h with _ h
          rw [← h, call_hook_seed]
          exact hc
        · rw [ih _ _ _ _ h, call_hook_seed]
          exact hc
      · split at h
        · rw [ih _ _ _ _ h]
          exact hc
        · split at h
          · injection h with h
            injection h with _ h
            rw [← h]
            exact hc
          · injection h with h
            injection h with _ h
            rw [← h]
            exact hc
    · injection h with h
      injection h with _ h
      rw [← h]

theorem report_on_failure_seed {σ : Type} (c : fuzz_setup σ) (fuel : Nat) (t : fuzz σ)
    (info : hook_call) (r : Int) (t' : fuzz σ)
    (h : report_on_failure c fuel t info = some (r, t')) : t'.trial.seed = t.trial.seed := by
  unfold report_on_failure at h
  simp only at h
  split at h
  · injection h with h
    injection h with _ h
    rw [← h]
    exact call_hook_seed _ _ _
  · rw [report_repeat_loop_seed c info _ _ _ _ _ h, call_hook_seed, call_hook_seed]

theorem fuzz_trial_run_seed {σ : Type} (c : fuzz_setup σ) (fuel : Nat) (t : fuzz σ)
    (ok : Bool) (pres : Int) (t' : fuzz σ) (h : fuzz_trial_run c fuel t = some (ok, pres, t')) :
    t'.trial.seed = t.trial.seed := by
  unfold fuzz_trial_run at h
  split at h
  · simp at h
  · split at h
    · simp at h
    · next t0 h0 =>
      have hp0 : t0.trial.seed = t.trial.seed := by
        split at h0
        · exact fuzz_call_mark_called_seed c t t0 _ h0
        · injection h0 with h0; rw [h0]
      have hc := fuzz_call_seed c t0 (fuzz_trial_get_args t0)
      simp only at h
      generalize fuzz_call c t0 (fuzz_trial_get_args t0) = r at h hc
      split at h
      · injection h with h
        injection h with _ h
        injection h with _ h
        rw [← h, call_hook_seed]
        exact hc.trans hp0
      · split at h
        · split at h
          · simp at h
          · next t2 hs =>
            injection h with h
            injection h with _ h
            injection h with _ h
            rw [← h, call_hook_seed, fuzz_shrink_seed c fuel _ _ _ hs]
            exact hc.trans hp0
          · next t2 hs =>
            split at h
            · simp at h
            · next pres1 t4 hr =>
              injection h with h
              injection h with _ h
              injection h with _ h
              rw [← h, report_on_failure_seed c fuel _ _ _ _ hr]
              show t2.trial.seed = _
              rw [fuzz_shrink_seed c fuel _ _ _ hs]
              exact hc.trans hp0
        · split at h
          · injection h with h
            injection h with _ h
            injection h with _ h
            rw [← h, call_hook_seed]
            exact hc.trans hp0
          · split at h
            · injection h with h
              injection h with _ h
              injection h with _ h
              rw [← h, call_hook_seed]
              exact hc.trans hp0
            · simp at h

theorem gen_all_args_seed {σ : Type} (c : fuzz_setup σ) (t : fuzz σ) (g : all_gen_res)
    (t3 : fuzz σ) (h : gen_all_args c t = some (g, t3)) : t3.trial.seed = t.trial.seed := by
  unfold gen_all_args at h
  split at h
  · simp at h
  · simp only at h
    split at h
    · injection h with h; injection h with _ h; rw [← h]
    · split at h
      · split at h
        · injection h with h; injection h with _ h; rw [← h]
        · injection h with h; injection h with _ h; rw [← h]
      · injection h with h; injection h with _ h; rw [← h]

theorem run_step_switch_seed {σ : Type} (c : fuzz_setup σ) (fuel : Nat) (t3 : fuzz σ)
    (gres : all_gen_res) (info : hook_call) (o : Option run_step_res) (pres : Int) (t6 : fuzz σ)
    (h : run_step_switch c fuel t3 gres info = some (o, pres, t6)) :
    t6.trial.seed = t3.trial.seed := by
  unfold run_step_switch at h
  split at h
  · injection h with h
    injection h with _ h
    injection h with _ h
    rw [← h, call_hook_seed]
  · injection h with h
    injection h with _ h
    injection h with _ h
    rw [← h, call_hook_seed]
  · injection h with h
    injection h with _ h
    injection h with _ h
    rw [← h, call_hook_seed]
  · simp only at h
    split at h
    · injection h with h
      injection h with _ h
      injection h with _ h
      rw [← h, call_hook_seed]
    · split at h
      · injection h with h
        injection h with _ h
        injection h with _ h
        rw [← h, call_hook_seed]
      · split at h
        · simp at h
        · next pres1 t5 htr =>
          injection h with h
          injection h with _ h
          injection h with _ h
          rw [← h, fuzz_trial_run_seed c fuel _ _ _ _ htr, call_hook_seed]
        · next pres1 t5 htr =>
          injection h with h
          injection h with _ h
          injection h with _ h
          rw [← h, fuzz_trial_run_seed c fuel _ _ _ _ htr, call_hook_seed]

theorem trial_seed_at {σ : Type} (c : fuzz_setup σ) (fuel : Nat) (t : fuzz σ) (i si : Nat)
    (ti : fuzz σ) (x : Nat) (hi : trial_loop_after c fuel i 0 c.run_seed t = some (si, ti))
    (hx : (i < c.always_seeds.length ∧ x = c.always_seeds.getD i 0) ∨
      (i = c.always_seeds.length ∧ x = c.run_seed)) : trial_seed c i si = x := by
  unfold trial_seed
  rcases hx with ⟨h1, h2⟩ | ⟨h1, h2⟩
  · rw [if_pos h1, h2]
  · rw [if_neg (by omega)]
    by_cases h0 : c.always_seeds.length > 0
    · rw [if_pos ⟨h0, h1⟩, h2]
    · rw [if_neg (fun h => h0 h.1), h2]
      have hz : i = 0 := by omega
      subst hz
      unfold trial_loop_after at hi
      injection hi with hi
      injection hi with hi _
      exact hi.symm

/-- C19: let `i` trials of a run have completed (the trial loop of
`fuzz_run_trials` starts with `seed = run_seed`), and let `x` be
`always_seeds[i]` when `i < always_seed_count` and `run_seed` when
`i = always_seed_count`, which covers trial 0 of a run without always-run
seeds.  Then `run_step` runs trial `i` with the seed `x`: the trial record it
sets up for the pre-gen-args hook carries `x`; when that hook halts or reports
an error the step returns with `*seed = x`; and whenever the step returns, the
trial record it leaves carries the seed `x`, `*seed` is `x` unless the step
ended with `RUN_STEP_OK` (then it is the seed drawn for the next trial), and
when the hook returned continue the arguments were generated after
`fuzz_random_set_seed(t, x)`. -/
theorem run_step_uses_always_seeds_then_run_seed {σ : Type} (c : fuzz_setup σ) (fuel : Nat)
    (t : fuzz σ) (i si : Nat) (ti : fuzz σ) (x : Nat)
    (hi : trial_loop_after c fuel i 0 c.run_seed t = some (si, ti))
    (hx : (i < c.always_seeds.length ∧ x = c.always_seeds.getD i 0) ∨
      (i = c.always_seeds.length ∧ x = c.run_seed)) :
    ∃ t0 pre,
      t0 = { ti with trial := { trial_info_zero with trial := i, seed := x,
                                                     args := init_arg_info c.type_info } } ∧
      pre = call_hook c.pre_gen_args t0 (hook_call_of c t0) ∧
      (hook_call_of c t0).trial_id = i ∧ (hook_call_of c t0).trial_seed = x ∧
      (pre.1 = FUZZ_HOOK_RUN_HALT →
        run_step c fuel ti i si = some (run_step_res.RUN_STEP_HALT, x, pre.2)) ∧
      (pre.1 = FUZZ_HOOK_RUN_ERROR →
        run_step c fuel ti i si = some (run_step_res.RUN_STEP_GEN_ERROR, x, pre.2)) ∧
      ∀ res s1 t1, run_step c fuel ti i si = some (res, s1, t1) →
        t1.trial.seed = x ∧ (res ≠ run_step_res.RUN_STEP_OK → s1 = x) ∧
        (pre.1 = FUZZ_HOOK_RUN_CONTINUE →
          ∃ gres t3, gen_all_args c { pre.2 with prng := fuzz_random_set_seed pre.2.prng x } =
            some (gres, t3)) := by
  have hts := trial_seed_at c fuel t i si ti x hi hx
  refine ⟨_, _, rfl, rfl, rfl, rfl, ?_, ?_, ?_⟩
  · intro hp
    unfold run_step
    simp only [hts]
    rw [if_pos hp]
  · intro hp
    unfold run_step
    simp only [hts]
    rw [if_neg (by rw [hp]; decide), if_pos hp]
  · intro res s1 t1 h
    unfold run_step at h
    simp only [hts] at h
    have hpre : (call_hook c.pre_gen_args
        { ti with trial := { trial_info_zero with trial := i, seed := x,
                                                  args := init_arg_info c.type_info } }
        (hook_call_of c
          { ti with trial := { trial_info_zero with trial := i, seed := x,
                                                    args := init_arg_info c.type_info } })).2.trial.seed
        = x := call_hook_seed _ _ _
    generalize call_hook c.pre_gen_args
        { ti with trial := { trial_info_zero with trial := i, seed := x,
                                                  args := init_arg_info c.type_info } }
        (hook_call_of c
          { ti with trial := { trial_info_zero with trial := i, seed := x,
                                                    args := init_arg_info c.type_info } }) = pre
      at h hpre
    split at h
    · next hp =>
      injection h with h
      injection h with h1 h
      injection h with h2 h
      subst h1 h2 h
      exact ⟨hpre, fun _ => rfl, fun hc => absurd (hp.symm.trans hc) (by decide)⟩
    · split at h
      · next hp =>
        injection h with h
        injection h with h1 h
        injection h with h2 h
        subst h1 h2 h
        exact ⟨hpre, fun _ => rfl, fun hc => absurd (hp.symm.trans hc) (by decide)⟩
      · split at h
        · simp at h
        · split at h
          · simp at h
          · next gres t3 hg =>
            have h3 : t3.trial.seed = x := (gen_all_args_seed c _ gres t3 hg).trans hpre
            split at h
            · simp at h
            · next r pres t6 hsw =>
              injection h with h
              injection h with h1 h
              injection h with h2 h
              subst h1 h2 h
              exact ⟨(run_step_switch_seed c fuel t3 gres _ _ _ _ hsw).trans h3, fun _ => rfl,
                fun _ => ⟨gres, t3, hg⟩⟩
            · next pres t6 hsw =>
              have h6 : t6.trial.seed = x :=
                (run_step_switch_seed c fuel t3 gres _ _ _ _ hsw).trans h3
              split at h
              · injection h with h
                injection h with h1 h
                injection h with h2 h
                subst h1 h2 h
                exact ⟨h6, fun _ => rfl, fun _ => ⟨gres, t3, hg⟩⟩
              · split at h
                · simp at h
                · injection h with h
                  injection h with h1 h
                  injection h with h2 h
                  subst h1 h2 h
                  exact ⟨h6, fun hne => absurd rfl hne, fun _ => ⟨gres, t3, hg⟩⟩

theorem run_step_uses_always_seeds_then_run_seed_witness :
    ∃ t0 pre,
      t0 = { probe_state [] with
        trial := { trial_info_zero with trial := 0, seed := 11,
                                        args := init_arg_info seed_log_setup.type_info } } ∧
      pre = call_hook seed_log_setup.pre_gen_args t0 (hook_call_of seed_log_setup t0) ∧
      (hook_call_of seed_log_setup t0).trial_id = 0 ∧
      (hook_call_of seed_log_setup t0).trial_seed = 11 ∧
      (pre.1 = FUZZ_HOOK_RUN_HALT →
        run_step seed_log_setup 5 (probe_state []) 0 13 =
          some (run_step_res.RUN_STEP_HALT, 11, pre.2)) ∧
      (pre.1 = FUZZ_HOOK_RUN_ERROR →
        run_step seed_log_setup 5 (probe_state []) 0 13 =
          some (run_step_res.RUN_STEP_GEN_ERROR, 11, pre.2)) ∧
      ∀ res s1 t1, run_step seed_log_setup 5 (probe_state []) 0 13 = some (res, s1, t1) →
        t1.trial.seed = 11 ∧ (res ≠ run_step_res.RUN_STEP_OK → s1 = 11) ∧
        (pre.1 = FUZZ_HOOK_RUN_CONTINUE →
          ∃ gres t3,
            gen_all_args seed_log_setup
              { pre.2 with prng := fuzz_random_set_seed pre.2.prng 11 } = some (gres, t3)) :=
  run_step_uses_always_seeds_then_run_seed seed_log_setup 5 (probe_state []) 0 13
    (probe_state []) 11 rfl (Or.inl ⟨by decide, rfl⟩)

/-- The seeds as the pre-gen-args hook sees them: with the always-run seeds 11
and 12 and the run seed 13 the three trials are given 11, 12 and 13; without
always-run seeds trial 0 is given the run seed. -/
theorem seed_log_example :
    (fuzz_run_trials seed_log_setup 5 (probe_state [])).map (fun x => (x.1, x.2.2.env)) =
      some (FUZZ_RESULT_OK, [11, 12, 13]) ∧
    (fuzz_run_trials { seed_log_setup with always_seeds := [], trial_count := 1 } 5
        (probe_state [])).map (fun x => (x.1, x.2.2.env)) = some (FUZZ_RESULT_OK, [13]) := by
  refine ⟨by decide!, by decide!⟩

/-! ## The last property call of a shrink attempt -/

theorem shrink_call_loop_unfold {σ : Type} (c : fuzz_setup σ) (arg_i tactic fuel : Nat)
    (repeated : Bool) (t : fuzz σ) :
    shrink_call_loop c arg_i tactic (fuel + 1) repeated t =
      if (shrink_call_once c arg_i tactic repeated t).2.1 = FUZZ_HOOK_RUN_REPEAT ∨
          ((shrink_call_once c arg_i tactic repeated t).2.1 = FUZZ_HOOK_RUN_REPEAT_ONCE ∧
            !repeated) then
        shrink_call_loop c arg_i tactic fuel true (shrink_call_once c arg_i tactic repeated t).2.2
      else if ((shrink_call_once c arg_i tactic repeated t).2.1 = FUZZ_HOOK_RUN_REPEAT_ONCE ∧
          repeated) ∨ (shrink_call_once c arg_i tactic repeated t).2.1 = FUZZ_HOOK_RUN_CONTINUE then
        some (some (shrink_call_once c arg_i tactic repeated t).1,
          (shrink_call_once c arg_i tactic repeated t).2.2)
      else some (none, (shrink_call_once c arg_i tactic repeated t).2.2) := by
  rw [shrink_call_loop]
  simp only [shrink_call_once]
  split
  · rfl
  · split
    · next h => rw [if_pos (Or.inl h)]
    · next h1 =>
      split
      · next h => rw [if_pos (Or.inr h)]
      · next h2 =>
        rw [if_neg]
        rintro (h | h)
        · exact h1 h
        · exact h2 h

/-- The call loop in terms of its passes: when `k` passes were each followed by
another one and pass `k + 1` leaves the loop, the loop returns what this last
pass gives: the result of its property call when the hook returned continue
(or repeat-once on a repeated pass), and no result when the hook returned
another code. -/
theorem shrink_call_loop_of_last {σ : Type} (c : fuzz_setup σ) (arg_i tactic : Nat) :
    ∀ (k fuel : Nat) (repeated : Bool) (t : fuzz σ) (rep0 : Bool) (t0 : fuzz σ), k < fuel →
      shrink_calls_repeated c arg_i tactic k repeated t = some (rep0, t0) →
      ¬ ((shrink_call_once c arg_i tactic rep0 t0).2.1 = FUZZ_HOOK_RUN_REPEAT ∨
        ((shrink_call_once c arg_i tactic rep0 t0).2.1 = FUZZ_HOOK_RUN_REPEAT_ONCE ∧ !rep0)) →
      shrink_call_loop c arg_i tactic fuel repeated t =
        some (if ((shrink_call_once c arg_i tactic rep0 t0).2.1 = FUZZ_HOOK_RUN_REPEAT_ONCE ∧
              rep0) ∨ (shrink_call_once c arg_i tactic rep0 t0).2.1 = FUZZ_HOOK_RUN_CONTINUE then
            some (shrink_call_once c arg_i tactic rep0 t0).1 else none,
          (shrink_call_once c arg_i tactic rep0 t0).2.2) := by
  intro k
  induction k with
  | zero =>
    intro fuel repeated t rep0 t0 hk h hl
    obtain ⟨n, rfl⟩ : ∃ n, fuel = n + 1 := ⟨fuel - 1, by omega⟩
    simp only [shrink_calls_repeated] at h
    injection h with h
    injection h with h1 h2
    subst h1 h2
    rw [shrink_call_loop_unfold, if_neg hl]
    split <;> rfl
  | succ k ih =>
    intro fuel repeated t rep0 t0 hk h hl
    obtain ⟨n, rfl⟩ : ∃ n, fuel = n + 1 := ⟨fuel - 1, by omega⟩
    simp only [shrink_calls_repeated] at h
    split at h
    · next hrep =>
      rw [shrink_call_loop_unfold, if_pos hrep]
      exact ih n true _ rep0 t0 (by omega) h hl
    · simp at h

/-- Every result of the call loop is the one of a last pass. -/
theorem shrink_call_loop_last {σ : Type} (c : fuzz_setup σ) (arg_i tactic : Nat) :
    ∀ (fuel : Nat) (repeated : Bool) (t : fuzz σ) (o : Option Int) (tl : fuzz σ),
      shrink_call_loop c arg_i tactic fuel repeated t = some (o, tl) →
      ∃ k rep0 t0, k < fuel ∧
        shrink_calls_repeated c arg_i tactic k repeated t = some (rep0, t0) ∧
        ¬ ((shrink_call_once c arg_i tactic rep0 t0).2.1 = FUZZ_HOOK_RUN_REPEAT ∨
          ((shrink_call_once c arg_i tactic rep0 t0).2.1 = FUZZ_HOOK_RUN_REPEAT_ONCE ∧ !rep0)) ∧
        o = (if ((shrink_call_once c arg_i tactic rep0 t0).2.1 = FUZZ_HOOK_RUN_REPEAT_ONCE ∧
              rep0) ∨ (shrink_call_once c arg_i tactic rep0 t0).2.1 = FUZZ_HOOK_RUN_CONTINUE then
            some (shrink_call_once c arg_i tactic rep0 t0).1 else none) ∧
        tl = (shrink_call_once c arg_i tactic rep0 t0).2.2 := by
  intro fuel
  induction fuel with
  | zero => intro repeated t o tl h; simp [shrink_call_loop] at h
  | succ n ih =>
    intro repeated t o tl h
    rw [shrink_call_loop_unfold] at h
    by_cases hrep : (shrink_call_once c arg_i tactic repeated t).2.1 = FUZZ_HOOK_RUN_REPEAT ∨
        ((shrink_call_once c arg_i tactic repeated t).2.1 = FUZZ_HOOK_RUN_REPEAT_ONCE ∧ !repeated)
    · rw [if_pos hrep] at h
      obtain ⟨k, rep0, t0, hk, h1, h2, h3, h4⟩ := ih true _ o tl h
      refine ⟨k + 1, rep0, t0, by omega, ?_, h2, h3, h4⟩
      simp only [shrink_calls_repeated]
      rw [if_pos hrep]
      exact h1
    · rw [if_neg hrep] at h
      refine ⟨0, repeated, t, by omega, rfl, hrep, ?_, ?_⟩
      · split at h
        · next hn => rw [if_pos hn]; injection h with h; injection h with h _; exact h.symm
        · next hn => rw [if_neg hn]; injection h with h; injection h with h _; exact h.symm
      · split at h
        · injection h with h; injection h with _ h; exact h.symm
        · injection h with h; injection h with _ h; exact h.symm

/-- A pass of the tactic loop is its part before the property call, followed by
the call loop with commit or revert when that part stored a candidate. -/
theorem attempt_tactic_eq {σ : Type} (c : fuzz_setup σ) (fuel arg_i tactic : Nat) (t : fuzz σ) :
    attempt_tactic c fuel arg_i tactic t =
      match shrink_propose c fuel arg_i tactic t with
      | none => none
      | some (Sum.inl x) => some x
      | some (Sum.inr x) =>
        shrink_try_candidate c fuel arg_i tactic x.1 x.2.1 x.2.2.1 x.2.2.2.2.2 := by
  have tail : ∀ (ua : Bool) (sres : Int) (candidate : Option instance_t)
      (candidate_bit_pool : Option autoshrink_bit_pool) (t2 : fuzz σ),
      (match shrink_post_hook c
            { t2 with trial := { t2.trial with shrink_count := t2.trial.shrink_count + 1 } } arg_i
            (if sres = FUZZ_SHRINK_OK then candidate else (get_arg t arg_i).inst) tactic sres with
        | none => none
        | some post =>
          if post.1 ≠ FUZZ_HOOK_RUN_CONTINUE then some (some shrink_res.SHRINK_ERROR, post.2)
          else
            if sres = FUZZ_SHRINK_OK then
              match (store_arg post.2 arg_i ua candidate candidate_bit_pool).bloom with
              | some b =>
                if fuzz_call_check_called c
                    (store_arg post.2 arg_i ua candidate candidate_bit_pool) b then
                  some (none, store_arg (store_arg post.2 arg_i ua candidate candidate_bit_pool)
                    arg_i ua (get_arg t arg_i).inst (stored_arg t2 arg_i).2)
                else
                  match fuzz_call_mark_called c
                      (store_arg post.2 arg_i ua candidate candidate_bit_pool) b with
                  | none => none
                  | some t6 =>
                    shrink_try_candidate c fuel arg_i tactic ua (get_arg t arg_i).inst
                      (stored_arg t2 arg_i).2 t6
              | none =>
                shrink_try_candidate c fuel arg_i tactic ua (get_arg t arg_i).inst
                  (stored_arg t2 arg_i).2 (store_arg post.2 arg_i ua candidate candidate_bit_pool)
            else if sres = FUZZ_SHRINK_DEAD_END then some (none, post.2)
            else if sres = FUZZ_SHRINK_NO_MORE_TACTICS then
              some (some shrink_res.SHRINK_DEAD_END, post.2)
            else some (some shrink_res.SHRINK_ERROR, post.2)) =
      (match (match shrink_post_hook c
            { t2 with trial := { t2.trial with shrink_count := t2.trial.shrink_count + 1 } } arg_i
            (if sres = FUZZ_SHRINK_OK then candidate else (get_arg t arg_i).inst) tactic sres with
        | none => none
        | some post =>
          if post.1 ≠ FUZZ_HOOK_RUN_CONTINUE then
            some (Sum.inl (some shrink_res.SHRINK_ERROR, post.2))
          else
            if sres = FUZZ_SHRINK_OK then
              match (store_arg post.2 arg_i ua candidate candidate_bit_pool).bloom with
              | some b =>
                if fuzz_call_check_called c
                    (store_arg post.2 arg_i ua candidate candidate_bit_pool) b then
                  some (Sum.inl
                    (none, store_arg (store_arg post.2 arg_i ua candidate candidate_bit_pool)
                      arg_i ua (get_arg t arg_i).inst (stored_arg t2 arg_i).2))
                else
                  match fuzz_call_mark_called c
                      (store_arg post.2 arg_i ua candidate candidate_bit_pool) b with
                  | none => none
                  | some t6 =>
                    some (Sum.inr (ua, (get_arg t arg_i).inst, (stored_arg t2 arg_i).2, candidate,
                      candidate_bit_pool, t6))
              | none =>
                some (Sum.inr (ua, (get_arg t arg_i).inst, (stored_arg t2 arg_i).2, candidate,
                  candidate_bit_pool, store_arg post.2 arg_i ua candidate candidate_bit_pool))
            else if sres = FUZZ_SHRINK_DEAD_END then some (Sum.inl (none, post.2))
            else if sres = FUZZ_SHRINK_NO_MORE_TACTICS then
              some (Sum.inl (some shrink_res.SHRINK_DEAD_END, post.2))
            else some (Sum.inl (some shrink_res.SHRINK_ERROR, post.2))) with
      | none => none
      | some (Sum.inl x) => some x
      | some (Sum.inr x) =>
        shrink_try_candidate c fuel arg_i tactic x.1 x.2.1 x.2.2.1 x.2.2.2.2.2) := by
    intro ua sres candidate candidate_bit_pool t2
    cases shrink_post_hook c
        { t2 with trial := { t2.trial with shrink_count := t2.trial.shrink_count + 1 } } arg_i
        (if sres = FUZZ_SHRINK_OK then candidate else (get_arg t arg_i).inst) tactic sres with
    | none => rfl
    | some post =>
      simp only []
      by_cases h3 : post.1 ≠ FUZZ_HOOK_RUN_CONTINUE
      · simp only [if_pos h3]
      · simp only [if_neg h3]
        by_cases h4 : sres = FUZZ_SHRINK_OK
        · simp only [if_pos h4]
          cases (store_arg post.2 arg_i ua candidate candidate_bit_pool).bloom with
          | none => rfl
          | some b =>
            simp only []
            cases fuzz_call_check_called c
                (store_arg post.2 arg_i ua candidate candidate_bit_pool) b with
            | true => rfl
            | false =>
              simp only [Bool.false_eq_true, if_false]
              cases fuzz_call_mark_called c
                  (store_arg post.2 arg_i ua candidate candidate_bit_pool) b with
              | none => rfl
              | some t6 => rfl
        · simp only [if_neg h4]
          by_cases h5 : sres = FUZZ_SHRINK_DEAD_END
          · simp only [if_pos h5]
          · simp only [if_neg h5]
            by_cases h6 : sres = FUZZ_SHRINK_NO_MORE_TACTICS
            · simp only [if_pos h6]
            · simp only [if_neg h6]
  unfold attempt_tactic shrink_propose
  cases c.type_info[arg_i]? with
  | none => rfl
  | some ti =>
    simp only []
    generalize shrink_pre_hook c t arg_i (get_arg t arg_i).inst tactic = pre
    by_cases h1 : pre.1 = FUZZ_HOOK_RUN_HALT
    · simp only [if_pos h1]
    · simp only [if_neg h1]
      by_cases h2 : pre.1 ≠ FUZZ_HOOK_RUN_CONTINUE
      · simp only [if_pos h2]
      · simp only [if_neg h2]
        cases ti.autoshrink_config.enable with
        | true =>
          simp only [if_true]
          cases (get_arg pre.2 arg_i).env with
          | none => rfl
          | some as_env =>
            simp only []
            cases fuzz_autoshrink_shrink fuel pre.2.prng ti as_env tactic with
            | none => rfl
            | some r => exact tail true _ _ _ _
        | false =>
          simp only [Bool.false_eq_true, if_false]
          cases ti.shrink with
          | none => rfl
          | some f => exact tail false _ _ _ _

/-! ## The pool of the environment during an autoshrink step -/

theorem opt_bind_keeps {α β : Type} (Q : β → Prop) (x : Option α) (f : α → Option β)
    (h : ∀ a r, f a = some r → Q r) : ∀ r, x.bind f = some r → Q r := by
  intro r hr
  cases x with
  | none => cases hr
  | some a => exact h a r hr

theorem opt_bind_keeps_of {α β : Type} (Q : β → Prop) (x : Option α) (f : α → Option β)
    (h : ∀ a, x = some a → ∀ r, f a = some r → Q r) : ∀ r, x.bind f = some r → Q r := by
  intro r hr
  cases x with
  | none => cases hr
  | some a => exact h a rfl r hr

theorem opt_ite_keeps {β : Type} (Q : β → Prop) (c : Prop) [Decidable c] (x y : Option β)
    (hx : ∀ r, x = some r → Q r) (hy : ∀ r, y = some r → Q r) :
    ∀ r, (if c then x else y) = some r → Q r := by
  intro r hr
  split at hr
  · exact hx r hr
  · exact hy r hr

theorem choose_and_mutate_request_env (fuel : Nat) (p : prng_info) (env : autoshrink_env)
    (orig pool : autoshrink_bit_pool) :
    ∀ r, choose_and_mutate_request fuel p env orig pool = some r →
      r.2.1.bit_pool = env.bit_pool := by
  unfold choose_and_mutate_request
  simp only [Option.bind_eq_bind]
  refine opt_bind_keeps _ _ _ ?_
  rintro ⟨mtype, p0⟩
  refine opt_ite_keeps _ _ _ _ ?_ ?_
  · intro r hr; cases hr; rfl
  · refine opt_bind_keeps _ _ _ ?_
    intro a
    cases mtype <;> dsimp only <;>
    repeat' first
      | (intro r hr; cases hr <;> rfl)
      | (refine opt_bind_keeps _ _ _ ?_; intro a)
      | refine opt_ite_keeps _ _ _ _ ?_ ?_

theorem mutate_loop_env (fuel : Nat) (orig : autoshrink_bit_pool) (change_count : Nat) :
    ∀ (n i changed : Nat) (p : prng_info) (env : autoshrink_env) (pool : autoshrink_bit_pool)
      (r : autoshrink_env × autoshrink_bit_pool × prng_info),
      mutate_loop fuel orig change_count n i changed p env pool = some r →
      r.1.bit_pool = env.bit_pool := by
  intro n
  induction n with
  | zero =>
    intro i changed p env pool r h
    simp only [mutate_loop] at h
    cases h
    rfl
  | succ n ih =>
    intro i changed p env pool r h
    simp only [mutate_loop] at h
    split at h
    · split at h
      · cases h
      · next e2 pool2 p2 hs =>
        have a := choose_and_mutate_request_env _ _ _ _ _ _ hs
        split at h
        · cases h
          exact a
        · exact (ih _ _ _ _ _ _ h).trans a
      · next e2 pool2 p2 hs =>
        have a := choose_and_mutate_request_env _ _ _ _ _ _ hs
        exact (ih _ _ _ _ _ _ h).trans a
    · cases h
      rfl

theorem mutate_bit_pool_env (fuel : Nat) (p : prng_info) (env : autoshrink_env)
    (orig pool : autoshrink_bit_pool) :
    ∀ r, mutate_bit_pool fuel p env orig pool = some r → r.1.bit_pool = env.bit_pool := by
  unfold mutate_bit_pool
  simp only [Option.bind_eq_bind, Option.pure_def]
  refine opt_ite_keeps _ _ _ _ (fun r hr => by cases hr) ?_
  refine opt_bind_keeps _ _ _ ?_
  intro u
  refine opt_bind_keeps _ _ _ ?_
  intro a
  refine opt_bind_keeps_of _ _ _ ?_
  intro b hb r hr
  have hb := mutate_loop_env _ _ _ _ _ _ _ _ _ b hb
  cases hr
  exact hb

theorem init_model_bit_pool (env : autoshrink_env) : (init_model env).bit_pool = env.bit_pool := by
  unfold init_model
  split <;> rfl

/-- When the autoshrink callback proposes a candidate, the candidate comes with
a pool, and the pool of the environment is the one it held before with its
request index built. -/
theorem fuzz_autoshrink_shrink_ok (fuel : Nat) (p : prng_info) (ti : fuzz_type_info)
    (env : autoshrink_env) (tactic : Nat) :
    ∀ r, fuzz_autoshrink_shrink fuel p ti env tactic = some r → r.1 = FUZZ_SHRINK_OK →
      r.2.1.isSome = true ∧ r.2.2.1.bit_pool = env.bit_pool.map build_index ∧
        env.bit_pool.isSome = true := by
  unfold fuzz_autoshrink_shrink
  cases env.bit_pool with
  | none => intro r hr; cases hr
  | some orig0 =>
    simp only [Option.bind_eq_bind, Option.pure_def, Option.map_some']
    refine opt_ite_keeps _ _ _ _ ?_ ?_
    · intro r hr h0
      cases hr
      exact absurd (show FUZZ_SHRINK_NO_MORE_TACTICS = FUZZ_SHRINK_OK from h0) (by decide)
    · refine opt_ite_keeps _ _ _ _ (fun r hr => by cases hr) ?_
      refine opt_bind_keeps _ _ _ ?_
      intro u
      refine opt_bind_keeps _ _ _ ?_
      intro d
      refine opt_bind_keeps_of _ _ _ ?_
      intro a ha
      have hpool : a.1.bit_pool = some (build_index orig0) := by
        by_cases hd : d.1 = true
        · rw [if_pos hd] at ha
          revert ha
          refine opt_bind_keeps (fun a => a.1.bit_pool = some (build_index orig0)) _ _ ?_ a
          intro b r hr
          cases hr
          dsimp only
          split
          · exact init_model_bit_pool _
          · rfl
        · rw [if_neg hd] at ha
          rw [mutate_bit_pool_env _ _ _ _ _ a ha]
          split
          · exact init_model_bit_pool _
          · rfl
      refine opt_bind_keeps _ _ _ ?_
      intro b
      refine opt_ite_keeps _ _ _ _ ?_ ?_
      · intro r hr h0
        cases hr
        exact absurd (show FUZZ_SHRINK_DEAD_END = FUZZ_SHRINK_OK from h0) (by decide)
      · refine opt_ite_keeps _ _ _ _ ?_ ?_
        · intro r hr h0
          cases hr
          exact absurd (show FUZZ_SHRINK_ERROR = FUZZ_SHRINK_OK from h0) (by decide)
        · refine opt_ite_keeps _ _ _ _ ?_ (fun r hr => by cases hr)
          intro r hr _
          cases hr
          exact ⟨rfl, hpool, rfl⟩

/-! ## What a tactic has stored when the property is called -/

theorem shrink_post_hook_trial {σ : Type} (c : fuzz_setup σ) (t : fuzz σ) (arg_index : Nat)
    (arg : Option instance_t) (tactic : Nat) (sres : Int) (post : Int × fuzz σ)
    (h : shrink_post_hook c t arg_index arg tactic sres = some post) :
    post.2.trial = t.trial := by
  unfold shrink_post_hook at h
  split at h
  · injection h with h; rw [← h]
  · split at h
    · injection h with h; rw [← h]; exact (call_hook_frame _ _ _).1
    · simp at h

theorem fuzz_call_mark_called_trial {σ : Type} (c : fuzz_setup σ) (t t0 : fuzz σ)
    (b : fuzz_bloom) (h : fuzz_call_mark_called c t b = some t0) : t0.trial = t.trial := by
  unfold fuzz_call_mark_called at h
  split at h
  · simp at h
  · injection h with h; rw [← h]

theorem stored_arg_set_env {σ : Type} (t : fuzz σ) (arg_i : Nat) (env1 : autoshrink_env)
    (harg : arg_i < t.trial.args.length) :
    stored_arg (set_arg t arg_i { get_arg t arg_i with env := some env1 }) arg_i =
      ((get_arg t arg_i).inst, env1.bit_pool) := by
  unfold stored_arg
  rw [get_arg_set_arg, if_pos ⟨rfl, harg⟩]
  rfl

/-- The shrink callback of a pass: what it leaves stored for the argument. -/
theorem shrink_callback_facts {σ : Type} (fuel arg_i tactic : Nat) (t pre : fuzz σ)
    (ti : fuzz_type_info) (sres : Int) (candidate : Option instance_t)
    (candbp : Option autoshrink_bit_pool) (t2 : fuzz σ) (htr : pre.trial = t.trial)
    (harg : arg_i < t.trial.args.length)
    (hsh : (if ti.autoshrink_config.enable then
               match (get_arg pre arg_i).env with
               | none => none
               | some as_env =>
                 match fuzz_autoshrink_shrink fuel pre.prng ti as_env tactic with
                 | none => none
                 | some (sres, cand, env1, p1) =>
                   some (sres, cand.map (fun x => x.1), cand.map (fun x => x.2),
                     set_arg { pre with prng := p1 } arg_i
                       { get_arg pre arg_i with env := some env1 })
             else
               match ti.shrink with
               | none => none
               | some f =>
                 some ((f ((get_arg t arg_i).inst.getD []) tactic).1,
                   some (f ((get_arg t arg_i).inst.getD []) tactic).2, none, pre)) =
      some (sres, candidate, candbp, t2)) :
    t2.trial.args.length = t.trial.args.length ∧
      (ti.autoshrink_config.enable = false →
        candbp = none ∧ stored_arg t2 arg_i = stored_arg t arg_i) ∧
      (ti.autoshrink_config.enable = true → sres = FUZZ_SHRINK_OK →
        candbp.isSome = true ∧
        (stored_arg t2 arg_i).2 = (stored_arg t arg_i).2.map build_index ∧
        (stored_arg t2 arg_i).2.isSome = true) := by
  have hlen : pre.trial.args.length = t.trial.args.length := by rw [htr]
  cases hua : ti.autoshrink_config.enable with
  | false =>
    rw [hua] at hsh
    simp only [Bool.false_eq_true, if_false] at hsh
    cases hf : ti.shrink with
    | none => rw [hf] at hsh; cases hsh
    | some f =>
      rw [hf] at hsh
      simp only [] at hsh
      injection hsh with hsh
      injection hsh with _ hsh
      injection hsh with _ hsh
      injection hsh with h3 h4
      subst h4
      exact ⟨hlen, fun _ => ⟨h3.symm, stored_arg_of_trial t pre (by rw [htr]) arg_i⟩,
        (fun h => by cases h)⟩
  | true =>
    rw [hua] at hsh
    simp only [if_true] at hsh
    cases henv : (get_arg pre arg_i).env with
    | none => rw [henv] at hsh; cases hsh
    | some as_env =>
      rw [henv] at hsh
      simp only [] at hsh
      cases hfas : fuzz_autoshrink_shrink fuel pre.prng ti as_env tactic with
      | none => rw [hfas] at hsh; cases hsh
      | some r =>
        obtain ⟨sres0, cand, env1, p1⟩ := r
        rw [hfas] at hsh
        simp only [] at hsh
        injection hsh with hsh
        injection hsh with h1 hsh
        injection hsh with h2 hsh
        injection hsh with h3 h4
        subst h1 h2 h3 h4
        refine ⟨by rw [set_arg_length]; exact hlen, (fun h => by cases h), fun _ hok => ?_⟩
        obtain ⟨k1, k2, k3⟩ := fuzz_autoshrink_shrink_ok fuel pre.prng ti as_env tactic _ hfas hok
        have hst : (stored_arg t arg_i).2 = as_env.bit_pool := by
          rw [stored_arg_of_trial pre t (by rw [htr]) arg_i]
          unfold stored_arg
          rw [henv]
          rfl
        have hs2 : stored_arg (set_arg { pre with prng := p1 } arg_i
            { get_arg pre arg_i with env := some env1 }) arg_i =
            ((get_arg pre arg_i).inst, env1.bit_pool) :=
          stored_arg_set_env { pre with prng := p1 } arg_i env1 (by rw [hlen]; exact harg)
        rw [hs2, hst]
        refine ⟨?_, k2, ?_⟩
        · cases cand with
          | none => cases k1
          | some x => rfl
        · show env1.bit_pool.isSome = true
          rw [k2]
          cases hb : as_env.bit_pool with
          | none => rw [hb] at k3; cases k3
          | some o => rfl

/-- When a pass of the tactic loop reaches the property call, `current` is the
instance stored before the pass, `current_bit_pool` the pool stored before it
(for an autoshrink argument with its request index built), the candidate and
its pool are the ones stored now, and the candidate of an autoshrink argument
has a pool. -/
theorem shrink_propose_facts {σ : Type} (c : fuzz_setup σ) (fuel arg_i tactic : Nat) (t : fuzz σ)
    (ua : Bool) (current : Option instance_t) (cbp : Option autoshrink_bit_pool)
    (candidate : Option instance_t) (candbp : Option autoshrink_bit_pool) (tc : fuzz σ)
    (h : shrink_propose c fuel arg_i tactic t =
      some (Sum.inr (ua, current, cbp, candidate, candbp, tc)))
    (harg : arg_i < t.trial.args.length)
    (hbasic : ua = false → (stored_arg t arg_i).2 = none) :
    current = (stored_arg t arg_i).1 ∧
      cbp = (if ua then (stored_arg t arg_i).2.map build_index else (stored_arg t arg_i).2) ∧
      stored_arg tc arg_i = (candidate, candbp) ∧
      tc.trial.args.length = t.trial.args.length ∧
      (ua = true → candbp.isSome = true) ∧ (ua = false → candbp = none) := by
  unfold shrink_propose at h
  split at h
  · cases h
  · next ti hti =>
    have htr : (shrink_pre_hook c t arg_i (get_arg t arg_i).inst tactic).2.trial = t.trial :=
      (call_hook_frame _ _ _).1
    simp only at h
    generalize shrink_pre_hook c t arg_i (get_arg t arg_i).inst tactic = pre at h htr
    split at h
    · cases h
    · split at h
      · cases h
      · split at h
        · cases h
        · next sres candidate1 candbp1 t2 hsh =>
          obtain ⟨f1, f2, f3⟩ := shrink_callback_facts fuel arg_i tactic t pre.2 ti sres candidate1
            candbp1 t2 htr harg hsh
          split at h
          · cases h
          · next post hpost =>
            have hpt := shrink_post_hook_trial c _ _ _ _ _ post hpost
            have hpa : post.2.trial.args = t2.trial.args := by rw [hpt]
            split at h
            · cases h
            · split at h
              · next hok =>
                have fin : ∀ tc1 : fuzz σ,
                    tc1.trial = (store_arg post.2 arg_i ti.autoshrink_config.enable candidate1
                      candbp1).trial →
                    some (Sum.inr (ti.autoshrink_config.enable, (get_arg t arg_i).inst,
                      (stored_arg t2 arg_i).2, candidate1, candbp1, tc1)) =
                    (some (Sum.inr (ua, current, cbp, candidate, candbp, tc)) :
                      Option ((Option shrink_res × fuzz σ) ⊕
                        (Bool × Option instance_t × Option autoshrink_bit_pool ×
                          Option instance_t × Option autoshrink_bit_pool × fuzz σ))) →
                    current = (stored_arg t arg_i).1 ∧
                      cbp = (if ua then (stored_arg t arg_i).2.map build_index
                        else (stored_arg t arg_i).2) ∧
                      stored_arg tc arg_i = (candidate, candbp) ∧
                      tc.trial.args.length = t.trial.args.length ∧
                      (ua = true → candbp.isSome = true) ∧ (ua = false → candbp = none) := by
                  intro tc1 htc he
                  injection he with he
                  injection he with he
                  injection he with e1 he
                  injection he with e2 he
                  injection he with e3 he
                  injection he with e4 he
                  injection he with e5 e6
                  subst e1 e2 e3 e4 e5 e6
                  have hst : stored_arg (store_arg post.2 arg_i ti.autoshrink_config.enable
                      candidate1 candbp1) arg_i = (candidate1, candbp1) := by
                    apply stored_arg_store_arg
                    · rw [hpa, f1]; exact harg
                    · intro hu
                      rw [stored_arg_of_trial t2 post.2 hpa arg_i]
                      exact (f3 hu hok).2.2
                    · intro hu
                      rw [stored_arg_of_trial t2 post.2 hpa arg_i, (f2 hu).2, (f2 hu).1]
                      exact hbasic hu
                  refine ⟨rfl, ?_, ?_, ?_, fun hu => (f3 hu hok).1, fun hu => (f2 hu).1⟩
                  · cases hu : ti.autoshrink_config.enable with
                    | true => simp only [if_true]; exact (f3 hu hok).2.1
                    | false => simp only [Bool.false_eq_true, if_false]; rw [(f2 hu).2]
                  · exact (stored_arg_of_trial (store_arg post.2 arg_i ti.autoshrink_config.enable
                      candidate1 candbp1) tc1 (by rw [htc]) arg_i).trans hst
                  · rw [htc]
                    show (store_arg post.2 arg_i ti.autoshrink_config.enable candidate1
                      candbp1).trial.args.length = _
                    unfold store_arg
                    rw [set_arg_length, hpa, f1]
                split at h
                · split at h
                  · cases h
                  · split at h
                    · cases h
                    · next t6 hm =>
                      exact fin t6 (fuzz_call_mark_called_trial c _ t6 _ hm) h
                · exact fin _ rfl h
              · split at h
                · cases h
                · split at h <;> cases h

/-! ## The passes of the call loop and of the tactic loop -/

theorem fuzz_trial_get_args_of_trial {σ : Type} (t u : fuzz σ) (h : u.trial = t.trial) :
    fuzz_trial_get_args u = fuzz_trial_get_args t := by
  unfold fuzz_trial_get_args
  rw [h]

theorem shrink_call_once_frame {σ : Type} (c : fuzz_setup σ) (arg_i tactic : Nat)
    (repeated : Bool) (t : fuzz σ) :
    (∀ j, stored_arg (shrink_call_once c arg_i tactic repeated t).2.2 j = stored_arg t j) ∧
      (shrink_call_once c arg_i tactic repeated t).2.2.trial.args.length =
        t.trial.args.length ∧
      fuzz_trial_get_args (shrink_call_once c arg_i tactic repeated t).2.2 =
        fuzz_trial_get_args t := by
  unfold shrink_call_once
  simp only
  obtain ⟨hr1, _, _, _⟩ := fuzz_call_frame c t (fuzz_trial_get_args t)
  have hg : fuzz_trial_get_args (fuzz_call c t (fuzz_trial_get_args t)).2 =
      fuzz_trial_get_args t := fuzz_trial_get_args_of_trial t _ hr1
  generalize fuzz_call c t (fuzz_trial_get_args t) = r at hr1 hg
  obtain ⟨hc1, hc2, _⟩ := shrink_count_result_frame c arg_i repeated r.1 r.2
  have hcg := shrink_count_result_get_args c arg_i repeated r.1 r.2
  generalize shrink_count_result c arg_i repeated r.1 r.2 = t2 at hc1 hc2 hcg
  have hh : (shrink_trial_post_hook c t2 arg_i (fuzz_trial_get_args t) tactic r.1).2.trial =
      t2.trial := (call_hook_frame _ _ _).1
  generalize shrink_trial_post_hook c t2 arg_i (fuzz_trial_get_args t) tactic r.1 = hk at hh
  refine ⟨fun j => ?_, ?_, ?_⟩
  · rw [stored_arg_of_trial t2 hk.2 (by rw [hh]) j, hc1 j]
    exact stored_arg_of_trial t r.2 (by rw [hr1]) j
  · rw [hh, hc2, hr1]
  · have : fuzz_trial_get_args hk.2 = fuzz_trial_get_args t2 :=
      fuzz_trial_get_args_of_trial t2 hk.2 hh
    rw [this, hcg, hg]

theorem shrink_calls_repeated_frame {σ : Type} (c : fuzz_setup σ) (arg_i tactic : Nat) :
    ∀ (k : Nat) (repeated : Bool) (t : fuzz σ) (rep0 : Bool) (t0 : fuzz σ),
      shrink_calls_repeated c arg_i tactic k repeated t = some (rep0, t0) →
      (∀ j, stored_arg t0 j = stored_arg t j) ∧
        t0.trial.args.length = t.trial.args.length ∧
        fuzz_trial_get_args t0 = fuzz_trial_get_args t := by
  intro k
  induction k with
  | zero =>
    intro repeated t rep0 t0 h
    simp only [shrink_calls_repeated] at h
    injection h with h
    injection h with _ h
    subst h
    exact ⟨fun _ => rfl, rfl, rfl⟩
  | succ k ih =>
    intro repeated t rep0 t0 h
    simp only [shrink_calls_repeated] at h
    split at h
    · obtain ⟨a1, a2, a3⟩ := ih _ _ _ _ h
      obtain ⟨b1, b2, b3⟩ := shrink_call_once_frame c arg_i tactic repeated t
      exact ⟨fun j => (a1 j).trans (b1 j), a2.trans b2, a3.trans b3⟩
    · cases h

theorem shrink_tactics_tried_succ {σ : Type} (c : fuzz_setup σ) (fuel arg_i : Nat) :
    ∀ (m tactic : Nat) (t tm t' : fuzz σ),
      shrink_tactics_tried c fuel arg_i m tactic t = some tm →
      attempt_tactic c fuel arg_i (tactic + m) tm = some (none, t') →
      shrink_tactics_tried c fuel arg_i (m + 1) tactic t = some t' := by
  intro m
  induction m with
  | zero =>
    intro tactic t tm t' h ha
    simp only [shrink_tactics_tried] at h
    injection h with h
    subst h
    simp only [shrink_tactics_tried]
    rw [Nat.add_zero] at ha
    rw [ha]
  | succ m ih =>
    intro tactic t tm t' h ha
    rw [shrink_tactics_tried] at h
    rw [shrink_tactics_tried]
    split at h
    · next t1 h1 =>
      exact ih (tactic + 1) t1 tm t' h
        (by rw [show tactic + 1 + m = tactic + (m + 1) by omega]; exact ha)
    · cases h

/-- When the first `m` tactics went on to the next one and tactic `m` makes the
function return, `attempt_to_shrink_arg` returns what this pass returns. -/
theorem attempt_to_shrink_arg_loop_of_tried {σ : Type} (c : fuzz_setup σ) (fuel arg_i : Nat)
    (r : shrink_res) (t' : fuzz σ) :
    ∀ (m n tactic : Nat) (t tm : fuzz σ), m < n → tactic + m < FUZZ_MAX_TACTICS →
      shrink_tactics_tried c fuel arg_i m tactic t = some tm →
      attempt_tactic c fuel arg_i (tactic + m) tm = some (some r, t') →
      attempt_to_shrink_arg_loop c fuel arg_i n tactic t = some (r, t') := by
  intro m
  induction m with
  | zero =>
    intro n tactic t tm hn hmax h ha
    obtain ⟨n1, rfl⟩ : ∃ n1, n = n1 + 1 := ⟨n - 1, by omega⟩
    simp only [shrink_tactics_tried] at h
    injection h with h
    subst h
    rw [Nat.add_zero] at ha hmax
    rw [attempt_to_shrink_arg_loop, if_pos hmax, ha]
  | succ m ih =>
    intro n tactic t tm hn hmax h ha
    obtain ⟨n1, rfl⟩ : ∃ n1, n = n1 + 1 := ⟨n - 1, by omega⟩
    rw [shrink_tactics_tried] at h
    split at h
    · next t1 h1 =>
      rw [attempt_to_shrink_arg_loop, if_pos (by omega), h1]
      exact ih n1 (tactic + 1) t1 tm (by omega) (by omega) h
        (by rw [show tactic + 1 + m = tactic + (m + 1) by omega]; exact ha)
    · cases h

/-- When `attempt_to_shrink_arg` returns `SHRINK_OK`, some tactic returned it
after the tactics before went on to the next one. -/
theorem attempt_to_shrink_arg_loop_ok_tried {σ : Type} (c : fuzz_setup σ) (fuel arg_i : Nat)
    (t' : fuzz σ) :
    ∀ (n tactic : Nat) (t : fuzz σ),
      attempt_to_shrink_arg_loop c fuel arg_i n tactic t = some (shrink_res.SHRINK_OK, t') →
      ∃ m tm, m < n ∧ shrink_tactics_tried c fuel arg_i m tactic t = some tm ∧
        attempt_tactic c fuel arg_i (tactic + m) tm = some (some shrink_res.SHRINK_OK, t') := by
  intro n
  induction n with
  | zero => intro tactic t h; simp [attempt_to_shrink_arg_loop] at h
  | succ n ih =>
    intro tactic t h
    rw [attempt_to_shrink_arg_loop] at h
    split at h
    · split at h
      · cases h
      · next r1 t1 ht =>
        injection h with h
        injection h with h1 h2
        subst h1 h2
        exact ⟨0, t, by omega, rfl, ht⟩
      · next t1 ht =>
        obtain ⟨m, tm, hm, h1, h2⟩ := ih _ _ h
        refine ⟨m + 1, tm, by omega, ?_, ?_⟩
        · rw [shrink_tactics_tried, ht]
          exact h1
        · rw [show tactic + (m + 1) = tactic + 1 + m by omega]
          exact h2
    · cases h

theorem shrink_propose_inl_not_ok {σ : Type} (c : fuzz_setup σ) (fuel arg_i tactic : Nat)
    (t : fuzz σ) (r : Option shrink_res) (u : fuzz σ)
    (h : shrink_propose c fuel arg_i tactic t = some (Sum.inl (r, u))) :
    r ≠ some shrink_res.SHRINK_OK := by
  have key : ∀ (r0 : Option shrink_res) (u0 : fuzz σ), r0 ≠ some shrink_res.SHRINK_OK →
      (some (Sum.inl (r0, u0)) : Option ((Option shrink_res × fuzz σ) ⊕
        (Bool × Option instance_t × Option autoshrink_bit_pool × Option instance_t ×
          Option autoshrink_bit_pool × fuzz σ))) = some (Sum.inl (r, u)) →
      r ≠ some shrink_res.SHRINK_OK := by
    intro r0 u0 h0 he
    injection he with he
    injection he with he
    injection he with he _
    rw [← he]
    exact h0
  unfold shrink_propose at h
  split at h
  · cases h
  · simp only at h
    split at h
    · exact key _ _ (by simp) h
    · split at h
      · exact key _ _ (by simp) h
      · split at h
        · cases h
        · split at h
          · cases h
          · split at h
            · exact key _ _ (by simp) h
            · split at h
              · split at h
                · split at h
                  · exact key _ _ (by simp) h
                  · split at h
                    · cases h
                    · cases h
                · cases h
              · split at h
                · exact key _ _ (by simp) h
                · split at h
                  · exact key _ _ (by simp) h
                  · exact key _ _ (by simp) h

theorem shrink_try_candidate_other {σ : Type} (c : fuzz_setup σ) (fuel arg_i tactic : Nat)
    (ua : Bool) (cur : Option instance_t) (cbp : Option autoshrink_bit_pool) (tc tl : fuzz σ)
    (res : Int) (hloop : shrink_call_loop c arg_i tactic fuel false tc = some (some res, tl))
    (h1 : res ≠ FUZZ_RESULT_FAIL) (h2 : res ≠ FUZZ_RESULT_OK) (h3 : res ≠ FUZZ_RESULT_SKIP) :
    shrink_try_candidate c fuel arg_i tactic ua cur cbp tc =
      some (some shrink_res.SHRINK_ERROR, update_model_arg c tl arg_i res 8) := by
  unfold shrink_try_candidate
  rw [hloop]
  simp only
  rw [if_neg (by rintro (h | h); exact h2 h; exact h3 h), if_neg h1]

/-- C8 (amended): let the tactics `0, …, m - 1` of `attempt_to_shrink_arg` have
gone on to the next tactic, and let tactic `m` reach the property call
(`shrink_propose`): `current` and `current_bit_pool` are what was stored for
the argument before the tactic (the pool of an autoshrink argument with its
request index built), and the candidate and its pool are stored.  Let the
property be called `k + 1` times in the call loop, `res` being the result of
the last call and `code` the code of the post-shrink-trial hook after it, which
ends the loop.  Then, when the loop ends normally (continue, or repeat-once
after a repeat): for `res = FUZZ_RESULT_FAIL` the function returns `SHRINK_OK`
with the candidate and its pool stored; for `FUZZ_RESULT_OK` or
`FUZZ_RESULT_SKIP` the function does not return, tactic `m + 1` is next, and
`current` and `current_bit_pool` are stored again; for another result it
returns `SHRINK_ERROR`.  When the hook ends the loop with another code, the
function returns `SHRINK_ERROR` with the candidate still stored.  And whenever
the function returns `SHRINK_OK`, some tactic reached the property call, its
call loop ended normally, the last call returned `FUZZ_RESULT_FAIL`, and what is
stored is what the property was called on. -/
theorem shrink_commits_on_fail_only {σ : Type} (c : fuzz_setup σ) (fuel arg_i : Nat)
    (t : fuzz σ) (m : Nat) (tm : fuzz σ) (ua : Bool) (current : Option instance_t)
    (cbp : Option autoshrink_bit_pool) (candidate : Option instance_t)
    (candbp : Option autoshrink_bit_pool) (tc : fuzz σ) (k : Nat) (rep0 : Bool) (t0 : fuzz σ)
    (htried : shrink_tactics_tried c fuel arg_i m 0 t = some tm)
    (hm : m < fuel) (hmax : m < FUZZ_MAX_TACTICS)
    (hprop : shrink_propose c fuel arg_i m tm =
      some (Sum.inr (ua, current, cbp, candidate, candbp, tc)))
    (harg : arg_i < tm.trial.args.length)
    (hbasic : ua = false → (stored_arg tm arg_i).2 = none)
    (hcalls : shrink_calls_repeated c arg_i m k false tc = some (rep0, t0)) (hk : k < fuel)
    (hlast : ¬ ((shrink_call_once c arg_i m rep0 t0).2.1 = FUZZ_HOOK_RUN_REPEAT ∨
      ((shrink_call_once c arg_i m rep0 t0).2.1 = FUZZ_HOOK_RUN_REPEAT_ONCE ∧ !rep0))) :
    ∃ res code,
      res = (fuzz_call c t0 (fuzz_trial_get_args t0)).1 ∧
      code = (shrink_call_once c arg_i m rep0 t0).2.1 ∧
      fuzz_trial_get_args t0 = fuzz_trial_get_args tc ∧
      stored_arg tc arg_i = (candidate, candbp) ∧
      current = (stored_arg tm arg_i).1 ∧
      cbp = (if ua then (stored_arg tm arg_i).2.map build_index else (stored_arg tm arg_i).2) ∧
      ((code = FUZZ_HOOK_RUN_REPEAT_ONCE ∧ rep0 = true) ∨ code = FUZZ_HOOK_RUN_CONTINUE →
        (res = FUZZ_RESULT_FAIL →
          ∃ t', attempt_to_shrink_arg c fuel t arg_i = some (shrink_res.SHRINK_OK, t') ∧
            stored_arg t' arg_i = (candidate, candbp)) ∧
        (res = FUZZ_RESULT_OK ∨ res = FUZZ_RESULT_SKIP →
          ∃ t', shrink_tactics_tried c fuel arg_i (m + 1) 0 t = some t' ∧
            stored_arg t' arg_i = (current, cbp)) ∧
        (res ≠ FUZZ_RESULT_FAIL → res ≠ FUZZ_RESULT_OK → res ≠ FUZZ_RESULT_SKIP →
          ∃ t', attempt_to_shrink_arg c fuel t arg_i = some (shrink_res.SHRINK_ERROR, t'))) ∧
      (¬ ((code = FUZZ_HOOK_RUN_REPEAT_ONCE ∧ rep0 = true) ∨ code = FUZZ_HOOK_RUN_CONTINUE) →
        ∃ t', attempt_to_shrink_arg c fuel t arg_i = some (shrink_res.SHRINK_ERROR, t') ∧
          stored_arg t' arg_i = (candidate, candbp)) ∧
      ∀ t', attempt_to_shrink_arg c fuel t arg_i = some (shrink_res.SHRINK_OK, t') →
        ∃ m1 tm1 x k1 rep1 t1,
          shrink_tactics_tried c fuel arg_i m1 0 t = some tm1 ∧
          shrink_propose c fuel arg_i m1 tm1 = some (Sum.inr x) ∧
          shrink_calls_repeated c arg_i m1 k1 false x.2.2.2.2.2 = some (rep1, t1) ∧
          (((shrink_call_once c arg_i m1 rep1 t1).2.1 = FUZZ_HOOK_RUN_REPEAT_ONCE ∧ rep1 = true) ∨
            (shrink_call_once c arg_i m1 rep1 t1).2.1 = FUZZ_HOOK_RUN_CONTINUE) ∧
          (fuzz_call c t1 (fuzz_trial_get_args t1)).1 = FUZZ_RESULT_FAIL ∧
          stored_arg t' arg_i = stored_arg x.2.2.2.2.2 arg_i := by
  obtain ⟨p1, p2, p3, p4, p5, p6⟩ :=
    shrink_propose_facts c fuel arg_i m tm ua current cbp candidate candbp tc hprop harg hbasic
  obtain ⟨q1, q2, q3⟩ := shrink_calls_repeated_frame c arg_i m k false tc rep0 t0 hcalls
  have hloop := shrink_call_loop_of_last c arg_i m k fuel false tc rep0 t0 hk hcalls hlast
  have hpass : attempt_tactic c fuel arg_i m tm =
      shrink_try_candidate c fuel arg_i m ua current cbp tc := by
    rw [attempt_tactic_eq, hprop]
  have hharg : arg_i < tc.trial.args.length := by rw [p4]; exact harg
  have hhenv : ua = true → (stored_arg tc arg_i).2.isSome = true := by
    intro hu; rw [p3]; exact p5 hu
  have hhpool : ua = false → (stored_arg tc arg_i).2 = cbp := by
    intro hu
    rw [p3, p2, hu]
    simp only [Bool.false_eq_true, if_false]
    rw [hbasic hu]
    exact p6 hu
  refine ⟨_, _, rfl, rfl, q3, p3, p1, p2, ?_, ?_, ?_⟩
  · intro hn
    rw [if_pos hn] at hloop
    obtain ⟨r, t', e1, e2, e3, e4, _⟩ := shrink_try_candidate_spec c fuel arg_i m ua current cbp
      tc (some (fuzz_call c t0 (fuzz_trial_get_args t0)).1) (by rw [hloop]; rfl) hharg hhenv hhpool
    refine ⟨fun hf => ?_, fun ho => ?_, fun h1 h2 h3 => ?_⟩
    · have hr : r = some shrink_res.SHRINK_OK := e2.mpr (by rw [hf])
      subst hr
      refine ⟨t', ?_, (e3 (by rw [hf])).trans p3⟩
      exact attempt_to_shrink_arg_loop_of_tried c fuel arg_i _ t' m fuel 0 t tm hm
        (by rw [Nat.zero_add]; exact hmax) htried (by rw [Nat.zero_add, hpass]; exact e1)
    · obtain ⟨hr, hs⟩ := e4 (by rcases ho with h | h <;> rw [h] <;> simp)
      subst hr
      exact ⟨t', shrink_tactics_tried_succ c fuel arg_i m 0 t tm t' htried
        (by rw [Nat.zero_add, hpass]; exact e1), hs⟩
    · refine ⟨update_model_arg c (shrink_call_once c arg_i m rep0 t0).2.2 arg_i
          (shrink_call_once c arg_i m rep0 t0).1 8,
        attempt_to_shrink_arg_loop_of_tried c fuel arg_i shrink_res.SHRINK_ERROR _ m fuel 0 t tm
          hm (by rw [Nat.zero_add]; exact hmax) htried ?_⟩
      rw [Nat.zero_add, hpass]
      exact shrink_try_candidate_other c fuel arg_i m ua current cbp tc _ _ hloop h1 h2 h3
  · intro hn
    rw [if_neg hn] at hloop
    obtain ⟨r, t', e1, _, _, _, e5⟩ := shrink_try_candidate_spec c fuel arg_i m ua current cbp
      tc none (by rw [hloop]; rfl) hharg hhenv hhpool
    obtain ⟨hr, hs⟩ := e5 rfl
    subst hr
    refine ⟨t', ?_, hs.trans p3⟩
    exact attempt_to_shrink_arg_loop_of_tried c fuel arg_i _ t' m fuel 0 t tm hm
      (by rw [Nat.zero_add]; exact hmax) htried (by rw [Nat.zero_add, hpass]; exact e1)
  · intro t' hok
    obtain ⟨m1, tm1, _, h1, h2⟩ := attempt_to_shrink_arg_loop_ok_tried c fuel arg_i t' fuel 0 t hok
    rw [Nat.zero_add, attempt_tactic_eq] at h2
    cases hsp : shrink_propose c fuel arg_i m1 tm1 with
    | none => rw [hsp] at h2; cases h2
    | some y =>
      cases y with
      | inl y =>
        rw [hsp] at h2
        simp only at h2
        injection h2 with h2
        exact absurd (congrArg Prod.fst h2)
          (shrink_propose_inl_not_ok c fuel arg_i m1 tm1 y.1 y.2 hsp)
      | inr x =>
        rw [hsp] at h2
        simp only at h2
        obtain ⟨tl, g1, _, g3⟩ := shrink_try_candidate_ok c fuel arg_i m1 _ _ _ _ t' h2
        obtain ⟨k1, rep1, t1, _, l2, _, l4, _⟩ :=
          shrink_call_loop_last c arg_i m1 fuel false _ _ tl g1
        refine ⟨m1, tm1, x, k1, rep1, t1, h1, hsp, l2, ?_, ?_, g3⟩
        · by_contra hn
          rw [if_neg hn] at l4
          cases l4
        · by_cases hn : ((shrink_call_once c arg_i m1 rep1 t1).2.1 = FUZZ_HOOK_RUN_REPEAT_ONCE ∧
              rep1 = true) ∨ (shrink_call_once c arg_i m1 rep1 t1).2.1 = FUZZ_HOOK_RUN_CONTINUE
          · rw [if_pos hn] at l4
            injection l4 with l4
            exact l4.symm
          · rw [if_neg hn] at l4
            cases l4

theorem shrink_commits_on_fail_only_witness :
    ∃ res code,
      res = (fuzz_call flaky_demo_setup
        (shrink_call_once flaky_demo_setup 0 0 false shrink_demo_candidate_state).2.2
        (fuzz_trial_get_args
          (shrink_call_once flaky_demo_setup 0 0 false shrink_demo_candidate_state).2.2)).1 ∧
      code = (shrink_call_once flaky_demo_setup 0 0 true
        (shrink_call_once flaky_demo_setup 0 0 false shrink_demo_candidate_state).2.2).2.1 ∧
      fuzz_trial_get_args
          (shrink_call_once flaky_demo_setup 0 0 false shrink_demo_candidate_state).2.2 =
        fuzz_trial_get_args shrink_demo_candidate_state ∧
      stored_arg shrink_demo_candidate_state 0 = (some [1], none) ∧
      some [2] = (stored_arg shrink_demo_state 0).1 ∧
      none = (if false then (stored_arg shrink_demo_state 0).2.map build_index
        else (stored_arg shrink_demo_state 0).2) ∧
      ((code = FUZZ_HOOK_RUN_REPEAT_ONCE ∧ true = true) ∨ code = FUZZ_HOOK_RUN_CONTINUE →
        (res = FUZZ_RESULT_FAIL →
          ∃ t', attempt_to_shrink_arg flaky_demo_setup 3 shrink_demo_state 0 =
              some (shrink_res.SHRINK_OK, t') ∧
            stored_arg t' 0 = (some [1], none)) ∧
        (res = FUZZ_RESULT_OK ∨ res = FUZZ_RESULT_SKIP →
          ∃ t', shrink_tactics_tried flaky_demo_setup 3 0 (0 + 1) 0 shrink_demo_state = some t' ∧
            stored_arg t' 0 = (some [2], none)) ∧
        (res ≠ FUZZ_RESULT_FAIL → res ≠ FUZZ_RESULT_OK → res ≠ FUZZ_RESULT_SKIP →
          ∃ t', attempt_to_shrink_arg flaky_demo_setup 3 shrink_demo_state 0 =
            some (shrink_res.SHRINK_ERROR, t'))) ∧
      (¬ ((code = FUZZ_HOOK_RUN_REPEAT_ONCE ∧ true = true) ∨ code = FUZZ_HOOK_RUN_CONTINUE) →
        ∃ t', attempt_to_shrink_arg flaky_demo_setup 3 shrink_demo_state 0 =
            some (shrink_res.SHRINK_ERROR, t') ∧
          stored_arg t' 0 = (some [1], none)) ∧
      ∀ t', attempt_to_shrink_arg flaky_demo_setup 3 shrink_demo_state 0 =
          some (shrink_res.SHRINK_OK, t') →
        ∃ m1 tm1 x k1 rep1 t1,
          shrink_tactics_tried flaky_demo_setup 3 0 m1 0 shrink_demo_state = some tm1 ∧
          shrink_propose flaky_demo_setup 3 0 m1 tm1 = some (Sum.inr x) ∧
          shrink_calls_repeated flaky_demo_setup 0 m1 k1 false x.2.2.2.2.2 = some (rep1, t1) ∧
          (((shrink_call_once flaky_demo_setup 0 m1 rep1 t1).2.1 = FUZZ_HOOK_RUN_REPEAT_ONCE ∧
              rep1 = true) ∨
            (shrink_call_once flaky_demo_setup 0 m1 rep1 t1).2.1 = FUZZ_HOOK_RUN_CONTINUE) ∧
          (fuzz_call flaky_demo_setup t1 (fuzz_trial_get_args t1)).1 = FUZZ_RESULT_FAIL ∧
          stored_arg t' 0 = stored_arg x.2.2.2.2.2 0 :=
  shrink_commits_on_fail_only flaky_demo_setup 3 0 shrink_demo_state 0 shrink_demo_state false
    (some [2]) none (some [1]) none shrink_demo_candidate_state 1 true
    (shrink_call_once flaky_demo_setup 0 0 false shrink_demo_candidate_state).2.2 rfl (by decide)
    (by decide) rfl (by decide) (fun _ => rfl) rfl (by decide) (by decide)

/-- The attempt of the witness evaluated: the property is called twice on the
candidate `[1]`, passes on the first call and fails on the last one, and the
function returns `SHRINK_OK` with the candidate stored. -/
theorem flaky_demo_example :
    (attempt_to_shrink_arg flaky_demo_setup 3 shrink_demo_state 0).map
        (fun r => (r.1, r.2.env, stored_arg r.2 0)) =
      some (shrink_res.SHRINK_OK, 2, some [1], none) ∧
    (shrink_call_once flaky_demo_setup 0 0 false shrink_demo_candidate_state).1 =
      FUZZ_RESULT_OK ∧
    (fuzz_call flaky_demo_setup
        (shrink_call_once flaky_demo_setup 0 0 false shrink_demo_candidate_state).2.2
        (fuzz_trial_get_args
          (shrink_call_once flaky_demo_setup 0 0 false shrink_demo_candidate_state).2.2)).1 =
      FUZZ_RESULT_FAIL :=
  ⟨rfl, rfl, rfl⟩

end Fuzz
